import Mathlib

/-!
# CLWilson: result verifier and test-prime classification

A shallow embedding of the host side of `cl_wilson.cpp`:

* the classification loop of `cl_sieve` (type and factorial target of each test prime),
* `processResult` (removal of the reference-table entries, the closed-form reconstruction of
  `(p-1)!` modulo `p^2`, the Wilson check, the classification of the quotient and the running
  checksum), `writeResult` and the loop of `getResults`,
* `getPower` (multiplicity of a sieve prime in the shared factorial target),
* `findWheelOffset` (index into the mod 30 wheel),
* `write_state`, `read_state` and the start-up of `cl_sieve` that follows them (checkpoint files
  as byte lists, the library calls of `write_state` as a record of their outcomes).

GMP integers (`mpz_t`) are `Int`/`Nat`; `uint64_t`/`uint32_t`/`int32_t` are `Nat`/`Int` with explicit
reduction where the source can wrap. `exit(EXIT_FAILURE)` is the `Except.error` result.
The device kernels `finda`, `findc`, `findu` are not part of the host source; the host code is
parameterised by them (structure `Device`).

The closed forms of types 1 and 2 are proved for every prime of the type. Type 2 rests on the
expansion of `2^p` and of `(p-1)!` modulo `p^2`; type 1 in addition on the Jacobi sum of the
quartic character, evaluated modulo `p^2` on Teichmüller representatives (`teich`, `jacobiU`).
-/

namespace CLWilson

/-! ## Constants and data model (cl_wilson.h) -/

/-- The constant `maxp = 0xFFFFFFFFFFFFFFFF / 4` of cl_wilson.h. -/
def maxp : Nat := 0xFFFFFFFFFFFFFFFF / 4

/-- The constant `PRPSIZE`, the number of entries of the reference table. -/
def PRPSIZE : Nat := 12446226

/-- The constant `SPECIAL_THRESHOLD` local to `processResult`. -/
def SPECIAL_THRESHOLD : Nat := 1000

/-- Reduction of a natural number to `uint64_t`. -/
def u64 (n : Nat) : Nat := n % 2 ^ 64

/-- Reduction of a natural number to `uint32_t`. -/
def u32 (n : Nat) : Nat := n % 2 ^ 32

/-- Conversion of an unsigned value to `int32_t` (two-complement truncation). -/
def toInt32 (n : Nat) : Int :=
  if n % 2 ^ 32 < 2 ^ 31 then ((n % 2 ^ 32 : Nat) : Int) else ((n % 2 ^ 32 : Nat) : Int) - 2 ^ 32

/-- Negation in `int32_t`. -/
def negInt32 (x : Int) : Int :=
  if x = -(2 ^ 31) then x else -x

/-- The struct `testPrime`. -/
structure testPrime where
  p : Nat
  pTarget : Nat
  type : Nat

/-- The fields of the struct `searchData` that the classification loop and the verifier use. -/
structure searchData where
  checksum : Nat
  typeTarget : Nat → Nat
  powerLimit : Nat → Nat
  tpcnt : Nat → Nat
  testResultPrime : Nat
  resultcount : Nat
  prpsremoved : Nat
  testResultValue : Int
  test : Bool

/-- The value `searchData sd = {}` of `main`, which is also what `resetData` restores. -/
def searchData.init (test : Bool) : searchData :=
  { checksum := 0, typeTarget := fun _ => 0, powerLimit := fun _ => 0, tpcnt := fun _ => 0,
    testResultPrime := 0, resultcount := 0, prpsremoved := 0, testResultValue := 0, test := test }

/-- The ways in which the modelled code calls `exit(EXIT_FAILURE)`. -/
inductive Fatal where
  | setupTestPrime (p : Nat)
  | prpInverse (prp p : Nat)
  | tooLargeForFindU (p : Nat)
  | tooLargeForFindC (p : Nat)
  | acuNotFound (p : Nat)
  | cInverse (c : Int) (p : Nat)
  | twoInverse (p : Nat)
  | wilsonCheck (p type rem : Nat)
  | noTestPrimes
  deriving DecidableEq, Repr

/-- One line of the result file, as `writeResult` prints it. -/
inductive ResultLine where
  | wilson (p : Nat)
  | nearWilson (p : Nat) (b : Int)
  deriving DecidableEq, Repr

/-- The prime that a result line is about. -/
def ResultLine.prime : ResultLine → Nat
  | .wilson p => p
  | .nearWilson p _ => p

/-- The three search kernels of the device, as the host sees them through `getACU`:
`none` when the kernel reports nothing found. -/
structure Device where
  finda : Nat → Nat → Option Int
  findc : Nat → Nat → Option Int
  findu : Nat → Nat → Nat → Option Int

/-! ## The classification loop of `cl_sieve` -/

/-- The body of the loop `for(i=0; i<st.tpcount; ++i)` of `cl_sieve` for one entry of `tplist`. -/
def setupTestPrime (sd : searchData) (p : Nat) : Except Fatal (searchData × testPrime) :=
  if p % 3 = 1 then
    let pTarget := u64 (p + 2 ^ 64 - 1) / 6
    let sd1 := { sd with tpcnt := Function.update sd.tpcnt 0 (u32 (sd.tpcnt 0 + 1)) }
    let sd2 := if sd1.typeTarget 0 = 0 then
        { sd1 with typeTarget := Function.update sd1.typeTarget 0 pTarget,
                   powerLimit := Function.update sd1.powerLimit 0 (pTarget / 2) }
      else sd1
    .ok (sd2, { p := p, pTarget := pTarget, type := 0 })
  else if p % 12 = 5 then
    let pTarget := u64 (p + 2 ^ 64 - 1) / 4
    let sd1 := { sd with tpcnt := Function.update sd.tpcnt 1 (u32 (sd.tpcnt 1 + 1)) }
    let sd2 := if sd1.typeTarget 1 = 0 then
        { sd1 with typeTarget := Function.update sd1.typeTarget 1 pTarget,
                   powerLimit := Function.update sd1.powerLimit 1 (pTarget / 2) }
      else sd1
    .ok (sd2, { p := p, pTarget := pTarget, type := 1 })
  else if p % 12 = 11 then
    let pTarget := u64 (p + 2 ^ 64 - 1) / 2
    let sd1 := { sd with tpcnt := Function.update sd.tpcnt 2 (u32 (sd.tpcnt 2 + 1)) }
    let sd2 := if sd1.typeTarget 2 = 0 then
        { sd1 with typeTarget := Function.update sd1.typeTarget 2 pTarget,
                   powerLimit := Function.update sd1.powerLimit 2 (pTarget / 2) }
      else sd1
    .ok (sd2, { p := p, pTarget := pTarget, type := 2 })
  else
    .error (Fatal.setupTestPrime p)

/-- The whole classification loop of `cl_sieve` over `tplist`, building the array `tp`. -/
def classifyLoop : searchData → List Nat → Except Fatal (searchData × List testPrime)
  | sd, [] => .ok (sd, [])
  | sd, p :: rest =>
    match setupTestPrime sd p with
    | .error e => .error e
    | .ok (sd1, t) =>
      match classifyLoop sd1 rest with
      | .error e => .error e
      | .ok (sd2, ts) => .ok (sd2, t :: ts)

/-! ## GMP primitives used by `processResult` -/

/-- The loop of the extended Euclidean algorithm on `(r0, r1)` with the cofactors `(s0, s1)` of the
number being inverted; it stands for the external GMP routine behind `mpz_invert`. -/
def invertLoop : Nat → Nat → Nat → Int → Int → Nat × Int
  | 0, r0, _, s0, _ => (r0, s0)
  | fuel + 1, r0, r1, s0, s1 =>
    if r1 = 0 then (r0, s0)
    else invertLoop fuel r1 (r0 % r1) s1 (s0 - ((r0 / r1 : Nat) : Int) * s1)

/-- GMP `mpz_invert(rop, a, m)`: `none` when the return value is 0 (no inverse), otherwise the
inverse of `a` modulo `m`, reduced to `[0, m)`. -/
def mpz_invert (a : Int) (m : Nat) : Option Nat :=
  let r := invertLoop (m + 1) m (a % (m : Int)).toNat 0 1
  if r.1 = 1 then some (r.2 % (m : Int)).toNat else none

/-- Square-and-multiply loop: `acc * b ^ e` modulo `m`, reduced at every step. -/
def powmLoop : Nat → Int → Nat → Int → Int → Int
  | 0, _, _, _, acc => acc
  | fuel + 1, b, e, m, acc =>
    if e = 0 then acc
    else powmLoop fuel (b * b % m) (e / 2) m (if e % 2 = 1 then acc * b % m else acc)

/-- GMP `mpz_powm(rop, base, exp, mod)` (and `mpz_powm_ui`): `base ^ exp` reduced to `[0, mod)`,
computed by square-and-multiply. -/
def mpz_powm (base : Int) (exp mod : Nat) : Int := powmLoop exp base exp (mod : Int) 1 % (mod : Int)

/-- Bisection for the floor of the square root: `lo * lo ≤ n < hi * hi` is kept. -/
def isqrtLoop (n : Nat) : Nat → Nat → Nat → Nat
  | 0, lo, _ => lo
  | fuel + 1, lo, hi =>
    if hi ≤ lo + 1 then lo
    else if ((lo + hi) / 2) * ((lo + hi) / 2) ≤ n then isqrtLoop n fuel ((lo + hi) / 2) hi
    else isqrtLoop n fuel lo ((lo + hi) / 2)

/-- The value of `(uint64_t)sqrtl(x)`: the floor of the square root. -/
def isqrt (n : Nat) : Nat := isqrtLoop n (n + 1) 0 (n + 1)

/-! ## `find_a`, `find_c`, `find_u` (host side) -/

/-- The host function `find_a`: runs the kernel `finda` with `maxa = sqrt p`; `getACU` exits when
nothing was found. -/
def find_a (dev : Device) (p : Nat) : Except Fatal Int :=
  match dev.finda p (isqrt p) with
  | none => .error (Fatal.acuNotFound p)
  | some a => .ok a

/-- The host function `find_c`: refuses `p > maxp`, otherwise runs `findc` on `4p` with
`maxd = sqrt (4p / 27)`. -/
def find_c (dev : Device) (p : Nat) : Except Fatal Int :=
  if p ≤ maxp then
    match dev.findc (u64 (4 * p)) (isqrt (u64 (4 * p) / 27)) with
    | none => .error (Fatal.acuNotFound p)
    | some c => .ok c
  else .error (Fatal.tooLargeForFindC p)

/-- The value `umod` that `find_u` passes to the kernel. -/
def umod (p : Nat) : Nat := if (u64 (p + 2 ^ 64 - 1) / 6) % 2 = 0 then 1 else 2

/-- The host function `find_u`: refuses `p > maxp`, otherwise runs `findu` on `4p` with
`maxv = sqrt (4p / 3)` and the residue class `umod`. -/
def find_u (dev : Device) (p : Nat) : Except Fatal Int :=
  if p ≤ maxp then
    match dev.findu (u64 (4 * p)) (isqrt (u64 (4 * p) / 3)) (umod p) with
    | none => .error (Fatal.acuNotFound p)
    | some u => .ok u
  else .error (Fatal.tooLargeForFindU p)

/-! ## `writeResult` and `processResult` -/

/-- The function `writeResult`: the line appended to the result file. -/
def writeResult (p : Nat) (b : Int) : ResultLine :=
  if b = 0 then ResultLine.wilson p else ResultLine.nearWilson p b

/-- The inner loop `for(j=0; j<thepower; ++j)` of `processResult`: `thepower` multiplications by
`a`, each followed by a reduction modulo `psq`. -/
def mulLoop (psq a : Nat) : Nat → Nat → Nat
  | 0, residue => residue
  | j + 1, residue => mulLoop psq a j ((residue * a) % psq)

/-- Step 1 of `processResult`, the loop `for(i=0; i<PRPSIZE; ++i)` over the reference table, from
index `i` on; returns the residue and the index at which the loop stopped. The list is the part of
the array not yet visited. -/
def removePrps (p psq target : Nat) : List Nat → Nat → Nat → Except Fatal (Nat × Nat)
  | [], i, residue => .ok (residue, i)
  | theprp :: rest, i, residue =>
    if theprp > target then .ok (residue, i)
    else
      match mpz_invert (theprp : Int) psq with
      | none => .error (Fatal.prpInverse theprp p)
      | some a =>
        removePrps p psq target rest (i + 1) (mulLoop psq a (u32 (target / theprp)) residue)

/-- The entries of the table that the loop of step 1 visits before it ends: the entries among the
first `PRPSIZE` that come before the first entry greater than `target` (the `break`). -/
def scanned (prps : List Nat) (target : Nat) : List Nat :=
  (prps.take PRPSIZE).takeWhile (fun q => decide (q ≤ target))

/-- Step 2 of `processResult` for `type == 0`, given the values `mu` and `mc` of `find_u` and
`find_c`. -/
def type0Value (p : Nat) (residue mu mc : Int) : Except Fatal Int :=
  let psq := p * p
  let residue := mpz_powm residue 6 psq
  let a := mpz_powm 2 p psq - 1
  let b := -(mu ^ 3)
  let a := b * a
  let b := mu * (p : Int) * 3
  let a := a + b
  let residue := residue * a
  match mpz_invert mc psq with
  | none => .error (Fatal.cInverse mc p)
  | some ci =>
    let a := (p : Int) * (ci : Int) - mc
    let residue := residue * a
    let a := mpz_powm 3 p psq - 1
    match mpz_invert 2 psq with
    | none => .error (Fatal.twoInverse p)
    | some b => .ok (residue * (a * (b : Int)))

/-- Step 2 of `processResult` for `type == 1`, given the value `ma` of `find_a`. -/
def type1Value (p : Nat) (residue ma : Int) : Int :=
  let psq := p * p
  let residue := mpz_powm residue 4 psq
  let a := mpz_powm 2 p psq * 3 - 4
  let residue := residue * a
  let a := ma * ma * 2 - (p : Int)
  residue * a

/-- Step 2 of `processResult` for `type == 2`. -/
def type2Value (p : Nat) (residue : Int) : Int :=
  let psq := p * p
  let residue := residue * residue
  let a := 1 - mpz_powm 2 p psq
  residue * a

/-- Step 2 of `processResult`: the branch on `type`. -/
def reconstruct (dev : Device) (p type : Nat) (residue : Int) : Except Fatal Int :=
  if type = 0 then
    match find_u dev p with
    | .error e => .error e
    | .ok mu =>
      match find_c dev p with
      | .error e => .error e
      | .ok mc => type0Value p residue mu mc
  else if type = 1 then
    match find_a dev p with
    | .error e => .error e
    | .ok ma => .ok (type1Value p residue ma)
  else if type = 2 then .ok (type2Value p residue)
  else .ok residue

/-- Lines 875-910 of `processResult`: classification of the quotient, the result line and the
update of the counters and of the checksum. -/
def report (p quot rem : Nat) (sd : searchData) (out : List ResultLine) :
    searchData × List ResultLine :=
  let negquot := u64 (p + 2 ^ 64 - quot)
  let smallest := if quot ≤ negquot then quot else negquot
  let r : searchData × List ResultLine :=
    if quot = 0 then
      let sd1 := { sd with resultcount := u32 (sd.resultcount + 1) }
      let sd2 := if sd1.test then { sd1 with testResultPrime := p, testResultValue := 0 } else sd1
      (sd2, out ++ [writeResult p 0])
    else if smallest < SPECIAL_THRESHOLD then
      let dq : Int := if smallest = quot then toInt32 quot else negInt32 (toInt32 negquot)
      let sd1 := { sd with resultcount := u32 (sd.resultcount + 1) }
      let sd2 := if sd1.test then { sd1 with testResultPrime := p, testResultValue := dq } else sd1
      (sd2, out ++ [writeResult p dq])
    else (sd, out)
  ({ r.1 with checksum := u64 (r.1.checksum + (p + rem + quot)) }, r.2)

/-- The quotient that `processResult` exports: `((value + 1) mod p^2) / p`. -/
def wilsonQuot (p : Nat) (value : Int) : Nat :=
  (Int.tdiv ((value + 1) % ((p * p : Nat) : Int)) (p : Int)).natAbs

/-- The remainder that `processResult` exports: `((value + 1) mod p^2) mod p`. -/
def wilsonRem (p : Nat) (value : Int) : Nat :=
  (Int.tmod ((value + 1) % ((p * p : Nat) : Int)) (p : Int)).natAbs

/-- Lines 851-910 of `processResult`: add 1, reduce, divide by `p`, check the remainder, report. -/
def finish (p type : Nat) (value : Int) (sd : searchData) (out : List ResultLine) :
    Except Fatal (searchData × List ResultLine) :=
  let quot := wilsonQuot p value
  let rem := wilsonRem p value
  if rem ≠ 0 then .error (Fatal.wilsonCheck p type rem)
  else .ok (report p quot rem sd out)

/-- The function `processResult`; `out` is the content of the result file. -/
def processResult (dev : Device) (p s0 s1 type : Nat) (sd : searchData) (prps : List Nat)
    (out : List ResultLine) : Except Fatal (searchData × List ResultLine) :=
  let psq := p * p
  match removePrps p psq (sd.typeTarget type) (prps.take PRPSIZE) 0 (p * s1 + s0) with
  | .error e => .error e
  | .ok (residue, i) =>
    let sd1 := if u32 i > sd.prpsremoved then { sd with prpsremoved := u32 i } else sd
    match reconstruct dev p type (residue : Int) with
    | .error e => .error e
    | .ok value => finish p type value sd1 out

/-- The pair `(quot, rem)` that `processResult` exports (lines 851-859) for the test prime `e.1`
with residue halves `e.2`, or `none` when an earlier step exits. -/
def exported (dev : Device) (prps : List Nat) (typeTarget : Nat → Nat)
    (e : testPrime × Nat × Nat) : Option (Nat × Nat) :=
  match removePrps e.1.p (e.1.p * e.1.p) (typeTarget e.1.type) (prps.take PRPSIZE) 0
      (e.1.p * e.2.2 + e.2.1) with
  | .error _ => none
  | .ok (residue, _) =>
    match reconstruct dev e.1.p e.1.type (residue : Int) with
    | .error _ => none
    | .ok value => some (wilsonQuot e.1.p value, wilsonRem e.1.p value)

/-- The term `p + rem + quot` that `processResult` adds to the checksum for one test prime. -/
def checksumTerm (dev : Device) (prps : List Nat) (typeTarget : Nat → Nat)
    (e : testPrime × Nat × Nat) : Nat :=
  match exported dev prps typeTarget e with
  | some (quot, rem) => e.1.p + rem + quot
  | none => 0

/-- The loop `for(j=0; j<st.tpcount; ++j) processResult(...)` of `getResults`. -/
def processAll (dev : Device) (prps : List Nat) :
    List (testPrime × Nat × Nat) → searchData → List ResultLine →
      Except Fatal (searchData × List ResultLine)
  | [], sd, out => .ok (sd, out)
  | (t, s0, s1) :: rest, sd, out =>
    match processResult dev t.p s0 s1 t.type sd prps out with
    | .error e => .error e
    | .ok (sd1, out1) => processAll dev prps rest sd1 out1

/-! ## The host side of a run -/

/-- No `d` with `2 ≤ d ≤ k` divides `n`. -/
def noDivisorUpTo (n : Nat) : Nat → Bool
  | 0 => true
  | k + 1 => (k + 1 < 2 || n % (k + 1) != 0) && noDivisorUpTo n k

/-- Primality by trial division up to the square root. -/
def isPrimeNat (n : Nat) : Bool := decide (2 ≤ n) && noDivisorUpTo n (isqrt n)

/-- The external call `primesieve_generate_primes(start, stop, ...)`, by its contract: the primes
of `[start, stop]` in ascending order. -/
def primesieve_generate_primes (start stop : Nat) : List Nat :=
  ((List.range (stop + 1 - start)).map (fun i => start + i)).filter isPrimeNat

/-- The residue halves `(s0, s1)` of the ideal residue `((p-1)/n)! mod p^2 = s1 * p + s0` of a
test prime, `(p-1)/n` being its `pTarget`. -/
def factorialResidue (t : testPrime) : Nat × Nat :=
  ((t.pTarget.factorial % (t.p * t.p)) % t.p, (t.pTarget.factorial % (t.p * t.p)) / t.p)

/-- The host side of `cl_sieve` on the range `[pmin, pmax)`, from the state `sd`: the test primes
are generated and classified, the device pipeline leaves the residue halves `residueOf t` for each
test prime `t`, and the loop of `getResults` processes them. -/
def hostRun (dev : Device) (sd : searchData) (pmin pmax : Nat) (prps : List Nat)
    (residueOf : testPrime → Nat × Nat) : Except Fatal (searchData × List ResultLine) :=
  match primesieve_generate_primes pmin (pmax - 1) with
  | [] => .error Fatal.noTestPrimes
  | tplist =>
    match classifyLoop sd tplist with
    | .error e => .error e
    | .ok (sd1, tp) => processAll dev prps (tp.map (fun t => (t, residueOf t))) sd1 []

/-- The integers `x` with `x^2 + k * y^2 = n` for some `y`, found by exhaustive search over
`y ≤ sqrt (n / k)`. -/
def reps (k n : Nat) : List Int :=
  (List.range (isqrt (n / k) + 1)).flatMap (fun y =>
    if isqrt (n - k * (y * y)) * isqrt (n - k * (y * y)) = n - k * (y * y) then
      [(isqrt (n - k * (y * y)) : Int), -(isqrt (n - k * (y * y)) : Int)]
    else [])

/-- Modelled from the spec: the device kernels `finda`, `findc`, `findu` of `find.cl`, which are
not part of the host sources. Each returns an integer solution of its equation in the residue
class the host asks for (`a^2 + b^2 = p`, `a = 1 mod 4`; `c^2 + 27 d^2 = 4p`, `c = 1 mod 3`;
`u^2 + 3 v^2 = 4p`, `u = umod mod 3`), here the first one found by exhaustive search. -/
def refDevice : Device :=
  { finda := fun p _ => ((reps 1 p).filter (fun a => decide (a % 4 = 1))).head?
    findc := fun p4 _ => ((reps 27 p4).filter (fun c => decide (c % 3 = 1))).head?
    findu := fun p4 _ um => ((reps 3 p4).filter (fun u => decide (u % 3 = (um : Int)))).head? }

/-- What the host code relies on from the kernels for the test prime `p`: for a prime
`p = 1 mod 3`, `findu` returns some `u` with `u^2 + 3 v^2 = 4p` and `u = umod p mod 3`, and `findc`
some `c` with `c^2 + 27 d^2 = 4p` and `c = 1 mod 3`; for `p = 5 mod 12`, `finda` returns some `a`
with `a^2 + b^2 = p` and `a = 1 mod 4`. -/
def DeviceContract (dev : Device) (p : Nat) : Prop :=
  (p % 3 = 1 →
    (∃ u v : Int, dev.findu (u64 (4 * p)) (isqrt (u64 (4 * p) / 3)) (umod p) = some u ∧
      u * u + 3 * (v * v) = ((4 * p : Nat) : Int) ∧ u % 3 = (umod p : Int)) ∧
    (∃ c d : Int, dev.findc (u64 (4 * p)) (isqrt (u64 (4 * p) / 27)) = some c ∧
      c * c + 27 * (d * d) = ((4 * p : Nat) : Int) ∧ c % 3 = 1)) ∧
  (p % 12 = 5 →
    ∃ a b : Int, dev.finda p (isqrt p) = some a ∧ a * a + b * b = (p : Int) ∧ a % 4 = 1)

/-- The Wilson quotient reduced modulo `p`: `W_p = (((p-1)! + 1) / p) mod p`. -/
def wilsonQuotient (p : Nat) : Nat := (((p - 1).factorial + 1) / p) % p

/-- The reports of a run in which every test prime exports the quotient `W_p` and remainder 0. -/
def reportAll : List testPrime → searchData → List ResultLine → searchData × List ResultLine
  | [], sd, out => (sd, out)
  | t :: rest, sd, out =>
    reportAll rest (report t.p (wilsonQuotient t.p) 0 sd out).1
      (report t.p (wilsonQuotient t.p) 0 sd out).2

/-- The pair `(quot, rem)` exported for a reconstructed value, `none` after an exit. -/
def finishKey (p : Nat) (v : Except Fatal Int) : Option (Nat × Nat) :=
  match v with
  | .ok value => some (wilsonQuot p value, wilsonRem p value)
  | .error _ => none

/-- For the test prime `t` with its ideal residue, every answer of the kernels that meets the
contract leads to the exported pair `(W_p, 0)`. -/
def verifierCheck (t : testPrime) : Bool :=
  if t.type = 0 then
    ((reps 3 (4 * t.p)).filter (fun u => decide (u % 3 = (umod t.p : Int)))).all (fun u =>
      ((reps 27 (4 * t.p)).filter (fun c => decide (c % 3 = 1))).all (fun c =>
        finishKey t.p (type0Value t.p ((t.pTarget.factorial % (t.p * t.p) : Nat) : Int) u c)
          == some (wilsonQuotient t.p, 0)))
  else if t.type = 1 then
    ((reps 1 t.p).filter (fun a => decide (a % 4 = 1))).all (fun a =>
      finishKey t.p (.ok (type1Value t.p ((t.pTarget.factorial % (t.p * t.p) : Nat) : Int) a))
        == some (wilsonQuotient t.p, 0))
  else if t.type = 2 then
    finishKey t.p (.ok (type2Value t.p ((t.pTarget.factorial % (t.p * t.p) : Nat) : Int)))
      == some (wilsonQuotient t.p, 0)
  else false

/-- The side conditions of a run on `[pmin, pmax)` that are checked by evaluation: the
classification succeeds, there is a test prime, every test prime is positive and at most `maxp`,
has a type target of at most `bound`, and passes `verifierCheck`. -/
def runCheck (sd : searchData) (pmin pmax bound : Nat) : Bool :=
  match classifyLoop sd (primesieve_generate_primes pmin (pmax - 1)) with
  | .error _ => false
  | .ok (sd1, tp) =>
    !tp.isEmpty && tp.all (fun t => decide (0 < t.p) && decide (t.p ≤ maxp) &&
      decide (sd1.typeTarget t.type ≤ bound) && verifierCheck t)

/-- The reports of a run on `[pmin, pmax)` in which every test prime exports `(W_p, 0)`. -/
def rangeReport (sd : searchData) (pmin pmax : Nat) : Option (searchData × List ResultLine) :=
  match classifyLoop sd (primesieve_generate_primes pmin (pmax - 1)) with
  | .error _ => none
  | .ok (sd1, tp) => some (reportAll tp sd1 [])

/-- Whether `refDevice` finds the answers that the host asks for the test prime `p`. -/
def refDeviceFinds (p : Nat) : Bool :=
  (decide (p % 3 = 1 → (refDevice.findu (4 * p) (isqrt (4 * p / 3)) (umod p)).isSome = true ∧
    (refDevice.findc (4 * p) (isqrt (4 * p / 27))).isSome = true)) &&
  decide (p % 12 = 5 → (refDevice.finda p (isqrt p)).isSome = true)

/-- The device answers used in the witness of C7: `u = 2098673` and `c = 406033` for
`p = 1239053554603` (`u^2 + 3 * 428869^2 = 4p`, `c^2 + 27 * 421257^2 = 4p`). -/
def witnessDevice : Device :=
  ⟨fun _ _ => none, fun _ _ => some 406033, fun _ _ _ => some 2098673⟩

/-! ## Auxiliary numbers for the closed-form identities -/

/-- The numerators of the harmonic numbers over `n!`: `E 0 = 0`, `E (n+1) = (n+1) * E n + n!`,
so that `E n = n! * (1 + 1/2 + ... + 1/n)`. -/
def harmonicNumerator : Nat → Nat
  | 0 => 0
  | n + 1 => (n + 1) * harmonicNumerator n + n.factorial

/-- The quotient `(2^p - 2) / p` written as the sum of the `choose p k / p`, `0 < k < p`. -/
def fermatSum (p : Nat) : Nat := ∑ k in Finset.range (p - 1), Nat.choose p (k + 1) / p

/-! ## The shared factorial targets -/

/-- The divisor `n` of the factorial target `(p-1)/n` of a type. -/
def typeDivisor (type : Nat) : Nat := if type = 0 then 6 else if type = 1 then 4 else 2

/-! ## `getPower` -/

/-- The loop `while(q)` of `getPower`, from the state `(totalpower, currp, q)`; the product `pp`
is an `unsigned __int128`. The result is `none` when the fuel runs out before the loop ends. -/
def getPowerLoop (prime target : Nat) : Nat → Nat → Nat → Nat → Option Nat
  | 0, _, _, _ => none
  | fuel + 1, totalpower, currp, q =>
    if q = 0 then some totalpower
    else
      let totalpower := u64 (totalpower + q)
      let pp := (currp * prime) % 2 ^ 128
      if pp > target then some totalpower
      else getPowerLoop prime target fuel totalpower (u64 pp) (target / u64 pp)

/-- The builtin `__builtin_clzll` on a nonzero 64-bit value: the number of bit positions `j < 64`
above every set bit, that is with `x < 2^j`. -/
def clzll (x : Nat) : Nat := ((List.range 64).filter (fun j => decide (x < 2 ^ j))).length

/-- The function `getPower`: the pair `(totalpower, curBit)`; `none` when the fuel does not
suffice for the loop. -/
def getPower (fuel prime target : Nat) : Option (Nat × Nat) :=
  if prime > target then some (0, 0)
  else
    match getPowerLoop prime target fuel 0 prime (target / prime) with
    | none => none
    | some totalpower =>
      some (totalpower,
        if totalpower > 1 then 0x8000000000000000 >>> (clzll totalpower + 1)
        else 0x8000000000000000)

/-! ## `findWheelOffset` -/

/-- The array `wheel` of `findWheelOffset`. -/
def wheel : List Nat := [4, 2, 4, 2, 4, 6, 2, 6]

/-- The first loop of `findWheelOffset`, `while( N < start || N % 5 == 0 )`, from the state
`(N, i)`; `none` when the fuel runs out. -/
def wheelSeek (start : Nat) : Nat → Nat → Nat → Option (Nat × Nat)
  | 0, _, _ => none
  | fuel + 1, N, i =>
    if N < start ∨ N % 5 = 0 then
      if i ≠ 0 then wheelSeek start fuel (u64 (N + 2)) 0
      else wheelSeek start fuel (u64 (N + 4)) 1
    else some (N, i)

/-- The second loop, `while(idx < 0)`: forward on the mod 6 wheel to the next multiple of 5; the
result is the number just before it (the anchor) and its wheel index 5 or 7. -/
def wheelAnchor : Nat → Nat → Nat → Option (Nat × Nat)
  | 0, _, _ => none
  | fuel + 1, N, i =>
    if i ≠ 0 then
      if u64 (N + 2) % 5 = 0 then some (u64 (u64 (N + 2) + 2 ^ 64 - 2), 5)
      else wheelAnchor fuel (u64 (N + 2)) 0
    else
      if u64 (N + 4) % 5 = 0 then some (u64 (u64 (N + 4) + 2 ^ 64 - 4), 7)
      else wheelAnchor fuel (u64 (N + 4)) 1

/-- The third loop, `while(N != start)`: backward along the wheel from the anchor. -/
def wheelBack (start : Nat) : Nat → Nat → Nat → Option Nat
  | 0, _, _ => none
  | fuel + 1, N, idx =>
    if N ≠ start then
      let idx1 := if idx = 0 then 7 else idx - 1
      wheelBack start fuel (u64 (N + 2 ^ 64 - wheel.getD idx1 0)) idx1
    else some idx

/-- The function `findWheelOffset`: the new values of `start` and `index`; each loop gets the
given fuel. -/
def findWheelOffset (fuel start : Nat) : Option (Nat × Nat) :=
  let k := start / 6
  match wheelSeek start fuel (u64 (k * 6 + 2 ^ 64 - 1)) 1 with
  | none => none
  | some (N, i) =>
    match wheelAnchor fuel N i with
    | none => none
    | some (anchor, idx) =>
      match wheelBack N fuel anchor idx with
      | none => none
      | some index => some (N, index)

/-- The wheel index of a residue modulo 30. -/
def wheelIndex (r : Nat) : Nat :=
  if r = 7 then 0 else if r = 11 then 1 else if r = 13 then 2 else if r = 17 then 3
  else if r = 19 then 4 else if r = 23 then 5 else if r = 29 then 6 else 7

/-- The walk that a consumer of the index makes: `start`, then successively adding `wheel[i]`,
`wheel[(i+1) mod 8]`, ... -/
def wheelWalk (start i : Nat) : Nat → Nat
  | 0 => start
  | k + 1 => wheelWalk start i k + wheel.getD ((i + k) % 8) 0

/-! ## Checkpoint files: `write_state` and `read_state` -/

/-- The struct `workStatus`. -/
structure workStatus where
  pmin : Nat
  pmax : Nat
  currp : Nat
  trickle : Nat
  state_sum : Nat
  totalcount : Nat
  tpcount : Nat
  done : Nat
  deriving DecidableEq, Repr

/-- A `cl_ulong2` of the residue array, with its halves `s0` and `s1`. -/
structure cl_ulong2 where
  s0 : Nat
  s1 : Nat
  deriving DecidableEq, Repr

/-- The fields of a `workStatus` fit their types: six `uint64_t`, then two `uint32_t`. -/
def workStatus.wf (st : workStatus) : Prop :=
  st.pmin < 2 ^ 64 ∧ st.pmax < 2 ^ 64 ∧ st.currp < 2 ^ 64 ∧ st.trickle < 2 ^ 64 ∧
  st.state_sum < 2 ^ 64 ∧ st.totalcount < 2 ^ 64 ∧ st.tpcount < 2 ^ 32 ∧ st.done < 2 ^ 32

/-- The `n` bytes of an unsigned integer in memory (little-endian host). -/
def leBytes : Nat → Nat → List Nat
  | 0, _ => []
  | n + 1, v => v % 256 :: leBytes n (v / 256)

/-- The unsigned integer that a run of bytes holds (little-endian host). -/
def ofLeBytes : List Nat → Nat
  | [] => 0
  | b :: bs => b % 256 + 256 * ofLeBytes bs

/-- Reading an `n`-byte unsigned integer off the front of a run of bytes. -/
def readLE (n : Nat) (b : List Nat) : Nat × List Nat := (ofLeBytes (b.take n), b.drop n)

/-- The 56 bytes of a `workStatus`, as `fwrite(&st, sizeof(workStatus), 1, out)` writes them. -/
def workStatus.bytes (st : workStatus) : List Nat :=
  leBytes 8 st.pmin ++ (leBytes 8 st.pmax ++ (leBytes 8 st.currp ++ (leBytes 8 st.trickle ++
    (leBytes 8 st.state_sum ++ (leBytes 8 st.totalcount ++ (leBytes 4 st.tpcount ++
      leBytes 4 st.done))))))

/-- The `workStatus` that `fread(&stat, sizeof(workStatus), 1, in)` finds in 56 bytes. -/
def workStatus.ofBytes (b : List Nat) : workStatus :=
  let r1 := readLE 8 b
  let r2 := readLE 8 r1.2
  let r3 := readLE 8 r2.2
  let r4 := readLE 8 r3.2
  let r5 := readLE 8 r4.2
  let r6 := readLE 8 r5.2
  let r7 := readLE 4 r6.2
  let r8 := readLE 4 r7.2
  { pmin := r1.1, pmax := r2.1, currp := r3.1, trickle := r4.1, state_sum := r5.1,
    totalcount := r6.1, tpcount := r7.1, done := r8.1 }

/-- The bytes of a residue array, 16 per entry. -/
def residueBytes : List cl_ulong2 → List Nat
  | [] => []
  | r :: rs => leBytes 8 r.s0 ++ (leBytes 8 r.s1 ++ residueBytes rs)

/-- The `count` residues that `fread(res, sizeof(cl_ulong2), count, in)` finds in a run of
bytes. -/
def residuesOfBytes : Nat → List Nat → List cl_ulong2
  | 0, _ => []
  | n + 1, b =>
    let r1 := readLE 8 b
    let r2 := readLE 8 r1.2
    { s0 := r1.1, s1 := r2.1 } :: residuesOfBytes n r2.2

/-- The two replica files `stateA.ckp` and `stateB.ckp`; `none` when `fopen(.., "rb")` fails. -/
structure Store where
  stateA : Option (List Nat)
  stateB : Option (List Nat)
  deriving DecidableEq, Repr

/-- The loop `for(i=0; i<tpcount; ++i) checksum += res[i].s0 + res[i].s1;` in `uint64_t`. -/
def checksumLoop (checksum : Nat) (res : List cl_ulong2) : Nat :=
  res.foldl (fun c r => u64 (c + u64 (r.s0 + r.s1))) checksum

/-- The checkpoint checksum, as `write_state` and `read_state` both compute it: the scalar
fields other than `state_sum`, then the loop over the first `tpcount` residues. -/
def stateChecksum (stat : workStatus) (res : List cl_ulong2) (tpcount : Nat) : Nat :=
  checksumLoop (u64 (stat.pmin + stat.pmax + stat.currp + stat.trickle + stat.totalcount
    + stat.tpcount + stat.done)) (res.take tpcount)

/-- What the C library reports during one call of `write_state`: whether `fopen(.., "wb")` and
`fclose` succeed, and for each `fwrite` either success (`none`) or failure after some bytes. -/
structure WriteEvents where
  openOk : Bool
  write1 : Option Nat
  write2 : Option Nat
  closeOk : Bool
  deriving DecidableEq, Repr

/-- The bytes that an `fwrite` of `data` leaves in the file, and whether it failed. -/
def fwrite (data : List Nat) (event : Option Nat) : List Nat × Bool :=
  match event with
  | none => (data, false)
  | some k => (data.take k, true)

/-- The function `write_state`. Of `searchData` it uses the field `write_state_a_next` only; the
result is the new value of that field, the `workStatus` with its `state_sum` and the store.
A failed `fopen` leaves the store as it was; a successful one truncates the target file. -/
def write_state (write_state_a_next : Bool) (st : workStatus) (residues : List cl_ulong2)
    (store : Store) (ev : WriteEvents) : Bool × workStatus × Store :=
  let st := { st with state_sum := stateChecksum st residues st.tpcount }
  if ev.openOk = false then (write_state_a_next, st, store)
  else
    let w1 := fwrite st.bytes ev.write1
    let w2 := fwrite (residueBytes (residues.take st.tpcount)) ev.write2
    let content := w1.1 ++ w2.1
    let store1 : Store :=
      if write_state_a_next then { store with stateA := some content }
      else { store with stateB := some content }
    if w1.2 || w2.2 then (write_state_a_next, st, store1)
    else if ev.closeOk then (!write_state_a_next, st, store1)
    else (write_state_a_next, st, store1)

/-- What `read_state` makes of one replica file. -/
inductive ReplicaRead where
  | bad
  | complete
  | good (stat : workStatus) (res : List cl_ulong2)
  deriving DecidableEq, Repr

/-- The block of `read_state` that reads one replica: open, the two `fread`, the shape check,
the `done` check (`return 2`), and the checksum check. -/
def readReplica (st : workStatus) (file : Option (List Nat)) : ReplicaRead :=
  match file with
  | none => .bad
  | some bytes =>
    if bytes.length < 56 then .bad
    else
      let stat := workStatus.ofBytes (bytes.take 56)
      if (bytes.drop 56).length / 16 < st.tpcount then .bad
      else
        let res := residuesOfBytes st.tpcount (bytes.drop 56)
        if stat.tpcount ≠ st.tpcount ∨ stat.pmin ≠ st.pmin ∨ stat.pmax ≠ st.pmax then .bad
        else if stat.done ≠ 0 then .complete
        else if stateChecksum stat res st.tpcount ≠ stat.state_sum then .bad
        else .good stat res

/-- The outcome of `read_state`: the return value and the values of `sd.write_state_a_next`,
`st` and `residues` when it returns. -/
structure ReadResult where
  ret : Nat
  write_state_a_next : Bool
  st : workStatus
  residues : List cl_ulong2
  deriving DecidableEq, Repr

/-- The function `read_state`. -/
def read_state (write_state_a_next : Bool) (st : workStatus) (residues : List cl_ulong2)
    (store : Store) : ReadResult :=
  match readReplica st store.stateA with
  | .complete => ⟨2, write_state_a_next, st, residues⟩
  | ra =>
    match readReplica st store.stateB with
    | .complete => ⟨2, write_state_a_next, st, residues⟩
    | rb =>
      match ra, rb with
      | .good stat_a res_a, .good stat_b res_b =>
        if stat_a.currp > stat_b.currp then ⟨1, false, stat_a, res_a⟩
        else ⟨1, true, stat_b, res_b⟩
      | .good stat_a res_a, _ => ⟨1, false, stat_a, res_a⟩
      | _, .good stat_b res_b => ⟨1, true, stat_b, res_b⟩
      | _, _ => ⟨0, write_state_a_next, st, residues⟩

/-- How `cl_sieve` goes on after its start-up: `boinc_finish(EXIT_SUCCESS)`,
`exit(EXIT_FAILURE)`, or on to the main search loop. -/
inductive Startup where
  | finished
  | failed
  | mainLoop (resume : Nat) (write_state_a_next : Bool) (st : workStatus)
      (residues : List cl_ulong2)
  deriving DecidableEq, Repr

/-- The start-up of `cl_sieve` between the test-prime setup and the main loop: in a test run the
result file is cleared; otherwise `read_state` decides between finishing, resuming and a cold
start (`now` is `time(NULL)`, `clearOk` whether the result file can be opened for writing). -/
def cl_sieve_startup (test : Bool) (write_state_a_next : Bool) (st : workStatus)
    (residues : List cl_ulong2) (store : Store) (clearOk : Bool) (now : Nat) : Startup :=
  if test then
    if clearOk then .mainLoop 0 write_state_a_next st residues else .failed
  else
    let r := read_state write_state_a_next st residues store
    if r.ret = 2 then .finished
    else if r.ret = 1 then .mainLoop 1 r.write_state_a_next r.st r.residues
    else if clearOk then
      .mainLoop 0 r.write_state_a_next { r.st with trickle := u64 now } r.residues
    else .failed

/-- A replica parses completely, has the expected shape, and its stored `state_sum` is the sum
modulo `2^64` of the other scalar fields and of both halves of all residues; `stat` and `res`
are its contents. -/
def ReplicaValid (st : workStatus) (file : Option (List Nat)) (stat : workStatus)
    (res : List cl_ulong2) : Prop :=
  ∃ bytes, file = some bytes ∧ 56 ≤ bytes.length ∧ st.tpcount ≤ (bytes.length - 56) / 16 ∧
    stat = workStatus.ofBytes (bytes.take 56) ∧
    res = residuesOfBytes st.tpcount (bytes.drop 56) ∧
    stat.tpcount = st.tpcount ∧ stat.pmin = st.pmin ∧ stat.pmax = st.pmax ∧
    stat.state_sum = (stat.pmin + stat.pmax + stat.currp + stat.trickle + stat.totalcount
      + stat.tpcount + stat.done + (res.map (fun r => r.s0 + r.s1)).sum) % 2 ^ 64

/-- A replica triggers the Complete result: it parses completely, has the expected shape, and
its `done` is not zero. -/
def ReplicaComplete (st : workStatus) (file : Option (List Nat)) : Prop :=
  ∃ bytes, file = some bytes ∧ 56 ≤ bytes.length ∧ st.tpcount ≤ (bytes.length - 56) / 16 ∧
    (workStatus.ofBytes (bytes.take 56)).tpcount = st.tpcount ∧
    (workStatus.ofBytes (bytes.take 56)).pmin = st.pmin ∧
    (workStatus.ofBytes (bytes.take 56)).pmax = st.pmax ∧
    (workStatus.ofBytes (bytes.take 56)).done ≠ 0

/-- The `workStatus` as `write_state` leaves it: with the checksum in `state_sum`. -/
def writtenStatus (st : workStatus) (residues : List cl_ulong2) : workStatus :=
  { st with state_sum := stateChecksum st residues st.tpcount }

/-- The bytes of a checkpoint file that `write_state` wrote in full. -/
def checkpointBytes (st : workStatus) (residues : List cl_ulong2) : List Nat :=
  (writtenStatus st residues).bytes ++ residueBytes (residues.take st.tpcount)

/-- A replica parses completely, but the checksum of its contents is not its stored
`state_sum`. -/
def ChecksumMismatch (st : workStatus) (file : Option (List Nat)) : Prop :=
  ∃ bytes, file = some bytes ∧ 56 ≤ bytes.length ∧ st.tpcount ≤ (bytes.length - 56) / 16 ∧
    (workStatus.ofBytes (bytes.take 56)).state_sum
      ≠ ((workStatus.ofBytes (bytes.take 56)).pmin + (workStatus.ofBytes (bytes.take 56)).pmax
          + (workStatus.ofBytes (bytes.take 56)).currp
          + (workStatus.ofBytes (bytes.take 56)).trickle
          + (workStatus.ofBytes (bytes.take 56)).totalcount
          + (workStatus.ofBytes (bytes.take 56)).tpcount
          + (workStatus.ofBytes (bytes.take 56)).done
          + ((residuesOfBytes st.tpcount (bytes.drop 56)).map (fun r => r.s0 + r.s1)).sum)
        % 2 ^ 64

/-- A checkpoint of a finished run whose stored `state_sum` (0) is not its checksum (23). -/
def doneStatus : workStatus :=
  { pmin := 5, pmax := 10, currp := 7, trickle := 0, state_sum := 0, totalcount := 0,
    tpcount := 0, done := 1 }

/-- The `workStatus` used in the examples: range `[1000, 2000)`, two test primes. -/
def sampleStatus : workStatus :=
  { pmin := 1000, pmax := 2000, currp := 1500, trickle := 1700000000, state_sum := 0,
    totalcount := 77, tpcount := 2, done := 0 }

/-- The residue array used in the examples; the second entry makes the checksum wrap. -/
def sampleResidues : List cl_ulong2 :=
  [{ s0 := 123456789, s1 := 5 }, { s0 := 2 ^ 64 - 1, s1 := 2 ^ 64 - 7 }]

/-- A checkpoint with `done = 0` whose stored `state_sum` (42) is not its checksum. -/
def staleStatus : workStatus := { sampleStatus with currp := 1200, state_sum := 42 }

/-- The same run as `sampleStatus`, further on. -/
def laterStatus : workStatus := { sampleStatus with currp := 1800 }

/-- The checkpoint that `cl_sieve` writes at the end of the run of `sampleStatus`. -/
def finishedStatus : workStatus := { sampleStatus with currp := 2000, done := 1 }

/-! ## Teichmüller representatives and Jacobi sums modulo `p^2` (type 1) -/

section TypeOneDefs

open Finset

/-- The Teichmüller representative modulo `p^2` of a residue modulo `p`. -/
def teich {p : ℕ} (x : ZMod p) : ZMod (p ^ 2) := ((x.val : ℕ) : ZMod (p ^ 2)) ^ p

/-- The reduction `ZMod (p^2) → ZMod p`. -/
def redp (p : ℕ) : ZMod (p ^ 2) →+* ZMod p :=
  ZMod.castHom (Dvd.intro_left (p ^ 1) (by ring)) (ZMod p)

/-- The sum of the `e`-th powers of the Teichmüller representatives. -/
def teichSum (p : ℕ) [Fact p.Prime] (e : ℕ) : ZMod (p ^ 2) := ∑ x : ZMod p, teich x ^ e

/-- The Jacobi-type sum `∑ teich x ^ (3 f) * teich (1 - x) ^ (2 f)` for `p = 4 f + 1`. -/
def jacobiU (p f : ℕ) [Fact p.Prime] : ZMod (p ^ 2) :=
  ∑ x : ZMod p, teich x ^ (3 * f) * teich (1 - x) ^ (2 * f)

/-- The sum of the inverses of `f, ..., 2 f - 1` modulo `p`. -/
def invSum (p f : ℕ) : ZMod p := ∑ j in range f, ((2 * f - 1 - j : ℕ) : ZMod p)⁻¹

/-- The first-order part of `(-4)^f` modulo `p^2`, for `p = 4 f + 1`. -/
def evenQuot (p f : ℕ) : ZMod (p ^ 2) :=
  ∑ j in range (2 * f), (-1) ^ (j + 1) * ((Nat.choose p (2 * j + 2) / p : ℕ) : ZMod (p ^ 2))

/-- The alternating harmonic sum `1 - 1/2 + ... - 1/(2 n)` modulo `p`. -/
def altSum (p n : ℕ) : ZMod p := ∑ j in range (2 * n), (-1) ^ j * ((j + 1 : ℕ) : ZMod p)⁻¹

/-- The imaginary unit of the Gaussian integers as a unit. -/
def gaussI : (GaussianInt)ˣ :=
  ⟨⟨0, 1⟩, ⟨0, -1⟩, by ext <;> simp, by ext <;> simp⟩

/-- The ring homomorphism from the Gaussian integers to `ZMod (p^2)` that sends `i` to a given
square root of `-1`. -/
def gaussHom {p : ℕ} (I : ZMod (p ^ 2)) (hI : I * I = -1) : GaussianInt →+* ZMod (p ^ 2) :=
  Zsqrtd.lift ⟨I, by rw [hI]; simp⟩

end TypeOneDefs

/-- The library calls of one `write_state` did not all succeed. -/
def WriteFailed (ev : WriteEvents) : Prop :=
  ¬ (ev.openOk = true ∧ ev.write1 = none ∧ ev.write2 = none ∧ ev.closeOk = true)

/-! ## The prime iterator of primesieve and `get32bitprimes` -/

/-- The least prime from `n` on, among at most `fuel` candidates (the candidate after them when
none is prime, which does not happen with `fuel = n + 2`). -/
def nextPrimeFrom : Nat → Nat → Nat
  | 0, n => n
  | fuel + 1, n => if isPrimeNat n then n else nextPrimeFrom fuel (n + 1)

/-- The greatest prime up to `n`; 0 when there is none. -/
def prevPrimeUpTo : Nat → Nat
  | 0 => 0
  | n + 1 => if isPrimeNat (n + 1) then n + 1 else prevPrimeUpTo n

/-- The state of a `primesieve_iterator`, by the contract of the library: either it was just
positioned by `primesieve_jump_to(&it, start, ..)`, or it stands on the prime that the last
call returned. -/
inductive primesieve_iterator where
  | jumped (start : Nat)
  | on (prime : Nat)
  deriving DecidableEq, Repr

/-- The external call `primesieve_next_prime`: after `primesieve_jump_to` the first prime that is
at least `start`, otherwise the prime after the one the iterator stands on. -/
def primesieve_next_prime : primesieve_iterator → Nat × primesieve_iterator
  | .jumped start => (nextPrimeFrom (start + 2) start, .on (nextPrimeFrom (start + 2) start))
  | .on q => (nextPrimeFrom (q + 3) (q + 1), .on (nextPrimeFrom (q + 3) (q + 1)))

/-- The external call `primesieve_prev_prime`: after `primesieve_jump_to` the first prime that is
at most `start`, otherwise the prime before the one the iterator stands on; 0 when there is
none. -/
def primesieve_prev_prime : primesieve_iterator → Nat × primesieve_iterator
  | .jumped start => (prevPrimeUpTo start, .on (prevPrimeUpTo start))
  | .on q => (prevPrimeUpTo (q - 1), .on (prevPrimeUpTo (q - 1)))

/-- The host arrays of the 32-bit path, which live across the calls of `get32bitprimes`: the
iterator, `smprime` and `smpower` (arrays as functions of the index). -/
structure HostTables where
  it : primesieve_iterator
  smprime : Nat → Nat
  smpower : Nat → Nat × Nat

/-- The first loop of `get32bitprimes`, `for(; smcount < sd.psize; ++smcount)`: `room` is
`psize - smcount`. The result is `(smcount, it, smprime)`. -/
def fillSegment (stop : Nat) : Nat → Nat → primesieve_iterator → (Nat → Nat) →
    Nat × primesieve_iterator × (Nat → Nat)
  | 0, smcount, it, smprime => (smcount, it, smprime)
  | room + 1, smcount, it, smprime =>
    if (primesieve_next_prime it).1 ≥ stop then
      (smcount, (primesieve_prev_prime (primesieve_next_prime it).2).2, smprime)
    else
      fillSegment stop room (smcount + 1) (primesieve_next_prime it).2
        (Function.update smprime smcount (primesieve_next_prime it).1)

/-- The loop `for(uint32_t b = 0; b < smcount; ++b)` of `get32bitprimes`, from index `b` with
`left = smcount - b` entries to go; the result is `(newcount, smpower)`, or `none` when a call of
`getPower` runs out of fuel. The argument of `getPower` is converted to `uint32_t`. -/
def powerLoop (fuel target : Nat) (smprime : Nat → Nat) : Nat → Nat → (Nat → Nat × Nat) →
    Option (Nat × (Nat → Nat × Nat))
  | 0, b, smpower => some (b, smpower)
  | left + 1, b, smpower =>
    if smprime b > target then some (b, smpower)
    else
      match getPower fuel (u32 (smprime b)) target with
      | none => none
      | some pw => powerLoop fuel target smprime left (b + 1) (Function.update smpower b pw)

/-- The inner loop `for(++i; i<newcount && h_power[m].s0 == smpower[i].s0; ++i)` of the
compression, from the value `hprime` of `h_prime[m]` and the index `i`; `s0` is `h_power[m].s0`
and the product `pp` is an `unsigned __int128`. The result is `(h_prime[m], i)`. -/
def mergeRun (smprime : Nat → Nat) (smpower : Nat → Nat × Nat) (newcount s0 : Nat) :
    Nat → Nat → Nat → Nat × Nat
  | 0, hprime, i => (hprime, i)
  | left + 1, hprime, i =>
    if i < newcount ∧ s0 = (smpower i).1 then
      if (hprime * smprime i) % 2 ^ 128 > 0xFFFFFFFFFFFFFFFF then (hprime, i)
      else mergeRun smprime smpower newcount s0 left ((hprime * smprime i) % 2 ^ 128) (i + 1)
    else (hprime, i)

/-- The loop `for(uint32_t i=1; i<newcount; ++m)` of the compression, from index `i`; `table`
holds the entries `(h_prime[j], h_power[j])`, `j < m`, written so far. -/
def compressLoop (smprime : Nat → Nat) (smpower : Nat → Nat × Nat) (newcount : Nat) :
    Nat → Nat → List (Nat × (Nat × Nat)) → List (Nat × (Nat × Nat))
  | 0, _, table => table
  | left + 1, i, table =>
    if i < newcount then
      compressLoop smprime smpower newcount left
        (mergeRun smprime smpower newcount (smpower i).1 newcount (smprime i) (i + 1)).2
        (table ++ [((mergeRun smprime smpower newcount (smpower i).1 newcount (smprime i)
          (i + 1)).1, smpower i)])
    else table

/-- The body of the loop `for(uint32_t t=0; t<3; ++t)` of `get32bitprimes` for one type, given
`sd.tpcnt[t]` and `sd.typeTarget[t]`: the new `smpower` and the table `(h_prime[j], h_power[j])`,
`j < m`, that is written to the device (`none` when the type is skipped, and then
`sd.pcount32[t] = 0`); `sd.pcount32[t]` is the length of the table. -/
def typeTable (fuel tpcnt target smcount : Nat) (smprime : Nat → Nat)
    (smpower : Nat → Nat × Nat) :
    Option ((Nat → Nat × Nat) × Option (List (Nat × (Nat × Nat)))) :=
  if tpcnt = 0 ∨ smprime 0 > target then some (smpower, none)
  else
    match powerLoop fuel target smprime smcount 0 smpower with
    | none => none
    | some (newcount, smpower1) =>
      some (smpower1,
        some (compressLoop smprime smpower1 newcount newcount 1 [(smprime 0, smpower1 0)]))

/-- What one call of `get32bitprimes` leaves: the host arrays, the number `smcount` of primes
of the window, the tables written to the device for the three types and `st.totalcount`. -/
structure Segment where
  host : HostTables
  smcount : Nat
  tables : Nat → Option (List (Nat × (Nat × Nat)))
  totalcount : Nat

/-- The value of `sd.pcount32[t]` after `get32bitprimes`. -/
def Segment.pcount32 (s : Segment) (t : Nat) : Nat :=
  match s.tables t with
  | none => 0
  | some table => table.length

/-- The function `get32bitprimes`; `fuel` is for the calls of `getPower`. -/
def get32bitprimes (fuel psize stop : Nat) (tpcnt typeTarget : Nat → Nat) (host : HostTables)
    (totalcount : Nat) : Option Segment :=
  let seg := fillSegment stop psize 0 host.it host.smprime
  match typeTable fuel (tpcnt 0) (typeTarget 0) seg.1 seg.2.2 host.smpower with
  | none => none
  | some (pw0, t0) =>
    match typeTable fuel (tpcnt 1) (typeTarget 1) seg.1 seg.2.2 pw0 with
    | none => none
    | some (pw1, t1) =>
      match typeTable fuel (tpcnt 2) (typeTarget 2) seg.1 seg.2.2 pw1 with
      | none => none
      | some (pw2, t2) =>
        some { host := { it := seg.2.1, smprime := seg.2.2, smpower := pw2 },
               smcount := seg.1,
               tables := fun t => if t = 0 then t0 else if t = 1 then t1 else
                 if t = 2 then t2 else none,
               totalcount := u64 (totalcount + seg.1) }

/-- The value `stop` that `getPrimes` computes and returns. -/
def getPrimes (range maxtarget currp : Nat) : Nat :=
  let stop := u64 (currp + range)
  let stop := if stop > u64 (maxtarget + 1) then u64 (maxtarget + 1) else stop
  if currp < 0xFFFFFFFF ∧ stop > 0xFFFFFFFF then 0xFFFFFFFF else stop

/-- The entries of `table` are the products of consecutive runs of `smprime` that cover the
indices from `a` to below `b`: each entry `(h_prime[j], h_power[j])` is below `2^64`, is the
product of `smprime[i]` over its run, has `h_power[j] = smpower[i]` at the first index of the
run, and every index of the run has the multiplicity `h_power[j].s0`. -/
def RunTable (smprime : Nat → Nat) (smpower : Nat → Nat × Nat) :
    Nat → Nat → List (Nat × (Nat × Nat)) → Prop
  | a, b, [] => a = b
  | a, b, e :: rest =>
    ∃ c, a < c ∧ c ≤ b ∧ e.1 = ∏ i in Finset.Ico a c, smprime i ∧ e.1 < 2 ^ 64 ∧
      e.2 = smpower a ∧ (∀ i, a ≤ i → i < c → (smpower i).1 = e.2.1) ∧
      RunTable smprime smpower c b rest

/-- A window of six primes, as `smprime` holds it. -/
def sampleWindow : Nat → Nat := fun i => [2, 3, 5, 7, 11, 13].getD i 0

/-- The host arrays as `cl_sieve` sets them up for a scan that starts at `currp`: the iterator
positioned by `primesieve_jump_to(&it, st.currp, ..)`; the arrays come from `malloc`, their
contents are given by `smprime0`, `smpower0`. -/
def freshHost (currp : Nat) (smprime0 : Nat → Nat) (smpower0 : Nat → Nat × Nat) : HostTables :=
  { it := .jumped currp, smprime := smprime0, smpower := smpower0 }

/-- The counts `sd.tpcnt` of a run whose only test prime is of type 1. -/
def tpcntTypeOne : Nat → Nat := fun t => if t = 1 then 1 else 0

/-- The targets `sd.typeTarget` of the run on `[101, 102)`: the test prime 101 is of type 1 and
its target is `(101 - 1) / 4 = 25`. -/
def targetsOf101 : Nat → Nat := fun t => if t = 1 then 25 else 0

/-! ## The main loop of `cl_sieve` -/

/-- The compute device as the host code of `cl_sieve` drives it: the kernels and the buffer
transfers act on a device state of type `G`. The kernels are not part of the host source; the
host code is parameterised by them. The arguments are the kernel arguments that vary:
`getsegprps start stop wheelidx`, `writeTable32 type table` (the transfers to `d_primes32[type]`
and `d_powers32[type]`), `mulsmall tpnum type pcount32`, `mullarge tpnum type powerLimit
typeTarget`, `reduce tpnum`, `iterate startTp tpcount`, `setup resume`, `writeResidues`. -/
structure Gpu (G : Type) where
  clearresult : G → G
  clearn : G → G
  setup : Nat → G → G
  writeResidues : List cl_ulong2 → G → G
  getsegprps : Nat → Nat → Nat → G → G
  writeTable32 : Nat → List (Nat × (Nat × Nat)) → G → G
  mulsmall : Nat → Nat → Nat → G → G
  mullarge : Nat → Nat → Nat → Nat → G → G
  reduce : Nat → G → G
  iterate : Nat → Nat → G → G
  readResidues : G → List cl_ulong2
  readPrimecount : G → Nat → Nat
  readTotalcount : G → Nat

/-- The fields of `searchData` that the main loop reads and does not change, with the array
`tp` of the test primes. -/
structure SieveData where
  range : Nat
  psize : Nat
  maxtarget : Nat
  typeTarget : Nat → Nat
  powerLimit : Nat → Nat
  tpcnt : Nat → Nat
  tp : List testPrime

/-- The value of `sd.maxtarget` that `cl_sieve` computes from the three targets. -/
def maxtargetOf (typeTarget : Nat → Nat) : Nat :=
  let maxtarget := typeTarget 2
  let maxtarget := if maxtarget < typeTarget 1 then typeTarget 1 else maxtarget
  if maxtarget < typeTarget 0 then typeTarget 0 else maxtarget

/-- What the environment decides in one iteration of the main loop: whether more than 60
seconds have passed since the last checkpoint, the value of `time(NULL)` in
`handle_trickle_up` (`none` when `boinc_is_standalone()`), and the outcomes of the library calls
of `write_state`. -/
structure Tick where
  ckptDue : Bool
  now : Option Nat
  ev : WriteEvents

/-- An entry of the log of the command queue: a `reduce` kernel enqueued with a completion
event (`sclEnqueueKernelEvent`), a `reduce` kernel enqueued without one, or a call of
`waitOnEvent` with the value of `launchEvent` (`none` for `NULL`). -/
inductive QueueEvent where
  | enqueueEvent (event : Nat)
  | enqueue
  | wait (event : Option Nat)
  deriving DecidableEq, Repr

/-- The ways in which the main loop stops other than by its condition: the two calls of
`exit(EXIT_FAILURE)` in `getDataFromGPU`, and an inner loop (`getPower`, `findWheelOffset`)
that does not end within the fuel of the model. -/
inductive SieveStop where
  | primeArrayOverflow
  | localMemoryOverflow
  | loopFuel
  deriving DecidableEq, Repr

/-- The variables of `cl_sieve` that the main loop changes: `st`, `sd.write_state_a_next`, the
checkpoint files, the array `residues`, the host arrays of the 32-bit path, `sd.pcount32`,
`kernelq`, `launchEvent` (the events are numbered as they are created), the log of the command
queue, the device state, and the number of iterations made. -/
structure SieveState (G : Type) where
  st : workStatus
  write_state_a_next : Bool
  store : Store
  residues : List cl_ulong2
  host : HostTables
  pcount32 : Nat → Nat
  kernelq : Nat
  launchEvent : Option Nat
  created : Nat
  queue : List QueueEvent
  gpu : G
  iterations : Nat

/-- The call `waitOnEvent(hardware, launchEvent)`, which returns when the event is complete. -/
def waitOnEvent {G : Type} (s : SieveState G) : SieveState G :=
  { s with queue := s.queue ++ [QueueEvent.wait s.launchEvent] }

/-- The statement `if(kernelq > 0){ waitOnEvent(hardware, launchEvent); kernelq = 0; }`. -/
def drainQueue {G : Type} (s : SieveState G) : SieveState G :=
  if s.kernelq > 0 then { waitOnEvent s with kernelq := 0 } else s

/-- The function `handle_trickle_up`: once per day `st.trickle` is set to the time. -/
def handle_trickle_up (now : Option Nat) (st : workStatus) : workStatus :=
  match now with
  | none => st
  | some t => if u64 (u64 t + 2 ^ 64 - st.trickle) > 86400 then { st with trickle := u64 t } else st

/-- The function `getDataFromGPU`: the residues and the counters are read from the device, the
two overflow checks are made, and the device count is added to `st.totalcount`. -/
def getDataFromGPU {G : Type} (gpu : Gpu G) (psize : Nat) (s : SieveState G) :
    Except SieveStop (SieveState G) :=
  if gpu.readPrimecount s.gpu 1 > psize then .error SieveStop.primeArrayOverflow
  else if gpu.readPrimecount s.gpu 2 = 1 then .error SieveStop.localMemoryOverflow
  else .ok { s with residues := gpu.readResidues s.gpu,
                    st := { s.st with totalcount := u64 (s.st.totalcount + gpu.readTotalcount s.gpu) } }

/-- The function `checkpoint`: `handle_trickle_up`, then `write_state`. -/
def checkpoint {G : Type} (tick : Tick) (s : SieveState G) : SieveState G :=
  { s with
    st := (write_state s.write_state_a_next (handle_trickle_up tick.now s.st) s.residues s.store
      tick.ev).2.1,
    write_state_a_next := (write_state s.write_state_a_next (handle_trickle_up tick.now s.st)
      s.residues s.store tick.ev).1,
    store := (write_state s.write_state_a_next (handle_trickle_up tick.now s.st) s.residues
      s.store tick.ev).2.2 }

/-- The block `if( ckpt_time > 60 )` of the main loop: the queue is drained, the data are read
from the device, the checkpoint is written and the device counters are cleared. -/
def checkpointBlock {G : Type} (gpu : Gpu G) (cfg : SieveData) (tick : Tick) (s : SieveState G) :
    Except SieveStop (SieveState G) :=
  match getDataFromGPU gpu cfg.psize (drainQueue s) with
  | .error e => .error e
  | .ok s1 => .ok { checkpoint tick s1 with gpu := gpu.clearresult s1.gpu }

/-- The function `multiply`: the small kernel below `0xFFFFFFFF`, the large one from there on. -/
def multiply {G : Type} (gpu : Gpu G) (cfg : SieveData) (tpnum type : Nat) (s : SieveState G) :
    SieveState G :=
  if s.st.currp < 0xFFFFFFFF then
    { s with gpu := gpu.mulsmall tpnum type (s.pcount32 type) s.gpu }
  else
    { s with gpu := gpu.mullarge tpnum type (cfg.powerLimit type) (cfg.typeTarget type) s.gpu }

/-- The submission of the `reduce` kernel for test prime `tpnum` in the main loop, with the
throttle: the kernel gets a completion event when `kernelq == 0`; then `++kernelq`, and at
`maxq = 100` the host waits for `launchEvent` and resets `kernelq`. -/
def submitReduce {G : Type} (gpu : Gpu G) (tpnum : Nat) (s : SieveState G) : SieveState G :=
  let s1 : SieveState G :=
    if s.kernelq = 0 then
      { s with launchEvent := some s.created, created := s.created + 1,
               queue := s.queue ++ [QueueEvent.enqueueEvent s.created],
               gpu := gpu.reduce tpnum s.gpu }
    else
      { s with queue := s.queue ++ [QueueEvent.enqueue], gpu := gpu.reduce tpnum s.gpu }
  if u32 (s1.kernelq + 1) = 100 then { waitOnEvent s1 with kernelq := 0 }
  else { s1 with kernelq := u32 (s1.kernelq + 1) }

/-- The loop `for(uint32_t i=0; i<st.tpcount; ++i)` inside `for(uint32_t j=0; j<3; ++j)`, from
index `i` on: the test primes of type `j` get `multiply` and `reduce` unless the cursor has
passed the target of the type. -/
def typePass {G : Type} (gpu : Gpu G) (cfg : SieveData) (j : Nat) :
    List testPrime → Nat → SieveState G → SieveState G
  | [], _, s => s
  | t :: rest, i, s =>
    if t.type ≠ j then typePass gpu cfg j rest (i + 1) s
    else if s.st.currp > cfg.typeTarget j then typePass gpu cfg j rest (i + 1) s
    else typePass gpu cfg j rest (i + 1) (submitReduce gpu i (multiply gpu cfg i j s))

/-- The effect of `getPrimes` other than its return value: below `0xFFFFFFFF` the call of
`get32bitprimes`, whose tables go to the device, otherwise `findWheelOffset` and the kernel
`getsegprps`. -/
def generate {G : Type} (gpu : Gpu G) (cfg : SieveData) (stop : Nat) (s : SieveState G) :
    Except SieveStop (SieveState G) :=
  if s.st.currp < 0xFFFFFFFF then
    match get32bitprimes 64 cfg.psize stop cfg.tpcnt cfg.typeTarget s.host s.st.totalcount with
    | none => .error SieveStop.loopFuel
    | some seg =>
      .ok { s with host := seg.host, pcount32 := seg.pcount32,
                   st := { s.st with totalcount := seg.totalcount },
                   gpu := ([0, 1, 2].foldl (fun g t =>
                     match seg.tables t with
                     | none => g
                     | some table => gpu.writeTable32 t table g) s.gpu) }
  else
    match findWheelOffset 8 s.st.currp with
    | none => .error SieveStop.loopFuel
    | some (kernel_start, wheelidx) =>
      .ok { s with gpu := gpu.getsegprps kernel_start stop wheelidx s.gpu }

/-- The loop `for(uint32_t j=0; j<3; ++j)` of the main loop: the three passes over `tp`. -/
def multiplyAll {G : Type} (gpu : Gpu G) (cfg : SieveData) (s : SieveState G) : SieveState G :=
  typePass gpu cfg 2 cfg.tp 0 (typePass gpu cfg 1 cfg.tp 0 (typePass gpu cfg 0 cfg.tp 0 s))

/-- The end of an iteration of the main loop: the kernel `clearn`, then `st.currp = stop`. -/
def advance {G : Type} (gpu : Gpu G) (stop : Nat) (s : SieveState G) : SieveState G :=
  { s with gpu := gpu.clearn s.gpu, st := { s.st with currp := stop },
           iterations := s.iterations + 1 }

/-- One iteration of the main loop `while(st.currp <= sd.maxtarget)`. -/
def sieveStep {G : Type} (gpu : Gpu G) (cfg : SieveData) (tick : Tick) (s : SieveState G) :
    Except SieveStop (SieveState G) :=
  match (if tick.ckptDue then checkpointBlock gpu cfg tick s else .ok s) with
  | .error e => .error e
  | .ok s1 =>
    match generate gpu cfg (getPrimes cfg.range cfg.maxtarget s1.st.currp) s1 with
    | .error e => .error e
    | .ok s2 =>
      .ok (advance gpu (getPrimes cfg.range cfg.maxtarget s1.st.currp) (multiplyAll gpu cfg s2))

/-- The main loop `while(st.currp <= sd.maxtarget)`, for at most `n` iterations: the state in
which the loop ended, or the state after `n` iterations; `ticks k` is what the environment
decides in iteration `k`. -/
def sieveLoop {G : Type} (gpu : Gpu G) (cfg : SieveData) (ticks : Nat → Tick) :
    Nat → SieveState G → Except SieveStop (SieveState G)
  | 0, s => .ok s
  | n + 1, s =>
    if s.st.currp ≤ cfg.maxtarget then
      match sieveStep gpu cfg (ticks s.iterations) s with
      | .error e => .error e
      | .ok s1 => sieveLoop gpu cfg ticks n s1
    else .ok s

/-- The loop `for(startTp = 0; startTp < st.tpcount; startTp += itergroups)` after the main
loop, which enqueues the kernel `iterate` for each batch of test primes. -/
def iterateAll {G : Type} (gpu : Gpu G) (itergroups tpcount : Nat) (g : G) : G :=
  (List.range ((tpcount + itergroups - 1) / itergroups)).foldl
    (fun g k => gpu.iterate (k * itergroups) tpcount g) g

/-- The part of `cl_sieve` after the main loop, up to the last checkpoint: the queue is drained,
the `iterate` kernels run, the data are read from the device (`getResults` and `finalizeResults`
then work on `residues`), `st.done = 1`, and the checkpoint is written. -/
def sieveFinish {G : Type} (gpu : Gpu G) (cfg : SieveData) (itergroups : Nat) (tick : Tick)
    (s : SieveState G) : Except SieveStop (SieveState G) :=
  match getDataFromGPU gpu cfg.psize
      { drainQueue s with gpu := iterateAll gpu itergroups s.st.tpcount (drainQueue s).gpu } with
  | .error e => .error e
  | .ok s1 => .ok (checkpoint tick { s1 with st := { s1.st with done := 1 } })

/-- The state in which `cl_sieve` enters the main loop: `st`, the flag and the residues as the
start-up left them, `kernelq = 0`, `launchEvent = NULL`, an empty log, and the host arrays of
the 32-bit path freshly allocated with the iterator at `st.currp`. -/
def sieveStart {G : Type} (st : workStatus) (write_state_a_next : Bool) (store : Store)
    (residues : List cl_ulong2) (smprime0 : Nat → Nat) (smpower0 : Nat → Nat × Nat) (g : G) :
    SieveState G :=
  { st := st, write_state_a_next := write_state_a_next, store := store, residues := residues,
    host := freshHost st.currp smprime0 smpower0, pcount32 := fun _ => 0, kernelq := 0,
    launchEvent := none, created := 0, queue := [], gpu := g, iterations := 0 }

/-- The number from which on `primesieve_next_prime` looks for the next prime. -/
def iterPos : primesieve_iterator → Nat
  | .jumped start => start
  | .on q => q + 1

/-- The configuration of a scan that advances: `sd.range` (a `uint32_t`) is at least 1, and
`sd.maxtarget` is the largest of the three targets and below `2^63` (a target is `(p-1)/n` for a
`uint64_t` prime `p` and `n >= 2`). -/
def SieveData.wf (cfg : SieveData) : Prop :=
  1 ≤ cfg.range ∧ cfg.range < 2 ^ 32 ∧ cfg.maxtarget < 2 ^ 63 ∧
  cfg.maxtarget = maxtargetOf cfg.typeTarget

/-- The function `setupSearch`: the cursor is set to 2 and the range is checked; `none` stands
for `exit(EXIT_FAILURE)`. -/
def setupSearch (st : workStatus) : Option workStatus :=
  if st.pmin = 0 ∨ st.pmax = 0 then none
  else if st.pmin > st.pmax then none
  else if st.pmax > u64 (st.pmin + 10000000) then none
  else some { st with currp := 2 }

/-- A device on which nothing happens, for examples of the host side. -/
def idleGpu : Gpu Unit :=
  { clearresult := fun g => g, clearn := fun g => g, setup := fun _ g => g,
    writeResidues := fun _ g => g, getsegprps := fun _ _ _ g => g,
    writeTable32 := fun _ _ g => g, mulsmall := fun _ _ _ g => g,
    mullarge := fun _ _ _ _ g => g, reduce := fun _ g => g, iterate := fun _ _ g => g,
    readResidues := fun _ => [], readPrimecount := fun _ _ => 0, readTotalcount := fun _ => 0 }

/-- The configuration of the run on `[101, 102)` with `sd.range = 23`: one test prime of type 1
with the target 25. -/
def cfg101 : SieveData :=
  { range := 23, psize := 100, maxtarget := 25, typeTarget := targetsOf101,
    powerLimit := fun t => if t = 1 then 12 else 0, tpcnt := tpcntTypeOne,
    tp := [{ p := 101, pTarget := 25, type := 1 }] }

/-- The `workStatus` of the run on `[101, 102)` after `setupSearch`. -/
def st101 : workStatus :=
  { pmin := 101, pmax := 102, currp := 2, trickle := 0, state_sum := 0, totalcount := 0,
    tpcount := 1, done := 0 }

/-- An environment in which no checkpoint becomes due. -/
def noCheckpoint : Nat → Tick := fun _ => ⟨false, none, ⟨true, none, none, true⟩⟩

/-- An environment in which a checkpoint is due in every iteration and every write succeeds. -/
def alwaysCheckpoint : Nat → Tick := fun _ => ⟨true, none, ⟨true, none, none, true⟩⟩

/-- The state in which the run on `[101, 102)` enters the main loop, on the idle device. -/
def start101 : SieveState Unit :=
  sieveStart st101 true ⟨none, none⟩ [⟨0, 0⟩] (fun _ => 0) (fun _ => (0, 0)) ()

/-- Replay of a log of the command queue from the state `(created, outstanding)`: the number of
completion events created so far and the events that were created and not yet waited for. The
replay fails (`none`) when the events are not numbered in the order of their creation, or when
`waitOnEvent` is called with `NULL` or with an event that is not outstanding. -/
def queueReplay : List QueueEvent → Nat × List Nat → Option (Nat × List Nat)
  | [], r => some r
  | QueueEvent.enqueueEvent e :: rest, r =>
    if e = r.1 then queueReplay rest (r.1 + 1, r.2 ++ [e]) else none
  | QueueEvent.enqueue :: rest, r => queueReplay rest r
  | QueueEvent.wait none :: _, _ => none
  | QueueEvent.wait (some e) :: rest, r =>
    if e ∈ r.2 then queueReplay rest (r.1, r.2.erase e) else none

/-- The invariant of the throttle between two steps of the main loop: `kernelq < maxq = 100`;
the log replays; no event is outstanding when `kernelq = 0`; otherwise exactly the event in
`launchEvent` is, the last one created. -/
def QueueInv {G : Type} (s : SieveState G) : Prop :=
  s.kernelq < 100 ∧
  (s.kernelq = 0 → queueReplay s.queue (0, []) = some (s.created, [])) ∧
  (s.kernelq ≠ 0 → ∃ e, s.launchEvent = some e ∧ s.created = e + 1 ∧
    queueReplay s.queue (0, []) = some (s.created, [e]))

/-- The state in which the run on `[101, 102)` with `sd.range = 23` leaves the main loop, on
the idle device and without checkpoints. -/
def final101 : SieveState Unit :=
  match sieveLoop idleGpu cfg101 noCheckpoint 24 start101 with
  | .ok s => s
  | .error _ => start101

/-- A state of the run on `[101, 102)` in which 99 `reduce` kernels are in flight behind the
event 0. -/
def queued99 : SieveState Unit :=
  { start101 with kernelq := 99, launchEvent := some 0, created := 1,
                  queue := [QueueEvent.enqueueEvent 0] }

/-- Every window of the scan from `currp = 2` holds at most `sd.psize` primes, the capacity of
the host array `smprime`; window `k` starts at `2 + k * sd.range`. -/
def WindowsFit (cfg : SieveData) : Prop :=
  ∀ k, 2 + k * cfg.range ≤ cfg.maxtarget →
    (primesieve_generate_primes (2 + k * cfg.range)
      (getPrimes cfg.range cfg.maxtarget (2 + k * cfg.range) - 1)).length ≤ cfg.psize

/-- The state of the reference device: the residue of each test prime as a number below `p^2`,
the partial product that the last multiply kernel left, and the table buffers of the three
types. -/
structure RefGpuState where
  residues : List Nat
  grptotal : Nat
  tables : Nat → List (Nat × (Nat × Nat))

/-- Modelled from the spec: the kernels of the 32-bit path, which are not part of the host
sources. `setup` with `resume = 0` starts every residue at 1 and keeps the loaded residues
otherwise; `mulsmall` forms, modulo `p^2` of test prime `tpnum`, the product of the powers
`prime^power` over the first `pcount32` entries of the table of the type; `reduce` multiplies
the residue of the test prime by that product; `iterate` takes the residue of each test prime
of its batch from the factorial of the type target to that of its own target. A residue `r`
is read back as the halves `(r mod p, r / p)`. The kernels of the 64-bit path (`getsegprps`,
`mullarge`) and the device counters are left out: the counters read as zero. -/
def refGpu (tp : List testPrime) (typeTarget : Nat → Nat) (itergroups : Nat) :
    Gpu RefGpuState :=
  { clearresult := fun g => g
    clearn := fun g => g
    setup := fun resume g => if resume = 0 then { g with residues := tp.map (fun _ => 1) } else g
    writeResidues := fun rs g =>
      { g with residues := ((tp.zip rs).map (fun x => x.1.p * x.2.s1 + x.2.s0)) }
    getsegprps := fun _ _ _ g => g
    writeTable32 := fun t table g => { g with tables := (Function.update g.tables t table) }
    mulsmall := fun tpnum type n g =>
      { g with grptotal := (((((g.tables type).take n).map (fun e => e.1 ^ e.2.1)).prod)
          % ((tp.getD tpnum ⟨1, 0, 0⟩).p * (tp.getD tpnum ⟨1, 0, 0⟩).p)) }
    mullarge := fun _ _ _ _ g => g
    reduce := fun tpnum g =>
      { g with residues := (g.residues.set tpnum
          ((g.residues.getD tpnum 0 * g.grptotal)
            % ((tp.getD tpnum ⟨1, 0, 0⟩).p * (tp.getD tpnum ⟨1, 0, 0⟩).p))) }
    iterate := fun startTp tpcount g =>
      { g with residues := ((List.range g.residues.length).map (fun i =>
          if startTp ≤ i ∧ i < startTp + itergroups ∧ i < tpcount then
            (g.residues.getD i 0
              * ((List.range ((tp.getD i ⟨1, 0, 0⟩).pTarget
                    - typeTarget (tp.getD i ⟨1, 0, 0⟩).type)).map
                  (fun k => typeTarget (tp.getD i ⟨1, 0, 0⟩).type + 1 + k)).prod)
              % ((tp.getD i ⟨1, 0, 0⟩).p * (tp.getD i ⟨1, 0, 0⟩).p)
          else g.residues.getD i 0)) }
    readResidues := fun g => (tp.zip g.residues).map (fun x => ⟨x.2 % x.1.p, x.2 / x.1.p⟩)
    readPrimecount := fun _ _ => 0
    readTotalcount := fun _ => 0 }

/-- The reference device before `cl_sieve` starts its kernels. -/
def refGpuInit : RefGpuState := { residues := [], grptotal := 1, tables := fun _ => [] }

/-- The state in which `cl_sieve` enters the main loop after the start-up returned `resume`,
`st` and `residues`: on a resume the residues are written to the device; the host arrays are
allocated (contents `smprime0`, `smpower0`) with the iterator at `st.currp`; the kernels
`clearresult` and `setup` run. -/
def sieveEnter {G : Type} (gpu : Gpu G) (resume : Nat) (write_state_a_next : Bool)
    (st : workStatus) (residues : List cl_ulong2) (store : Store) (smprime0 : Nat → Nat)
    (smpower0 : Nat → Nat × Nat) (g0 : G) : SieveState G :=
  sieveStart st write_state_a_next store residues smprime0 smpower0
    (gpu.setup resume (gpu.clearresult (if resume = 1 then gpu.writeResidues residues g0 else g0)))

/-- The start of `cl_sieve` in a run that is not a test, from the checkpoint files in `store`:
`read_state` decides between a resume and a cold start; `none` when the run ends here. -/
def sieveBoot {G : Type} (gpu : Gpu G) (st : workStatus) (store : Store) (now : Nat)
    (smprime0 : Nat → Nat) (smpower0 : Nat → Nat × Nat) (g0 : G) : Option (SieveState G) :=
  match cl_sieve_startup false true st (List.replicate st.tpcount ⟨0, 0⟩) store true now with
  | .mainLoop resume flag st1 residues =>
    some (sieveEnter gpu resume flag st1 residues store smprime0 smpower0 g0)
  | _ => none

/-- The loop `for(j=0; j<st.tpcount; ++j) processResult(tp[j].p, residues[j].s0, residues[j].s1,
tp[j].type, ...)` of `getResults` on the residues read from the device. -/
def getResults (dev : Device) (prps : List Nat) (tp : List testPrime)
    (residues : List cl_ulong2) (sd : searchData) :
    Except Fatal (searchData × List ResultLine) :=
  processAll dev prps ((tp.zip residues).map (fun x => (x.1, x.2.s0, x.2.s1))) sd []

/-- The end of a run of `cl_sieve` from a state of the main loop: the rest of the loop (at most
`fuel` iterations), the finalization, and `getResults` on the residues; `none` when the run
exits in `getDataFromGPU`. -/
def sieveRun {G : Type} (gpu : Gpu G) (cfg : SieveData) (ticks : Nat → Tick) (fuel : Nat)
    (dev : Device) (prps : List Nat) (sd : searchData) (s : SieveState G) :
    Option (Except Fatal (searchData × List ResultLine)) :=
  match sieveLoop gpu cfg ticks fuel s with
  | .error _ => none
  | .ok s1 =>
    match sieveFinish gpu cfg 10000 (ticks s1.iterations) s1 with
    | .error _ => none
    | .ok s2 => some (getResults dev prps cfg.tp s2.residues sd)

/-- What a run reports: the error of `processResult`, or the checksum, the result count and the
result lines. -/
def runOutcome (r : Option (Except Fatal (searchData × List ResultLine))) :
    Option (Fatal ⊕ (Nat × Nat × List ResultLine)) :=
  match r with
  | none => none
  | some (.error e) => some (.inl e)
  | some (.ok x) => some (.inr (x.1.checksum, x.1.resultcount, x.2))

/-- The `searchData` of the run on `[101, 102)` after the classification. -/
def sd101 : searchData :=
  match classifyLoop (searchData.init false) [101] with
  | .ok (sd, _) => sd
  | .error _ => searchData.init false

/-- An environment in which a checkpoint is due in iteration 1 only and every write succeeds. -/
def checkpointAtOne : Nat → Tick :=
  fun k => ⟨decide (k = 1), none, ⟨true, none, none, true⟩⟩

/-- The reference device for the run on `[101, 102)`. -/
def gpu101 : Gpu RefGpuState := refGpu cfg101.tp cfg101.typeTarget 10000

/-- The run on `[101, 102)` with `sd.range = 8` and `sd.psize = 3`: the windows `[2, 10)`,
`[10, 18)`, `[18, 26)` hold 4, 3 and 2 primes. -/
def cfg101lag : SieveData := { cfg101 with range := 8, psize := 3 }

/-- The run on `[101, 102)` on the reference device with a checkpoint in iteration 1, from a
cold start, cut off after two iterations: `none` when it does not get there. -/
def interrupted101 (cfg : SieveData) : Option (SieveState RefGpuState) :=
  match sieveBoot gpu101 st101 ⟨none, none⟩ 0 (fun _ => 0) (fun _ => (0, 0)) refGpuInit with
  | none => none
  | some s =>
    match sieveLoop gpu101 cfg checkpointAtOne 2 s with
    | .ok s1 => some s1
    | .error _ => none

/-- The outcome of the uninterrupted run on `[101, 102)` on the reference device with a
checkpoint in iteration 1. -/
def uninterrupted101 (cfg : SieveData) : Option (Fatal ⊕ (Nat × Nat × List ResultLine)) :=
  match sieveBoot gpu101 st101 ⟨none, none⟩ 0 (fun _ => 0) (fun _ => (0, 0)) refGpuInit with
  | none => none
  | some s => runOutcome (sieveRun gpu101 cfg checkpointAtOne 24 refDevice [] sd101 s)

/-- The outcome of the run on `[101, 102)` on the reference device that starts from the
checkpoint files which the interrupted run left, with host arrays of content `smprime0`. -/
def resumed101 (cfg : SieveData) (smprime0 : Nat → Nat) :
    Option (Fatal ⊕ (Nat × Nat × List ResultLine)) :=
  match interrupted101 cfg with
  | none => none
  | some s1 =>
    match sieveBoot gpu101 st101 s1.store 0 smprime0 (fun _ => (0, 0)) refGpuInit with
    | none => none
    | some s => runOutcome (sieveRun gpu101 cfg noCheckpoint 24 refDevice [] sd101 s)

/-! ## Harmonic sums and Fermat quotients (type 0) -/

/-- The harmonic sum `1 + 1/2 + ... + 1/n` modulo `p`. -/
def harm (p n : ℕ) : ZMod p := ∑ j in Finset.range n, ((j + 1 : ℕ) : ZMod p)⁻¹

/-- The sum of Lerch for the Fermat quotient of `a`: `∑ floor(a j / p) / (a j)` over
`j = 1, ..., p - 1`, modulo `p`. -/
def lerchSum (p a : ℕ) : ZMod p :=
  ∑ j in Finset.range (p - 1), ((a * (j + 1) / p : ℕ) : ZMod p) * ((a * (j + 1) : ℕ) : ZMod p)⁻¹

/-- The Jacobi-type sum `∑ teich x ^ a * teich (1 - x) ^ b` over the residues modulo `p`. -/
def jacobiT (p a b : ℕ) [Fact p.Prime] : ZMod (p ^ 2) :=
  ∑ x : ZMod p, teich x ^ a * teich (1 - x) ^ b

/-- The Eisenstein integers `re + im ω`, where `ω ^ 2 + ω + 1 = 0`. -/
@[ext]
structure Eis where
  re : ℤ
  im : ℤ
  deriving DecidableEq

/-- The zero of the Eisenstein integers. -/
instance Eis.instZero : Zero Eis := ⟨⟨0, 0⟩⟩

/-- The one of the Eisenstein integers. -/
instance Eis.instOne : One Eis := ⟨⟨1, 0⟩⟩

/-- The sum of two Eisenstein integers. -/
instance Eis.instAdd : Add Eis := ⟨fun z w => ⟨z.re + w.re, z.im + w.im⟩⟩

/-- The opposite of an Eisenstein integer. -/
instance Eis.instNeg : Neg Eis := ⟨fun z => ⟨-z.re, -z.im⟩⟩

/-- The product of two Eisenstein integers, with `ω ^ 2 = -1 - ω`. -/
instance Eis.instMul : Mul Eis :=
  ⟨fun z w => ⟨z.re * w.re - z.im * w.im, z.re * w.im + z.im * w.re - z.im * w.im⟩⟩

/-- The Eisenstein integers are a commutative ring. -/
instance Eis.instCommRing : CommRing Eis where
  add_assoc a b c := Eis.ext (add_assoc _ _ _) (add_assoc _ _ _)
  zero_add a := Eis.ext (zero_add _) (zero_add _)
  add_zero a := Eis.ext (add_zero _) (add_zero _)
  add_comm a b := Eis.ext (add_comm _ _) (add_comm _ _)
  neg_add_cancel a := Eis.ext (neg_add_cancel _) (neg_add_cancel _)
  nsmul := nsmulRec
  zsmul := zsmulRec
  natCast n := ⟨n, 0⟩
  natCast_zero := Eis.ext (by show ((0 : ℕ) : ℤ) = 0; simp) rfl
  natCast_succ n := Eis.ext (by show ((n + 1 : ℕ) : ℤ) = (n : ℤ) + 1; simp)
    (by show (0 : ℤ) = 0 + 0; simp)
  intCast n := ⟨n, 0⟩
  intCast_ofNat n := Eis.ext rfl rfl
  intCast_negSucc n := Eis.ext rfl (by show (0 : ℤ) = -0; simp)
  left_distrib a b c := Eis.ext
    (by
      show a.re * (b.re + c.re) - a.im * (b.im + c.im)
        = (a.re * b.re - a.im * b.im) + (a.re * c.re - a.im * c.im)
      ring)
    (by
      show a.re * (b.im + c.im) + a.im * (b.re + c.re) - a.im * (b.im + c.im)
        = (a.re * b.im + a.im * b.re - a.im * b.im) + (a.re * c.im + a.im * c.re - a.im * c.im)
      ring)
  right_distrib a b c := Eis.ext
    (by
      show (a.re + b.re) * c.re - (a.im + b.im) * c.im
        = (a.re * c.re - a.im * c.im) + (b.re * c.re - b.im * c.im)
      ring)
    (by
      show (a.re + b.re) * c.im + (a.im + b.im) * c.re - (a.im + b.im) * c.im
        = (a.re * c.im + a.im * c.re - a.im * c.im) + (b.re * c.im + b.im * c.re - b.im * c.im)
      ring)
  zero_mul a := Eis.ext
    (by show (0 : ℤ) * a.re - 0 * a.im = 0; ring)
    (by show (0 : ℤ) * a.im + 0 * a.re - 0 * a.im = 0; ring)
  mul_zero a := Eis.ext
    (by show a.re * (0 : ℤ) - a.im * 0 = 0; ring)
    (by show a.re * (0 : ℤ) + a.im * 0 - a.im * 0 = 0; ring)
  mul_assoc a b c := Eis.ext
    (by
      show (a.re * b.re - a.im * b.im) * c.re - (a.re * b.im + a.im * b.re - a.im * b.im) * c.im
        = a.re * (b.re * c.re - b.im * c.im) - a.im * (b.re * c.im + b.im * c.re - b.im * c.im)
      ring)
    (by
      show (a.re * b.re - a.im * b.im) * c.im + (a.re * b.im + a.im * b.re - a.im * b.im) * c.re
          - (a.re * b.im + a.im * b.re - a.im * b.im) * c.im
        = a.re * (b.re * c.im + b.im * c.re - b.im * c.im) + a.im * (b.re * c.re - b.im * c.im)
          - a.im * (b.re * c.im + b.im * c.re - b.im * c.im)
      ring)
  one_mul a := Eis.ext
    (by show (1 : ℤ) * a.re - 0 * a.im = a.re; ring)
    (by show (1 : ℤ) * a.im + 0 * a.re - 0 * a.im = a.im; ring)
  mul_one a := Eis.ext
    (by show a.re * (1 : ℤ) - a.im * 0 = a.re; ring)
    (by show a.re * (0 : ℤ) + a.im * 1 - a.im * 0 = a.im; ring)
  mul_comm a b := Eis.ext
    (by show a.re * b.re - a.im * b.im = b.re * a.re - b.im * a.im; ring)
    (by
      show a.re * b.im + a.im * b.re - a.im * b.im = b.re * a.im + b.im * a.re - b.im * a.im
      ring)

/-- The ring homomorphism from the Eisenstein integers to a commutative ring that sends `ω` to
a given root `r` of `r ^ 2 + r + 1`. -/
def Eis.lift {S : Type} [CommRing S] (r : S) (hr : r * r + r + 1 = 0) : Eis →+* S where
  toFun z := (z.re : S) + (z.im : S) * r
  map_one' := by
    show ((1 : ℤ) : S) + ((0 : ℤ) : S) * r = 1
    simp
  map_zero' := by
    show ((0 : ℤ) : S) + ((0 : ℤ) : S) * r = 0
    simp
  map_add' a b := by
    show ((a.re + b.re : ℤ) : S) + ((a.im + b.im : ℤ) : S) * r
      = ((a.re : S) + (a.im : S) * r) + ((b.re : S) + (b.im : S) * r)
    push_cast
    ring
  map_mul' a b := by
    show ((a.re * b.re - a.im * b.im : ℤ) : S)
        + ((a.re * b.im + a.im * b.re - a.im * b.im : ℤ) : S) * r
      = ((a.re : S) + (a.im : S) * r) * ((b.re : S) + (b.im : S) * r)
    push_cast
    linear_combination (-((a.im : S) * (b.im : S))) * hr

/-- The conjugate `re + im ω ^ 2` of an Eisenstein integer. -/
def Eis.conj (z : Eis) : Eis := ⟨z.re - z.im, -z.im⟩

/-- The sixth root of unity `1 + ω` of the Eisenstein integers, as a unit. -/
def eisZeta : Eisˣ :=
  ⟨⟨1, 1⟩, ⟨0, -1⟩, Eis.ext (by decide) (by decide), Eis.ext (by decide) (by decide)⟩

/-! # Theorems -/

/-! ## Machine-integer helpers -/

theorem u64_of_lt {n : Nat} (h : n < 2 ^ 64) : u64 n = n := Nat.mod_eq_of_lt h

theorem u32_of_lt {n : Nat} (h : n < 2 ^ 32) : u32 n = n := Nat.mod_eq_of_lt h

theorem u64_pred {p : Nat} (h1 : 1 ≤ p) (h : p < 2 ^ 64) : u64 (p + 2 ^ 64 - 1) = p - 1 := by
  unfold u64; omega

theorem u64_sub {p q : Nat} (hq : q ≤ p) (h : p < 2 ^ 64) : u64 (p + 2 ^ 64 - q) = p - q := by
  unfold u64; omega

theorem toInt32_small {n : Nat} (h : n < 2 ^ 31) : toInt32 n = (n : Int) := by
  unfold toInt32
  have h1 : n % 2 ^ 32 = n := Nat.mod_eq_of_lt (by omega)
  rw [h1, if_pos h]

theorem negInt32_small {n : Nat} (h : n < 2 ^ 31) : negInt32 (n : Int) = -(n : Int) := by
  unfold negInt32
  rw [if_neg]
  omega

/-! ## GMP primitives -/

theorem powmLoop_spec (m : Int) : ∀ (fuel : Nat) (b : Int) (e : Nat) (acc : Int), e ≤ fuel →
    powmLoop fuel b e m acc ≡ acc * b ^ e [ZMOD m] := by
  intro fuel
  induction fuel with
  | zero =>
    intro b e acc he
    have : e = 0 := by omega
    subst this
    simp [powmLoop]
  | succ fuel ih =>
    intro b e acc he
    unfold powmLoop
    by_cases h0 : e = 0
    · rw [if_pos h0, h0, pow_zero, mul_one]
    · rw [if_neg h0]
      have hb : b * b % m ≡ b * b [ZMOD m] := Int.mod_modEq _ _
      have hrec := ih (b * b % m) (e / 2) (if e % 2 = 1 then acc * b % m else acc) (by omega)
      refine hrec.trans ?_
      have hpow : (b * b % m) ^ (e / 2) ≡ (b * b) ^ (e / 2) [ZMOD m] := Int.ModEq.pow _ hb
      by_cases h1 : e % 2 = 1
      · rw [if_pos h1]
        have he2 : e = 2 * (e / 2) + 1 := by omega
        have : acc * b ^ e = (acc * b) * (b * b) ^ (e / 2) := by
          conv_lhs => rw [he2]
          rw [pow_succ, pow_mul]
          ring
        rw [this]
        exact Int.ModEq.mul (Int.mod_modEq _ _) hpow
      · rw [if_neg h1]
        have he2 : e = 2 * (e / 2) := by omega
        have : acc * b ^ e = acc * (b * b) ^ (e / 2) := by
          conv_lhs => rw [he2]
          rw [pow_mul]
          ring
        rw [this]
        exact Int.ModEq.mul_left _ hpow

/-- The value of `mpz_powm` is `base ^ exp` reduced modulo `mod`. -/
theorem mpz_powm_eq (base : Int) (exp mod : Nat) :
    mpz_powm base exp mod = base ^ exp % (mod : Int) := by
  unfold mpz_powm
  have := powmLoop_spec (mod : Int) exp base exp 1 (le_refl _)
  rw [one_mul] at this
  exact this

/-- Invariant of the extended Euclidean loop: the first component is the gcd and is congruent to
the cofactor times `a`. -/
theorem invertLoop_spec (m : Nat) (a : Int) :
    ∀ (fuel r0 r1 : Nat) (s0 s1 : Int), r1 < fuel →
      (r0 : Int) ≡ s0 * a [ZMOD (m : Int)] → (r1 : Int) ≡ s1 * a [ZMOD (m : Int)] →
      (invertLoop fuel r0 r1 s0 s1).1 = Nat.gcd r0 r1 ∧
      ((invertLoop fuel r0 r1 s0 s1).1 : Int) ≡ (invertLoop fuel r0 r1 s0 s1).2 * a
        [ZMOD (m : Int)] := by
  intro fuel
  induction fuel with
  | zero => intro r0 r1 s0 s1 h; omega
  | succ fuel ih =>
    intro r0 r1 s0 s1 hlt h0 h1
    unfold invertLoop
    by_cases hz : r1 = 0
    · rw [if_pos hz]
      subst hz
      exact ⟨(Nat.gcd_zero_right r0).symm, h0⟩
    · rw [if_neg hz]
      have hmod : r0 % r1 < fuel := by
        have := Nat.mod_lt r0 (Nat.pos_of_ne_zero hz)
        omega
      have hinv : ((r0 % r1 : Nat) : Int) ≡ (s0 - ((r0 / r1 : Nat) : Int) * s1) * a
          [ZMOD (m : Int)] := by
        have e : ((r0 % r1 : Nat) : Int) = (r0 : Int) - ((r0 / r1 : Nat) : Int) * (r1 : Int) := by
          have := Nat.div_add_mod r0 r1
          push_cast
          have h2 : (r0 : Int) = (r1 : Int) * ((r0 : Int) / (r1 : Int)) + (r0 : Int) % (r1 : Int) := by
            exact (Int.ediv_add_emod _ _).symm
          linarith
        rw [e, sub_mul, mul_assoc]
        exact Int.ModEq.sub h0 (Int.ModEq.mul_left _ h1)
      obtain ⟨hg, hc⟩ := ih r1 (r0 % r1) s1 (s0 - ((r0 / r1 : Nat) : Int) * s1) hmod h1 hinv
      refine ⟨?_, hc⟩
      rw [hg, Nat.gcd_comm r0 r1, Nat.gcd_rec r1 r0, Nat.gcd_comm]


theorem mpz_invert_some {m : Nat} (hm : 0 < m) {a : Int} {x : Nat} (h : mpz_invert a m = some x) :
    x < m ∧ (x : Int) * a ≡ 1 [ZMOD (m : Int)] := by
  have hm0 : (m : Int) ≠ 0 := by omega
  have ha0 : 0 ≤ a % (m : Int) := Int.emod_nonneg _ hm0
  have hcast : (((a % (m : Int)).toNat : Nat) : Int) = a % (m : Int) := Int.toNat_of_nonneg ha0
  have halt : a % (m : Int) < m := Int.emod_lt_of_pos _ (by omega)
  obtain ⟨_, hc⟩ := invertLoop_spec m a (m + 1) m (a % (m : Int)).toNat 0 1 (by omega)
    (by
      rw [zero_mul]
      exact (Int.modEq_zero_iff_dvd).2 (dvd_refl _))
    (by
      rw [hcast, one_mul]
      exact Int.mod_modEq _ _)
  unfold mpz_invert at h
  simp only at h
  split at h
  · rename_i h1
    have hx : x = ((invertLoop (m + 1) m (a % (m : Int)).toNat 0 1).2 % (m : Int)).toNat :=
      (Option.some.inj h).symm
    have hx0 : 0 ≤ (invertLoop (m + 1) m (a % (m : Int)).toNat 0 1).2 % (m : Int) :=
      Int.emod_nonneg _ hm0
    have hxlt : (invertLoop (m + 1) m (a % (m : Int)).toNat 0 1).2 % (m : Int) < m :=
      Int.emod_lt_of_pos _ (by omega)
    have hxc : (x : Int) = (invertLoop (m + 1) m (a % (m : Int)).toNat 0 1).2 % (m : Int) := by
      rw [hx]; exact Int.toNat_of_nonneg hx0
    refine ⟨by omega, ?_⟩
    rw [h1] at hc
    rw [hxc]
    exact ((Int.mod_modEq _ _).mul_right a).trans hc.symm
  · exact absurd h (by simp)

theorem mpz_invert_none {m : Nat} (hm : 0 < m) {a : Int} (h : mpz_invert a m = none) (y : Int) :
    ¬ (y * a ≡ 1 [ZMOD (m : Int)]) := by
  have hm0 : (m : Int) ≠ 0 := by omega
  have ha0 : 0 ≤ a % (m : Int) := Int.emod_nonneg _ hm0
  have hcast : (((a % (m : Int)).toNat : Nat) : Int) = a % (m : Int) := Int.toNat_of_nonneg ha0
  obtain ⟨hg, _⟩ := invertLoop_spec m a (m + 1) m (a % (m : Int)).toNat 0 1
    (by
      have : a % (m : Int) < m := Int.emod_lt_of_pos _ (by omega)
      omega)
    (by
      rw [zero_mul]
      exact (Int.modEq_zero_iff_dvd).2 (dvd_refl _))
    (by
      rw [hcast, one_mul]
      exact Int.mod_modEq _ _)
  unfold mpz_invert at h
  simp only at h
  split at h
  · exact absurd h (by simp)
  · rename_i h1
    rw [hg] at h1
    intro hy
    apply h1
    have hgm : ((Nat.gcd m (a % (m : Int)).toNat : Nat) : Int) ∣ (m : Int) :=
      Int.natCast_dvd_natCast.2 (Nat.gcd_dvd_left _ _)
    have hga0 : ((Nat.gcd m (a % (m : Int)).toNat : Nat) : Int) ∣ a % (m : Int) := by
      rw [← hcast]
      exact Int.natCast_dvd_natCast.2 (Nat.gcd_dvd_right _ _)
    have hga : ((Nat.gcd m (a % (m : Int)).toNat : Nat) : Int) ∣ a := by
      have e : (m : Int) * (a / (m : Int)) + a % (m : Int) = a := Int.ediv_add_emod _ _
      have h2 := Dvd.dvd.add (Dvd.dvd.mul_right hgm (a / (m : Int))) hga0
      rwa [e] at h2
    have hd : (m : Int) ∣ 1 - y * a := Int.ModEq.dvd hy
    have h1' : ((Nat.gcd m (a % (m : Int)).toNat : Nat) : Int) ∣ 1 := by
      have e : (1 - y * a) + y * a = (1 : Int) := by ring
      have h2 := Dvd.dvd.add (Dvd.dvd.trans hgm hd) (Dvd.dvd.mul_left hga y)
      rwa [e] at h2
    have := Int.natCast_dvd_natCast.1 (by simpa using h1')
    exact Nat.dvd_one.1 this

/-- The value of `mpz_invert` is the inverse in `ZMod m`. -/
theorem mpz_invert_zmod {m : Nat} (hm : 0 < m) {a : Int} {x : Nat}
    (h : mpz_invert a m = some x) : (x : ZMod m) = ((a : ZMod m))⁻¹ := by
  obtain ⟨_, hc⟩ := mpz_invert_some hm h
  have e : ((a : ZMod m)) * (x : ZMod m) = 1 := by
    have := (ZMod.intCast_eq_intCast_iff _ _ m).2 hc
    push_cast at this
    rw [mul_comm]
    exact this
  exact (ZMod.inv_eq_of_mul_eq_one m _ _ e).symm

theorem mulLoop_zmod (psq a : Nat) : ∀ (j residue : Nat),
    ((mulLoop psq a j residue : Nat) : ZMod psq) = (residue : ZMod psq) * (a : ZMod psq) ^ j := by
  intro j
  induction j with
  | zero => intro residue; simp [mulLoop]
  | succ j ih =>
    intro residue
    rw [mulLoop, ih, ZMod.natCast_mod, pow_succ]
    push_cast
    ring

/-- A number coprime to `m` has an inverse, so `mpz_invert` finds one. -/
theorem mpz_invert_of_coprime {m : Nat} (hm : 0 < m) {q : Nat} (h : Nat.Coprime q m) :
    ∃ x, mpz_invert (q : Int) m = some x := by
  cases hx : mpz_invert (q : Int) m with
  | some x => exact ⟨x, rfl⟩
  | none =>
    exfalso
    have hb := Int.gcd_eq_gcd_ab (q : Int) (m : Int)
    have hg : Int.gcd (q : Int) (m : Int) = 1 := by
      rw [Int.gcd_natCast_natCast]; exact h
    rw [hg] at hb
    apply mpz_invert_none hm hx (Int.gcdA q m)
    apply Int.ModEq.symm
    rw [Int.modEq_iff_dvd]
    exact ⟨-(Int.gcdB q m), by push_cast at hb; linarith⟩

/-- A number with a common factor with `m > 1` has no inverse. -/
theorem mpz_invert_of_not_coprime {m : Nat} (hm : 0 < m) {q : Nat} (h : ¬ Nat.Coprime q m) :
    mpz_invert (q : Int) m = none := by
  cases hx : mpz_invert (q : Int) m with
  | none => rfl
  | some x =>
    exfalso
    apply h
    obtain ⟨_, hc⟩ := mpz_invert_some hm hx
    have hd : (m : Int) ∣ 1 - (x : Int) * q := Int.ModEq.dvd hc
    have hgq : ((Nat.gcd q m : Nat) : Int) ∣ (q : Int) := Int.natCast_dvd_natCast.2 (Nat.gcd_dvd_left _ _)
    have hgm : ((Nat.gcd q m : Nat) : Int) ∣ (m : Int) := Int.natCast_dvd_natCast.2 (Nat.gcd_dvd_right _ _)
    have e : (1 - (x : Int) * q) + (x : Int) * q = (1 : Int) := by ring
    have h2 := Dvd.dvd.add (Dvd.dvd.trans hgm hd) (Dvd.dvd.mul_left hgq x)
    rw [e] at h2
    have := Int.natCast_dvd_natCast.1 (by simpa using h2)
    exact Nat.dvd_one.1 this

/-- The entries of the table that the loop of step 1 visits: those before the first entry
greater than `target`. -/
theorem removePrps_ok (p psq target : Nat) (hpsq : 0 < psq) :
    ∀ (l : List Nat) (i residue : Nat),
      (∀ q ∈ l.takeWhile (fun q => decide (q ≤ target)), Nat.Coprime q psq) →
      ∃ res, removePrps p psq target l i residue
          = .ok (res, i + (l.takeWhile (fun q => decide (q ≤ target))).length) ∧
        (res : ZMod psq) = (residue : ZMod psq) *
          ((l.takeWhile (fun q => decide (q ≤ target))).map
            (fun q : Nat => ((q : ZMod psq))⁻¹ ^ u32 (target / q))).prod := by
  intro l
  induction l with
  | nil => intro i residue _; exact ⟨residue, rfl, by simp⟩
  | cons q rest ih =>
    intro i residue hall
    by_cases hq : q ≤ target
    · have htw : (q :: rest).takeWhile (fun q => decide (q ≤ target))
          = q :: rest.takeWhile (fun q => decide (q ≤ target)) := by
        simp [List.takeWhile, hq]
      rw [htw] at hall ⊢
      obtain ⟨x, hx⟩ := mpz_invert_of_coprime hpsq (hall q (List.mem_cons_self _ _))
      obtain ⟨res, hres, hz⟩ := ih (i + 1) (mulLoop psq x (u32 (target / q)) residue)
        (fun q' hq' => hall q' (List.mem_cons_of_mem _ hq'))
      refine ⟨res, ?_, ?_⟩
      · unfold removePrps
        rw [if_neg (by omega)]
        simp only [hx]
        rw [hres, List.length_cons]
        congr 2
        omega
      · rw [hz, mulLoop_zmod, mpz_invert_zmod hpsq hx, List.map_cons, List.prod_cons]
        push_cast
        ring
    · have htw : (q :: rest).takeWhile (fun q => decide (q ≤ target)) = [] := by
        simp [List.takeWhile, hq]
      rw [htw]
      refine ⟨residue, ?_, by simp⟩
      unfold removePrps
      rw [if_pos (by omega)]
      rfl

theorem removePrps_error (p psq target : Nat) (hpsq : 0 < psq) :
    ∀ (l : List Nat) (i residue : Nat),
      (∃ q ∈ l.takeWhile (fun q => decide (q ≤ target)), ¬ Nat.Coprime q psq) →
      ∃ q ∈ l.takeWhile (fun q => decide (q ≤ target)), ¬ Nat.Coprime q psq ∧
        removePrps p psq target l i residue = .error (Fatal.prpInverse q p) := by
  intro l
  induction l with
  | nil => intro i residue h; simp at h
  | cons q rest ih =>
    intro i residue hex
    by_cases hq : q ≤ target
    · have htw : (q :: rest).takeWhile (fun q => decide (q ≤ target))
          = q :: rest.takeWhile (fun q => decide (q ≤ target)) := by
        simp [List.takeWhile, hq]
      rw [htw] at hex ⊢
      by_cases hc : Nat.Coprime q psq
      · obtain ⟨x, hx⟩ := mpz_invert_of_coprime hpsq hc
        have hex' : ∃ q' ∈ rest.takeWhile (fun q => decide (q ≤ target)), ¬ Nat.Coprime q' psq := by
          obtain ⟨q', hq', hn⟩ := hex
          rcases List.mem_cons.1 hq' with h | h
          · exact absurd (h ▸ hc) hn
          · exact ⟨q', h, hn⟩
        obtain ⟨q', hq', hn, he⟩ := ih (i + 1) (mulLoop psq x (u32 (target / q)) residue) hex'
        refine ⟨q', List.mem_cons_of_mem _ hq', hn, ?_⟩
        unfold removePrps
        rw [if_neg (by omega)]
        simp only [hx]
        exact he
      · refine ⟨q, List.mem_cons_self _ _, hc, ?_⟩
        unfold removePrps
        rw [if_neg (by omega)]
        simp only [mpz_invert_of_not_coprime hpsq hc]
    · have htw : (q :: rest).takeWhile (fun q => decide (q ≤ target)) = [] := by
        simp [List.takeWhile, hq]
      rw [htw] at hex
      simp at hex

/-- On an ascending table the visited entries are all the entries up to `target`. -/
theorem takeWhile_le_eq_filter (target : Nat) :
    ∀ l : List Nat, List.Sorted (· ≤ ·) l →
      l.takeWhile (fun q => decide (q ≤ target)) = l.filter (fun q => decide (q ≤ target)) := by
  intro l
  induction l with
  | nil => intro _; rfl
  | cons q rest ih =>
    intro hs
    have hs' := List.sorted_cons.1 hs
    by_cases hq : q ≤ target
    · simp only [List.takeWhile, List.filter, hq, decide_True]
      rw [ih hs'.2]
    · simp only [List.takeWhile, List.filter, hq, decide_False]
      symm
      rw [List.filter_eq_nil_iff]
      intro a ha
      have := hs'.1 a ha
      simp only [decide_eq_true_eq]
      omega

/-! ## Square roots and the search for representations -/

theorem isqrtLoop_spec (n : Nat) : ∀ (fuel lo hi : Nat), hi ≤ lo + fuel → lo < hi →
    lo * lo ≤ n → n < hi * hi →
    isqrtLoop n fuel lo hi * isqrtLoop n fuel lo hi ≤ n ∧
      n < (isqrtLoop n fuel lo hi + 1) * (isqrtLoop n fuel lo hi + 1) := by
  intro fuel
  induction fuel with
  | zero => intro lo hi h1 h2; omega
  | succ fuel ih =>
    intro lo hi h1 h2 hlo hhi
    unfold isqrtLoop
    by_cases hc : hi ≤ lo + 1
    · rw [if_pos hc]
      have : hi = lo + 1 := by omega
      subst this
      exact ⟨hlo, hhi⟩
    · rw [if_neg hc]
      by_cases hm : ((lo + hi) / 2) * ((lo + hi) / 2) ≤ n
      · rw [if_pos hm]
        exact ih _ _ (by omega) (by omega) hm hhi
      · rw [if_neg hm]
        exact ih _ _ (by omega) (by omega) hlo (by omega)

theorem isqrt_spec (n : Nat) : isqrt n * isqrt n ≤ n ∧ n < (isqrt n + 1) * (isqrt n + 1) := by
  unfold isqrt
  apply isqrtLoop_spec n (n + 1) 0 (n + 1) (by omega) (by omega) (by omega)
  nlinarith

theorem le_isqrt {a n : Nat} (h : a * a ≤ n) : a ≤ isqrt n := by
  have := (isqrt_spec n).2
  by_contra hc
  have h1 : isqrt n + 1 ≤ a := by omega
  have := Nat.mul_le_mul h1 h1
  omega

theorem isqrt_sq (a : Nat) : isqrt (a * a) = a := by
  have h1 := (isqrt_spec (a * a)).1
  have h2 : a ≤ isqrt (a * a) := le_isqrt (le_refl _)
  have h3 : isqrt (a * a) ≤ a := by
    by_contra hc
    have h4 : a + 1 ≤ isqrt (a * a) := by omega
    have := Nat.mul_le_mul h4 h4
    nlinarith
  omega

/-- Every solution is found by `reps`. -/
theorem mem_reps {k n : Nat} (hk : 0 < k) {x y : Int}
    (h : x * x + (k : Int) * (y * y) = (n : Int)) : x ∈ reps k n := by
  have hx : x * x = ((x.natAbs * x.natAbs : Nat) : Int) := by
    rw [Nat.cast_mul, Int.natAbs_mul_self' x]
  have hy : y * y = ((y.natAbs * y.natAbs : Nat) : Int) := by
    rw [Nat.cast_mul, Int.natAbs_mul_self' y]
  have hn : x.natAbs * x.natAbs + k * (y.natAbs * y.natAbs) = n := by
    rw [hx, hy] at h
    exact_mod_cast h
  have hyb : y.natAbs ≤ isqrt (n / k) := by
    apply le_isqrt
    rw [Nat.le_div_iff_mul_le hk]
    nlinarith
  have hm : n - k * (y.natAbs * y.natAbs) = x.natAbs * x.natAbs := by omega
  unfold reps
  rw [List.mem_flatMap]
  refine ⟨y.natAbs, List.mem_range.2 (by omega), ?_⟩
  rw [hm, isqrt_sq, if_pos rfl]
  rcases Int.natAbs_eq x with h1 | h1
  · rw [List.mem_cons]; left; exact h1
  · rw [List.mem_cons, List.mem_singleton]; right; exact h1

/-- Every member of `reps` is a solution. -/
theorem reps_sound {k n : Nat} {x : Int} (h : x ∈ reps k n) :
    ∃ y : Int, x * x + (k : Int) * (y * y) = (n : Int) := by
  unfold reps at h
  rw [List.mem_flatMap] at h
  obtain ⟨y, hy, hx⟩ := h
  have hyb := List.mem_range.1 hy
  split_ifs at hx with hsq
  · have hle : k * (y * y) ≤ n := by
      have h1 : y ≤ isqrt (n / k) := by omega
      have h2 := (isqrt_spec (n / k)).1
      have h3 : y * y ≤ n / k := le_trans (Nat.mul_le_mul h1 h1) h2
      calc k * (y * y) ≤ k * (n / k) := Nat.mul_le_mul_left _ h3
        _ ≤ n := Nat.mul_div_le _ _
    have hxx : x * x = ((isqrt (n - k * (y * y)) * isqrt (n - k * (y * y)) : Nat) : Int) := by
      rw [List.mem_cons, List.mem_singleton] at hx
      rcases hx with h1 | h1 <;> rw [h1] <;> push_cast <;> ring
    refine ⟨(y : Int), ?_⟩
    rw [hxx, hsq]
    push_cast [Nat.cast_sub hle]
    ring
  · simp at hx

/-! ## Classification of the test primes -/

/-- A prime at least 5 is odd and not a multiple of 3. -/
theorem prime_mod_two_three {p : Nat} (hp : p.Prime) (h5 : 5 ≤ p) : p % 2 = 1 ∧ p % 3 ≠ 0 := by
  constructor
  · by_contra hc
    have h2 : 2 ∣ p := by omega
    rcases Nat.Prime.eq_one_or_self_of_dvd hp 2 h2 with h | h <;> omega
  · intro hc
    have h3 : 3 ∣ p := by omega
    rcases Nat.Prime.eq_one_or_self_of_dvd hp 3 h3 with h | h <;> omega

/-- The residue of a prime at least 5 modulo 12. -/
theorem prime_mod_twelve {p : Nat} (hp : p.Prime) (h5 : 5 ≤ p) :
    p % 12 = 1 ∨ p % 12 = 5 ∨ p % 12 = 7 ∨ p % 12 = 11 := by
  have := prime_mod_two_three hp h5
  omega

/-- What one pass of the classification loop stores for a prime at least 5. -/
theorem setupTestPrime_prime (sd : searchData) (p : Nat) (hp : p.Prime) (h5 : 5 ≤ p) :
    ∃ sd1 t, setupTestPrime sd p = .ok (sd1, t) ∧ t.p = p ∧
      ((p % 3 = 1 ∧ t.type = 0 ∧ t.pTarget = u64 (p + 2 ^ 64 - 1) / 6) ∨
       (p % 12 = 5 ∧ t.type = 1 ∧ t.pTarget = u64 (p + 2 ^ 64 - 1) / 4) ∨
       (p % 12 = 11 ∧ t.type = 2 ∧ t.pTarget = u64 (p + 2 ^ 64 - 1) / 2)) := by
  have h12 := prime_mod_twelve hp h5
  unfold setupTestPrime
  by_cases h1 : p % 3 = 1
  · rw [if_pos h1]
    exact ⟨_, _, rfl, rfl, Or.inl ⟨h1, rfl, rfl⟩⟩
  · by_cases h2 : p % 12 = 5
    · rw [if_neg h1, if_pos h2]
      exact ⟨_, _, rfl, rfl, Or.inr (Or.inl ⟨h2, rfl, rfl⟩)⟩
    · have h3 : p % 12 = 11 := by omega
      rw [if_neg h1, if_neg h2, if_pos h3]
      exact ⟨_, _, rfl, rfl, Or.inr (Or.inr ⟨h3, rfl, rfl⟩)⟩

/-- C9: for every list of primes at least 5, each prime satisfies exactly one of
`p % 3 = 1`, `p % 12 = 5`, `p % 12 = 11`; the classification loop of `cl_sieve` does not reach its
error branch and gives each prime the one type 0, 1, 2 of the condition it satisfies, and that
type is written as a function of `p % 12` alone. -/
theorem C9_type_assignment_total_exclusive (sd : searchData) (tplist : List Nat)
    (h : ∀ p ∈ tplist, p.Prime ∧ 5 ≤ p) :
    (∀ p ∈ tplist, (p % 3 = 1 ∧ p % 12 ≠ 5 ∧ p % 12 ≠ 11) ∨
        (p % 3 ≠ 1 ∧ p % 12 = 5 ∧ p % 12 ≠ 11) ∨ (p % 3 ≠ 1 ∧ p % 12 ≠ 5 ∧ p % 12 = 11)) ∧
    ∃ sd1 ts, classifyLoop sd tplist = .ok (sd1, ts) ∧
      List.Forall₂ (fun p t => t.p = p ∧ t.type < 3 ∧
        (t.type = 0 ↔ p % 3 = 1) ∧ (t.type = 1 ↔ p % 12 = 5) ∧ (t.type = 2 ↔ p % 12 = 11) ∧
        t.type = (if p % 12 = 1 ∨ p % 12 = 7 then 0 else if p % 12 = 5 then 1 else 2))
        tplist ts := by
  constructor
  · intro p hp
    have := prime_mod_twelve (h p hp).1 (h p hp).2
    omega
  · induction tplist generalizing sd with
    | nil => exact ⟨sd, [], rfl, List.Forall₂.nil⟩
    | cons p rest ih =>
      have hp := h p (List.mem_cons_self _ _)
      have h12 := prime_mod_twelve hp.1 hp.2
      obtain ⟨sd1, t, he, htp, hty⟩ := setupTestPrime_prime sd p hp.1 hp.2
      obtain ⟨sd2, ts, hl, hf⟩ := ih sd1 (fun q hq => h q (List.mem_cons_of_mem _ hq))
      refine ⟨sd2, t :: ts, ?_, List.Forall₂.cons ⟨htp, ?_⟩ hf⟩
      · simp only [classifyLoop, he, hl]
      · rcases hty with ⟨hm, ht, _⟩ | ⟨hm, ht, _⟩ | ⟨hm, ht, _⟩
        · have hc : p % 12 = 1 ∨ p % 12 = 7 := by omega
          rw [ht, if_pos hc]
          refine ⟨by omega, ?_, ?_, ?_, rfl⟩
          · exact ⟨fun _ => hm, fun _ => rfl⟩
          · exact ⟨fun hh => by omega, fun hh => by omega⟩
          · exact ⟨fun hh => by omega, fun hh => by omega⟩
        · have hc : ¬ (p % 12 = 1 ∨ p % 12 = 7) := by omega
          rw [ht, if_neg hc, if_pos hm]
          refine ⟨by omega, ?_, ?_, ?_, rfl⟩
          · exact ⟨fun hh => by omega, fun hh => by omega⟩
          · exact ⟨fun _ => hm, fun _ => rfl⟩
          · exact ⟨fun hh => by omega, fun hh => by omega⟩
        · have hc : ¬ (p % 12 = 1 ∨ p % 12 = 7) := by omega
          have hc5 : ¬ (p % 12 = 5) := by omega
          rw [ht, if_neg hc, if_neg hc5]
          refine ⟨by omega, ?_, ?_, ?_, rfl⟩
          · exact ⟨fun hh => by omega, fun hh => by omega⟩
          · exact ⟨fun hh => by omega, fun hh => by omega⟩
          · exact ⟨fun _ => hm, fun _ => rfl⟩

/-- Witness of C9 on the test primes 5, 7, 11, 13, 563. -/
theorem C9_type_assignment_total_exclusive_witness :
    (∀ p ∈ [5, 7, 11, 13, 563], p.Prime ∧ 5 ≤ p) ∧
    ((∀ p ∈ [5, 7, 11, 13, 563], (p % 3 = 1 ∧ p % 12 ≠ 5 ∧ p % 12 ≠ 11) ∨
        (p % 3 ≠ 1 ∧ p % 12 = 5 ∧ p % 12 ≠ 11) ∨ (p % 3 ≠ 1 ∧ p % 12 ≠ 5 ∧ p % 12 = 11)) ∧
    ∃ sd1 ts, classifyLoop (searchData.init false) [5, 7, 11, 13, 563] = .ok (sd1, ts) ∧
      List.Forall₂ (fun p t => t.p = p ∧ t.type < 3 ∧
        (t.type = 0 ↔ p % 3 = 1) ∧ (t.type = 1 ↔ p % 12 = 5) ∧ (t.type = 2 ↔ p % 12 = 11) ∧
        t.type = (if p % 12 = 1 ∨ p % 12 = 7 then 0 else if p % 12 = 5 then 1 else 2))
        [5, 7, 11, 13, 563] ts) :=
  have hyp : ∀ p ∈ [5, 7, 11, 13, 563], p.Prime ∧ 5 ≤ p := by
    intro p hp
    simp only [List.mem_cons, List.mem_singleton, List.not_mem_nil, or_false] at hp
    rcases hp with rfl | rfl | rfl | rfl | rfl <;> exact ⟨by norm_num, by norm_num⟩
  ⟨hyp, C9_type_assignment_total_exclusive (searchData.init false) [5, 7, 11, 13, 563] hyp⟩

/-- C10: for every prime `p` at least 5 (a `uint64_t`), the classification stores a target
`pTarget` with `n * pTarget = p - 1` for the divisor `n = 6, 4, 2` of its type 0, 1, 2, so the
division `(p-1)/n` is exact, and `pTarget` is at least 1. -/
theorem C10_pTarget_exact (sd : searchData) (p : Nat) (hp : p.Prime) (h5 : 5 ≤ p)
    (h64 : p < 2 ^ 64) :
    ∃ sd1 t, setupTestPrime sd p = .ok (sd1, t) ∧ t.type < 3 ∧
      t.pTarget = (p - 1) / (if t.type = 0 then 6 else if t.type = 1 then 4 else 2) ∧
      (if t.type = 0 then 6 else if t.type = 1 then 4 else 2) * t.pTarget = p - 1 ∧
      1 ≤ t.pTarget := by
  have h23 := prime_mod_two_three hp h5
  obtain ⟨sd1, t, he, _, hty⟩ := setupTestPrime_prime sd p hp h5
  refine ⟨sd1, t, he, ?_⟩
  rw [u64_pred (by omega) h64] at hty
  rcases hty with ⟨hm, ht, hT⟩ | ⟨hm, ht, hT⟩ | ⟨hm, ht, hT⟩
  · rw [ht, hT, if_pos rfl]
    omega
  · rw [ht, hT, if_neg one_ne_zero, if_pos rfl]
    omega
  · rw [ht, hT, if_neg (by decide : ¬ (2 = 0)), if_neg (by decide : ¬ (2 = 1))]
    omega

/-- Witness of C10 at the Wilson prime 563 (type 2, target 281). -/
theorem C10_pTarget_exact_witness :
    (Nat.Prime 563 ∧ 5 ≤ 563 ∧ 563 < 2 ^ 64) ∧
    ∃ sd1 t, setupTestPrime (searchData.init false) 563 = .ok (sd1, t) ∧ t.type < 3 ∧
      t.pTarget = (563 - 1) / (if t.type = 0 then 6 else if t.type = 1 then 4 else 2) ∧
      (if t.type = 0 then 6 else if t.type = 1 then 4 else 2) * t.pTarget = 563 - 1 ∧
      1 ≤ t.pTarget :=
  ⟨⟨by norm_num, by norm_num, by norm_num⟩,
    C10_pTarget_exact (searchData.init false) 563 (by norm_num) (by norm_num) (by norm_num)⟩

/-! ## The Wilson check (steps 3 to 5 of `processResult`) -/

/-- Wilson: `p` divides `(p-1)! + 1`, over the integers. -/
theorem wilson_dvd {p : Nat} (hp : p.Prime) : (p : Int) ∣ (((p - 1).factorial : Nat) : Int) + 1 := by
  haveI := Fact.mk hp
  have h := ZMod.wilsons_lemma (p := p)
  rw [← ZMod.intCast_zmod_eq_zero_iff_dvd]
  push_cast
  rw [h]
  ring

theorem wilsonResidue_bounds {p : Nat} (hp : 0 < p) (value : Int) :
    0 ≤ (value + 1) % ((p * p : Nat) : Int) ∧
      (value + 1) % ((p * p : Nat) : Int) < ((p * p : Nat) : Int) := by
  have hpp : ((p * p : Nat) : Int) ≠ 0 := by
    have : 0 < p * p := Nat.mul_pos hp hp
    omega
  exact ⟨Int.emod_nonneg _ hpp, Int.emod_lt_of_pos _ (by omega)⟩

theorem wilsonRem_eq {p : Nat} (hp : 0 < p) (value : Int) :
    (wilsonRem p value : Int) = ((value + 1) % ((p * p : Nat) : Int)) % (p : Int) := by
  obtain ⟨h0, _⟩ := wilsonResidue_bounds hp value
  unfold wilsonRem
  rw [Int.tmod_eq_emod h0 (by omega)]
  rw [Int.natAbs_of_nonneg]
  exact Int.emod_nonneg _ (by omega)

theorem wilsonQuot_eq {p : Nat} (hp : 0 < p) (value : Int) :
    (wilsonQuot p value : Int) = ((value + 1) % ((p * p : Nat) : Int)) / (p : Int) := by
  obtain ⟨h0, _⟩ := wilsonResidue_bounds hp value
  unfold wilsonQuot
  rw [Int.tdiv_eq_ediv h0 (by omega)]
  rw [Int.natAbs_of_nonneg]
  exact Int.ediv_nonneg h0 (by omega)

theorem wilsonQuot_lt {p : Nat} (hp : 0 < p) (value : Int) : wilsonQuot p value < p := by
  obtain ⟨h0, h1⟩ := wilsonResidue_bounds hp value
  have h := wilsonQuot_eq hp value
  have : ((value + 1) % ((p * p : Nat) : Int)) / (p : Int) < p := by
    apply Int.ediv_lt_of_lt_mul (by omega)
    push_cast at h1 ⊢
    exact h1
  omega

theorem wilsonRem_eq_zero_of_modEq {p : Nat} (hp : p.Prime) (value : Int)
    (h : value ≡ (((p - 1).factorial : Nat) : Int) [ZMOD ((p * p : Nat) : Int)]) :
    wilsonRem p value = 0 := by
  have hpos := hp.pos
  have hr := wilsonRem_eq hpos value
  have hd : (p : Int) ∣ value + 1 := by
    have h1 : ((p * p : Nat) : Int) ∣ (((p - 1).factorial : Nat) : Int) - value := Int.ModEq.dvd h
    have h2 : (p : Int) ∣ (((p - 1).factorial : Nat) : Int) - value :=
      Dvd.dvd.trans ⟨(p : Int), by push_cast; ring⟩ h1
    have h3 := wilson_dvd hp
    have : value + 1 =
        ((((p - 1).factorial : Nat) : Int) + 1) - ((((p - 1).factorial : Nat) : Int) - value) := by
      ring
    rw [this]
    exact Dvd.dvd.sub h3 h2
  have hz : ((value + 1) % ((p * p : Nat) : Int)) % (p : Int) = 0 := by
    rw [Int.emod_emod_of_dvd _ ⟨(p : Int), by push_cast; ring⟩]
    exact Int.emod_eq_zero_of_dvd hd
  omega

/-- When `processResult` returns, every stage before the report returned and the remainder was 0. -/
theorem processResult_ok {dev : Device} {p s0 s1 type : Nat} {sd : searchData} {prps : List Nat}
    {out : List ResultLine} {r : searchData × List ResultLine}
    (h : processResult dev p s0 s1 type sd prps out = .ok r) :
    ∃ residue i value,
      removePrps p (p * p) (sd.typeTarget type) (prps.take PRPSIZE) 0 (p * s1 + s0)
        = .ok (residue, i) ∧
      reconstruct dev p type (residue : Int) = .ok value ∧
      wilsonRem p value = 0 ∧
      r = report p (wilsonQuot p value) 0
        (if u32 i > sd.prpsremoved then { sd with prpsremoved := u32 i } else sd) out := by
  unfold processResult at h
  simp only at h
  split at h
  · exact absurd h (by simp)
  · rename_i residue i hrem
    split at h
    · exact absurd h (by simp)
    · rename_i value hval
      unfold finish at h
      simp only at h
      by_cases hz : wilsonRem p value = 0
      · rw [if_neg (by simpa using hz)] at h
        refine ⟨residue, i, value, hrem, hval, hz, ?_⟩
        rw [hz] at h
        exact (Except.ok.inj h).symm
      · rw [if_pos hz] at h
        exact absurd h (by simp)

/-- C1: `processResult` returns (a result line may have been written and the checksum has been
updated) only if the remainder of `((value + 1) mod p^2)` by `p` is 0; a nonzero remainder makes
`finish` abort with the Wilson-check failure before anything is recorded. For a prime `p` and a
reconstructed value congruent to `(p-1)!` modulo `p^2` the remainder is 0 and the quotient is
below `p`, so the check passes and the report is made. -/
theorem C1_wilson_check_guards_report (dev : Device) (p s0 s1 type : Nat) (sd : searchData)
    (prps : List Nat) (out : List ResultLine) :
    (∀ r, processResult dev p s0 s1 type sd prps out = .ok r →
      ∃ residue i value,
        removePrps p (p * p) (sd.typeTarget type) (prps.take PRPSIZE) 0 (p * s1 + s0)
          = .ok (residue, i) ∧
        reconstruct dev p type (residue : Int) = .ok value ∧
        wilsonRem p value = 0 ∧
        r = report p (wilsonQuot p value) 0
          (if u32 i > sd.prpsremoved then { sd with prpsremoved := u32 i } else sd) out) ∧
    (∀ value sd0 out0, wilsonRem p value ≠ 0 →
      finish p type value sd0 out0 = .error (Fatal.wilsonCheck p type (wilsonRem p value))) ∧
    (0 < p → ∀ value : Int,
      (wilsonRem p value : Int) = ((value + 1) % ((p * p : Nat) : Int)) % (p : Int) ∧
      (wilsonQuot p value : Int) = ((value + 1) % ((p * p : Nat) : Int)) / (p : Int)) ∧
    (p.Prime → ∀ value : Int,
      value ≡ (((p - 1).factorial : Nat) : Int) [ZMOD ((p * p : Nat) : Int)] →
        wilsonRem p value = 0 ∧ wilsonQuot p value < p ∧
        ∀ sd0 out0, finish p type value sd0 out0
          = .ok (report p (wilsonQuot p value) 0 sd0 out0)) := by
  refine ⟨fun r h => processResult_ok h, ?_, ?_, ?_⟩
  · intro value sd0 out0 hne
    unfold finish
    simp only
    rw [if_pos hne]
  · intro hp value
    exact ⟨wilsonRem_eq hp value, wilsonQuot_eq hp value⟩
  · intro hp value hv
    have hz := wilsonRem_eq_zero_of_modEq hp value hv
    refine ⟨hz, wilsonQuot_lt hp.pos value, ?_⟩
    intro sd0 out0
    unfold finish
    simp only
    rw [if_neg (by simpa using hz), hz]

/-- Witness of C1 at `p = 5` with the value `4! = 24`: remainder 0, quotient below 5. -/
theorem C1_wilson_check_guards_report_witness :
    (Nat.Prime 5 ∧ (24 : Int) ≡ (((5 - 1).factorial : Nat) : Int) [ZMOD ((5 * 5 : Nat) : Int)]) ∧
    wilsonRem 5 24 = 0 ∧ wilsonQuot 5 24 < 5 :=
  have h1 : Nat.Prime 5 := by norm_num
  have h2 : (24 : Int) ≡ (((5 - 1).factorial : Nat) : Int) [ZMOD ((5 * 5 : Nat) : Int)] := by
    decide
  have h := (C1_wilson_check_guards_report ⟨fun _ _ => none, fun _ _ => none, fun _ _ _ => none⟩
    5 0 0 2 (searchData.init false) [] []).2.2.2 h1 24 h2
  ⟨⟨h1, h2⟩, h.1, h.2.1⟩

/-! ## Classification of the quotient -/

/-- The result lines written by `report`, for a quotient below `p`. -/
theorem report_out (p quot rem : Nat) (sd : searchData) (out : List ResultLine)
    (hp : p < 2 ^ 64) (hq : quot < p) :
    (report p quot rem sd out).2 =
      if quot = 0 then out ++ [ResultLine.wilson p]
      else if quot ≤ p - quot then
        (if quot < 1000 then out ++ [ResultLine.nearWilson p (quot : Int)] else out)
      else
        (if p - quot < 1000 then out ++ [ResultLine.nearWilson p (-((p - quot : Nat) : Int))]
          else out) := by
  unfold report
  rw [u64_sub hq.le hp]
  by_cases h0 : quot = 0
  · simp [h0, writeResult]
  · simp only [SPECIAL_THRESHOLD, if_neg h0]
    by_cases hle : quot ≤ p - quot
    · simp only [if_pos hle, if_true]
      by_cases hs : quot < 1000
      · simp only [if_pos hs]
        rw [toInt32_small (by omega)]
        simp [writeResult, h0]
      · simp only [if_neg hs]
    · have hne : p - quot ≠ quot := by omega
      simp only [if_neg hle, if_neg hne]
      by_cases hs : p - quot < 1000
      · simp only [if_pos hs]
        rw [toInt32_small (by omega), negInt32_small (by omega)]
        have : ((p - quot : Nat) : Int) ≠ 0 := by omega
        simp [writeResult, this]
      · simp only [if_neg hs]

/-- The counters left by `report`, for a quotient below `p`. -/
theorem report_state (p quot rem : Nat) (sd : searchData) (out : List ResultLine)
    (hp : p < 2 ^ 64) (hq : quot < p) :
    (report p quot rem sd out).1.checksum = u64 (sd.checksum + (p + rem + quot)) ∧
    (report p quot rem sd out).1.typeTarget = sd.typeTarget ∧
    (report p quot rem sd out).1.prpsremoved = sd.prpsremoved ∧
    (report p quot rem sd out).1.test = sd.test ∧
    (report p quot rem sd out).1.resultcount =
      (if quot = 0 ∨ min quot (p - quot) < 1000 then u32 (sd.resultcount + 1)
        else sd.resultcount) ∧
    (report p quot rem sd out).1.testResultPrime =
      (if (quot = 0 ∨ min quot (p - quot) < 1000) ∧ sd.test = true then p
        else sd.testResultPrime) ∧
    (report p quot rem sd out).1.testResultValue =
      (if (quot = 0 ∨ min quot (p - quot) < 1000) ∧ sd.test = true then
        (if quot ≤ p - quot then (quot : Int) else -((p - quot : Nat) : Int))
        else sd.testResultValue) := by
  unfold report
  rw [u64_sub hq.le hp]
  by_cases h0 : quot = 0
  · subst h0
    cases ht : sd.test <;> simp [ht]
  · simp only [SPECIAL_THRESHOLD, if_neg h0, false_or]
    by_cases hle : quot ≤ p - quot
    · have hm : min quot (p - quot) = quot := min_eq_left hle
      simp only [if_pos hle, if_true, hm]
      by_cases hs : quot < 1000
      · simp only [if_pos hs]
        rw [toInt32_small (by omega)]
        cases ht : sd.test <;> simp [ht, h0, hs]
      · simp [hs, h0]
    · have hne : p - quot ≠ quot := by omega
      have hm : min quot (p - quot) = p - quot := min_eq_right (by omega)
      simp only [if_neg hle, if_neg hne, hm]
      by_cases hs : p - quot < 1000
      · simp only [if_pos hs]
        rw [toInt32_small (by omega), negInt32_small (by omega)]
        cases ht : sd.test <;> simp [ht, h0, hs]
      · simp [hs, h0]

/-- C2: for a quotient `quot < p` with remainder 0 and `s = min quot (p - quot)`: if `quot = 0`
the prime is recorded as a Wilson prime with value 0; else if `s < 1000` it is recorded as a
near-Wilson prime with offset `+quot` when `quot ≤ p - quot` and `-(p - quot)` otherwise; else
nothing is recorded. Hence `s = 999` is reported and `s = 1000` is not, and a near-Wilson offset
`b` is nonzero, has `|b| = s < 1000` and is congruent to `quot` modulo `p`. -/
theorem C2_quotient_classification (p quot : Nat) (sd : searchData) (out : List ResultLine)
    (hp : p < 2 ^ 64) (hq : quot < p) :
    (quot = 0 →
      (report p quot 0 sd out).2 = out ++ [ResultLine.wilson p] ∧
      (report p quot 0 sd out).1.resultcount = u32 (sd.resultcount + 1) ∧
      (sd.test = true → (report p quot 0 sd out).1.testResultPrime = p ∧
        (report p quot 0 sd out).1.testResultValue = 0)) ∧
    (quot ≠ 0 → min quot (p - quot) < 1000 →
      ∃ b : Int, b = (if quot ≤ p - quot then (quot : Int) else -((p - quot : Nat) : Int)) ∧
        (report p quot 0 sd out).2 = out ++ [ResultLine.nearWilson p b] ∧
        (report p quot 0 sd out).1.resultcount = u32 (sd.resultcount + 1) ∧
        (sd.test = true → (report p quot 0 sd out).1.testResultPrime = p ∧
          (report p quot 0 sd out).1.testResultValue = b) ∧
        b ≠ 0 ∧ |b| < 1000 ∧ |b| = ((min quot (p - quot) : Nat) : Int) ∧
        b ≡ (quot : Int) [ZMOD (p : Int)]) ∧
    (quot ≠ 0 → 1000 ≤ min quot (p - quot) →
      (report p quot 0 sd out).2 = out ∧
      (report p quot 0 sd out).1.resultcount = sd.resultcount ∧
      (report p quot 0 sd out).1.testResultPrime = sd.testResultPrime ∧
      (report p quot 0 sd out).1.testResultValue = sd.testResultValue) ∧
    (min quot (p - quot) = 999 → ∃ b : Int, (report p quot 0 sd out).2
      = out ++ [ResultLine.nearWilson p b]) ∧
    (min quot (p - quot) = 1000 → (report p quot 0 sd out).2 = out) := by
  have hout := report_out p quot 0 sd out hp hq
  obtain ⟨_, _, _, _, hrc, htp, htv⟩ := report_state p quot 0 sd out hp hq
  refine ⟨?_, ?_, ?_, ?_, ?_⟩
  · intro h0
    rw [hout, hrc, htp, htv]
    subst h0
    refine ⟨by simp, by simp, ?_⟩
    intro ht
    simp [ht]
  · intro h0 hs
    refine ⟨_, rfl, ?_, ?_, ?_, ?_, ?_, ?_, ?_⟩
    · rw [hout, if_neg h0]
      by_cases hle : quot ≤ p - quot
      · rw [min_eq_left hle] at hs
        rw [if_pos hle, if_pos hle, if_pos hs]
      · rw [min_eq_right (by omega)] at hs
        rw [if_neg hle, if_neg hle, if_pos hs]
    · rw [hrc, if_pos (Or.inr hs)]
    · intro ht
      rw [htp, htv, if_pos ⟨Or.inr hs, ht⟩, if_pos ⟨Or.inr hs, ht⟩]
      exact ⟨rfl, rfl⟩
    · by_cases hle : quot ≤ p - quot
      · rw [if_pos hle]; omega
      · rw [if_neg hle]; omega
    · by_cases hle : quot ≤ p - quot
      · rw [min_eq_left hle] at hs
        rw [if_pos hle, abs_lt]; omega
      · rw [min_eq_right (by omega)] at hs
        rw [if_neg hle, abs_lt]; omega
    · by_cases hle : quot ≤ p - quot
      · rw [min_eq_left hle, if_pos hle]
        exact abs_of_nonneg (by omega)
      · rw [min_eq_right (by omega), if_neg hle, abs_neg]
        exact abs_of_nonneg (by omega)
    · by_cases hle : quot ≤ p - quot
      · rw [if_pos hle]
      · rw [if_neg hle]
        apply Int.ModEq.symm
        rw [Int.modEq_iff_dvd]
        exact ⟨-1, by push_cast [Nat.cast_sub hq.le]; ring⟩
  · intro h0 hs
    have hn : ¬ (quot = 0 ∨ min quot (p - quot) < 1000) := by omega
    have hn2 : ¬ ((quot = 0 ∨ min quot (p - quot) < 1000) ∧ sd.test = true) := fun h => hn h.1
    refine ⟨?_, ?_, ?_, ?_⟩
    · rw [hout, if_neg h0]
      by_cases hle : quot ≤ p - quot
      · rw [min_eq_left hle] at hs
        rw [if_pos hle, if_neg (by omega)]
      · rw [min_eq_right (by omega)] at hs
        rw [if_neg hle, if_neg (by omega)]
    · rw [hrc, if_neg hn]
    · rw [htp, if_neg hn2]
    · rw [htv, if_neg hn2]
  · intro hs
    have h0 : quot ≠ 0 := by
      intro h0
      rw [h0] at hs
      simp at hs
    rw [hout, if_neg h0]
    by_cases hle : quot ≤ p - quot
    · rw [min_eq_left hle] at hs
      rw [if_pos hle, if_pos (by omega)]
      exact ⟨_, rfl⟩
    · rw [min_eq_right (by omega)] at hs
      rw [if_neg hle, if_pos (by omega)]
      exact ⟨_, rfl⟩
  · intro hs
    have h0 : quot ≠ 0 := by
      intro h0
      rw [h0] at hs
      simp at hs
    rw [hout, if_neg h0]
    by_cases hle : quot ≤ p - quot
    · rw [min_eq_left hle] at hs
      rw [if_pos hle, if_neg (by omega)]
    · rw [min_eq_right (by omega)] at hs
      rw [if_neg hle, if_neg (by omega)]

/-- Witness of C2 at `p = 2003`, `quot = 1004`: the offset `-999` is reported. -/
theorem C2_quotient_classification_witness :
    (2003 < 2 ^ 64 ∧ 1004 < 2003) ∧
    ∃ b : Int, (report 2003 1004 0 (searchData.init true) []).2
      = [] ++ [ResultLine.nearWilson 2003 b] :=
  ⟨⟨by norm_num, by norm_num⟩,
    (C2_quotient_classification 2003 1004 (searchData.init true) [] (by norm_num)
      (by norm_num)).2.2.2.1 (by decide)⟩

/-! ## Step 1 and the loop of `getResults` -/

/-- The fields that `report` leaves alone, and the checksum it adds to. -/
theorem report_frame (p quot rem : Nat) (sd : searchData) (out : List ResultLine) :
    (report p quot rem sd out).1.checksum = u64 (sd.checksum + (p + rem + quot)) ∧
    (report p quot rem sd out).1.typeTarget = sd.typeTarget ∧
    (report p quot rem sd out).1.prpsremoved = sd.prpsremoved ∧
    (report p quot rem sd out).1.test = sd.test := by
  unfold report
  simp only
  split_ifs <;> simp

/-- If step 1 returns, it stopped after the visited entries, all of them were invertible, and
the residue has been multiplied by the inverse powers. -/
theorem removePrps_of_ok {p psq target : Nat} (hpsq : 0 < psq) {l : List Nat} {i residue : Nat}
    {res j : Nat} (h : removePrps p psq target l i residue = .ok (res, j)) :
    j = i + (l.takeWhile (fun q => decide (q ≤ target))).length ∧
    (∀ q ∈ l.takeWhile (fun q => decide (q ≤ target)), Nat.Coprime q psq) ∧
    (res : ZMod psq) = (residue : ZMod psq) *
      ((l.takeWhile (fun q => decide (q ≤ target))).map
        (fun q : Nat => ((q : ZMod psq))⁻¹ ^ u32 (target / q))).prod := by
  by_cases hall : ∀ q ∈ l.takeWhile (fun q => decide (q ≤ target)), Nat.Coprime q psq
  · obtain ⟨res', h', hz⟩ := removePrps_ok p psq target hpsq l i residue hall
    rw [h] at h'
    have e := Except.ok.inj h'
    have e1 : res = res' := congrArg Prod.fst e
    have e2 : j = i + (l.takeWhile (fun q => decide (q ≤ target))).length := congrArg Prod.snd e
    exact ⟨e2, hall, e1 ▸ hz⟩
  · push_neg at hall
    obtain ⟨q, _, _, he⟩ := removePrps_error p psq target hpsq l i residue hall
    rw [h] at he
    exact absurd he (by simp)

theorem scanned_length_le (prps : List Nat) (target : Nat) :
    (scanned prps target).length ≤ PRPSIZE := by
  unfold scanned
  calc ((prps.take PRPSIZE).takeWhile _).length ≤ (prps.take PRPSIZE).length :=
        (List.takeWhile_sublist _).length_le
    _ ≤ PRPSIZE := by rw [List.length_take]; exact Nat.min_le_left _ _

/-- The counters and the table targets after one successful `processResult`. -/
theorem processResult_frame {dev : Device} {p s0 s1 type : Nat} {sd : searchData}
    {prps : List Nat} {out : List ResultLine} {r : searchData × List ResultLine} (hp : 0 < p)
    (h : processResult dev p s0 s1 type sd prps out = .ok r) :
    r.1.typeTarget = sd.typeTarget ∧ r.1.test = sd.test ∧
    r.1.prpsremoved = max sd.prpsremoved (scanned prps (sd.typeTarget type)).length ∧
    ∃ quot, exported dev prps sd.typeTarget (⟨p, 0, type⟩, s0, s1) = some (quot, 0) ∧
      quot < p ∧
      r.1.checksum = u64 (sd.checksum + (p + 0 + quot)) := by
  obtain ⟨residue, i, value, hrem, hval, hz, hr⟩ := processResult_ok h
  obtain ⟨hi, _, _⟩ := removePrps_of_ok (Nat.mul_pos hp hp) hrem
  rw [Nat.zero_add] at hi
  have hlen := scanned_length_le prps (sd.typeTarget type)
  have hi' : i = (scanned prps (sd.typeTarget type)).length := hi
  have hu : u32 i = i := u32_of_lt (by rw [hi']; unfold PRPSIZE at hlen; omega)
  obtain ⟨hc, ht, hpr, hte⟩ := report_frame p (wilsonQuot p value) 0
    (if u32 i > sd.prpsremoved then { sd with prpsremoved := u32 i } else sd) out
  rw [← hr] at hc ht hpr hte
  refine ⟨?_, ?_, ?_, wilsonQuot p value, ?_, wilsonQuot_lt hp value, ?_⟩
  · rw [ht]; split_ifs <;> rfl
  · rw [hte]; split_ifs <;> rfl
  · rw [hpr, hu, ← hi']
    by_cases hgt : i > sd.prpsremoved
    · rw [if_pos hgt]; exact (max_eq_right (le_of_lt hgt)).symm
    · rw [if_neg hgt]; exact (max_eq_left (by omega)).symm
  · unfold exported
    simp only [hrem, hval, hz]
  · rw [hc]; split_ifs <;> rfl

theorem u64_add_u64 (a b : Nat) : u64 (u64 a + b) = u64 (a + b) := by
  unfold u64; omega

/-- The state after the loop of `getResults` returns. -/
theorem processAll_spec (dev : Device) (prps : List Nat) :
    ∀ (tps : List (testPrime × Nat × Nat)) (sd : searchData) (out : List ResultLine)
      (r : searchData × List ResultLine), (∀ e ∈ tps, 0 < e.1.p) → sd.checksum < 2 ^ 64 →
      processAll dev prps tps sd out = .ok r →
      r.1.typeTarget = sd.typeTarget ∧ r.1.test = sd.test ∧
      r.1.prpsremoved = (tps.map (fun e => (scanned prps (sd.typeTarget e.1.type)).length)).foldl
        max sd.prpsremoved ∧
      (∀ e ∈ tps, ∃ quot, exported dev prps sd.typeTarget e = some (quot, 0) ∧ quot < e.1.p) ∧
      r.1.checksum = u64 (sd.checksum + (tps.map (checksumTerm dev prps sd.typeTarget)).sum) := by
  intro tps
  induction tps with
  | nil =>
    intro sd out r _ hck h
    have e : r = (sd, out) := (Except.ok.inj h).symm
    subst e
    refine ⟨rfl, rfl, rfl, fun e he => absurd he (List.not_mem_nil _), ?_⟩
    simp only [List.map_nil, List.sum_nil, Nat.add_zero]
    exact (u64_of_lt hck).symm
  | cons e rest ih =>
    intro sd out r hpos hck h
    obtain ⟨t, s0, s1⟩ := e
    unfold processAll at h
    split at h
    · exact absurd h (by simp)
    · rename_i sd1 out1 h1
      have hp : 0 < t.p := hpos (t, s0, s1) (List.mem_cons_self _ _)
      obtain ⟨htt, hte, hpr, quot, hex, hq, hc⟩ := processResult_frame hp h1
      obtain ⟨htt2, hte2, hpr2, hall2, hc2⟩ := ih sd1 out1 r
        (fun e he => hpos e (List.mem_cons_of_mem _ he))
        (by rw [hc]; exact Nat.mod_lt _ (by norm_num)) h
      have hex' : exported dev prps sd.typeTarget (t, s0, s1) = some (quot, 0) := hex
      refine ⟨htt2.trans htt, hte2.trans hte, ?_, ?_, ?_⟩
      · rw [hpr2, htt, hpr]
        simp only [List.map_cons, List.foldl_cons]
      · intro e he
        rcases List.mem_cons.1 he with h | h
        · subst h; exact ⟨quot, hex', hq⟩
        · rw [← htt]; exact hall2 e h
      · rw [hc2, hc, htt, u64_add_u64]
        have : checksumTerm dev prps sd.typeTarget (t, s0, s1) = t.p + 0 + quot := by
          unfold checksumTerm
          rw [hex']
        simp only [List.map_cons, List.sum_cons, this]
        congr 1
        omega

/-- C6 (amended): for a test prime `p > 0` of type `t` with incoming residue `R = s1*p + s0`, step 1
of `processResult` visits the table entries that come before the first entry greater than
`typeTarget[t]` (on an ascending table: exactly the entries `q ≤ typeTarget[t]`). If each visited
`q` is coprime to `p` and `typeTarget[t] / q < 2^32`, it leaves the residue equal, modulo `p^2`, to
`R` times the product over the visited `q` of the inverse of `q` to the power
`typeTarget[t] / q`; entries from the first one greater than the target on contribute nothing;
the first visited entry that is not invertible makes `processResult` exit; and when
`processResult` returns, `prpsremoved` is the maximum of its old value and the number of visited
entries, so that after the loop of `getResults` it is the largest such number. -/
theorem C6_prps_divided_out (dev : Device) (p s0 s1 type : Nat) (sd : searchData)
    (prps : List Nat) (out : List ResultLine) (hp : 0 < p) :
    ((∀ q ∈ scanned prps (sd.typeTarget type), Nat.Coprime q p ∧ sd.typeTarget type / q < 2 ^ 32) →
      ∃ res, removePrps p (p * p) (sd.typeTarget type) (prps.take PRPSIZE) 0 (p * s1 + s0)
          = .ok (res, (scanned prps (sd.typeTarget type)).length) ∧
        (res : ZMod (p * p)) = ((p * s1 + s0 : Nat) : ZMod (p * p)) *
          ((scanned prps (sd.typeTarget type)).map
            (fun q : Nat => ((q : ZMod (p * p)))⁻¹ ^ (sd.typeTarget type / q))).prod) ∧
    ((∃ q ∈ scanned prps (sd.typeTarget type), ¬ Nat.Coprime q p) →
      ∃ q ∈ scanned prps (sd.typeTarget type), ¬ Nat.Coprime q p ∧
        processResult dev p s0 s1 type sd prps out = .error (Fatal.prpInverse q p)) ∧
    (List.Sorted (· ≤ ·) prps → scanned prps (sd.typeTarget type)
      = (prps.take PRPSIZE).filter (fun q => decide (q ≤ sd.typeTarget type))) ∧
    (∀ r, processResult dev p s0 s1 type sd prps out = .ok r →
      r.1.prpsremoved = max sd.prpsremoved (scanned prps (sd.typeTarget type)).length) ∧
    (∀ tps sd0 out0 r, (∀ e ∈ tps, 0 < e.1.p) → sd0.checksum < 2 ^ 64 →
      processAll dev prps tps sd0 out0 = .ok r →
      r.1.prpsremoved = (tps.map (fun e => (scanned prps (sd0.typeTarget e.1.type)).length)).foldl
        max sd0.prpsremoved) := by
  have hpsq : 0 < p * p := Nat.mul_pos hp hp
  refine ⟨?_, ?_, ?_, ?_, ?_⟩
  · intro hall
    obtain ⟨res, hres, hz⟩ := removePrps_ok p (p * p) (sd.typeTarget type) hpsq
      (prps.take PRPSIZE) 0 (p * s1 + s0)
      (fun q hq => Nat.Coprime.mul_right (hall q hq).1 (hall q hq).1)
    rw [Nat.zero_add] at hres
    refine ⟨res, hres, ?_⟩
    rw [hz]
    congr 2
    apply List.map_congr_left
    intro q hq
    rw [u32_of_lt (hall q hq).2]
  · intro hex
    obtain ⟨q, hq, hn⟩ := hex
    obtain ⟨q', hq', hn', he⟩ := removePrps_error p (p * p) (sd.typeTarget type) hpsq
      (prps.take PRPSIZE) 0 (p * s1 + s0)
      ⟨q, hq, fun hc => hn (Nat.Coprime.coprime_mul_right_right hc)⟩
    refine ⟨q', hq', fun hc => hn' (Nat.Coprime.mul_right hc hc), ?_⟩
    unfold processResult
    simp only [he]
  · intro hs
    exact takeWhile_le_eq_filter _ _ (List.Pairwise.sublist (List.take_sublist _ _) hs)
  · intro r h
    exact (processResult_frame hp h).2.2.1
  · intro tps sd0 out0 r hpos hck h
    exact (processAll_spec dev prps tps sd0 out0 r hpos hck h).2.2.1

/-- Counterexample to C6 as stated: on the table `[13, 2]` with target 11 and `p = 23` the loop
stops at 13, so the entry `2 ≤ 11` is not divided out: the residue stays `1`, which is not
`1` times the inverse of `2 ^ (11 / 2)` modulo `23^2`. -/
theorem C6_unsorted_table_counterexample :
    removePrps 23 (23 * 23) 11 ([13, 2].take PRPSIZE) 0 (23 * 0 + 1) = .ok (1, 0) ∧
    ((1 : Nat) : ZMod 529) ≠ ((23 * 0 + 1 : Nat) : ZMod 529) *
      ((([13, 2].take PRPSIZE).filter (fun q => decide (q ≤ 11))).map
        (fun q : Nat => ((q : ZMod 529))⁻¹ ^ (11 / q))).prod := by
  constructor
  · rfl
  · have h2 : ((2 : Nat) : ZMod 529)⁻¹ = 265 := ZMod.inv_eq_of_mul_eq_one 529 _ _ (by decide)
    have hl : (([13, 2].take PRPSIZE).filter (fun q => decide (q ≤ 11))) = [2] := by decide
    rw [hl]
    simp only [List.map_cons, List.map_nil, List.prod_cons, List.prod_nil, h2]
    decide

/-- Witness of C6 at `p = 23` (type 2, target 11) on the ascending table `[2, 13]`: the entry 2
is visited and divided out five times. -/
theorem C6_prps_divided_out_witness :
    (0 < 23 ∧ ∀ q ∈ scanned [2, 13] 11, Nat.Coprime q 23 ∧ 11 / q < 2 ^ 32) ∧
    ∃ res, removePrps 23 (23 * 23) 11 ([2, 13].take PRPSIZE) 0 (23 * 0 + 1)
        = .ok (res, (scanned [2, 13] 11).length) ∧
      (res : ZMod (23 * 23)) = ((23 * 0 + 1 : Nat) : ZMod (23 * 23)) *
        ((scanned [2, 13] 11).map (fun q : Nat => ((q : ZMod (23 * 23)))⁻¹ ^ (11 / q))).prod :=
  have hyp : ∀ q ∈ scanned [2, 13] 11, Nat.Coprime q 23 ∧ 11 / q < 2 ^ 32 := by
    have hs : scanned [2, 13] 11 = [2] := by decide
    intro q hq
    rw [hs, List.mem_singleton] at hq
    subst hq
    exact ⟨by norm_num, by norm_num⟩
  ⟨⟨by norm_num, hyp⟩,
    (C6_prps_divided_out ⟨fun _ _ => none, fun _ _ => none, fun _ _ _ => none⟩ 23 1 0 2
      { searchData.init false with typeTarget := fun _ => 11 } [2, 13] [] (by norm_num)).1 hyp⟩

/-! ## The running checksum -/

/-- A run over a single test prime is one call of `processResult`. -/
theorem processAll_single {dev : Device} {prps : List Nat} {t : testPrime} {s0 s1 : Nat}
    {sd : searchData} {out : List ResultLine} {r : searchData × List ResultLine}
    (h : processAll dev prps [(t, s0, s1)] sd out = .ok r) :
    processResult dev t.p s0 s1 t.type sd prps out = .ok r := by
  unfold processAll at h
  split at h
  · exact absurd h (by simp)
  · rename_i sd1 out1 h1
    unfold processAll at h
    rw [h1, ← Except.ok.inj h]

/-- A run over one test prime that reports the offset `b`: one result, checksum `p + (b mod p)`. -/
theorem single_prime_checksum {dev : Device} {prps : List Nat} {t : testPrime} {s0 s1 : Nat}
    {sd : searchData} {out : List ResultLine} {r : searchData × List ResultLine} {b : Int}
    (hp : 0 < t.p) (h63 : t.p < 2 ^ 63) (hck : sd.checksum = 0) (hrc : sd.resultcount = 0)
    (h : processAll dev prps [(t, s0, s1)] sd out = .ok r)
    (hb : r.2 = out ++ [writeResult t.p b]) :
    r.1.resultcount = 1 ∧ r.1.checksum = t.p + (b % (t.p : Int)).toNat := by
  obtain ⟨residue, i, value, _, _, _, hr⟩ := processResult_ok (processAll_single h)
  have hq := wilsonQuot_lt hp value
  have h64 : t.p < 2 ^ 64 := by omega
  have hout := report_out t.p (wilsonQuot t.p value) 0
    (if u32 i > sd.prpsremoved then { sd with prpsremoved := u32 i } else sd) out h64 hq
  obtain ⟨hc, _, _, _, hcount, _, _⟩ := report_state t.p (wilsonQuot t.p value) 0
    (if u32 i > sd.prpsremoved then { sd with prpsremoved := u32 i } else sd) out h64 hq
  rw [← hr] at hout hc hcount
  have hck' : (if u32 i > sd.prpsremoved then { sd with prpsremoved := u32 i } else sd).checksum
      = 0 := by split_ifs <;> exact hck
  have hrc' : (if u32 i > sd.prpsremoved then { sd with prpsremoved := u32 i }
      else sd).resultcount = 0 := by split_ifs <;> exact hrc
  rw [hck'] at hc
  rw [hrc'] at hcount
  rw [hb] at hout
  generalize wilsonQuot t.p value = quot at *
  have hmod : (b % (t.p : Int)).toNat = quot ∧ (quot = 0 ∨ min quot (t.p - quot) < 1000) := by
    by_cases h0 : quot = 0
    · rw [if_pos h0] at hout
      have hl := List.append_cancel_left hout
      simp only [List.cons.injEq, and_true] at hl
      unfold writeResult at hl
      split_ifs at hl with hb0
      rw [hb0, h0]
      exact ⟨by simp, Or.inl rfl⟩
    · rw [if_neg h0] at hout
      by_cases hle : quot ≤ t.p - quot
      · rw [if_pos hle] at hout
        by_cases hs : quot < 1000
        · rw [if_pos hs] at hout
          have hl := List.append_cancel_left hout
          simp only [List.cons.injEq, and_true] at hl
          unfold writeResult at hl
          split_ifs at hl with hb0
          have hbq : b = (quot : Int) := by injection hl
          refine ⟨?_, Or.inr (by rw [min_eq_left hle]; exact hs)⟩
          rw [hbq, Int.emod_eq_of_lt (by omega) (by omega)]
          simp
        · rw [if_neg hs] at hout
          have := congrArg List.length hout
          simp at this
      · rw [if_neg hle] at hout
        by_cases hs : t.p - quot < 1000
        · rw [if_pos hs] at hout
          have hl := List.append_cancel_left hout
          simp only [List.cons.injEq, and_true] at hl
          unfold writeResult at hl
          split_ifs at hl with hb0
          have hbq : b = -((t.p - quot : Nat) : Int) := by injection hl
          refine ⟨?_, Or.inr (by rw [min_eq_right (by omega)]; exact hs)⟩
          have e : b = (quot : Int) + (t.p : Int) * (-1) := by
            rw [hbq]; push_cast [Nat.cast_sub hq.le]; ring
          rw [e, Int.add_mul_emod_self_left, Int.emod_eq_of_lt (by omega) (by omega)]
          simp
        · rw [if_neg hs] at hout
          have := congrArg List.length hout
          simp at this
  constructor
  · rw [hcount, if_pos hmod.2]; rfl
  · rw [hc, hmod.1]
    unfold u64
    omega

/-- C7: after the loop of `getResults`, started with checksum 0, the checksum is the sum modulo
`2^64` of `p + rem + quot` over the tested primes (each with `rem = 0`). A run over a single
prime `p < 2^63` that reports the offset `b` has result count 1 and checksum `p + (b mod p)`; for
`p = 1239053554603` with offset `-4` this is `2p - 4 = 0x00000240FAB1A752`, and for
`p = 1108967825921` with offset `+12` it is `p + 12 = 0x0000010233A2220D`. -/
theorem C7_checksum_is_sum (dev : Device) (prps : List Nat) :
    (∀ (tps : List (testPrime × Nat × Nat)) (sd : searchData) (out : List ResultLine)
        (r : searchData × List ResultLine),
      (∀ e ∈ tps, 0 < e.1.p) → sd.checksum = 0 → processAll dev prps tps sd out = .ok r →
      (∀ e ∈ tps, ∃ quot, exported dev prps sd.typeTarget e = some (quot, 0) ∧
        checksumTerm dev prps sd.typeTarget e = e.1.p + 0 + quot) ∧
      r.1.checksum = (tps.map (checksumTerm dev prps sd.typeTarget)).sum % 2 ^ 64) ∧
    (∀ (t : testPrime) (s0 s1 : Nat) (sd : searchData) (out : List ResultLine)
        (r : searchData × List ResultLine) (b : Int),
      0 < t.p → t.p < 2 ^ 63 → sd.checksum = 0 → sd.resultcount = 0 →
      processAll dev prps [(t, s0, s1)] sd out = .ok r →
      r.2 = out ++ [writeResult t.p b] →
      r.1.resultcount = 1 ∧ r.1.checksum = t.p + (b % (t.p : Int)).toNat) ∧
    (∀ (t : testPrime) (s0 s1 : Nat) (sd : searchData) (out : List ResultLine)
        (r : searchData × List ResultLine),
      t.p = 1239053554603 → sd.checksum = 0 → sd.resultcount = 0 →
      processAll dev prps [(t, s0, s1)] sd out = .ok r →
      r.2 = out ++ [ResultLine.nearWilson 1239053554603 (-4)] →
      r.1.resultcount = 1 ∧ r.1.checksum = 0x00000240FAB1A752 ∧
        0x00000240FAB1A752 = 2 * 1239053554603 - 4) ∧
    (∀ (t : testPrime) (s0 s1 : Nat) (sd : searchData) (out : List ResultLine)
        (r : searchData × List ResultLine),
      t.p = 1108967825921 → sd.checksum = 0 → sd.resultcount = 0 →
      processAll dev prps [(t, s0, s1)] sd out = .ok r →
      r.2 = out ++ [ResultLine.nearWilson 1108967825921 12] →
      r.1.resultcount = 1 ∧ r.1.checksum = 0x0000010233A2220D ∧
        0x0000010233A2220D = 1108967825921 + 12) := by
  refine ⟨?_, ?_, ?_, ?_⟩
  · intro tps sd out r hpos hck h
    obtain ⟨_, _, _, hall, hc⟩ := processAll_spec dev prps tps sd out r hpos (by rw [hck]; norm_num) h
    refine ⟨?_, ?_⟩
    · intro e he
      obtain ⟨quot, hq, _⟩ := hall e he
      refine ⟨quot, hq, ?_⟩
      unfold checksumTerm
      rw [hq]
    · rw [hc, hck, Nat.zero_add]
      rfl
  · intro t s0 s1 sd out r b hp h63 hck hrc h hb
    exact single_prime_checksum hp h63 hck hrc h hb
  · intro t s0 s1 sd out r htp hck hrc h hb
    have hb' : r.2 = out ++ [writeResult t.p (-4)] := by rw [hb, htp]; rfl
    obtain ⟨h1, h2⟩ := single_prime_checksum (by rw [htp]; norm_num) (by rw [htp]; norm_num)
      hck hrc h hb'
    refine ⟨h1, ?_, by norm_num⟩
    rw [h2, htp]
    decide
  · intro t s0 s1 sd out r htp hck hrc h hb
    have hb' : r.2 = out ++ [writeResult t.p 12] := by rw [hb, htp]; rfl
    obtain ⟨h1, h2⟩ := single_prime_checksum (by rw [htp]; norm_num) (by rw [htp]; norm_num)
      hck hrc h hb'
    refine ⟨h1, ?_, by norm_num⟩
    rw [h2, htp]
    decide

/-- Witness of C7: a run over the single type-0 prime 1239053554603 whose residue halves are
`s0 = 89425449014`, `s1 = 821003309918` reports the offset `-4`, with one result and checksum
`0x00000240FAB1A752`. -/
theorem C7_checksum_is_sum_witness :
    (processAll witnessDevice [] [(⟨1239053554603, 206508925767, 0⟩, 89425449014, 821003309918)]
        { searchData.init true with typeTarget := fun _ => 206508925767 } []
      = .ok (report 1239053554603 1239053554599 0
          { searchData.init true with typeTarget := fun _ => 206508925767 } []) ∧
      (report 1239053554603 1239053554599 0
          { searchData.init true with typeTarget := fun _ => 206508925767 } []).2
        = [] ++ [ResultLine.nearWilson 1239053554603 (-4)]) ∧
    ((report 1239053554603 1239053554599 0
        { searchData.init true with typeTarget := fun _ => 206508925767 } []).1.resultcount = 1 ∧
      (report 1239053554603 1239053554599 0
        { searchData.init true with typeTarget := fun _ => 206508925767 } []).1.checksum
          = 0x00000240FAB1A752 ∧
      0x00000240FAB1A752 = 2 * 1239053554603 - 4) :=
  have hrun : processAll witnessDevice []
      [(⟨1239053554603, 206508925767, 0⟩, 89425449014, 821003309918)]
        { searchData.init true with typeTarget := fun _ => 206508925767 } []
      = .ok (report 1239053554603 1239053554599 0
          { searchData.init true with typeTarget := fun _ => 206508925767 } []) := by rfl
  have hout : (report 1239053554603 1239053554599 0
      { searchData.init true with typeTarget := fun _ => 206508925767 } []).2
        = [] ++ [ResultLine.nearWilson 1239053554603 (-4)] := by decide
  ⟨⟨hrun, hout⟩, (C7_checksum_is_sum witnessDevice []).2.2.1
    ⟨1239053554603, 206508925767, 0⟩ 89425449014 821003309918
    { searchData.init true with typeTarget := fun _ => 206508925767 } [] _ rfl rfl rfl hrun hout⟩

/-! ## A run on a range of small primes -/

/-- On a table whose entries all exceed the target, step 1 changes nothing. -/
theorem removePrps_skip (p psq target : Nat) (l : List Nat) (i residue : Nat)
    (h : ∀ q ∈ l, target < q) : removePrps p psq target l i residue = .ok (residue, i) := by
  cases l with
  | nil => rfl
  | cons q rest =>
    unfold removePrps
    rw [if_pos (h q (List.mem_cons_self _ _))]

theorem finish_of_key {p type : Nat} {value : Int} {quot : Nat} (sd : searchData)
    (out : List ResultLine) (h : finishKey p (.ok value) = some (quot, 0)) :
    finish p type value sd out = .ok (report p quot 0 sd out) := by
  unfold finishKey at h
  simp only [Option.some.injEq, Prod.mk.injEq] at h
  unfold finish
  simp only
  rw [if_neg (by rw [h.2]; simp), h.1, h.2]

/-- What the classification loop stores, read off a successful pass. -/
theorem setupTestPrime_ok {sd sd1 : searchData} {p : Nat} {t : testPrime}
    (h : setupTestPrime sd p = .ok (sd1, t)) :
    t.p = p ∧ ((t.type = 0 ∧ p % 3 = 1) ∨ (t.type = 1 ∧ p % 12 = 5) ∨
      (t.type = 2 ∧ p % 12 = 11)) := by
  unfold setupTestPrime at h
  split_ifs at h with h1 h2 h3
  · have e := (Prod.mk.inj (Except.ok.inj h)).2
    rw [← e]; exact ⟨rfl, Or.inl ⟨rfl, h1⟩⟩
  · have e := (Prod.mk.inj (Except.ok.inj h)).2
    rw [← e]; exact ⟨rfl, Or.inr (Or.inl ⟨rfl, h2⟩)⟩
  · have e := (Prod.mk.inj (Except.ok.inj h)).2
    rw [← e]; exact ⟨rfl, Or.inr (Or.inr ⟨rfl, h3⟩)⟩

theorem classifyLoop_ok : ∀ (l : List Nat) (sd sd1 : searchData) (tp : List testPrime),
    classifyLoop sd l = .ok (sd1, tp) →
    ∀ t ∈ tp, t.p ∈ l ∧ ((t.type = 0 ∧ t.p % 3 = 1) ∨ (t.type = 1 ∧ t.p % 12 = 5) ∨
      (t.type = 2 ∧ t.p % 12 = 11)) := by
  intro l
  induction l with
  | nil =>
    intro sd sd1 tp h t ht
    have e := (Prod.mk.inj (Except.ok.inj h)).2
    rw [← e] at ht
    exact absurd ht (List.not_mem_nil _)
  | cons p rest ih =>
    intro sd sd1 tp h t ht
    unfold classifyLoop at h
    split at h
    · exact absurd h (by simp)
    · rename_i sd2 t0 h0
      split at h
      · exact absurd h (by simp)
      · rename_i sd3 ts h3
        have e := (Prod.mk.inj (Except.ok.inj h)).2
        rw [← e] at ht
        rcases List.mem_cons.1 ht with hh | hh
        · obtain ⟨hp, hty⟩ := setupTestPrime_ok h0
          rw [hh, hp]
          exact ⟨List.mem_cons_self _ _, hp ▸ hty⟩
        · obtain ⟨hm, hty⟩ := ih sd2 sd3 ts h3 t hh
          exact ⟨List.mem_cons_of_mem _ hm, hty⟩

theorem u64_four_mul {p : Nat} (h : p ≤ maxp) : u64 (4 * p) = 4 * p := by
  unfold maxp at h
  exact u64_of_lt (by omega)

/-- Under the contract of the kernels, a test prime that passes `verifierCheck` is reconstructed
to a value that exports `(W_p, 0)`. -/
theorem reconstruct_of_check {dev : Device} {t : testPrime} (hc : verifierCheck t = true)
    (hdev : DeviceContract dev t.p) (hmax : t.p ≤ maxp)
    (hty : (t.type = 0 ∧ t.p % 3 = 1) ∨ (t.type = 1 ∧ t.p % 12 = 5) ∨
      (t.type = 2 ∧ t.p % 12 = 11)) :
    ∃ v, reconstruct dev t.p t.type ((t.pTarget.factorial % (t.p * t.p) : Nat) : Int) = .ok v ∧
      finishKey t.p (.ok v) = some (wilsonQuotient t.p, 0) := by
  unfold verifierCheck at hc
  unfold reconstruct
  rcases hty with ⟨h0, hm⟩ | ⟨h1, hm⟩ | ⟨h2, hm⟩
  · rw [if_pos h0] at hc ⊢
    obtain ⟨⟨u, v, hu, hue, hum⟩, ⟨c, d, hcc, hce, hcm⟩⟩ := hdev.1 hm
    rw [u64_four_mul hmax] at hu hcc
    have hfu : find_u dev t.p = .ok u := by
      unfold find_u
      rw [if_pos hmax, u64_four_mul hmax, hu]
    have hfc : find_c dev t.p = .ok c := by
      unfold find_c
      rw [if_pos hmax, u64_four_mul hmax, hcc]
    simp only [hfu, hfc]
    have hur : u ∈ (reps 3 (4 * t.p)).filter (fun u => decide (u % 3 = (umod t.p : Int))) := by
      rw [List.mem_filter]
      exact ⟨mem_reps (by norm_num) (by exact_mod_cast hue), by simpa using hum⟩
    have hcr : c ∈ (reps 27 (4 * t.p)).filter (fun c => decide (c % 3 = 1)) := by
      rw [List.mem_filter]
      exact ⟨mem_reps (by norm_num) (by exact_mod_cast hce), by simpa using hcm⟩
    rw [List.all_eq_true] at hc
    have h1 := hc u hur
    rw [List.all_eq_true] at h1
    have h2 := h1 c hcr
    rw [beq_iff_eq] at h2
    cases hv : type0Value t.p ((t.pTarget.factorial % (t.p * t.p) : Nat) : Int) u c with
    | error e => rw [hv] at h2; simp [finishKey] at h2
    | ok v => rw [hv] at h2; exact ⟨v, rfl, h2⟩
  · have h0 : ¬ t.type = 0 := by omega
    rw [if_neg h0, if_pos h1] at hc ⊢
    obtain ⟨a, b, ha, hae, ham⟩ := hdev.2 hm
    have hfa : find_a dev t.p = .ok a := by
      unfold find_a
      rw [ha]
    simp only [hfa]
    have har : a ∈ (reps 1 t.p).filter (fun a => decide (a % 4 = 1)) := by
      rw [List.mem_filter]
      exact ⟨mem_reps (by norm_num) (by push_cast; rw [one_mul]; exact hae), by simpa using ham⟩
    rw [List.all_eq_true] at hc
    have h2 := hc a har
    rw [beq_iff_eq] at h2
    exact ⟨_, rfl, h2⟩
  · have h0 : ¬ t.type = 0 := by omega
    have h1 : ¬ t.type = 1 := by omega
    rw [if_neg h0, if_neg h1, if_pos h2] at hc ⊢
    rw [beq_iff_eq] at hc
    exact ⟨_, rfl, hc⟩

/-- Under the contract of the kernels and on a table without entries up to the type target,
`processResult` on the ideal residue of a checked test prime reports the quotient `W_p`. -/
theorem processResult_of_check {dev : Device} {t : testPrime} {sd : searchData}
    {prps : List Nat} (out : List ResultLine) (hc : verifierCheck t = true)
    (hdev : DeviceContract dev t.p) (hmax : t.p ≤ maxp)
    (hty : (t.type = 0 ∧ t.p % 3 = 1) ∨ (t.type = 1 ∧ t.p % 12 = 5) ∨
      (t.type = 2 ∧ t.p % 12 = 11))
    (htab : ∀ q ∈ prps, sd.typeTarget t.type < q) :
    processResult dev t.p (factorialResidue t).1 (factorialResidue t).2 t.type sd prps out
      = .ok (report t.p (wilsonQuotient t.p) 0 sd out) := by
  obtain ⟨v, hv, hk⟩ := reconstruct_of_check hc hdev hmax hty
  have hres : t.p * (factorialResidue t).2 + (factorialResidue t).1
      = t.pTarget.factorial % (t.p * t.p) := by
    unfold factorialResidue
    exact Nat.div_add_mod _ _
  unfold processResult
  simp only
  rw [removePrps_skip _ _ _ _ _ _ (fun q hq => htab q (List.mem_of_mem_take hq)), hres]
  simp only [hv]
  have h0 : ¬ (u32 0 > sd.prpsremoved) := by unfold u32; omega
  rw [if_neg h0]
  exact finish_of_key sd out hk

/-- The loop of `getResults` over checked test primes is `reportAll`. -/
theorem processAll_of_check {dev : Device} {prps : List Nat} :
    ∀ (tp : List testPrime) (sd : searchData) (out : List ResultLine),
      (∀ t ∈ tp, verifierCheck t = true ∧ DeviceContract dev t.p ∧ 0 < t.p ∧ t.p ≤ maxp ∧
        ((t.type = 0 ∧ t.p % 3 = 1) ∨ (t.type = 1 ∧ t.p % 12 = 5) ∨
          (t.type = 2 ∧ t.p % 12 = 11)) ∧
        ∀ q ∈ prps, sd.typeTarget t.type < q) →
      processAll dev prps (tp.map (fun t => (t, factorialResidue t))) sd out
        = .ok (reportAll tp sd out) := by
  intro tp
  induction tp with
  | nil => intro sd out _; rfl
  | cons t rest ih =>
    intro sd out h
    obtain ⟨hc, hdev, hpos, hmax, hty, htab⟩ := h t (List.mem_cons_self _ _)
    rw [List.map_cons]
    unfold processAll
    simp only [processResult_of_check out hc hdev hmax hty htab]
    unfold reportAll
    apply ih
    intro t' ht'
    obtain ⟨hc', hdev', hpos', hmax', hty', htab'⟩ := h t' (List.mem_cons_of_mem _ ht')
    refine ⟨hc', hdev', hpos', hmax', hty', ?_⟩
    rw [(report_frame t.p (wilsonQuotient t.p) 0 sd out).2.1]
    exact htab'

/-- A run on a checked range: for every device that meets the contract on the test primes and
every table without entries up to `bound`, the run returns the reports of `rangeReport`. -/
theorem hostRun_of_check {dev : Device} {sd : searchData} {pmin pmax bound : Nat}
    {prps : List Nat} (hc : runCheck sd pmin pmax bound = true)
    (hdev : ∀ p ∈ primesieve_generate_primes pmin (pmax - 1), DeviceContract dev p)
    (htab : ∀ q ∈ prps, bound < q) :
    ∃ r, rangeReport sd pmin pmax = some r ∧
      hostRun dev sd pmin pmax prps factorialResidue = .ok r := by
  unfold runCheck at hc
  unfold rangeReport hostRun
  cases hcl : classifyLoop sd (primesieve_generate_primes pmin (pmax - 1)) with
  | error e => rw [hcl] at hc; simp at hc
  | ok r =>
    obtain ⟨sd1, tp⟩ := r
    rw [hcl] at hc
    simp only [Bool.and_eq_true, Bool.not_eq_true', List.all_eq_true, decide_eq_true_eq] at hc
    obtain ⟨hne, hall⟩ := hc
    have hok := classifyLoop_ok _ _ _ _ hcl
    refine ⟨reportAll tp sd1 [], rfl, ?_⟩
    have hrun : processAll dev prps (tp.map (fun t => (t, factorialResidue t))) sd1 []
        = .ok (reportAll tp sd1 []) := by
      apply processAll_of_check
      intro t ht
      obtain ⟨⟨⟨hpos, hmax⟩, hb⟩, hv⟩ := hall t ht
      obtain ⟨hmem, hty⟩ := hok t ht
      exact ⟨hv, hdev t.p hmem, hpos, hmax, hty, fun q hq => lt_of_le_of_lt hb (htab q hq)⟩
    cases hl : primesieve_generate_primes pmin (pmax - 1) with
    | nil =>
      rw [hl] at hcl
      have e := (Prod.mk.inj (Except.ok.inj hcl)).2
      rw [← e] at hne
      simp at hne
    | cons p rest =>
      simp only
      rw [← hl, hcl]
      exact hrun

theorem noDivisorUpTo_iff (n : Nat) : ∀ k, noDivisorUpTo n k = true ↔
    ∀ d, 2 ≤ d → d ≤ k → ¬ d ∣ n := by
  intro k
  induction k with
  | zero => simp [noDivisorUpTo]; intro d h1 h2; omega
  | succ k ih =>
    unfold noDivisorUpTo
    rw [Bool.and_eq_true, ih, Bool.or_eq_true, decide_eq_true_eq, bne_iff_ne]
    constructor
    · rintro ⟨h1, h2⟩ d hd hdk
      rcases Nat.lt_or_ge d (k + 1) with h | h
      · exact h2 d hd (by omega)
      · have e : d = k + 1 := by omega
        subst e
        rcases h1 with h1 | h1
        · omega
        · intro hdiv
          exact h1 (Nat.mod_eq_zero_of_dvd hdiv)
    · intro h
      refine ⟨?_, fun d hd hdk => h d hd (by omega)⟩
      by_cases h2 : k + 1 < 2
      · exact Or.inl h2
      · right
        intro hmod
        exact h (k + 1) (by omega) (le_refl _) (Nat.dvd_of_mod_eq_zero hmod)

theorem isqrt_eq_sqrt (n : Nat) : isqrt n = Nat.sqrt n := by
  have h := isqrt_spec n
  exact Nat.eq_sqrt.2 ⟨h.1, h.2⟩

/-- Trial division decides primality. -/
theorem isPrimeNat_iff (n : Nat) : isPrimeNat n = true ↔ n.Prime := by
  unfold isPrimeNat
  rw [Bool.and_eq_true, decide_eq_true_eq, noDivisorUpTo_iff, Nat.prime_def_le_sqrt,
    isqrt_eq_sqrt]

/-- The generated list holds exactly the primes of `[start, stop]`. -/
theorem mem_primesieve_generate_primes (start stop p : Nat) :
    p ∈ primesieve_generate_primes start stop ↔ start ≤ p ∧ p ≤ stop ∧ p.Prime := by
  unfold primesieve_generate_primes
  rw [List.mem_filter, isPrimeNat_iff, List.mem_map]
  constructor
  · rintro ⟨⟨i, hi, rfl⟩, hp⟩
    have := List.mem_range.1 hi
    exact ⟨by omega, by omega, hp⟩
  · rintro ⟨h1, h2, hp⟩
    exact ⟨⟨p - start, List.mem_range.2 (by omega), by omega⟩, hp⟩

/-- When `refDevice` finds its answers for `p`, they meet the contract. -/
theorem refDevice_contract {p : Nat} (hmax : p ≤ maxp) (h : refDeviceFinds p = true) :
    DeviceContract refDevice p := by
  unfold refDeviceFinds at h
  rw [Bool.and_eq_true, decide_eq_true_eq, decide_eq_true_eq] at h
  obtain ⟨h0, h1⟩ := h
  constructor
  · intro hm
    obtain ⟨hu, hc⟩ := h0 hm
    rw [u64_four_mul hmax]
    constructor
    · obtain ⟨u, hu'⟩ := Option.isSome_iff_exists.1 hu
      have hmem : u ∈ (reps 3 (4 * p)).filter (fun u => decide (u % 3 = (umod p : Int))) :=
        List.mem_of_mem_head? hu'
      rw [List.mem_filter, decide_eq_true_eq] at hmem
      obtain ⟨v, hv⟩ := reps_sound hmem.1
      exact ⟨u, v, hu', by exact_mod_cast hv, hmem.2⟩
    · obtain ⟨c, hc'⟩ := Option.isSome_iff_exists.1 hc
      have hmem : c ∈ (reps 27 (4 * p)).filter (fun c => decide (c % 3 = 1)) :=
        List.mem_of_mem_head? hc'
      rw [List.mem_filter, decide_eq_true_eq] at hmem
      obtain ⟨d, hd⟩ := reps_sound hmem.1
      exact ⟨c, d, hc', by exact_mod_cast hd, hmem.2⟩
  · intro hm
    obtain ⟨a, ha'⟩ := Option.isSome_iff_exists.1 (h1 hm)
    have hmem : a ∈ (reps 1 p).filter (fun a => decide (a % 4 = 1)) :=
      List.mem_of_mem_head? ha'
    rw [List.mem_filter, decide_eq_true_eq] at hmem
    obtain ⟨b, hb⟩ := reps_sound hmem.1
    exact ⟨a, b, ha', by rw [← hb]; push_cast; ring, hmem.2⟩

set_option maxRecDepth 100000 in
set_option maxHeartbeats 4000000 in
/-- C8: on the range `[200, 564)`, with each residue equal to `((p-1)/n)! mod p^2`, for every
device that meets the contract of the kernels on the test primes and every reference table without
entries up to the largest type target 113: the run tests exactly the 57 primes of the range,
reports every one of them in order (57 results), reports `p = 563` last and as an exact Wilson
prime (value 0), and ends with checksum `0x80A3`, which is the sum over those primes of
`p + W_p` with `W_p = (((p-1)! + 1) / p) mod p`. -/
theorem C8_range_200_564 (dev : Device) (prps : List Nat)
    (hdev : ∀ p ∈ primesieve_generate_primes 200 (564 - 1), DeviceContract dev p)
    (htab : ∀ q ∈ prps, 113 < q) :
    (∀ p, p ∈ primesieve_generate_primes 200 (564 - 1) ↔ (200 ≤ p ∧ p < 564 ∧ p.Prime)) ∧
    (primesieve_generate_primes 200 (564 - 1)).length = 57 ∧
    ∃ r, hostRun dev (searchData.init true) 200 564 prps factorialResidue = .ok r ∧
      r.1.resultcount = 57 ∧ r.2.length = 57 ∧
      r.2.map ResultLine.prime = primesieve_generate_primes 200 (564 - 1) ∧
      r.2.getLast? = some (ResultLine.wilson 563) ∧
      r.1.testResultPrime = 563 ∧ r.1.testResultValue = 0 ∧
      r.1.checksum = 0x80A3 ∧
      ((primesieve_generate_primes 200 (564 - 1)).map (fun p => p + wilsonQuotient p)).sum
        = 0x80A3 := by
  refine ⟨?_, by decide!, ?_⟩
  · intro p
    rw [mem_primesieve_generate_primes]
    constructor
    · rintro ⟨h1, h2, h3⟩; exact ⟨h1, by omega, h3⟩
    · rintro ⟨h1, h2, h3⟩; exact ⟨h1, by omega, h3⟩
  · have hc : runCheck (searchData.init true) 200 564 113 = true := by decide!
    obtain ⟨r, hr, hrun⟩ :=
      @hostRun_of_check dev (searchData.init true) 200 564 113 prps hc hdev htab
    have hout : (match rangeReport (searchData.init true) 200 564 with
        | some r => decide (r.1.resultcount = 57) && decide (r.2.length = 57) &&
            decide (r.2.map ResultLine.prime = primesieve_generate_primes 200 (564 - 1)) &&
            decide (r.2.getLast? = some (ResultLine.wilson 563)) &&
            decide (r.1.testResultPrime = 563) && decide (r.1.testResultValue = 0) &&
            decide (r.1.checksum = 0x80A3)
        | none => false) = true := by decide!
    rw [hr] at hout
    simp only [Bool.and_eq_true, decide_eq_true_eq] at hout
    obtain ⟨⟨⟨⟨⟨⟨h1, h2⟩, h3⟩, h4⟩, h5⟩, h6⟩, h7⟩ := hout
    exact ⟨r, hrun, h1, h2, h3, h4, h5, h6, h7, by decide!⟩

set_option maxRecDepth 100000 in
set_option maxHeartbeats 4000000 in
/-- Witness of C8: `refDevice` meets the contract on the 57 test primes and the table `[341, 561]`
has no entry up to 113. -/
theorem C8_range_200_564_witness :
    ((∀ p ∈ primesieve_generate_primes 200 (564 - 1), DeviceContract refDevice p) ∧
      (∀ q ∈ [341, 561], 113 < q)) ∧
    ∃ r, hostRun refDevice (searchData.init true) 200 564 [341, 561] factorialResidue = .ok r ∧
      r.1.resultcount = 57 ∧ r.1.checksum = 0x80A3 ∧
      r.2.getLast? = some (ResultLine.wilson 563) :=
  have hdev : ∀ p ∈ primesieve_generate_primes 200 (564 - 1), DeviceContract refDevice p := by
    have hall : (primesieve_generate_primes 200 (564 - 1)).all
        (fun p => decide (p ≤ maxp) && refDeviceFinds p) = true := by decide!
    intro p hp
    have h := List.all_eq_true.1 hall p hp
    rw [Bool.and_eq_true, decide_eq_true_eq] at h
    exact refDevice_contract h.1 h.2
  have htab : ∀ q ∈ [341, 561], 113 < q := by decide
  have h := (C8_range_200_564 refDevice [341, 561] hdev htab).2.2
  ⟨⟨hdev, htab⟩, h.elim (fun r hr => ⟨r, hr.1, hr.2.1, hr.2.2.2.2.2.2.2.1, hr.2.2.2.2.1⟩)⟩

/-! ## The closed-form identity of type 2 -/

section TypeTwo

open Finset

/-- In `ZMod p`, `choose (p-1) j = (-1)^j` for `j < p`. -/
theorem choose_pred_prime_zmod {p : Nat} (hp : p.Prime) :
    ∀ j, j < p → ((Nat.choose (p - 1) j : Nat) : ZMod p) = (-1) ^ j := by
  intro j
  induction j with
  | zero => intro _; simp
  | succ j ih =>
    intro hj
    have h1 : Nat.choose p (j + 1) = Nat.choose (p - 1) j + Nat.choose (p - 1) (j + 1) := by
      have : p = (p - 1) + 1 := by have := hp.pos; omega
      conv_lhs => rw [this]
      exact Nat.choose_succ_succ _ _
    have h2 : ((Nat.choose p (j + 1) : Nat) : ZMod p) = 0 := by
      rw [ZMod.natCast_zmod_eq_zero_iff_dvd]
      exact hp.dvd_choose_self (by omega) hj
    rw [h1] at h2
    push_cast at h2
    rw [ih (by omega)] at h2
    rw [pow_succ]
    linear_combination h2

/-- The sum of the inverses of `1, ..., p-1` vanishes in `ZMod p`, for an odd prime. -/
theorem sum_inv_range_zmod {p : Nat} (hp : p.Prime) (h2 : p ≠ 2) :
    ∑ k in range (p - 1), ((k + 1 : Nat) : ZMod p)⁻¹ = 0 := by
  haveI := Fact.mk hp
  have hrefl := Finset.sum_range_reflect (fun k => ((k + 1 : Nat) : ZMod p)⁻¹) (p - 1)
  have hneg : ∀ k ∈ range (p - 1), ((p - 1 - 1 - k + 1 : Nat) : ZMod p)⁻¹
      = -((k + 1 : Nat) : ZMod p)⁻¹ := by
    intro k hk
    have hk' := mem_range.1 hk
    have e : ((p - 1 - 1 - k + 1 : Nat) : ZMod p) = -((k + 1 : Nat) : ZMod p) := by
      have : (p - 1 - 1 - k + 1) + (k + 1) = p := by omega
      have h3 : (((p - 1 - 1 - k + 1) + (k + 1) : Nat) : ZMod p) = 0 := by
        rw [this]; exact ZMod.natCast_self p
      push_cast at h3 ⊢
      linear_combination h3
    rw [e, inv_neg]
  rw [Finset.sum_congr rfl hneg, Finset.sum_neg_distrib] at hrefl
  have h2S : (2 : ZMod p) * ∑ k in range (p - 1), ((k + 1 : Nat) : ZMod p)⁻¹ = 0 := by
    linear_combination -hrefl
  have h2ne : (2 : ZMod p) ≠ 0 := by
    intro h
    have : ((2 : Nat) : ZMod p) = 0 := by exact_mod_cast h
    rw [ZMod.natCast_zmod_eq_zero_iff_dvd] at this
    have := (Nat.prime_dvd_prime_iff_eq hp Nat.prime_two).1 this
    exact h2 this
  rcases mul_eq_zero.1 h2S with h | h
  · exact absurd h h2ne
  · exact h

/-- Alternating sum: over `2n` terms, `a_0 - a_1 + a_2 - ...` is the full sum minus twice the
odd-indexed terms. -/
theorem alternating_sum_range {R : Type*} [CommRing R] (a : Nat → R) (n : Nat) :
    ∑ k in range (2 * n), (-1) ^ k * a k
      = ∑ k in range (2 * n), a k - 2 * ∑ j in range n, a (2 * j + 1) := by
  induction n with
  | zero => simp
  | succ n ih =>
    have e : 2 * (n + 1) = 2 * n + 1 + 1 := by ring
    rw [e, Finset.sum_range_succ, Finset.sum_range_succ, Finset.sum_range_succ,
      Finset.sum_range_succ, Finset.sum_range_succ, ih]
    have e1 : (-1 : R) ^ (2 * n) = 1 := by rw [pow_mul]; simp
    have e2 : (-1 : R) ^ (2 * n + 1) = -1 := by rw [pow_succ, e1]; simp
    rw [e1, e2]
    ring

theorem two_pow_eq_fermatSum {p : Nat} (hp : p.Prime) : 2 ^ p = 2 + p * fermatSum p := by
  have h1 := Nat.sum_range_choose p
  have hp1 : p + 1 = (p - 1) + 1 + 1 := by have := hp.two_le; omega
  rw [hp1, Finset.sum_range_succ, Finset.sum_range_succ'] at h1
  have hpp : p - 1 + 1 = p := by have := hp.two_le; omega
  rw [hpp] at h1
  simp only [Nat.choose_zero_right, Nat.choose_self] at h1
  have h2 : ∑ k in range (p - 1), Nat.choose p (k + 1) = p * fermatSum p := by
    unfold fermatSum
    rw [Finset.mul_sum]
    apply Finset.sum_congr rfl
    intro k hk
    have hk' := mem_range.1 hk
    exact (Nat.mul_div_cancel' (hp.dvd_choose_self (by omega) (by omega))).symm
  omega

theorem natCast_ne_zero_zmod {p : Nat} {k : Nat} (h0 : 0 < k) (hk : k < p) :
    ((k : Nat) : ZMod p) ≠ 0 := by
  intro h
  rw [ZMod.natCast_zmod_eq_zero_iff_dvd] at h
  exact absurd (Nat.le_of_dvd h0 h) (by omega)

theorem choose_div_zmod {p : Nat} (hp : p.Prime) {k : Nat} (hk : k < p - 1) :
    ((Nat.choose p (k + 1) / p : Nat) : ZMod p) = (-1) ^ k * ((k + 1 : Nat) : ZMod p)⁻¹ := by
  haveI := Fact.mk hp
  have hne := natCast_ne_zero_zmod (Nat.succ_pos k) (by omega : k + 1 < p)
  have h1 : (p - 1 + 1) * Nat.choose (p - 1) k = Nat.choose (p - 1 + 1) (k + 1) * (k + 1) :=
    Nat.succ_mul_choose_eq (p - 1) k
  have hpp : p - 1 + 1 = p := by have := hp.two_le; omega
  rw [hpp] at h1
  have hd : p ∣ Nat.choose p (k + 1) := hp.dvd_choose_self (by omega) (by omega)
  obtain ⟨c, hc⟩ := hd
  have hdiv : Nat.choose p (k + 1) / p = c := by
    rw [hc]; exact Nat.mul_div_cancel_left c hp.pos
  rw [hc, mul_assoc] at h1
  have h2 : Nat.choose (p - 1) k = c * (k + 1) := Nat.eq_of_mul_eq_mul_left hp.pos h1
  have h3 := congrArg (fun n : Nat => (n : ZMod p)) h2
  simp only at h3
  rw [choose_pred_prime_zmod hp k (by omega)] at h3
  rw [hdiv]
  push_cast at h3 hne ⊢
  field_simp
  exact h3.symm

/-- In `ZMod p`, `(2^p - 2) / p` is minus the harmonic sum up to `(p-1)/2`. -/
theorem fermatSum_zmod {p h : Nat} (hp : p.Prime) (hh : p = 2 * h + 1) :
    ((fermatSum p : Nat) : ZMod p) = -∑ j in range h, ((j + 1 : Nat) : ZMod p)⁻¹ := by
  haveI := Fact.mk hp
  have h2 : p ≠ 2 := by omega
  have h2ne : (2 : ZMod p) ≠ 0 := by
    intro h
    have : ((2 : Nat) : ZMod p) = 0 := by exact_mod_cast h
    rw [ZMod.natCast_zmod_eq_zero_iff_dvd] at this
    exact h2 ((Nat.prime_dvd_prime_iff_eq hp Nat.prime_two).1 this)
  unfold fermatSum
  rw [Nat.cast_sum, Finset.sum_congr rfl (fun k hk => choose_div_zmod hp (mem_range.1 hk))]
  have hp1 : p - 1 = 2 * h := by omega
  rw [hp1, alternating_sum_range (fun k => ((k + 1 : Nat) : ZMod p)⁻¹) h]
  have hs := sum_inv_range_zmod hp h2
  rw [hp1] at hs
  rw [hs, zero_sub, Finset.mul_sum]
  congr 1
  apply Finset.sum_congr rfl
  intro j _
  have e : ((2 * j + 1 + 1 : Nat) : ZMod p) = 2 * ((j + 1 : Nat) : ZMod p) := by
    push_cast; ring
  rw [e, mul_inv, ← mul_assoc, mul_inv_cancel₀ h2ne, one_mul]

/-- In `ZMod p`, `E n = n! * (1 + 1/2 + ... + 1/n)` for `n < p`. -/
theorem harmonicNumerator_zmod {p : Nat} (hp : p.Prime) : ∀ n, n < p →
    ((harmonicNumerator n : Nat) : ZMod p)
      = (n.factorial : ZMod p) * ∑ j in range n, ((j + 1 : Nat) : ZMod p)⁻¹ := by
  haveI := Fact.mk hp
  intro n
  induction n with
  | zero => intro _; simp [harmonicNumerator]
  | succ n ih =>
    intro hn
    have hne := natCast_ne_zero_zmod (Nat.succ_pos n) hn
    rw [harmonicNumerator, Finset.sum_range_succ, Nat.factorial_succ]
    push_cast at hne ⊢
    rw [ih (by omega)]
    field_simp
    ring

/-- Expansion of `(p-1)(p-2)...(p-n)` modulo `p^2`. -/
theorem prod_sub_modEq (p : Nat) : ∀ n : Nat,
    ∏ j in range n, ((p : Int) - ((j + 1 : Nat) : Int))
      ≡ (-1) ^ n * ((n.factorial : Int) - p * harmonicNumerator n) [ZMOD ((p * p : Nat) : Int)] := by
  intro n
  induction n with
  | zero => simp [harmonicNumerator]
  | succ n ih =>
    rw [Finset.prod_range_succ]
    have h1 := Int.ModEq.mul_right ((p : Int) - ((n + 1 : Nat) : Int)) ih
    refine h1.trans ?_
    rw [Int.modEq_iff_dvd]
    refine ⟨(-1) ^ n * harmonicNumerator n, ?_⟩
    rw [harmonicNumerator, Nat.factorial_succ, pow_succ]
    push_cast
    ring

theorem factorial_add_prod (h : Nat) : ∀ n : Nat,
    (h + n).factorial = h.factorial * ∏ i in range n, (h + 1 + i) := by
  intro n
  induction n with
  | zero => simp
  | succ n ih =>
    rw [Finset.prod_range_succ, ← mul_assoc, ← ih, ← Nat.add_assoc, Nat.factorial_succ]
    ring

/-- Splitting `(2h)!` as `h!` times `(p-1)(p-2)...(p-h)` for `p = 2h + 1`. -/
theorem factorial_split (h : Nat) :
    (((2 * h).factorial : Nat) : Int)
      = (h.factorial : Int) * ∏ j in range h, (((2 * h + 1 : Nat) : Int) - ((j + 1 : Nat) : Int)) := by
  have h1 := factorial_add_prod h h
  have e : h + h = 2 * h := by ring
  rw [e] at h1
  rw [h1]
  push_cast
  congr 1
  rw [← Finset.prod_range_reflect]
  apply Finset.prod_congr rfl
  intro j hj
  have hj' := mem_range.1 hj
  have : ((h - 1 - j : Nat) : Int) = (h : Int) - 1 - j := by
    rw [Nat.cast_sub (by omega), Nat.cast_sub (by omega)]; simp
  rw [this]
  ring

/-- For a prime `p = 2h + 1` with `h` odd (`p = 3 mod 4`):
`(h!)^2 * (1 - 2^p) = (p-1)!` modulo `p^2`. -/
theorem half_factorial_sq_modEq {p h : Nat} (hp : p.Prime) (hh : p = 2 * h + 1)
    (hodd : h % 2 = 1) :
    (h.factorial : Int) * (h.factorial : Int) * (1 - 2 ^ p)
      ≡ (((p - 1).factorial : Nat) : Int) [ZMOD ((p * p : Nat) : Int)] := by
  haveI := Fact.mk hp
  -- the first-order terms agree modulo p
  have hF : ((h.factorial * h.factorial * fermatSum p : Nat) : ZMod p)
      = -((h.factorial * harmonicNumerator h : Nat) : ZMod p) := by
    push_cast
    rw [fermatSum_zmod hp hh, harmonicNumerator_zmod hp h (by omega)]
    ring
  have hmodp : ((h.factorial * h.factorial * fermatSum p : Nat) : Int)
      ≡ -((h.factorial * harmonicNumerator h : Nat) : Int) [ZMOD (p : Int)] := by
    rw [← ZMod.intCast_eq_intCast_iff]
    push_cast
    push_cast at hF
    exact hF
  have hmodpp := Int.ModEq.mul_left' (c := (p : Int)) hmodp
  -- the left side
  have h2p : ((2 : Int)) ^ p = 2 + p * fermatSum p := by
    exact_mod_cast two_pow_eq_fermatSum hp
  -- the right side
  have hsplit := factorial_split h
  have hp1 : p - 1 = 2 * h := by omega
  have hprod := prod_sub_modEq p h
  have hneg : (-1 : Int) ^ h = -1 := Odd.neg_one_pow (Nat.odd_iff.2 hodd)
  rw [hneg] at hprod
  rw [hp1, hsplit, ← hh]
  have hR := Int.ModEq.mul_left (h.factorial : Int) hprod
  refine Int.ModEq.trans ?_ hR.symm
  rw [h2p]
  have e1 : (h.factorial : Int) * (h.factorial : Int) * (1 - (2 + p * fermatSum p))
      = -((h.factorial : Int) * (h.factorial : Int))
        - p * ((h.factorial * h.factorial * fermatSum p : Nat) : Int) := by
    push_cast; ring
  have e2 : (h.factorial : Int) * (-1 * ((h.factorial : Int) - p * harmonicNumerator h))
      = -((h.factorial : Int) * (h.factorial : Int))
        - p * (-((h.factorial * harmonicNumerator h : Nat) : Int)) := by
    push_cast; ring
  rw [e1, e2]
  push_cast at hmodpp ⊢
  exact Int.ModEq.sub_left _ hmodpp

end TypeTwo

/-- C3: for every prime `p = 11 mod 12`, if the residue entering step 2 of `processResult` is
congruent to `((p-1)/2)!` modulo `p^2`, the type-2 value `residue^2 * (1 - 2^p)` that step 2
returns is congruent to `(p-1)!` modulo `p^2`. -/
theorem C3_type2_identity (dev : Device) (p : Nat) (residue : Int) (hp : p.Prime)
    (h12 : p % 12 = 11)
    (hres : residue ≡ ((((p - 1) / 2).factorial : Nat) : Int) [ZMOD ((p * p : Nat) : Int)]) :
    reconstruct dev p 2 residue = .ok (type2Value p residue) ∧
    type2Value p residue = residue * residue * (1 - 2 ^ p % ((p * p : Nat) : Int)) ∧
    type2Value p residue ≡ (((p - 1).factorial : Nat) : Int) [ZMOD ((p * p : Nat) : Int)] := by
  have hh : p = 2 * ((p - 1) / 2) + 1 := by omega
  have hodd : ((p - 1) / 2) % 2 = 1 := by omega
  have hval : type2Value p residue = residue * residue * (1 - 2 ^ p % ((p * p : Nat) : Int)) := by
    unfold type2Value
    simp only [mpz_powm_eq]
  refine ⟨rfl, hval, ?_⟩
  rw [hval]
  refine Int.ModEq.trans ?_ (half_factorial_sq_modEq hp hh hodd)
  apply Int.ModEq.mul (Int.ModEq.mul hres hres)
  exact Int.ModEq.sub_left _ (Int.mod_modEq _ _)

/-- Witness of C3 at `p = 11` with the residue `5! = 120`. -/
theorem C3_type2_identity_witness :
    (Nat.Prime 11 ∧ 11 % 12 = 11 ∧
      (120 : Int) ≡ ((((11 - 1) / 2).factorial : Nat) : Int) [ZMOD ((11 * 11 : Nat) : Int)]) ∧
    type2Value 11 120 ≡ (((11 - 1).factorial : Nat) : Int) [ZMOD ((11 * 11 : Nat) : Int)] :=
  have h1 : Nat.Prime 11 := by norm_num
  have h3 : (120 : Int) ≡ ((((11 - 1) / 2).factorial : Nat) : Int)
      [ZMOD ((11 * 11 : Nat) : Int)] := by decide
  ⟨⟨h1, by norm_num, h3⟩,
    (C3_type2_identity ⟨fun _ _ => none, fun _ _ => none, fun _ _ _ => none⟩ 11 120 h1
      (by norm_num) h3).2.2⟩

/-! ## The closed-form identity of type 1 -/

section TypeOne

open Finset

/-- The square of `p` vanishes in `ZMod (p^2)`. -/
theorem natCast_p_sq (p : ℕ) : ((p : ℕ) : ZMod (p ^ 2)) ^ 2 = 0 := by
  have : ((p ^ 2 : ℕ) : ZMod (p ^ 2)) = 0 := ZMod.natCast_self _
  rw [← this]; push_cast; ring

/-- The product `p * p` vanishes in `ZMod (p^2)`. -/
theorem natCast_p_mul_self (p : ℕ) : ((p : ℕ) : ZMod (p ^ 2)) * (p : ZMod (p ^ 2)) = 0 := by
  rw [← sq]; exact natCast_p_sq p

/-- Numbers congruent modulo `p` have the same `p`-th power modulo `p^2`. -/
theorem natCast_pow_eq_of_modEq {p a b : ℕ} (h : a ≡ b [MOD p]) :
    ((a : ℕ) : ZMod (p ^ 2)) ^ p = ((b : ℕ) : ZMod (p ^ 2)) ^ p := by
  have hd : ((p : ℕ) : ZMod (p ^ 2)) ∣ (a : ZMod (p ^ 2)) - (b : ZMod (p ^ 2)) := by
    have h1 : (p : ℤ) ∣ (a : ℤ) - (b : ℤ) := (Nat.modEq_iff_dvd).1 h.symm
    obtain ⟨c, hc⟩ := h1
    refine ⟨(c : ZMod (p ^ 2)), ?_⟩
    have := congrArg (fun z : ℤ => (z : ZMod (p ^ 2))) hc
    simpa using this
  have h2 := dvd_sub_pow_of_dvd_sub hd 1
  rw [pow_one, natCast_p_sq] at h2
  have h3 := zero_dvd_iff.1 h2
  exact sub_eq_zero.1 h3

/-- The reduction of a natural number. -/
theorem redp_natCast (p n : ℕ) : redp p (n : ZMod (p ^ 2)) = (n : ZMod p) := map_natCast _ _

/-- The Teichmüller representative is multiplicative. -/
theorem teich_mul {p : ℕ} [Fact p.Prime] (x y : ZMod p) :
    teich (x * y) = teich x * teich y := by
  unfold teich
  rw [← mul_pow, ← Nat.cast_mul]
  apply natCast_pow_eq_of_modEq
  rw [ZMod.val_mul]
  exact Nat.mod_modEq _ _

/-- The Teichmüller representative of `0`. -/
theorem teich_zero {p : ℕ} [hp : Fact p.Prime] : teich (0 : ZMod p) = 0 := by
  unfold teich
  rw [ZMod.val_zero, Nat.cast_zero, zero_pow hp.out.ne_zero]

/-- The Teichmüller representative of `1`. -/
theorem teich_one {p : ℕ} [hp : Fact p.Prime] : teich (1 : ZMod p) = 1 := by
  unfold teich
  rw [ZMod.val_one, Nat.cast_one, one_pow]

/-- A Teichmüller representative reduces to the residue it represents. -/
theorem redp_teich {p : ℕ} [hp : Fact p.Prime] (x : ZMod p) : redp p (teich x) = x := by
  unfold teich
  rw [map_pow, redp_natCast, ZMod.natCast_zmod_val, ZMod.pow_card]

/-- An element of `ZMod (p^2)` whose reduction is nonzero is a unit. -/
theorem isUnit_of_redp_ne_zero {p : ℕ} [hp : Fact p.Prime] {c : ZMod (p ^ 2)}
    (h : redp p c ≠ 0) : IsUnit c := by
  haveI : NeZero (p ^ 2) := ⟨pow_ne_zero 2 hp.out.ne_zero⟩
  have hc : ((c.val : ℕ) : ZMod (p ^ 2)) = c := ZMod.natCast_zmod_val c
  rw [← hc] at h ⊢
  rw [redp_natCast] at h
  rw [ZMod.isUnit_iff_coprime]
  apply Nat.Coprime.pow_right
  rw [Nat.coprime_comm, Nat.Prime.coprime_iff_not_dvd hp.out]
  intro hd
  exact h ((ZMod.natCast_zmod_eq_zero_iff_dvd _ _).2 hd)

/-- An element of `ZMod (p^2)` with reduction zero is a multiple of `p`. -/
theorem exists_eq_p_mul_of_redp_eq_zero {p : ℕ} [hp : Fact p.Prime] {c : ZMod (p ^ 2)}
    (h : redp p c = 0) : ∃ w : ZMod (p ^ 2), c = (p : ZMod (p ^ 2)) * w := by
  haveI : NeZero (p ^ 2) := ⟨pow_ne_zero 2 hp.out.ne_zero⟩
  have hc : ((c.val : ℕ) : ZMod (p ^ 2)) = c := ZMod.natCast_zmod_val c
  rw [← hc, redp_natCast, ZMod.natCast_zmod_eq_zero_iff_dvd] at h
  obtain ⟨w, hw⟩ := h
  refine ⟨(w : ZMod (p ^ 2)), ?_⟩
  rw [← hc, hw]
  push_cast
  ring

/-- Multiplication by `p` only sees the reduction modulo `p`. -/
theorem p_mul_eq_of_redp_eq {p : ℕ} [hp : Fact p.Prime] {r s : ZMod (p ^ 2)}
    (h : redp p r = redp p s) : (p : ZMod (p ^ 2)) * r = (p : ZMod (p ^ 2)) * s := by
  have h0 : redp p (r - s) = 0 := by rw [map_sub, h, sub_self]
  obtain ⟨w, hw⟩ := exists_eq_p_mul_of_redp_eq_zero h0
  have : (p : ZMod (p ^ 2)) * (r - s) = 0 := by
    rw [hw, ← mul_assoc, natCast_p_mul_self, zero_mul]
  linear_combination this

/-- A nonzero Teichmüller representative is a `(p-1)`-th root of unity modulo `p^2`. -/
theorem teich_pow_pred {p : ℕ} [hp : Fact p.Prime] {x : ZMod p} (hx : x ≠ 0) :
    teich x ^ (p - 1) = 1 := by
  have hv : IsUnit ((x.val : ℕ) : ZMod (p ^ 2)) :=
    isUnit_of_redp_ne_zero (by rw [redp_natCast, ZMod.natCast_zmod_val]; exact hx)
  obtain ⟨u, hu'⟩ := hv
  have h1 := ZMod.pow_totient u
  rw [Nat.totient_prime_pow hp.out (by norm_num : 0 < 2)] at h1
  have h2 : ((u ^ (p ^ (2 - 1) * (p - 1)) : (ZMod (p ^ 2))ˣ) : ZMod (p ^ 2)) = 1 := by
    rw [h1]; rfl
  rw [Units.val_pow_eq_pow_val, hu'] at h2
  unfold teich
  rw [← pow_mul]
  simpa using h2

/-- Powers of Teichmüller representatives with exponent a multiple of `p - 1`. -/
theorem teich_pow_of_dvd {p : ℕ} [hp : Fact p.Prime] {x : ZMod p} (hx : x ≠ 0) {e : ℕ}
    (he : (p - 1) ∣ e) : teich x ^ e = 1 := by
  obtain ⟨k, rfl⟩ := he
  rw [pow_mul, teich_pow_pred hx, one_pow]

/-- The power sum of the Teichmüller representatives for an exponent divisible by `p - 1`. -/
theorem teichSum_of_dvd {p : ℕ} [hp : Fact p.Prime] {e : ℕ} (he0 : 0 < e)
    (he : (p - 1) ∣ e) : teichSum p e = (p : ZMod (p ^ 2)) - 1 := by
  unfold teichSum
  have h1 : ∀ x : ZMod p, teich x ^ e = if x = 0 then 0 else 1 := by
    intro x
    by_cases hx : x = 0
    · rw [if_pos hx, hx, teich_zero, zero_pow (by omega)]
    · rw [if_neg hx, teich_pow_of_dvd hx he]
  rw [Finset.sum_congr rfl (fun x _ => h1 x)]
  rw [Finset.sum_ite, Finset.sum_const_zero, zero_add, Finset.sum_const, nsmul_eq_mul, mul_one]
  have hcard : (Finset.filter (fun x : ZMod p => ¬ x = 0) Finset.univ).card = p - 1 := by
    rw [Finset.filter_not, Finset.card_sdiff (by simp), Finset.filter_eq' Finset.univ (0 : ZMod p)]
    simp [ZMod.card]
  rw [hcard, Nat.cast_sub hp.out.one_le, Nat.cast_one]

/-- The power sum of the Teichmüller representatives vanishes for the other exponents. -/
theorem teichSum_of_not_dvd {p : ℕ} [hp : Fact p.Prime] {e : ℕ} (he : ¬ (p - 1) ∣ e) :
    teichSum p e = 0 := by
  -- a generator of the units of `ZMod p`
  obtain ⟨g, hg⟩ := IsCyclic.exists_generator (α := (ZMod p)ˣ)
  have hord : orderOf g = p - 1 := by
    rw [orderOf_eq_card_of_forall_mem_zpowers hg, Nat.card_eq_fintype_card, ZMod.card_units_eq_totient,
      Nat.totient_prime hp.out]
  have hge : (g : ZMod p) ^ e ≠ 1 := by
    intro h
    apply he
    rw [← hord]
    apply orderOf_dvd_of_pow_eq_one
    apply Units.ext
    rw [Units.val_pow_eq_pow_val, h]; rfl
  have hc : redp p (teich (g : ZMod p) ^ e - 1) ≠ 0 := by
    rw [map_sub, map_pow, redp_teich, map_one]
    exact sub_ne_zero.2 hge
  have hunit := isUnit_of_redp_ne_zero hc
  unfold teichSum
  have hperm : ∑ x : ZMod p, teich ((g : ZMod p) * x) ^ e = ∑ x : ZMod p, teich x ^ e :=
    Fintype.sum_equiv (Equiv.mulLeft₀ (g : ZMod p) (Units.ne_zero g)) _ _ (fun x => rfl)
  have hmul : (teich (g : ZMod p) ^ e - 1) * ∑ x : ZMod p, teich x ^ e = 0 := by
    rw [sub_mul, one_mul, Finset.mul_sum, ← hperm]
    rw [sub_eq_zero]
    apply Finset.sum_congr rfl
    intro x _
    rw [teich_mul, mul_pow]
  exact (hunit.mul_right_eq_zero).1 hmul

/-- Elements with the same reduction modulo `p` have the same `p`-th power modulo `p^2`. -/
theorem pow_p_eq_of_redp_eq {p : ℕ} [hp : Fact p.Prime] {a b : ZMod (p ^ 2)}
    (h : redp p a = redp p b) : a ^ p = b ^ p := by
  have h0 : redp p (a - b) = 0 := by rw [map_sub, h, sub_self]
  obtain ⟨w, hw⟩ := exists_eq_p_mul_of_redp_eq_zero h0
  have hd : ((p : ℕ) : ZMod (p ^ 2)) ∣ a - b := ⟨w, hw⟩
  have h2 := dvd_sub_pow_of_dvd_sub hd 1
  rw [pow_one, natCast_p_sq] at h2
  exact sub_eq_zero.1 (zero_dvd_iff.1 h2)

/-- The Teichmüller representative of `1 - x` is the `p`-th power of `1 - teich x`. -/
theorem teich_one_sub {p : ℕ} [hp : Fact p.Prime] (x : ZMod p) :
    teich (1 - x) = (1 - teich x) ^ p := by
  unfold teich
  apply pow_p_eq_of_redp_eq
  rw [redp_natCast, ZMod.natCast_zmod_val, map_sub, map_one, map_pow, redp_natCast,
    ZMod.natCast_zmod_val, ZMod.pow_card]

/-- First-order binomial expansion modulo `p^2`. -/
theorem add_p_mul_pow {p : ℕ} (u v : ZMod (p ^ 2)) (n : ℕ) :
    (u + (p : ZMod (p ^ 2)) * v) ^ (n + 1)
      = u ^ (n + 1) + ((n + 1 : ℕ) : ZMod (p ^ 2)) * (u ^ n * ((p : ZMod (p ^ 2)) * v)) := by
  induction n with
  | zero => simp
  | succ n ih =>
    have hpp := natCast_p_mul_self p
    rw [pow_succ (u + (p : ZMod (p ^ 2)) * v) (n + 1), ih, pow_succ u (n + 1),
      pow_succ u n]
    push_cast
    linear_combination ((n : ZMod (p ^ 2)) + 1) * v * v * u ^ n * hpp

/-- Powers of the Teichmüller representative of `1 - x` in terms of powers of `1 - teich x`. -/
theorem teich_one_sub_pow {p : ℕ} [hp : Fact p.Prime] (x : ZMod p) (n : ℕ) :
    teich (1 - x) ^ (n + 1)
      = ((n + 1 : ℕ) : ZMod (p ^ 2)) * (1 - teich x) ^ (n + p)
        - (n : ZMod (p ^ 2)) * (1 - teich x) ^ (n + 1) := by
  have h0 : redp p ((1 - teich x) ^ p - (1 - teich x)) = 0 := by
    rw [map_sub, map_pow, ZMod.pow_card, sub_self]
  obtain ⟨w, hw⟩ := exists_eq_p_mul_of_redp_eq_zero h0
  have hy : (1 - teich x) ^ p = (1 - teich x) + (p : ZMod (p ^ 2)) * w := by
    rw [← hw]; ring
  rw [teich_one_sub, hy, add_p_mul_pow, ← hw]
  have e : (1 - teich x) ^ (n + p) = (1 - teich x) ^ n * (1 - teich x) ^ p := pow_add _ _ _
  rw [e]
  push_cast
  ring

/-- The sum over the residues of `teich x ^ m * (1 - teich x) ^ N` by the binomial theorem. -/
theorem sum_teich_mul_one_sub_pow {p : ℕ} [hp : Fact p.Prime] (m N : ℕ) :
    ∑ x : ZMod p, teich x ^ m * (1 - teich x) ^ N
      = ∑ k in range (N + 1), (-1) ^ k * (N.choose k : ZMod (p ^ 2)) * teichSum p (m + k) := by
  have h1 : ∀ x : ZMod p, teich x ^ m * (1 - teich x) ^ N
      = ∑ k in range (N + 1), (-1) ^ k * (N.choose k : ZMod (p ^ 2)) * teich x ^ (m + k) := by
    intro x
    have e : (1 - teich x) ^ N = (-teich x + 1) ^ N := by ring
    rw [e, add_pow, Finset.mul_sum]
    apply Finset.sum_congr rfl
    intro k _
    rw [one_pow, neg_pow, pow_add]
    ring
  rw [Finset.sum_congr rfl (fun x _ => h1 x), Finset.sum_comm]
  apply Finset.sum_congr rfl
  intro k _
  unfold teichSum
  rw [Finset.mul_sum]

/-- The multiples of `4 f` between `3 f` and `5 f`. -/
theorem dvd_three_add {f k : ℕ} (hf : 0 < f) (hk : k ≤ 2 * f) (h : 4 * f ∣ 3 * f + k) : k = f := by
  obtain ⟨c, hc⟩ := h
  rcases c with _ | _ | c
  · omega
  · omega
  · have h2 : 4 * f * 2 ≤ 4 * f * (c + 1 + 1) := Nat.mul_le_mul_left _ (by omega)
    omega

/-- The multiples of `4 f` between `3 f` and `9 f`. -/
theorem dvd_three_add_six {f k : ℕ} (hf : 0 < f) (hk : k ≤ 6 * f) (h : 4 * f ∣ 3 * f + k) :
    k = f ∨ k = 5 * f := by
  obtain ⟨c, hc⟩ := h
  rcases c with _ | _ | _ | c
  · omega
  · omega
  · omega
  · have h2 : 4 * f * 3 ≤ 4 * f * (c + 1 + 1 + 1) := Nat.mul_le_mul_left _ (by omega)
    omega

/-- The sign `(-1)^(5f)` is `(-1)^f`. -/
theorem neg_one_pow_five_mul (f : ℕ) {R : Type*} [Ring R] : (-1 : R) ^ (5 * f) = (-1) ^ f := by
  have e : 5 * f = 2 * (2 * f) + f := by ring
  rw [e, pow_add, pow_mul, neg_one_sq, one_pow, one_mul]

/-- The sum of `teich x ^ (3 f) * (1 - teich x) ^ (2 f)` over the residues modulo `p = 4 f + 1`. -/
theorem sum_teich_3f_2f {p f : ℕ} [hp : Fact p.Prime] (h4 : p = 4 * f + 1) :
    ∑ x : ZMod p, teich x ^ (3 * f) * (1 - teich x) ^ (2 * f)
      = (-1) ^ f * ((2 * f).choose f : ZMod (p ^ 2)) * ((p : ZMod (p ^ 2)) - 1) := by
  have hf : 0 < f := by
    rcases Nat.eq_zero_or_pos f with h0 | h0
    · rw [h0] at h4; exact absurd (h4 ▸ hp.out) (by norm_num)
    · exact h0
  have hp1 : p - 1 = 4 * f := by omega
  rw [sum_teich_mul_one_sub_pow]
  rw [Finset.sum_eq_single f]
  · rw [teichSum_of_dvd (by omega) (by rw [hp1]; exact ⟨1, by ring⟩)]
  · intro k hk hne
    have hk2 : k ≤ 2 * f := by have := mem_range.1 hk; omega
    rw [teichSum_of_not_dvd, mul_zero]
    rw [hp1]
    intro hd
    exact hne (dvd_three_add hf hk2 hd)
  · intro hn
    exact absurd (mem_range.2 (by omega)) hn

/-- The sum of `teich x ^ (3 f) * (1 - teich x) ^ (6 f)` over the residues modulo `p = 4 f + 1`. -/
theorem sum_teich_3f_6f {p f : ℕ} [hp : Fact p.Prime] (h4 : p = 4 * f + 1) :
    ∑ x : ZMod p, teich x ^ (3 * f) * (1 - teich x) ^ (6 * f)
      = (-1) ^ f * (2 * ((6 * f).choose f : ZMod (p ^ 2))) * ((p : ZMod (p ^ 2)) - 1) := by
  have hf : 0 < f := by
    rcases Nat.eq_zero_or_pos f with h0 | h0
    · rw [h0] at h4; exact absurd (h4 ▸ hp.out) (by norm_num)
    · exact h0
  have hp1 : p - 1 = 4 * f := by omega
  rw [sum_teich_mul_one_sub_pow]
  rw [Finset.sum_eq_add f (5 * f) (by omega)]
  · rw [teichSum_of_dvd (by omega) (by rw [hp1]; exact ⟨1, by ring⟩),
      teichSum_of_dvd (by omega) (by rw [hp1]; exact ⟨2, by ring⟩)]
    have hc : (6 * f).choose (5 * f) = (6 * f).choose f := by
      have := Nat.choose_symm (by omega : f ≤ 6 * f)
      rw [← this]
      congr 1
      omega
    rw [hc, neg_one_pow_five_mul]
    ring
  · intro k hk hne
    have hk2 : k ≤ 6 * f := by have := mem_range.1 hk; omega
    rw [teichSum_of_not_dvd, mul_zero]
    rw [hp1]
    intro hd
    rcases dvd_three_add_six hf hk2 hd with h | h
    · exact hne.1 h
    · exact hne.2 h
  · intro hn
    exact absurd (mem_range.2 (by omega)) hn
  · intro hn
    exact absurd (mem_range.2 (by omega)) hn

/-- The sum `jacobiU` in terms of two binomial coefficients. -/
theorem jacobiU_eq {p f : ℕ} [hp : Fact p.Prime] (h4 : p = 4 * f + 1) :
    jacobiU p f = (-1) ^ f * ((p : ZMod (p ^ 2)) - 1) *
      ((1 - 2 * (f : ZMod (p ^ 2))) * ((2 * f).choose f : ZMod (p ^ 2))
        + 4 * (f : ZMod (p ^ 2)) * ((6 * f).choose f : ZMod (p ^ 2))) := by
  have hf : 0 < f := by
    rcases Nat.eq_zero_or_pos f with h0 | h0
    · rw [h0] at h4; exact absurd (h4 ▸ hp.out) (by norm_num)
    · exact h0
  obtain ⟨n, hn⟩ : ∃ n, 2 * f = n + 1 := ⟨2 * f - 1, by omega⟩
  have h1 : ∀ x : ZMod p, teich x ^ (3 * f) * teich (1 - x) ^ (2 * f)
      = (2 * (f : ZMod (p ^ 2))) * (teich x ^ (3 * f) * (1 - teich x) ^ (6 * f))
        + (1 - 2 * (f : ZMod (p ^ 2))) * (teich x ^ (3 * f) * (1 - teich x) ^ (2 * f)) := by
    intro x
    have e1 : n + p = 6 * f := by omega
    have e2 : ((n + 1 : ℕ) : ZMod (p ^ 2)) = 2 * (f : ZMod (p ^ 2)) := by
      rw [← hn]; push_cast; ring
    have e3 : (n : ZMod (p ^ 2)) = 2 * (f : ZMod (p ^ 2)) - 1 := by
      rw [← e2]; push_cast; ring
    rw [hn, teich_one_sub_pow, e1, e2, e3, ← hn]
    ring
  unfold jacobiU
  rw [Finset.sum_congr rfl (fun x _ => h1 x), Finset.sum_add_distrib, ← Finset.mul_sum,
    ← Finset.mul_sum, sum_teich_3f_2f h4, sum_teich_3f_6f h4]
  ring

/-- Every residue modulo `p` is the reduction of an element modulo `p^2`. -/
theorem exists_redp_eq {p : ℕ} [hp : Fact p.Prime] (c : ZMod p) :
    ∃ D : ZMod (p ^ 2), redp p D = c :=
  ⟨((c.val : ℕ) : ZMod (p ^ 2)), by rw [redp_natCast, ZMod.natCast_zmod_val]⟩

/-- First-order expansion of a product `∏ (p + a j)` modulo `p^2`. -/
theorem prod_p_add {p : ℕ} [hp : Fact p.Prime] (a : ℕ → ℕ) : ∀ (n : ℕ),
    (∀ j, j < n → 0 < a j ∧ a j < p) → ∀ D : ZMod (p ^ 2),
    redp p D = ∑ j in range n, ((a j : ℕ) : ZMod p)⁻¹ →
    ∏ j in range n, ((p : ZMod (p ^ 2)) + (a j : ZMod (p ^ 2)))
      = (∏ j in range n, (a j : ZMod (p ^ 2))) * (1 + (p : ZMod (p ^ 2)) * D) := by
  intro n
  induction n with
  | zero =>
    intro _ D hD
    have h0 : redp p D = redp p 0 := by rw [hD, map_zero]; simp
    have := p_mul_eq_of_redp_eq h0
    simp only [Finset.range_zero, Finset.prod_empty, one_mul]
    rw [this, mul_zero, add_zero]
  | succ n ih =>
    intro ha D hD
    obtain ⟨D1, hD1⟩ := exists_redp_eq (∑ j in range n, ((a j : ℕ) : ZMod p)⁻¹)
    have h1 := ih (fun j hj => ha j (by omega)) D1 hD1
    rw [Finset.prod_range_succ, Finset.prod_range_succ, h1]
    have hne : ((a n : ℕ) : ZMod p) ≠ 0 := by
      intro h
      rw [ZMod.natCast_zmod_eq_zero_iff_dvd] at h
      have := ha n (by omega)
      exact absurd (Nat.le_of_dvd this.1 h) (by omega)
    have hred : redp p (1 + D1 * (a n : ZMod (p ^ 2))) = redp p ((a n : ZMod (p ^ 2)) * D) := by
      rw [map_add, map_one, map_mul, map_mul, hD1, hD, redp_natCast, Finset.sum_range_succ,
        mul_add, mul_inv_cancel₀ hne]
      ring
    have h2 := p_mul_eq_of_redp_eq hred
    have hpp := natCast_p_mul_self p
    linear_combination (∏ j in range n, (a j : ZMod (p ^ 2))) * h2
      + (∏ j in range n, (a j : ZMod (p ^ 2))) * D1 * hpp

/-- A natural number below `p` that is not zero is a unit modulo `p^2`. -/
theorem isUnit_natCast_of_lt {p : ℕ} [hp : Fact p.Prime] {n : ℕ} (h0 : 0 < n) (hn : n < p) :
    IsUnit ((n : ℕ) : ZMod (p ^ 2)) := by
  apply isUnit_of_redp_ne_zero
  rw [redp_natCast]
  intro h
  rw [ZMod.natCast_zmod_eq_zero_iff_dvd] at h
  exact absurd (Nat.le_of_dvd h0 h) (by omega)

/-- Factorials below `p` are units of `ZMod (p^2)`. -/
theorem isUnit_factorial_of_lt {p : ℕ} [hp : Fact p.Prime] : ∀ {n : ℕ}, n < p →
    IsUnit ((n.factorial : ℕ) : ZMod (p ^ 2)) := by
  intro n
  induction n with
  | zero => intro _; simp
  | succ n ih =>
    intro h
    rw [Nat.factorial_succ, Nat.cast_mul]
    exact (isUnit_natCast_of_lt (Nat.succ_pos n) h).mul (ih (by omega))

/-- The binomial coefficient `C(6 f, f)` modulo `p^2`, for `p = 4 f + 1`. -/
theorem two_mul_choose_six {p f : ℕ} [hp : Fact p.Prime] (h4 : p = 4 * f + 1)
    (D : ZMod (p ^ 2)) (hD : redp p D = invSum p f) :
    2 * ((6 * f).choose f : ZMod (p ^ 2))
      = ((2 * f).choose f : ZMod (p ^ 2)) * (1 + (p : ZMod (p ^ 2)) * D) := by
  have hf : 0 < f := by
    rcases Nat.eq_zero_or_pos f with h0 | h0
    · rw [h0] at h4; exact absurd (h4 ▸ hp.out) (by norm_num)
    · exact h0
  have hprod := prod_p_add (p := p) (fun j => 2 * f - 1 - j) f
    (fun j hj => by constructor <;> (dsimp only; omega)) D hD
  -- both products are descending factorials
  have e1 : ∏ j in range f, ((p : ZMod (p ^ 2)) + ((2 * f - 1 - j : ℕ) : ZMod (p ^ 2)))
      = ((f.factorial * (6 * f).choose f : ℕ) : ZMod (p ^ 2)) := by
    rw [← Nat.descFactorial_eq_factorial_mul_choose, Nat.descFactorial_eq_prod_range,
      Nat.cast_prod]
    apply Finset.prod_congr rfl
    intro j hj
    have := mem_range.1 hj
    rw [← Nat.cast_add]
    congr 1
    omega
  have e2 : ∏ j in range f, ((2 * f - 1 - j : ℕ) : ZMod (p ^ 2))
      = ((f.factorial * (2 * f - 1).choose f : ℕ) : ZMod (p ^ 2)) := by
    rw [← Nat.descFactorial_eq_factorial_mul_choose, Nat.descFactorial_eq_prod_range,
      Nat.cast_prod]
  have e3 : (2 * f).choose f = 2 * (2 * f - 1).choose f := by
    obtain ⟨n, rfl⟩ : ∃ n, f = n + 1 := ⟨f - 1, by omega⟩
    have e : 2 * (n + 1) = (2 * n + 1) + 1 := by ring
    have e' : 2 * (n + 1) - 1 = 2 * n + 1 := by omega
    rw [e', e, Nat.choose_succ_succ]
    have hs : (2 * n + 1).choose n = (2 * n + 1).choose (n + 1) := by
      rw [← Nat.choose_symm (by omega : n ≤ 2 * n + 1)]
      congr 1
      omega
    rw [hs]
    ring
  rw [e1, e2] at hprod
  have hu := isUnit_factorial_of_lt (p := p) (n := f) (by omega)
  have hc : ((6 * f).choose f : ZMod (p ^ 2))
      = ((2 * f - 1).choose f : ZMod (p ^ 2)) * (1 + (p : ZMod (p ^ 2)) * D) := by
    apply hu.mul_left_cancel
    push_cast at hprod
    rw [hprod]
    ring
  rw [hc, e3]
  push_cast
  ring

/-- A sum over `range (2 m)` in pairs. -/
theorem sum_range_two_mul {M : Type*} [AddCommMonoid M] (g : ℕ → M) : ∀ m : ℕ,
    ∑ k in range (2 * m), g k = ∑ j in range m, (g (2 * j) + g (2 * j + 1)) := by
  intro m
  induction m with
  | zero => simp
  | succ m ih =>
    have e : 2 * (m + 1) = 2 * m + 1 + 1 := by ring
    rw [e, Finset.sum_range_succ, Finset.sum_range_succ, ih, Finset.sum_range_succ (fun j => g (2 * j) + g (2 * j + 1))]
    rw [add_assoc]

/-- The alternating sum of the even binomial coefficients of `4 f + 1`: the real part of
`(1 + i)^(4 f + 1)`. -/
theorem sum_even_choose (f : ℕ) :
    ∑ j in range (2 * f + 1), (-1 : ℤ) ^ j * ((4 * f + 1).choose (2 * j) : ℤ) = (-4) ^ f := by
  have hI : Complex.I ^ 2 = -1 := Complex.I_sq
  have h1 : (1 + Complex.I) ^ (4 * f + 1) + (1 - Complex.I) ^ (4 * f + 1)
      = 2 * (-4 : ℂ) ^ f := by
    have a1 : (1 + Complex.I) ^ 4 = -4 := by
      have : (1 + Complex.I) ^ 4 = ((1 + Complex.I) ^ 2) ^ 2 := by ring
      rw [this]
      have : (1 + Complex.I) ^ 2 = 2 * Complex.I := by
        have : (1 + Complex.I) ^ 2 = 1 + 2 * Complex.I + Complex.I ^ 2 := by ring
        rw [this, hI]; ring
      rw [this, mul_pow, hI]; norm_num
    have a2 : (1 - Complex.I) ^ 4 = -4 := by
      have : (1 - Complex.I) ^ 4 = ((1 - Complex.I) ^ 2) ^ 2 := by ring
      rw [this]
      have : (1 - Complex.I) ^ 2 = -(2 * Complex.I) := by
        have : (1 - Complex.I) ^ 2 = 1 - 2 * Complex.I + Complex.I ^ 2 := by ring
        rw [this, hI]; ring
      rw [this, neg_sq, mul_pow, hI]; norm_num
    rw [pow_succ, pow_mul, a1, pow_succ, pow_mul, a2]
    ring
  have h2 : (1 + Complex.I) ^ (4 * f + 1) + (1 - Complex.I) ^ (4 * f + 1)
      = ∑ j in range (2 * f + 1), 2 * ((-1 : ℂ) ^ j * ((4 * f + 1).choose (2 * j) : ℂ)) := by
    have e1 : (1 + Complex.I) ^ (4 * f + 1) = (Complex.I + 1) ^ (4 * f + 1) := by ring
    have e2 : (1 - Complex.I) ^ (4 * f + 1) = (-Complex.I + 1) ^ (4 * f + 1) := by ring
    rw [e1, e2, add_pow, add_pow, ← Finset.sum_add_distrib]
    have e3 : 4 * f + 1 + 1 = 2 * (2 * f + 1) := by ring
    rw [e3, sum_range_two_mul]
    apply Finset.sum_congr rfl
    intro j _
    have p1 : Complex.I ^ (2 * j) = (-1) ^ j := by rw [pow_mul, hI]
    have p2 : (-Complex.I) ^ (2 * j) = (-1) ^ j := by rw [pow_mul, neg_sq, hI]
    have p3 : Complex.I ^ (2 * j + 1) = (-1) ^ j * Complex.I := by rw [pow_succ, p1]
    have p4 : (-Complex.I) ^ (2 * j + 1) = -((-1) ^ j * Complex.I) := by
      rw [pow_succ, p2]; ring
    rw [p1, p2, p3, p4]
    simp only [one_pow, mul_one]
    ring
  have h3 : (∑ j in range (2 * f + 1), (-1 : ℂ) ^ j * ((4 * f + 1).choose (2 * j) : ℂ))
      = (-4 : ℂ) ^ f := by
    have h4 := h2.symm.trans h1
    rw [← Finset.mul_sum] at h4
    exact mul_left_cancel₀ (by norm_num : (2 : ℂ) ≠ 0) h4
  exact_mod_cast h3

/-- Modulo `p^2`, `(-4)^f = 1 + p * evenQuot`. -/
theorem neg_four_pow_eq {p f : ℕ} [hp : Fact p.Prime] (h4 : p = 4 * f + 1) :
    (-4 : ZMod (p ^ 2)) ^ f = 1 + (p : ZMod (p ^ 2)) * evenQuot p f := by
  have h := congrArg (fun z : ℤ => (z : ZMod (p ^ 2))) (sum_even_choose f)
  simp only [Int.cast_sum, Int.cast_mul, Int.cast_pow, Int.cast_neg, Int.cast_one,
    Int.cast_natCast, Int.cast_ofNat] at h
  rw [← h, Finset.sum_range_succ', evenQuot, Finset.mul_sum]
  simp only [mul_zero, Nat.choose_zero_right, Nat.cast_one, pow_zero, mul_one]
  rw [add_comm]
  congr 1
  apply Finset.sum_congr rfl
  intro j hj
  have hj' := mem_range.1 hj
  have hd : p ∣ Nat.choose p (2 * j + 2) := hp.out.dvd_choose_self (by omega) (by omega)
  have e : 2 * (j + 1) = 2 * j + 2 := by ring
  have hc : ((Nat.choose (4 * f + 1) (2 * (j + 1)) : ℕ) : ZMod (p ^ 2))
      = (p : ZMod (p ^ 2)) * ((Nat.choose p (2 * j + 2) / p : ℕ) : ZMod (p ^ 2)) := by
    rw [← Nat.cast_mul, Nat.mul_div_cancel' hd, e, h4]
  rw [hc]
  ring

/-- Modulo `p^2`, `2^(p-1) - 1 = p * (2 * evenQuot)`. -/
theorem two_pow_pred_sub_one {p f : ℕ} [hp : Fact p.Prime] (h4 : p = 4 * f + 1) :
    (2 : ZMod (p ^ 2)) ^ (p - 1) - 1 = (p : ZMod (p ^ 2)) * (2 * evenQuot p f) := by
  have hp1 : p - 1 = 4 * f := by omega
  have e : (2 : ZMod (p ^ 2)) ^ (4 * f) = ((-4 : ZMod (p ^ 2)) ^ f) ^ 2 := by
    rw [← pow_mul, mul_comm f 2, pow_mul, pow_mul]
    norm_num
  rw [hp1, e, neg_four_pow_eq h4]
  have hpp := natCast_p_mul_self p
  linear_combination evenQuot p f * evenQuot p f * hpp

/-- The reduction of `2 * evenQuot` is the alternating harmonic sum. -/
theorem redp_evenQuot {p f : ℕ} [hp : Fact p.Prime] (h4 : p = 4 * f + 1) :
    redp p (2 * evenQuot p f) = altSum p f := by
  have hf : 0 < f := by
    rcases Nat.eq_zero_or_pos f with h0 | h0
    · rw [h0] at h4; exact absurd (h4 ▸ hp.out) (by norm_num)
    · exact h0
  have h2ne : (2 : ZMod p) ≠ 0 := by
    have := natCast_ne_zero_zmod (p := p) (k := 2) (by norm_num) (by omega)
    exact_mod_cast this
  unfold evenQuot altSum
  rw [map_mul, map_sum, Finset.mul_sum]
  apply Finset.sum_congr rfl
  intro j hj
  have hj' := mem_range.1 hj
  have hc := choose_div_zmod hp.out (k := 2 * j + 1) (by omega)
  have e : 2 * j + 1 + 1 = 2 * j + 2 := by ring
  rw [e] at hc
  rw [map_mul, map_pow, map_neg, map_one, redp_natCast, hc]
  have e2 : ((2 * j + 2 : ℕ) : ZMod p) = 2 * ((j + 1 : ℕ) : ZMod p) := by push_cast; ring
  have hne : ((j + 1 : ℕ) : ZMod p) ≠ 0 := natCast_ne_zero_zmod (by omega) (by omega)
  have h2 : redp p (2 : ZMod (p ^ 2)) = 2 := by
    have := redp_natCast p 2
    exact_mod_cast this
  rw [e2, h2, mul_inv]
  have e3 : (-1 : ZMod p) ^ (j + 1) * ((-1) ^ (2 * j + 1)) = (-1) ^ j := by
    rw [pow_succ, pow_succ, pow_mul, neg_one_sq, one_pow]; ring
  have : (2 : ZMod p) * ((-1) ^ (j + 1) * ((-1) ^ (2 * j + 1) * (2⁻¹ * ((j + 1 : ℕ) : ZMod p)⁻¹)))
      = ((-1) ^ (j + 1) * (-1) ^ (2 * j + 1)) * ((2 * 2⁻¹) * ((j + 1 : ℕ) : ZMod p)⁻¹) := by
    ring
  rw [this, e3, mul_inv_cancel₀ h2ne, one_mul]

/-- The alternating harmonic sum up to `2 n` is the sum of the inverses of `n+1, ..., 2 n`. -/
theorem altSum_eq {p : ℕ} [hp : Fact p.Prime] : ∀ n : ℕ, 2 * n < p →
    altSum p n = ∑ j in range n, ((n + 1 + j : ℕ) : ZMod p)⁻¹ := by
  intro n
  induction n with
  | zero => intro _; simp [altSum]
  | succ n ih =>
    intro hn
    have ih' := ih (by omega)
    have h2ne : (2 : ZMod p) ≠ 0 := by
      have := natCast_ne_zero_zmod (p := p) (k := 2) (by norm_num) (by omega)
      exact_mod_cast this
    have hn1 : ((n + 1 : ℕ) : ZMod p) ≠ 0 := natCast_ne_zero_zmod (by omega) (by omega)
    have s1 : ∑ j in range (n + 1), ((n + 1 + j : ℕ) : ZMod p)⁻¹
        = ∑ j in range n, ((n + 1 + j : ℕ) : ZMod p)⁻¹ + ((n + 1 + n : ℕ) : ZMod p)⁻¹ :=
      Finset.sum_range_succ _ _
    have s2 : ∑ j in range (n + 1), ((n + 1 + j : ℕ) : ZMod p)⁻¹
        = ∑ j in range n, ((n + 1 + (j + 1) : ℕ) : ZMod p)⁻¹ + ((n + 1 + 0 : ℕ) : ZMod p)⁻¹ :=
      Finset.sum_range_succ' _ _
    have s3 : ∑ j in range (n + 1), ((n + 1 + 1 + j : ℕ) : ZMod p)⁻¹
        = ∑ j in range n, ((n + 1 + 1 + j : ℕ) : ZMod p)⁻¹ + ((n + 1 + 1 + n : ℕ) : ZMod p)⁻¹ :=
      Finset.sum_range_succ _ _
    have s4 : ∑ j in range n, ((n + 1 + 1 + j : ℕ) : ZMod p)⁻¹
        = ∑ j in range n, ((n + 1 + (j + 1) : ℕ) : ZMod p)⁻¹ := by
      apply Finset.sum_congr rfl
      intro j _
      congr 2
      omega
    have a1 : altSum p (n + 1) = altSum p n + (-1) ^ (2 * n) * ((2 * n + 1 : ℕ) : ZMod p)⁻¹
        + (-1) ^ (2 * n + 1) * ((2 * n + 1 + 1 : ℕ) : ZMod p)⁻¹ := by
      unfold altSum
      have e : 2 * (n + 1) = 2 * n + 1 + 1 := by ring
      rw [e, Finset.sum_range_succ, Finset.sum_range_succ]
    have p1 : (-1 : ZMod p) ^ (2 * n) = 1 := by rw [pow_mul, neg_one_sq, one_pow]
    have p2 : (-1 : ZMod p) ^ (2 * n + 1) = -1 := by rw [pow_succ, p1]; ring
    have e5 : ((2 * n + 1 + 1 : ℕ) : ZMod p) = 2 * ((n + 1 : ℕ) : ZMod p) := by push_cast; ring
    have e6 : ((n + 1 + 1 + n : ℕ) : ZMod p) = 2 * ((n + 1 : ℕ) : ZMod p) := by push_cast; ring
    have e7 : ((n + 1 + n : ℕ) : ZMod p) = ((2 * n + 1 : ℕ) : ZMod p) := by push_cast; ring
    have e8 : ((n + 1 + 0 : ℕ) : ZMod p) = ((n + 1 : ℕ) : ZMod p) := by rw [Nat.add_zero]
    have hhalf : ((n + 1 : ℕ) : ZMod p)⁻¹ = 2 * (2 * ((n + 1 : ℕ) : ZMod p))⁻¹ := by
      rw [mul_inv, ← mul_assoc, mul_inv_cancel₀ h2ne, one_mul]
    rw [e7] at s1
    rw [e8] at s2
    rw [a1, ih', p1, p2, s3, s4, e5, e6]
    have hs := s1.symm.trans s2
    linear_combination hs + hhalf

/-- The sum of the inverses of `f, ..., 2 f - 1` modulo `p = 4 f + 1` is the alternating harmonic
sum minus 2. -/
theorem invSum_eq {p f : ℕ} [hp : Fact p.Prime] (h4 : p = 4 * f + 1) :
    invSum p f = altSum p f - 2 := by
  have hf : 0 < f := by
    rcases Nat.eq_zero_or_pos f with h0 | h0
    · rw [h0] at h4; exact absurd (h4 ▸ hp.out) (by norm_num)
    · exact h0
  have h2f : ((2 * f : ℕ) : ZMod p) ≠ 0 := natCast_ne_zero_zmod (by omega) (by omega)
  have hfne : ((f : ℕ) : ZMod p) ≠ 0 := natCast_ne_zero_zmod (by omega) (by omega)
  have hp0 : ((4 * f + 1 : ℕ) : ZMod p) = 0 := by
    rw [← h4]; exact ZMod.natCast_self p
  have hinv2f : ((2 * f : ℕ) : ZMod p)⁻¹ = -2 := by
    apply inv_eq_of_mul_eq_one_right
    push_cast at hp0 ⊢
    linear_combination (-1 : ZMod p) * hp0
  have hinvf : ((f : ℕ) : ZMod p)⁻¹ = -4 := by
    apply inv_eq_of_mul_eq_one_right
    push_cast at hp0 ⊢
    linear_combination (-1 : ZMod p) * hp0
  have r1 : invSum p f = ∑ j in range f, ((f + j : ℕ) : ZMod p)⁻¹ := by
    unfold invSum
    rw [← Finset.sum_range_reflect (fun j => ((f + j : ℕ) : ZMod p)⁻¹) f]
    apply Finset.sum_congr rfl
    intro j hj
    have := mem_range.1 hj
    congr 2
    omega
  have s1 : ∑ j in range (f + 1), ((f + j : ℕ) : ZMod p)⁻¹
      = ∑ j in range f, ((f + j : ℕ) : ZMod p)⁻¹ + ((f + f : ℕ) : ZMod p)⁻¹ :=
    Finset.sum_range_succ _ _
  have s2 : ∑ j in range (f + 1), ((f + j : ℕ) : ZMod p)⁻¹
      = ∑ j in range f, ((f + (j + 1) : ℕ) : ZMod p)⁻¹ + ((f : ℕ) : ZMod p)⁻¹ :=
    Finset.sum_range_succ' (fun j => ((f + j : ℕ) : ZMod p)⁻¹) f
  have s3 : ∑ j in range f, ((f + (j + 1) : ℕ) : ZMod p)⁻¹
      = ∑ j in range f, ((f + 1 + j : ℕ) : ZMod p)⁻¹ := by
    apply Finset.sum_congr rfl
    intro j _
    congr 2
    omega
  have e1 : ((f + f : ℕ) : ZMod p) = ((2 * f : ℕ) : ZMod p) := by congr 1; omega
  rw [e1, hinv2f] at s1
  rw [hinvf, s3, ← altSum_eq f (by omega)] at s2
  rw [r1]
  have hs := s1.symm.trans s2
  linear_combination hs

/-- For `p = 4 f + 1` and a lift `D` of `invSum p f`: `p * D = 2^(p-1) - 1 - 2 p` modulo `p^2`. -/
theorem p_mul_invSum {p f : ℕ} [hp : Fact p.Prime] (h4 : p = 4 * f + 1)
    (D : ZMod (p ^ 2)) (hD : redp p D = invSum p f) :
    (p : ZMod (p ^ 2)) * D = (2 : ZMod (p ^ 2)) ^ (p - 1) - 1 - 2 * (p : ZMod (p ^ 2)) := by
  have h2 : redp p (2 : ZMod (p ^ 2)) = 2 := by
    have := redp_natCast p 2
    exact_mod_cast this
  have hred : redp p D = redp p (2 * evenQuot p f - 2) := by
    rw [hD, invSum_eq h4, map_sub, redp_evenQuot h4, h2]
  rw [p_mul_eq_of_redp_eq hred, two_pow_pred_sub_one h4]
  ring

/-- The sum `jacobiU` and the central binomial coefficient: for `p = 4 f + 1`,
`2 * jacobiU = -(-1)^f * C(2 f, f) * (3 - 2^(p-1))` modulo `p^2`. -/
theorem two_mul_jacobiU {p f : ℕ} [hp : Fact p.Prime] (h4 : p = 4 * f + 1) :
    2 * jacobiU p f = -((-1) ^ f * ((2 * f).choose f : ZMod (p ^ 2))
      * (3 - (2 : ZMod (p ^ 2)) ^ (p - 1))) := by
  obtain ⟨D, hD⟩ := exists_redp_eq (invSum p f)
  have hC6 := two_mul_choose_six h4 D hD
  have hPD := p_mul_invSum h4 D hD
  have hE := two_pow_pred_sub_one h4
  have hpp := natCast_p_mul_self p
  have h4c : 4 * (f : ZMod (p ^ 2)) = (p : ZMod (p ^ 2)) - 1 := by
    have := congrArg (fun n : ℕ => (n : ZMod (p ^ 2))) h4
    simp only [Nat.cast_add, Nat.cast_mul, Nat.cast_ofNat, Nat.cast_one] at this
    rw [this]; ring
  have hPE : (p : ZMod (p ^ 2)) * ((2 : ZMod (p ^ 2)) ^ (p - 1) - 1) = 0 := by
    rw [hE, ← mul_assoc, hpp, zero_mul]
  rw [jacobiU_eq h4]
  linear_combination
    (4 * (f : ZMod (p ^ 2)) * (-1) ^ f * ((p : ZMod (p ^ 2)) - 1)) * hC6
    + (4 * (f : ZMod (p ^ 2)) * (-1) ^ f * ((p : ZMod (p ^ 2)) - 1)
        * ((2 * f).choose f : ZMod (p ^ 2))) * hPD
    + ((-1) ^ f * ((p : ZMod (p ^ 2)) - 1) * ((2 * f).choose f : ZMod (p ^ 2))
        * ((2 : ZMod (p ^ 2)) ^ (p - 1) - 1 - 2 * (p : ZMod (p ^ 2)))) * h4c
    + ((-1) ^ f * ((2 * f).choose f : ZMod (p ^ 2)) * ((p : ZMod (p ^ 2)) - 2)) * hPE
    + ((-1) ^ f * ((2 * f).choose f : ZMod (p ^ 2)) * (4 - 2 * (p : ZMod (p ^ 2)))) * hpp

/-- The order of a generator of the units of `ZMod p`. -/
theorem orderOf_generator {p : ℕ} [hp : Fact p.Prime] {g : (ZMod p)ˣ}
    (hg : ∀ x, x ∈ Subgroup.zpowers g) : orderOf g = p - 1 := by
  rw [orderOf_eq_card_of_forall_mem_zpowers hg, Nat.card_eq_fintype_card,
    ZMod.card_units_eq_totient, Nat.totient_prime hp.out]

/-- In `ZMod (p^2)`, an element with square 1 and reduction different from 1 is `-1`
(for an odd prime `p`). -/
theorem eq_neg_one_of_sq_eq_one {p : ℕ} [hp : Fact p.Prime] (h2 : p ≠ 2) {y : ZMod (p ^ 2)}
    (hy : y * y = 1) (hne : redp p y ≠ 1) : y = -1 := by
  have h2ne : (2 : ZMod p) ≠ 0 := by
    intro h
    have h' : ((2 : ℕ) : ZMod p) = 0 := by exact_mod_cast h
    rw [ZMod.natCast_zmod_eq_zero_iff_dvd] at h'
    have := Nat.le_of_dvd (by norm_num) h'
    have := hp.out.two_le
    omega
  have hr : redp p y * redp p y = 1 := by rw [← map_mul, hy, map_one]
  have hr1 : redp p y = -1 := by
    have : (redp p y - 1) * (redp p y + 1) = 0 := by linear_combination hr
    rcases mul_eq_zero.1 this with h | h
    · exact absurd (sub_eq_zero.1 h) hne
    · exact eq_neg_of_add_eq_zero_left h
  have hu : IsUnit (y - 1) := by
    apply isUnit_of_redp_ne_zero
    rw [map_sub, map_one, hr1]
    intro h
    apply h2ne
    linear_combination -h
  have hz : (y - 1) * (y + 1) = 0 := by linear_combination hy
  have := (hu.mul_right_eq_zero).1 hz
  exact eq_neg_of_add_eq_zero_left this

/-- For `p = 4 f + 1` and a generator `g` of the units of `ZMod p`, the element
`teich g ^ f` of `ZMod (p^2)` has square `-1`. -/
theorem teich_generator_pow_sq {p f : ℕ} [hp : Fact p.Prime] (h4 : p = 4 * f + 1)
    {g : (ZMod p)ˣ} (hg : ∀ x, x ∈ Subgroup.zpowers g) :
    teich (g : ZMod p) ^ f * teich (g : ZMod p) ^ f = -1 := by
  have hf : 0 < f := by
    rcases Nat.eq_zero_or_pos f with h0 | h0
    · rw [h0] at h4; exact absurd (h4 ▸ hp.out) (by norm_num)
    · exact h0
  have hord := orderOf_generator hg
  have hp1 : p - 1 = 4 * f := by omega
  have e : teich (g : ZMod p) ^ f * teich (g : ZMod p) ^ f = teich (g : ZMod p) ^ (2 * f) := by
    rw [← pow_add]; congr 1; omega
  rw [e]
  apply eq_neg_one_of_sq_eq_one (by omega)
  · rw [← pow_add]
    have : 2 * f + 2 * f = p - 1 := by omega
    rw [this, teich_pow_pred (Units.ne_zero g)]
  · rw [map_pow, redp_teich]
    intro h
    have h' : g ^ (2 * f) = 1 := by
      apply Units.ext
      rw [Units.val_pow_eq_pow_val, h]; rfl
    have := orderOf_dvd_of_pow_eq_one h'
    rw [hord, hp1] at this
    have := Nat.le_of_dvd (by omega) this
    omega

/-- The Teichmüller representative of a power. -/
theorem teich_pow {p : ℕ} [hp : Fact p.Prime] (x : ZMod p) : ∀ n : ℕ,
    teich (x ^ n) = teich x ^ n := by
  intro n
  induction n with
  | zero => rw [pow_zero, pow_zero, teich_one]
  | succ n ih => rw [pow_succ x n, pow_succ (teich x) n, teich_mul, ih]

/-- The unit `i` has fourth power `1`. -/
theorem gaussI_pow_four : gaussI ^ 4 = 1 := by
  apply Units.ext
  rw [Units.val_pow_eq_pow_val]
  show (⟨0, 1⟩ : GaussianInt) ^ 4 = 1
  have h2 : (⟨0, 1⟩ : GaussianInt) ^ 2 = -1 := by
    rw [sq]; ext <;> simp
  have : (⟨0, 1⟩ : GaussianInt) ^ 4 = ((⟨0, 1⟩ : GaussianInt) ^ 2) ^ 2 := by ring
  rw [this, h2]; ring

/-- The value of `gaussHom` at `x + y i`. -/
theorem gaussHom_apply {p : ℕ} (I : ZMod (p ^ 2)) (hI : I * I = -1) (z : GaussianInt) :
    gaussHom I hI z = (z.re : ZMod (p ^ 2)) + (z.im : ZMod (p ^ 2)) * I := rfl

/-- For `p = 4 f + 1` there is a character of `ZMod p` with values in the Gaussian integers that
sends the generator `g` to `i`. -/
theorem exists_quarticChar {p f : ℕ} [hp : Fact p.Prime] (h4 : p = 4 * f + 1)
    {g : (ZMod p)ˣ} (hg : ∀ x, x ∈ Subgroup.zpowers g) :
    ∃ χ : MulChar (ZMod p) GaussianInt, χ (g : ZMod p) = (gaussI : GaussianInt) := by
  have hζ : gaussI ∈ rootsOfUnity (Fintype.card (ZMod p)ˣ) GaussianInt := by
    rw [mem_rootsOfUnity, ZMod.card_units_eq_totient, Nat.totient_prime hp.out]
    have : p - 1 = 4 * f := by omega
    rw [this, pow_mul, gaussI_pow_four, one_pow]
  exact ⟨MulChar.ofRootOfUnity hζ hg, MulChar.ofRootOfUnity_spec hζ hg⟩

/-- The image in `ZMod (p^2)` of a character that sends `g` to `i` is `teich x ^ f`. -/
theorem gaussHom_char {p f : ℕ} [hp : Fact p.Prime] (h4 : p = 4 * f + 1)
    {g : (ZMod p)ˣ} (hg : ∀ x, x ∈ Subgroup.zpowers g) {χ : MulChar (ZMod p) GaussianInt}
    (hχ : χ (g : ZMod p) = (gaussI : GaussianInt)) (x : ZMod p) :
    gaussHom (teich (g : ZMod p) ^ f) (teich_generator_pow_sq h4 hg) (χ x) = teich x ^ f := by
  have hf : 0 < f := by
    rcases Nat.eq_zero_or_pos f with h0 | h0
    · rw [h0] at h4; exact absurd (h4 ▸ hp.out) (by norm_num)
    · exact h0
  by_cases hx : x = 0
  · rw [hx, MulChar.map_zero, map_zero, teich_zero, zero_pow (by omega)]
  · obtain ⟨u, rfl⟩ : ∃ u : (ZMod p)ˣ, (u : ZMod p) = x := ⟨Units.mk0 x hx, rfl⟩
    have hfin : IsOfFinOrder g := isOfFinOrder_of_finite g
    obtain ⟨n, hn⟩ := (hfin.mem_powers_iff_mem_zpowers).2 (hg u)
    have hn' : g ^ n = u := hn
    rw [← hn', Units.val_pow_eq_pow_val, map_pow, map_pow, hχ, teich_pow,
      ← pow_mul, mul_comm n f, pow_mul]
    congr 1
    rw [gaussHom_apply]
    show ((0 : ℤ) : ZMod (p ^ 2)) + ((1 : ℤ) : ZMod (p ^ 2)) * _ = _
    simp

/-- The sum `jacobiU` is the image of a Jacobi sum of characters with values in the Gaussian
integers. -/
theorem jacobiU_eq_gaussHom {p f : ℕ} [hp : Fact p.Prime] (h4 : p = 4 * f + 1)
    {g : (ZMod p)ˣ} (hg : ∀ x, x ∈ Subgroup.zpowers g) {χ : MulChar (ZMod p) GaussianInt}
    (hχ : χ (g : ZMod p) = (gaussI : GaussianInt)) :
    jacobiU p f = gaussHom (teich (g : ZMod p) ^ f) (teich_generator_pow_sq h4 hg)
      (jacobiSum (χ ^ 3) (χ ^ 2)) := by
  unfold jacobiU jacobiSum
  rw [map_sum]
  apply Finset.sum_congr rfl
  intro x _
  rw [map_mul, MulChar.pow_apply' χ (by norm_num), MulChar.pow_apply' χ (by norm_num),
    map_pow, map_pow, gaussHom_char h4 hg hχ, gaussHom_char h4 hg hχ, ← pow_mul, ← pow_mul,
    mul_comm f 3, mul_comm f 2]

/-- The unit `i` has square `-1`. -/
theorem gaussI_sq : (gaussI : GaussianInt) ^ 2 = -1 := by
  show (⟨0, 1⟩ : GaussianInt) ^ 2 = -1
  rw [sq]; ext <;> simp

/-- A character that sends the generator to `i` has fourth power 1. -/
theorem char_pow_four {p : ℕ} [hp : Fact p.Prime]
    {g : (ZMod p)ˣ} (hg : ∀ x, x ∈ Subgroup.zpowers g) {χ : MulChar (ZMod p) GaussianInt}
    (hχ : χ (g : ZMod p) = (gaussI : GaussianInt)) : χ ^ 4 = 1 := by
  rw [MulChar.eq_iff hg, MulChar.pow_apply_coe, hχ, MulChar.one_apply_coe]
  have : (gaussI : GaussianInt) ^ 4 = ((gaussI : GaussianInt) ^ 2) ^ 2 := by ring
  rw [this, gaussI_sq]; ring

/-- The unit `i` is the complex number `i`. -/
theorem gaussI_toComplex : GaussianInt.toComplex (gaussI : GaussianInt) = Complex.I := by
  show GaussianInt.toComplex (⟨0, 1⟩ : GaussianInt) = Complex.I
  rw [GaussianInt.toComplex_def']
  simp

/-- The Jacobi sum of the cube and the square of a quartic character has norm `p`. -/
theorem jacobiSum_norm {p : ℕ} [hp : Fact p.Prime]
    {g : (ZMod p)ˣ} {χ : MulChar (ZMod p) GaussianInt}
    (hχ : χ (g : ZMod p) = (gaussI : GaussianInt)) :
    (jacobiSum (χ ^ 3) (χ ^ 2)).re ^ 2 + (jacobiSum (χ ^ 3) (χ ^ 2)).im ^ 2 = (p : ℤ) := by
  -- the characters with complex values
  have hc : ∀ n : ℕ, ((χ.ringHomComp GaussianInt.toComplex) ^ n) (g : ZMod p)
      = Complex.I ^ n := by
    intro n
    rw [MulChar.pow_apply_coe, MulChar.ringHomComp_apply, hχ, gaussI_toComplex]
  have hI2 : Complex.I ^ 2 = -1 := Complex.I_sq
  have n3 : (χ.ringHomComp GaussianInt.toComplex) ^ 3 ≠ 1 := by
    rw [MulChar.ne_one_iff]
    refine ⟨g, ?_⟩
    rw [hc, pow_succ, hI2]
    intro h
    have := congrArg Complex.re h
    simp at this
  have n2 : (χ.ringHomComp GaussianInt.toComplex) ^ 2 ≠ 1 := by
    rw [MulChar.ne_one_iff]
    refine ⟨g, ?_⟩
    rw [hc, hI2]
    intro h
    have := congrArg Complex.re h
    norm_num at this
  have n5 : (χ.ringHomComp GaussianInt.toComplex) ^ 3 * (χ.ringHomComp GaussianInt.toComplex) ^ 2
      ≠ 1 := by
    rw [← pow_add, MulChar.ne_one_iff]
    refine ⟨g, ?_⟩
    rw [hc]
    have : Complex.I ^ (3 + 2) = Complex.I := by
      have : Complex.I ^ (3 + 2) = (Complex.I ^ 2) ^ 2 * Complex.I := by ring
      rw [this, hI2]; ring
    rw [this]
    intro h
    have := congrArg Complex.re h
    simp at this
  have hchar : ringChar ℂ ≠ ringChar (ZMod p) := by
    rw [ZMod.ringChar_zmod_n, ringChar.eq_zero]
    exact (hp.out.pos).ne
  have hJ := jacobiSum_mul_jacobiSum_inv hchar n3 n2 n5
  -- the second factor is the conjugate of the first
  have hstar : jacobiSum ((χ.ringHomComp GaussianInt.toComplex) ^ 3)⁻¹
      ((χ.ringHomComp GaussianInt.toComplex) ^ 2)⁻¹
      = star (jacobiSum ((χ.ringHomComp GaussianInt.toComplex) ^ 3)
          ((χ.ringHomComp GaussianInt.toComplex) ^ 2)) := by
    rw [← MulChar.star_eq_inv, ← MulChar.star_eq_inv]
    unfold jacobiSum
    rw [star_sum]
    apply Finset.sum_congr rfl
    intro x _
    rw [star_mul', MulChar.star_apply, MulChar.star_apply]
  have hz : jacobiSum ((χ.ringHomComp GaussianInt.toComplex) ^ 3)
      ((χ.ringHomComp GaussianInt.toComplex) ^ 2)
      = GaussianInt.toComplex (jacobiSum (χ ^ 3) (χ ^ 2)) := by
    rw [MulChar.ringHomComp_pow, MulChar.ringHomComp_pow, jacobiSum_ringHomComp]
  rw [hstar, hz] at hJ
  rw [ZMod.card] at hJ
  have h5 : GaussianInt.toComplex (jacobiSum (χ ^ 3) (χ ^ 2)
      * star (jacobiSum (χ ^ 3) (χ ^ 2))) = GaussianInt.toComplex ((p : ℤ) : GaussianInt) := by
    rw [map_mul, GaussianInt.toComplex_star]
    rw [map_intCast]
    exact_mod_cast hJ
  have h6 := GaussianInt.toComplex_injective h5
  rw [← Zsqrtd.norm_eq_mul_conj] at h6
  have h7 : (jacobiSum (χ ^ 3) (χ ^ 2)).norm = (p : ℤ) := by exact_mod_cast h6
  rw [Zsqrtd.norm_def] at h7
  linarith

/-- The unit `i` is a primitive fourth root of unity. -/
theorem gaussI_primitiveRoot : IsPrimitiveRoot (gaussI : GaussianInt) 4 := by
  have h2 := gaussI_sq
  apply IsPrimitiveRoot.mk_of_lt _ (by norm_num)
  · have : (gaussI : GaussianInt) ^ 4 = ((gaussI : GaussianInt) ^ 2) ^ 2 := by ring
    rw [this, h2]; ring
  · intro l hl0 hl4
    have hl : l = 1 ∨ l = 2 ∨ l = 3 := by omega
    rcases hl with rfl | rfl | rfl
    · rw [pow_one]
      show (⟨0, 1⟩ : GaussianInt) ≠ 1
      intro h
      have := congrArg Zsqrtd.im h
      simp at this
    · rw [h2]
      intro h
      have := congrArg Zsqrtd.re h
      simp at this
    · rw [pow_succ, h2]
      show -1 * (⟨0, 1⟩ : GaussianInt) ≠ 1
      intro h
      have := congrArg Zsqrtd.re h
      simp at this

/-- The real part of the Jacobi sum of the cube and the square of a quartic character is odd. -/
theorem jacobiSum_re_odd {p f : ℕ} [hp : Fact p.Prime] (h4 : p = 4 * f + 1)
    {g : (ZMod p)ˣ} (hg : ∀ x, x ∈ Subgroup.zpowers g) {χ : MulChar (ZMod p) GaussianInt}
    (hχ : χ (g : ZMod p) = (gaussI : GaussianInt)) :
    (jacobiSum (χ ^ 3) (χ ^ 2)).re % 2 = 1 := by
  have h44 := char_pow_four hg hχ
  have h3 : (χ ^ 3) ^ 4 = 1 := by rw [← pow_mul, mul_comm, pow_mul, h44, one_pow]
  have h2 : (χ ^ 2) ^ 4 = 1 := by rw [← pow_mul, mul_comm, pow_mul, h44, one_pow]
  have hdvd : 4 ∣ Fintype.card (ZMod p) - 1 := by
    rw [ZMod.card]
    exact ⟨f, by omega⟩
  obtain ⟨z, _, hz⟩ := exists_jacobiSum_eq_neg_one_add (by norm_num : 2 < 4) h3 h2 hdvd
    gaussI_primitiveRoot
  have e : ((gaussI : GaussianInt) - 1) ^ 2 = ⟨0, -2⟩ := by
    show ((⟨0, 1⟩ : GaussianInt) - 1) ^ 2 = ⟨0, -2⟩
    rw [sq]; ext <;> simp
  rw [hz, e]
  simp only [Zsqrtd.add_re, Zsqrtd.neg_re, Zsqrtd.one_re, Zsqrtd.mul_re]
  omega

/-- A binomial coefficient with top below `p` is not zero modulo `p`. -/
theorem choose_ne_zero_zmod {p : ℕ} [hp : Fact p.Prime] {n k : ℕ} (hn : n < p) (hk : k ≤ n) :
    ((n.choose k : ℕ) : ZMod p) ≠ 0 := by
  intro h
  rw [ZMod.natCast_zmod_eq_zero_iff_dvd] at h
  have h1 : p ∣ n.factorial := by
    rw [← Nat.choose_mul_factorial_mul_factorial hk]
    exact Dvd.dvd.mul_right (Dvd.dvd.mul_right h _) _
  have := (hp.out.dvd_factorial).1 h1
  omega

/-- The square of `jacobiU`: for `p = 4 f + 1` there are integers `A`, `B` with `A` odd,
`A^2 + B^2 = p` and `jacobiU^2 = 4 A^2 - 2 p` modulo `p^2`. -/
theorem jacobiU_sq {p f : ℕ} [hp : Fact p.Prime] (h4 : p = 4 * f + 1) :
    ∃ A B : ℤ, A ^ 2 + B ^ 2 = (p : ℤ) ∧ A % 2 = 1 ∧
      jacobiU p f ^ 2 = 4 * (A : ZMod (p ^ 2)) ^ 2 - 2 * (p : ZMod (p ^ 2)) := by
  have hf : 0 < f := by
    rcases Nat.eq_zero_or_pos f with h0 | h0
    · rw [h0] at h4; exact absurd (h4 ▸ hp.out) (by norm_num)
    · exact h0
  obtain ⟨g, hg⟩ := IsCyclic.exists_generator (α := (ZMod p)ˣ)
  obtain ⟨χ, hχ⟩ := exists_quarticChar h4 hg
  have hnorm := jacobiSum_norm (g := g) hχ
  have hodd := jacobiSum_re_odd h4 hg hχ
  have hJ := jacobiU_eq_gaussHom h4 hg hχ
  rw [gaussHom_apply] at hJ
  have hI := teich_generator_pow_sq h4 hg
  refine ⟨_, _, hnorm, hodd, ?_⟩
  generalize (jacobiSum (χ ^ 3) (χ ^ 2)).re = A at hnorm hJ ⊢
  generalize (jacobiSum (χ ^ 3) (χ ^ 2)).im = B at hnorm hJ
  generalize teich (g : ZMod p) ^ f = I at hI hJ
  -- the product with the conjugate
  have hN : ((A : ZMod (p ^ 2)) + B * I) * ((A : ZMod (p ^ 2)) - B * I)
      = (p : ZMod (p ^ 2)) := by
    have h := congrArg (fun z : ℤ => (z : ZMod (p ^ 2))) hnorm
    simp only [Int.cast_add, Int.cast_pow, Int.cast_natCast] at h
    linear_combination h - (B : ZMod (p ^ 2)) ^ 2 * hI
  -- the sum is a unit
  have h2ne : (2 : ZMod p) ≠ 0 := by
    have := natCast_ne_zero_zmod (p := p) (k := 2) (by norm_num) (by omega)
    exact_mod_cast this
  have hunit : IsUnit (jacobiU p f) := by
    have h2J := two_mul_jacobiU h4
    have : IsUnit (2 * jacobiU p f) := by
      apply isUnit_of_redp_ne_zero
      rw [h2J]
      have hr2 : redp p (2 : ZMod (p ^ 2)) = 2 := by
        have := redp_natCast p 2
        exact_mod_cast this
      have hr3 : redp p (3 : ZMod (p ^ 2)) = 3 := by
        have := redp_natCast p 3
        exact_mod_cast this
      rw [map_neg, map_mul, map_mul, map_pow, map_neg, map_one, map_sub, map_pow, hr2, hr3,
        redp_natCast, ZMod.pow_card_sub_one_eq_one h2ne]
      have hc := choose_ne_zero_zmod (p := p) (n := 2 * f) (k := f) (by omega) (by omega)
      have h3 : (3 : ZMod p) - 1 = 2 := by norm_num
      rw [h3]
      intro h
      have ha : (-1 : ZMod p) ^ f * ((2 * f).choose f : ZMod p) * 2 = 0 := by
        linear_combination -h
      rcases mul_eq_zero.1 ha with hb | hb
      · rcases mul_eq_zero.1 hb with hd | hd
        · exact absurd hd (pow_ne_zero _ (by simp))
        · exact hc hd
      · exact h2ne hb
    exact isUnit_of_mul_isUnit_right this
  rw [hJ] at hunit ⊢
  -- the conjugate has square zero
  have hpp := natCast_p_mul_self p
  have hsq : ((A : ZMod (p ^ 2)) - B * I) ^ 2 = 0 := by
    have hu2 : IsUnit (((A : ZMod (p ^ 2)) + B * I) ^ 2) := hunit.pow 2
    have : ((A : ZMod (p ^ 2)) + B * I) ^ 2 * ((A : ZMod (p ^ 2)) - B * I) ^ 2 = 0 := by
      rw [← mul_pow, hN]
      exact natCast_p_sq p
    exact (hu2.mul_right_eq_zero).1 this
  linear_combination (-2 : ZMod (p ^ 2)) * hN - hsq

/-- Uniqueness of the odd square in a representation of an odd prime as a sum of two squares. -/
theorem odd_square_unique {p : ℕ} (hp : p.Prime) (hp2 : p % 2 = 1) {a b A B : ℤ}
    (ha : a % 2 = 1) (hA : A % 2 = 1)
    (hab : a ^ 2 + b ^ 2 = (p : ℤ)) (hAB : A ^ 2 + B ^ 2 = (p : ℤ)) : A ^ 2 = a ^ 2 := by
  have hp0 : (0 : ℤ) < p := by exact_mod_cast hp.pos
  have hpI : Prime (p : ℤ) := Nat.prime_iff_prime_int.1 hp
  have hoa : Odd a := Int.odd_iff.2 ha
  have hoA : Odd A := Int.odd_iff.2 hA
  have hop : Odd (p : ℤ) := by
    have : Odd p := Nat.odd_iff.2 hp2
    exact_mod_cast this
  have heb : Even b := by
    rcases Int.even_or_odd b with h | h
    · exact h
    · exfalso
      have h2 : Even (a ^ 2 + b ^ 2) := hoa.pow.add_odd h.pow
      rw [hab] at h2
      exact (Int.not_even_iff_odd.2 hop) h2
  have hy : Odd (a * A + b * B) := (hoa.mul hoA).add_even (heb.mul_right B)
  have hy' : Odd (a * A - b * B) := (hoa.mul hoA).sub_even (heb.mul_right B)
  have hprod : (a * B - b * A) * (a * B + b * A) = (p : ℤ) * (a ^ 2 - A ^ 2) := by
    linear_combination (-(A ^ 2)) * hab + a ^ 2 * hAB
  have hs1 : (a * B - b * A) ^ 2 + (a * A + b * B) ^ 2 = (p : ℤ) ^ 2 := by
    linear_combination (A ^ 2 + B ^ 2) * hab + (p : ℤ) * hAB
  have hs2 : (a * B + b * A) ^ 2 + (a * A - b * B) ^ 2 = (p : ℤ) ^ 2 := by
    linear_combination (A ^ 2 + B ^ 2) * hab + (p : ℤ) * hAB
  have key : ∀ x y : ℤ, (p : ℤ) ∣ x → Odd y → x ^ 2 + y ^ 2 = (p : ℤ) ^ 2 → x = 0 := by
    intro x y hx hyo hxy
    obtain ⟨k, rfl⟩ := hx
    have hy1 : 1 ≤ y ^ 2 := by
      have : y ≠ 0 := by
        intro h
        rw [h] at hyo
        exact absurd hyo (by decide)
      have := sq_nonneg y
      have h2 : y ^ 2 ≠ 0 := pow_ne_zero 2 ‹y ≠ 0›
      omega
    have hk : k = 0 := by
      by_contra hk
      have hk1 : 1 ≤ k ^ 2 := by
        have := sq_nonneg k
        have h2 : k ^ 2 ≠ 0 := pow_ne_zero 2 hk
        omega
      have hpp : 0 < (p : ℤ) ^ 2 := by positivity
      nlinarith
    rw [hk, mul_zero]
  have hdvd : (p : ℤ) ∣ (a * B - b * A) * (a * B + b * A) := ⟨_, hprod⟩
  have hzero : (p : ℤ) * (a ^ 2 - A ^ 2) = 0 := by
    rcases hpI.dvd_or_dvd hdvd with h | h
    · have := key _ _ h hy hs1
      rw [← hprod, this, zero_mul]
    · have := key _ _ h hy' hs2
      rw [← hprod, this, mul_zero]
  rcases mul_eq_zero.1 hzero with h | h
  · omega
  · omega

/-- For a prime `p = 2h + 1` with `h` even (`p = 1 mod 4`):
`(h!)^2 * (2^p - 1) = (p-1)!` modulo `p^2`. -/
theorem half_factorial_sq_modEq_even {p h : Nat} (hp : p.Prime) (hh : p = 2 * h + 1)
    (heven : h % 2 = 0) :
    (h.factorial : Int) * (h.factorial : Int) * (2 ^ p - 1)
      ≡ (((p - 1).factorial : Nat) : Int) [ZMOD ((p * p : Nat) : Int)] := by
  haveI := Fact.mk hp
  have hF : ((h.factorial * h.factorial * fermatSum p : Nat) : ZMod p)
      = -((h.factorial * harmonicNumerator h : Nat) : ZMod p) := by
    push_cast
    rw [fermatSum_zmod hp hh, harmonicNumerator_zmod hp h (by omega)]
    ring
  have hmodp : ((h.factorial * h.factorial * fermatSum p : Nat) : Int)
      ≡ -((h.factorial * harmonicNumerator h : Nat) : Int) [ZMOD (p : Int)] := by
    rw [← ZMod.intCast_eq_intCast_iff]
    push_cast
    push_cast at hF
    exact hF
  have hmodpp := Int.ModEq.mul_left' (c := (p : Int)) hmodp
  have h2p : ((2 : Int)) ^ p = 2 + p * fermatSum p := by
    exact_mod_cast two_pow_eq_fermatSum hp
  have hsplit := factorial_split h
  have hp1 : p - 1 = 2 * h := by omega
  have hprod := prod_sub_modEq p h
  have hpos : (-1 : Int) ^ h = 1 := Even.neg_one_pow (Nat.even_iff.2 heven)
  rw [hpos] at hprod
  rw [hp1, hsplit, ← hh]
  have hR := Int.ModEq.mul_left (h.factorial : Int) hprod
  refine Int.ModEq.trans ?_ hR.symm
  rw [h2p]
  have e1 : (h.factorial : Int) * (h.factorial : Int) * (2 + p * fermatSum p - 1)
      = (h.factorial : Int) * (h.factorial : Int)
        + p * ((h.factorial * h.factorial * fermatSum p : Nat) : Int) := by
    push_cast; ring
  have e2 : (h.factorial : Int) * (1 * ((h.factorial : Int) - p * harmonicNumerator h))
      = (h.factorial : Int) * (h.factorial : Int)
        + p * (-((h.factorial * harmonicNumerator h : Nat) : Int)) := by
    push_cast; ring
  rw [e1, e2]
  push_cast at hmodpp ⊢
  exact Int.ModEq.add_left _ hmodpp

/-- The closed form of type 1 in `ZMod (p^2)`: for a prime `p = 4 f + 1` and `a^2 + b^2 = p`
with `a` odd, `(f!)^4 * (3 * 2^p - 4) * (2 a^2 - p) = (p-1)!`. -/
theorem quarter_factorial_zmod {p f : ℕ} [hp : Fact p.Prime] (h4 : p = 4 * f + 1) {a b : ℤ}
    (ha : a % 2 = 1) (hab : a ^ 2 + b ^ 2 = (p : ℤ)) :
    ((f.factorial : ℕ) : ZMod (p ^ 2)) ^ 4 * (3 * 2 ^ p - 4)
        * (2 * (a : ZMod (p ^ 2)) ^ 2 - (p : ZMod (p ^ 2)))
      = (((p - 1).factorial : ℕ) : ZMod (p ^ 2)) := by
  have hf : 0 < f := by
    rcases Nat.eq_zero_or_pos f with h0 | h0
    · rw [h0] at h4; exact absurd (h4 ▸ hp.out) (by norm_num)
    · exact h0
  -- the Jacobi sum
  obtain ⟨A, B, hAB, hA, hJ2⟩ := jacobiU_sq h4
  have hAa : A ^ 2 = a ^ 2 := odd_square_unique hp.out (by omega) ha hA hab hAB
  have hAa' : (A : ZMod (p ^ 2)) ^ 2 = (a : ZMod (p ^ 2)) ^ 2 := by
    have := congrArg (fun z : ℤ => (z : ZMod (p ^ 2))) hAa
    simpa using this
  rw [hAa'] at hJ2
  have h2J := two_mul_jacobiU h4
  -- the Fermat quotient has square zero
  have hE := two_pow_pred_sub_one h4
  have hpp := natCast_p_mul_self p
  have hEE : ((2 : ZMod (p ^ 2)) ^ (p - 1) - 1) ^ 2 = 0 := by
    rw [hE, mul_pow, natCast_p_sq, zero_mul]
  have h2p : (2 : ZMod (p ^ 2)) ^ p = 2 * 2 ^ (p - 1) := by
    have e : p - 1 + 1 = p := by omega
    have h := pow_succ' (2 : ZMod (p ^ 2)) (p - 1)
    rw [e] at h
    exact h
  -- Morley's congruence
  have hM := half_factorial_sq_modEq_even hp.out (h := 2 * f) (by omega) (by omega)
  have hM' : (((2 * f).factorial : ℕ) : ZMod (p ^ 2)) * (((2 * f).factorial : ℕ) : ZMod (p ^ 2))
      * (2 ^ p - 1) = (((p - 1).factorial : ℕ) : ZMod (p ^ 2)) := by
    have e : ((p * p : ℕ) : ℤ) = ((p ^ 2 : ℕ) : ℤ) := by push_cast; ring
    rw [e] at hM
    have := (ZMod.intCast_eq_intCast_iff _ _ _).2 hM
    push_cast at this
    exact this
  -- the central binomial coefficient
  have hC : (((2 * f).factorial : ℕ) : ZMod (p ^ 2))
      = ((f.factorial : ℕ) : ZMod (p ^ 2)) ^ 2 * ((2 * f).choose f : ZMod (p ^ 2)) := by
    have h := Nat.choose_mul_factorial_mul_factorial (by omega : f ≤ 2 * f)
    have e : 2 * f - f = f := by omega
    rw [e] at h
    rw [← h]
    push_cast
    ring
  have hsign : ((-1 : ZMod (p ^ 2)) ^ f) ^ 2 = 1 := by
    rw [← pow_mul, mul_comm, pow_mul, neg_one_sq, one_pow]
  -- eight times the difference vanishes
  have h8 : (8 : ZMod (p ^ 2)) * (((f.factorial : ℕ) : ZMod (p ^ 2)) ^ 4 * (3 * 2 ^ p - 4)
        * (2 * (a : ZMod (p ^ 2)) ^ 2 - (p : ZMod (p ^ 2)))
      - (((p - 1).factorial : ℕ) : ZMod (p ^ 2))) = 0 := by
    rw [← hM', hC, h2p]
    have hJ4 : 4 * jacobiU p f ^ 2 = ((2 * f).choose f : ZMod (p ^ 2)) ^ 2
        * (3 - (2 : ZMod (p ^ 2)) ^ (p - 1)) ^ 2 := by
      have : 4 * jacobiU p f ^ 2 = (2 * jacobiU p f) ^ 2 := by ring
      rw [this, h2J, neg_sq, mul_pow, mul_pow, hsign, one_mul]
    rw [hJ2] at hJ4
    linear_combination
      (((f.factorial : ℕ) : ZMod (p ^ 2)) ^ 4 * (6 * (2 : ZMod (p ^ 2)) ^ (p - 1) - 4)) * hJ4
      + (((f.factorial : ℕ) : ZMod (p ^ 2)) ^ 4 * ((2 * f).choose f : ZMod (p ^ 2)) ^ 2
          * (6 * (2 : ZMod (p ^ 2)) ^ (p - 1) - 28)) * hEE
  have hu8 : IsUnit (8 : ZMod (p ^ 2)) := by
    have h := isUnit_natCast_of_lt (p := p) (n := 2) (by norm_num) (by omega)
    have h3 := h.pow 3
    have e : ((2 : ℕ) : ZMod (p ^ 2)) ^ 3 = 8 := by norm_num
    rwa [e] at h3
  exact sub_eq_zero.1 ((hu8.mul_right_eq_zero).1 h8)

end TypeOne

/-- C4: for every prime `p = 5 mod 12` and all integers `a`, `b` with `a^2 + b^2 = p` and
`a = 1 mod 4`, if the residue entering step 2 of `processResult` is congruent to `((p-1)/4)!`
modulo `p^2`, the type-1 value `residue^4 * (3 * 2^p - 4) * (2 * a^2 - p)` that step 2 computes
(with `a` the value returned by `find_a`) is congruent to `(p-1)!` modulo `p^2`, and the value is
the same for `a` and `-a`. -/
theorem C4_type1_identity (dev : Device) (p : Nat) (residue a b : Int) (hp : p.Prime)
    (h12 : p % 12 = 5) (hab : a * a + b * b = (p : Int)) (ha : a % 4 = 1)
    (hres : residue ≡ ((((p - 1) / 4).factorial : Nat) : Int) [ZMOD ((p * p : Nat) : Int)]) :
    (find_a dev p = .ok a → reconstruct dev p 1 residue = .ok (type1Value p residue a)) ∧
    type1Value p residue a
      = residue ^ 4 % ((p * p : Nat) : Int) * (2 ^ p % ((p * p : Nat) : Int) * 3 - 4)
          * (a * a * 2 - (p : Int)) ∧
    type1Value p residue a ≡ (((p - 1).factorial : Nat) : Int) [ZMOD ((p * p : Nat) : Int)] ∧
    type1Value p residue (-a) = type1Value p residue a := by
  haveI := Fact.mk hp
  have h4 : p = 4 * ((p - 1) / 4) + 1 := by omega
  have hodd : a % 2 = 1 := by omega
  have hval : type1Value p residue a
      = residue ^ 4 % ((p * p : Nat) : Int) * (2 ^ p % ((p * p : Nat) : Int) * 3 - 4)
          * (a * a * 2 - (p : Int)) := by
    unfold type1Value
    simp only [mpz_powm_eq]
  refine ⟨?_, hval, ?_, ?_⟩
  · intro hfa
    unfold reconstruct
    rw [hfa]
    rfl
  · rw [hval]
    have hZ := quarter_factorial_zmod h4 hodd (b := b) (by rw [sq, sq]; exact hab)
    have hI : ((((p - 1) / 4).factorial : Nat) : Int) ^ 4 * (3 * 2 ^ p - 4)
          * (2 * a ^ 2 - (p : Int))
        ≡ (((p - 1).factorial : Nat) : Int) [ZMOD ((p ^ 2 : Nat) : Int)] := by
      rw [← ZMod.intCast_eq_intCast_iff]
      push_cast
      exact hZ
    have e : ((p ^ 2 : Nat) : Int) = ((p * p : Nat) : Int) := by push_cast; ring
    rw [e] at hI
    refine Int.ModEq.trans ?_ hI
    apply Int.ModEq.mul
    · apply Int.ModEq.mul
      · exact (Int.mod_modEq _ _).trans (hres.pow 4)
      · have h2 : (2 : Int) ^ p % ((p * p : Nat) : Int) * 3 - 4 ≡ 2 ^ p * 3 - 4
            [ZMOD ((p * p : Nat) : Int)] :=
          Int.ModEq.sub_right _ (Int.ModEq.mul_right _ (Int.mod_modEq _ _))
        have e2 : (3 : Int) * 2 ^ p - 4 = 2 ^ p * 3 - 4 := by ring
        rw [e2]
        exact h2
    · have e3 : 2 * a ^ 2 - (p : Int) = a * a * 2 - (p : Int) := by ring
      rw [e3]
  · unfold type1Value
    simp only [neg_mul_neg]

/-- Witness of C4 at `p = 5` with the residue `1! = 1` and `5 = 1^2 + 2^2`. -/
theorem C4_type1_identity_witness :
    (Nat.Prime 5 ∧ 5 % 12 = 5 ∧ (1 : Int) * 1 + 2 * 2 = ((5 : Nat) : Int) ∧ (1 : Int) % 4 = 1 ∧
      (1 : Int) ≡ ((((5 - 1) / 4).factorial : Nat) : Int) [ZMOD ((5 * 5 : Nat) : Int)]) ∧
    type1Value 5 1 1 ≡ (((5 - 1).factorial : Nat) : Int) [ZMOD ((5 * 5 : Nat) : Int)] ∧
    type1Value 5 1 (-1) = type1Value 5 1 1 :=
  have h1 : Nat.Prime 5 := by norm_num
  have h2 : (1 : Int) * 1 + 2 * 2 = ((5 : Nat) : Int) := by norm_num
  have h3 : (1 : Int) ≡ ((((5 - 1) / 4).factorial : Nat) : Int)
      [ZMOD ((5 * 5 : Nat) : Int)] := by decide
  ⟨⟨h1, by norm_num, h2, by norm_num, h3⟩,
    (C4_type1_identity ⟨fun _ _ => none, fun _ _ => none, fun _ _ _ => none⟩ 5 1 1 2 h1
      (by norm_num) h2 (by norm_num) h3).2.2⟩

/-! ## The closed-form identity of type 0 at a small prime -/

/-- At `p = 7` (where `(p-1)/6 = 1` is odd and `find_u` asks for the class 2 mod 3), the solution
`u = 1` of `u^2 + 3 * 3^2 = 28` in the class 1 mod 3, with `c = 1` (`c^2 + 27 * 1^2 = 28`) and the
residue `1 = ((7-1)/6)!`, gives a type-0 value that is not congruent to `6!` modulo `49`, while
the solution `u = -4` in the class 2 mod 3 does. -/
theorem type0Value_class_one_at_seven :
    ((1 : Int) * 1 + 3 * (3 * 3) = ((4 * 7 : Nat) : Int) ∧ (1 : Int) % 3 = 1 ∧
      (1 : Int) * 1 + 27 * (1 * 1) = ((4 * 7 : Nat) : Int) ∧ Nat.Prime 7 ∧ 7 % 3 = 1 ∧
      (1 : Int) ≡ ((((7 - 1) / 6).factorial : Nat) : Int) [ZMOD ((7 * 7 : Nat) : Int)]) ∧
    type0Value 7 1 1 1 = .ok (-36000) ∧
    ¬ ((-36000 : Int) ≡ (((7 - 1).factorial : Nat) : Int) [ZMOD ((7 * 7 : Nat) : Int)]) ∧
    umod 7 = 2 ∧ (-4 : Int) % 3 = 2 ∧ (-4 : Int) * (-4) + 3 * (2 * 2) = ((4 * 7 : Nat) : Int) ∧
    type0Value 7 1 (-4) 1 = .ok 7974000 ∧
    (7974000 : Int) ≡ (((7 - 1).factorial : Nat) : Int) [ZMOD ((7 * 7 : Nat) : Int)] := by
  refine ⟨⟨by norm_num, by norm_num, by norm_num, by norm_num, by norm_num, by decide⟩,
    by rfl, by decide, by decide, by decide, by norm_num, by rfl, by decide⟩

/-! ## The shared targets after the classification loop -/

/-- What one pass of the classification loop does to the shared targets. -/
theorem setupTestPrime_targets (sd : searchData) (p : Nat) (hp : p.Prime) (h5 : 5 ≤ p)
    (h64 : p < 2 ^ 64) :
    ∃ sd1 t, setupTestPrime sd p = .ok (sd1, t) ∧ t.p = p ∧ t.type < 3 ∧
      t.pTarget = (p - 1) / typeDivisor t.type ∧ 1 ≤ t.pTarget ∧
      (∀ s, s ≠ t.type → sd1.typeTarget s = sd.typeTarget s ∧ sd1.powerLimit s = sd.powerLimit s) ∧
      (sd.typeTarget t.type ≠ 0 → sd1.typeTarget t.type = sd.typeTarget t.type ∧
        sd1.powerLimit t.type = sd.powerLimit t.type) ∧
      (sd.typeTarget t.type = 0 → sd1.typeTarget t.type = t.pTarget ∧
        sd1.powerLimit t.type = t.pTarget / 2) := by
  have h12 := prime_mod_twelve hp h5
  have hu : u64 (p + 2 ^ 64 - 1) = p - 1 := u64_pred (by omega) h64
  unfold setupTestPrime
  rw [hu]
  by_cases h1 : p % 3 = 1
  · rw [if_pos h1]
    refine ⟨_, _, rfl, rfl, by show _ < 3; norm_num, rfl, ?_, ?_, ?_, ?_⟩
    · show 1 ≤ (p - 1) / 6
      omega
    · intro s hs
      dsimp only
      split_ifs <;> simp [Function.update_noteq hs]
    · intro h0
      dsimp only at h0 ⊢
      rw [if_neg h0]
      exact ⟨rfl, rfl⟩
    · intro h0
      dsimp only at h0 ⊢
      rw [if_pos h0]
      simp
  · by_cases h2 : p % 12 = 5
    · rw [if_neg h1, if_pos h2]
      refine ⟨_, _, rfl, rfl, by show _ < 3; norm_num, rfl, ?_, ?_, ?_, ?_⟩
      · show 1 ≤ (p - 1) / 4
        omega
      · intro s hs
        dsimp only
        split_ifs <;> simp [Function.update_noteq hs]
      · intro h0
        dsimp only at h0 ⊢
        rw [if_neg h0]
        exact ⟨rfl, rfl⟩
      · intro h0
        dsimp only at h0 ⊢
        rw [if_pos h0]
        simp
    · have h3 : p % 12 = 11 := by omega
      rw [if_neg h1, if_neg h2, if_pos h3]
      refine ⟨_, _, rfl, rfl, by show _ < 3; norm_num, rfl, ?_, ?_, ?_, ?_⟩
      · show 1 ≤ (p - 1) / 2
        omega
      · intro s hs
        dsimp only
        split_ifs <;> simp [Function.update_noteq hs]
      · intro h0
        dsimp only at h0 ⊢
        rw [if_neg h0]
        exact ⟨rfl, rfl⟩
      · intro h0
        dsimp only at h0 ⊢
        rw [if_pos h0]
        simp

/-- The shared targets after the classification loop, for any incoming `searchData`. -/
theorem classifyLoop_targets : ∀ (l : List Nat) (sd : searchData),
    (∀ p ∈ l, p.Prime ∧ 5 ≤ p ∧ p < 2 ^ 64) →
    ∃ sd1 ts, classifyLoop sd l = .ok (sd1, ts) ∧ ts.map (fun x => x.p) = l ∧
      (∀ x ∈ ts, x.type < 3 ∧ x.pTarget = (x.p - 1) / typeDivisor x.type ∧ 1 ≤ x.pTarget) ∧
      ∀ t, (sd.typeTarget t ≠ 0 →
          sd1.typeTarget t = sd.typeTarget t ∧ sd1.powerLimit t = sd.powerLimit t) ∧
        (sd.typeTarget t = 0 →
          match ts.find? (fun x => decide (x.type = t)) with
          | some f => sd1.typeTarget t = f.pTarget ∧ sd1.powerLimit t = f.pTarget / 2
          | none => sd1.typeTarget t = 0 ∧ sd1.powerLimit t = sd.powerLimit t) := by
  intro l
  induction l with
  | nil =>
    intro sd _
    refine ⟨sd, [], rfl, rfl, fun x hx => absurd hx (List.not_mem_nil _), fun t => ⟨fun _ => ⟨rfl, rfl⟩, fun h => ?_⟩⟩
    simp [h]
  | cons p rest ih =>
    intro sd h
    obtain ⟨hp, h5, h64⟩ := h p (List.mem_cons_self _ _)
    obtain ⟨sd1, x, he, hxp, hty, hT, h1, hother, hkeep, hset⟩ := setupTestPrime_targets sd p hp h5 h64
    obtain ⟨sd2, ts, hl, hmap, hall, hinv⟩ := ih sd1 (fun q hq => h q (List.mem_cons_of_mem _ hq))
    refine ⟨sd2, x :: ts, ?_, ?_, ?_, ?_⟩
    · simp only [classifyLoop, he, hl]
    · simp [hxp, hmap]
    · intro y hy
      rcases List.mem_cons.1 hy with rfl | hy
      · exact ⟨hty, by rw [hxp]; exact hT, h1⟩
      · exact hall y hy
    · intro t
      by_cases hxt : x.type = t
      · subst hxt
        constructor
        · intro h0
          obtain ⟨e1, e2⟩ := hkeep h0
          obtain ⟨e3, e4⟩ := (hinv x.type).1 (by rw [e1]; exact h0)
          exact ⟨e3.trans e1, e4.trans e2⟩
        · intro h0
          obtain ⟨e1, e2⟩ := hset h0
          have hne : sd1.typeTarget x.type ≠ 0 := by rw [e1]; omega
          obtain ⟨e3, e4⟩ := (hinv x.type).1 hne
          simp only [List.find?_cons, decide_True]
          exact ⟨e3.trans e1, e4.trans e2⟩
      · obtain ⟨e1, e2⟩ := hother t (fun h => hxt h.symm)
        constructor
        · intro h0
          obtain ⟨e3, e4⟩ := (hinv t).1 (by rw [e1]; exact h0)
          exact ⟨e3.trans e1, e4.trans e2⟩
        · intro h0
          have := (hinv t).2 (by rw [e1]; exact h0)
          simp only [List.find?_cons, hxt, decide_False]
          rw [e2] at this
          exact this

/-- In a list ascending in `p`, the first element found by `find?` has the least `p` among the
elements satisfying the predicate. -/
theorem find?_least (P : testPrime → Bool) : ∀ (ts : List testPrime) (f : testPrime),
    List.Pairwise (fun a b => a.p < b.p) ts → ts.find? P = some f →
    f ∈ ts ∧ P f = true ∧ ∀ x ∈ ts, P x = true → f.p ≤ x.p := by
  intro ts
  induction ts with
  | nil => intro f _ h; simp at h
  | cons a rest ih =>
    intro f hs h
    rw [List.pairwise_cons] at hs
    rw [List.find?_cons] at h
    cases hPa : P a with
    | true =>
      rw [hPa] at h
      have e : a = f := Option.some.inj h
      subst e
      refine ⟨List.mem_cons_self _ _, hPa, ?_⟩
      intro x hx _
      rcases List.mem_cons.1 hx with rfl | hx
      · exact le_refl _
      · exact le_of_lt (hs.1 x hx)
    | false =>
      rw [hPa] at h
      obtain ⟨hm, hPf, hle⟩ := ih f hs.2 h
      refine ⟨List.mem_cons_of_mem _ hm, hPf, ?_⟩
      intro x hx hPx
      rcases List.mem_cons.1 hx with rfl | hx
      · rw [hPa] at hPx; exact absurd hPx (by simp)
      · exact hle x hx hPx

/-- C11: for a strictly ascending list of test primes at least 5 and `typeTarget` initially all
zero, the classification loop of `cl_sieve` succeeds; a type that has a test prime gets as
`typeTarget` the `pTarget` of the first test prime of that type, which is the least `pTarget`
of that type, and `powerLimit = typeTarget / 2`; every test prime has
`pTarget >= typeTarget[type]`; a type without a test prime keeps `typeTarget = 0`. -/
theorem C11_typeTarget_first_is_minimum (sd : searchData) (tplist : List Nat)
    (hprime : ∀ p ∈ tplist, p.Prime ∧ 5 ≤ p ∧ p < 2 ^ 64)
    (hasc : List.Pairwise (fun a b => a < b) tplist)
    (hzero : ∀ t, sd.typeTarget t = 0) :
    ∃ sd1 ts, classifyLoop sd tplist = .ok (sd1, ts) ∧ ts.map (fun x => x.p) = tplist ∧
      (∀ t, match ts.find? (fun x => decide (x.type = t)) with
        | some f => sd1.typeTarget t = f.pTarget ∧ sd1.powerLimit t = sd1.typeTarget t / 2 ∧
            ∀ x ∈ ts, x.type = t → f.pTarget ≤ x.pTarget
        | none => (∀ x ∈ ts, x.type ≠ t) ∧ sd1.typeTarget t = 0) ∧
      ∀ x ∈ ts, sd1.typeTarget x.type ≤ x.pTarget := by
  obtain ⟨sd1, ts, hl, hmap, hall, hinv⟩ := classifyLoop_targets tplist sd hprime
  have hs : List.Pairwise (fun a b : testPrime => a.p < b.p) ts := by
    rw [← hmap, List.pairwise_map] at hasc
    exact hasc
  have key : ∀ t, match ts.find? (fun x => decide (x.type = t)) with
        | some f => sd1.typeTarget t = f.pTarget ∧ sd1.powerLimit t = sd1.typeTarget t / 2 ∧
            ∀ x ∈ ts, x.type = t → f.pTarget ≤ x.pTarget
        | none => (∀ x ∈ ts, x.type ≠ t) ∧ sd1.typeTarget t = 0 := by
    intro t
    have h2 := (hinv t).2 (hzero t)
    cases hf : ts.find? (fun x => decide (x.type = t)) with
    | none =>
      rw [hf] at h2
      refine ⟨?_, h2.1⟩
      intro x hx hxt
      have := List.find?_eq_none.1 hf x hx
      simp [hxt] at this
    | some f =>
      rw [hf] at h2
      obtain ⟨hfm, hPf, hle⟩ := find?_least _ ts f hs hf
      have hft : f.type = t := of_decide_eq_true hPf
      refine ⟨h2.1, by rw [h2.1]; exact h2.2, ?_⟩
      intro x hx hxt
      have h3 := hle x hx (decide_eq_true hxt)
      rw [(hall f hfm).2.1, (hall x hx).2.1, hft, hxt]
      exact Nat.div_le_div_right (Nat.sub_le_sub_right h3 1)
  refine ⟨sd1, ts, hl, hmap, key, ?_⟩
  intro x hx
  have hk := key x.type
  cases hf : ts.find? (fun y => decide (y.type = x.type)) with
  | none =>
    rw [hf] at hk
    exact absurd rfl (hk.1 x hx)
  | some f =>
    rw [hf] at hk
    rw [hk.1]
    exact hk.2.2 x hx rfl

/-- Witness of C11 on the test primes 5, 7, 11, 13, 17, 23. -/
theorem C11_typeTarget_first_is_minimum_witness :
    ((∀ p ∈ [5, 7, 11, 13, 17, 23], p.Prime ∧ 5 ≤ p ∧ p < 2 ^ 64) ∧
      List.Pairwise (fun a b => a < b) [5, 7, 11, 13, 17, 23] ∧
      ∀ t, (searchData.init false).typeTarget t = 0) ∧
    ∃ sd1 ts, classifyLoop (searchData.init false) [5, 7, 11, 13, 17, 23] = .ok (sd1, ts) ∧
      ts.map (fun x => x.p) = [5, 7, 11, 13, 17, 23] ∧
      (∀ t, match ts.find? (fun x => decide (x.type = t)) with
        | some f => sd1.typeTarget t = f.pTarget ∧ sd1.powerLimit t = sd1.typeTarget t / 2 ∧
            ∀ x ∈ ts, x.type = t → f.pTarget ≤ x.pTarget
        | none => (∀ x ∈ ts, x.type ≠ t) ∧ sd1.typeTarget t = 0) ∧
      ∀ x ∈ ts, sd1.typeTarget x.type ≤ x.pTarget :=
  have hyp : ∀ p ∈ [5, 7, 11, 13, 17, 23], p.Prime ∧ 5 ≤ p ∧ p < 2 ^ 64 := by
    intro p hp
    simp only [List.mem_cons, List.mem_singleton, List.not_mem_nil, or_false] at hp
    rcases hp with rfl | rfl | rfl | rfl | rfl | rfl <;>
      exact ⟨by norm_num, by norm_num, by norm_num⟩
  have hasc : List.Pairwise (fun a b => a < b) [5, 7, 11, 13, 17, 23] := by decide
  ⟨⟨hyp, hasc, fun _ => rfl⟩,
    C11_typeTarget_first_is_minimum (searchData.init false) [5, 7, 11, 13, 17, 23] hyp hasc
      (fun _ => rfl)⟩

/-! ## Legendre's formula in `getPower` -/

/-- The loop of `getPower` entered at the `k`-th power of `prime` adds the remaining terms of
Legendre's sum and ends. -/
theorem getPowerLoop_spec (prime target : Nat) (h2 : 2 ≤ prime) (h32 : prime < 2 ^ 32)
    (ht : target < 2 ^ 64) : ∀ (fuel k tot : Nat), 1 ≤ k → prime ^ k ≤ target →
    Nat.log prime target - k < fuel → tot + 2 * (target / prime ^ k) ≤ 2 ^ 64 →
    getPowerLoop prime target fuel tot (prime ^ k) (target / prime ^ k)
      = some (tot + ∑ i in Finset.Ico k (Nat.log prime target + 1), target / prime ^ i) := by
  intro fuel
  induction fuel with
  | zero => intro k tot _ _ hf _; omega
  | succ fuel ih =>
    intro k tot hk hle hf hb
    have hpos : 0 < prime ^ k := Nat.pow_pos (by omega)
    have hq : 1 ≤ target / prime ^ k := (Nat.one_le_div_iff hpos).2 hle
    have htarget : target ≠ 0 := by
      intro h0; rw [h0] at hle; omega
    have hkL : k ≤ Nat.log prime target := (Nat.pow_le_iff_le_log (by omega) htarget).1 hle
    unfold getPowerLoop
    rw [if_neg (by omega)]
    have hu : u64 (tot + target / prime ^ k) = tot + target / prime ^ k := u64_of_lt (by omega)
    have hpp : prime ^ k * prime % 2 ^ 128 = prime ^ (k + 1) := by
      rw [← pow_succ]
      apply Nat.mod_eq_of_lt
      have h1 : prime ^ (k + 1) = prime ^ k * prime := pow_succ _ _
      have h3 : prime ^ k * prime < 2 ^ 64 * 2 ^ 32 :=
        Nat.mul_lt_mul'' (by omega) h32
      have h4 : (2 : Nat) ^ 64 * 2 ^ 32 ≤ 2 ^ 128 := by norm_num
      omega
    simp only [hu, hpp]
    by_cases hgt : prime ^ (k + 1) > target
    · rw [if_pos hgt]
      have hL : Nat.log prime target = k := Nat.log_eq_of_pow_le_of_lt_pow hle hgt
      rw [hL, Nat.Ico_succ_singleton, Finset.sum_singleton]
    · rw [if_neg hgt]
      have hle1 : prime ^ (k + 1) ≤ target := by omega
      have hu2 : u64 (prime ^ (k + 1)) = prime ^ (k + 1) := u64_of_lt (by omega)
      rw [hu2]
      have hkL1 : k + 1 ≤ Nat.log prime target :=
        (Nat.pow_le_iff_le_log (by omega) htarget).1 hle1
      have hhalf : 2 * (target / prime ^ (k + 1)) ≤ target / prime ^ k := by
        rw [pow_succ, ← Nat.div_div_eq_div_mul]
        have h5 : target / prime ^ k / prime ≤ target / prime ^ k / 2 :=
          Nat.div_le_div_left h2 (by norm_num)
        omega
      rw [ih (k + 1) (tot + target / prime ^ k) (by omega) hle1 (by omega) (by omega)]
      rw [Finset.sum_eq_sum_Ico_succ_bot (by omega : k < Nat.log prime target + 1)]
      rw [add_assoc]

/-- The result of `getPower` for `2 <= prime <= target`: Legendre's sum. -/
theorem getPower_sum (fuel prime target : Nat) (h2 : 2 ≤ prime) (h32 : prime < 2 ^ 32)
    (ht : target < 2 ^ 64) (hle : prime ≤ target) (hf : 64 ≤ fuel) :
    ∃ curBit, getPower fuel prime target
      = some (∑ i in Finset.Ico 1 (Nat.log prime target + 1), target / prime ^ i, curBit) := by
  have hL : Nat.log prime target < 64 := by
    apply Nat.log_lt_of_lt_pow (by omega)
    calc target < 2 ^ 64 := ht
      _ ≤ prime ^ 64 := Nat.pow_le_pow_left h2 64
  have hdiv : 2 * (target / prime) ≤ target := by
    have : target / prime ≤ target / 2 := Nat.div_le_div_left h2 (by norm_num)
    omega
  have h := getPowerLoop_spec prime target h2 h32 ht fuel 1 0 (le_refl 1)
    (by rw [pow_one]; exact hle) (by omega) (by rw [pow_one]; omega)
  rw [pow_one, zero_add] at h
  unfold getPower
  rw [if_neg (by omega), h]
  exact ⟨_, rfl⟩

/-- C12: for every prime `q < 2^32` and every `target < 2^64`, `getPower` returns `(0, 0)`
when `q > target`; otherwise its loop ends (any fuel of at least 64 iterations suffices) and the
first component is the exponent of `q` in the factorisation of `target!`, which is the sum of
`target / q^k` over `k >= 1` (Legendre's formula; the terms beyond `log_q target` vanish). -/
theorem C12_getPower_legendre (fuel q target : Nat) (hq : q.Prime) (h32 : q < 2 ^ 32)
    (ht : target < 2 ^ 64) (hf : 64 ≤ fuel) :
    (target < q → getPower fuel q target = some (0, 0)) ∧
    (q ≤ target → ∃ curBit,
      getPower fuel q target = some ((target.factorial).factorization q, curBit) ∧
      ∀ b, Nat.log q target < b →
        (target.factorial).factorization q = ∑ k in Finset.Ico 1 b, target / q ^ k) := by
  constructor
  · intro h
    unfold getPower
    rw [if_pos h]
  · intro hle
    haveI : Fact q.Prime := ⟨hq⟩
    obtain ⟨curBit, hc⟩ := getPower_sum fuel q target hq.two_le h32 ht hle hf
    have hfac : ∀ b, Nat.log q target < b →
        (target.factorial).factorization q = ∑ k in Finset.Ico 1 b, target / q ^ k := by
      intro b hb
      rw [Nat.factorization_def _ hq]
      exact padicValNat_factorial hb
    refine ⟨curBit, ?_, hfac⟩
    rw [hc, hfac _ (Nat.lt_succ_self _)]

/-- Witness of C12: the exponent of 3 in `100!` is `33 + 11 + 3 + 1 = 48`, and 101 does not
occur in it. -/
theorem C12_getPower_legendre_witness :
    (Nat.Prime 3 ∧ 3 < 2 ^ 32 ∧ 100 < 2 ^ 64 ∧ 64 ≤ 64) ∧
    getPower 64 3 100 = some (48, 0x8000000000000000 >>> 59) ∧
    (3 ≤ 100 → ∃ curBit,
      getPower 64 3 100 = some ((Nat.factorial 100).factorization 3, curBit) ∧
      ∀ b, Nat.log 3 100 < b →
        (Nat.factorial 100).factorization 3 = ∑ k in Finset.Ico 1 b, 100 / 3 ^ k) :=
  ⟨⟨by norm_num, by norm_num, by norm_num, le_refl _⟩, by decide,
    (C12_getPower_legendre 64 3 100 (by norm_num) (by norm_num) (by norm_num) (le_refl _)).2⟩

/-! ## The power limit -/

/-- The loop of `getPower` never ends on `prime = 1`, `target = 1`. -/
theorem getPowerLoop_one : ∀ (fuel tot : Nat), getPowerLoop 1 1 fuel tot 1 1 = none := by
  intro fuel
  induction fuel with
  | zero => intro tot; rfl
  | succ fuel ih =>
    intro tot
    unfold getPowerLoop
    have h1 : ¬ ((1 : Nat) = 0) := by decide
    have h2 : ¬ ((1 * 1) % 2 ^ 128 > 1) := by decide
    have h3 : u64 (1 * 1 % 2 ^ 128) = 1 := by decide
    simp only [h1, h2, h3, if_false]
    exact ih _

/-- The claim C13 as stated fails at `q = 1`, `target = 1`, which satisfy
`target / 2 < q <= target`: the loop of `getPower` runs forever (no fuel gives a result). -/
theorem C13_unit_counterexample :
    (1 / 2 < 1 ∧ 1 ≤ 1 ∧ 1 < 2 ^ 32) ∧ ¬ ∃ fuel r, getPower fuel 1 1 = some r := by
  refine ⟨by decide, ?_⟩
  rintro ⟨fuel, r, h⟩
  unfold getPower at h
  rw [if_neg (by decide), getPowerLoop_one] at h
  exact absurd h (by simp)

/-- C13 (amended): for every `target < 2^64` and every `q >= 2` with `q < 2^32`: when
`target / 2 < q <= target`, `getPower` returns first component 1; when `q <= target / 2`, it
returns a first component of at least 2. -/
theorem C13_powerLimit_threshold (fuel q target : Nat) (h2 : 2 ≤ q) (h32 : q < 2 ^ 32)
    (ht : target < 2 ^ 64) (hf : 64 ≤ fuel) :
    (target / 2 < q → q ≤ target →
      ∃ curBit, getPower fuel q target = some (1, curBit)) ∧
    (q ≤ target / 2 →
      ∃ n curBit, getPower fuel q target = some (n, curBit) ∧ 2 ≤ n) := by
  constructor
  · intro hlo hle
    obtain ⟨curBit, hc⟩ := getPower_sum fuel q target h2 h32 ht hle hf
    refine ⟨curBit, ?_⟩
    rw [hc]
    have hL : Nat.log q target = 1 := by
      apply Nat.log_eq_of_pow_le_of_lt_pow
      · rw [pow_one]; exact hle
      · have : 2 * q ≤ q * q := Nat.mul_le_mul_right q h2
        have e : q ^ (1 + 1) = q * q := by ring
        omega
    have hd : target / q = 1 := by
      apply Nat.div_eq_of_lt_le
      · omega
      · omega
    rw [hL, Nat.Ico_succ_singleton, Finset.sum_singleton, pow_one, hd]
  · intro hle2
    have hle : q ≤ target := by omega
    obtain ⟨curBit, hc⟩ := getPower_sum fuel q target h2 h32 ht hle hf
    refine ⟨_, curBit, hc, ?_⟩
    have htarget : target ≠ 0 := by omega
    have hL : 1 ≤ Nat.log q target :=
      (Nat.pow_le_iff_le_log (by omega) htarget).1 (by rw [pow_one]; exact hle)
    have hmem : 1 ∈ Finset.Ico 1 (Nat.log q target + 1) := by
      rw [Finset.mem_Ico]; omega
    have hsingle := Finset.single_le_sum (f := fun i => target / q ^ i)
      (fun i _ => Nat.zero_le _) hmem
    have hd : 2 ≤ target / q := by
      rw [Nat.le_div_iff_mul_le (by omega)]
      omega
    simp only [pow_one] at hsingle
    omega

/-- Witness of C13 (amended) at `target = 100`: 53 has multiplicity 1, 47 has multiplicity 2. -/
theorem C13_powerLimit_threshold_witness :
    (2 ≤ 53 ∧ 53 < 2 ^ 32 ∧ 100 < 2 ^ 64 ∧ 64 ≤ 64 ∧ 100 / 2 < 53 ∧ 53 ≤ 100) ∧
    (∃ curBit, getPower 64 53 100 = some (1, curBit)) ∧
    getPower 64 47 100 = some (2, 0x8000000000000000 >>> 63) :=
  ⟨⟨by norm_num, by norm_num, by norm_num, le_refl _, by norm_num, by norm_num⟩,
    (C13_powerLimit_threshold 64 53 100 (by norm_num) (by norm_num) (by norm_num)
      (le_refl _)).1 (by norm_num) (by norm_num),
    by decide⟩

/-! ## The wheel offset -/

theorem wheelSeek_two {start fuel N : Nat} (hf : 0 < fuel) (h : N < start ∨ N % 5 = 0) :
    wheelSeek start fuel N 1 = wheelSeek start (fuel - 1) ((N + 2) % 2 ^ 64) 0 := by
  obtain ⟨f, rfl⟩ : ∃ f, fuel = f + 1 := ⟨fuel - 1, by omega⟩
  rw [wheelSeek, if_pos h, if_pos one_ne_zero]
  rfl

theorem wheelSeek_four {start fuel N : Nat} (hf : 0 < fuel) (h : N < start ∨ N % 5 = 0) :
    wheelSeek start fuel N 0 = wheelSeek start (fuel - 1) ((N + 4) % 2 ^ 64) 1 := by
  obtain ⟨f, rfl⟩ : ∃ f, fuel = f + 1 := ⟨fuel - 1, by omega⟩
  rw [wheelSeek, if_pos h, if_neg (by simp)]
  rfl

theorem wheelSeek_done {start fuel N i : Nat} (hf : 0 < fuel) (h : ¬ (N < start ∨ N % 5 = 0)) :
    wheelSeek start fuel N i = some (N, i) := by
  obtain ⟨f, rfl⟩ : ∃ f, fuel = f + 1 := ⟨fuel - 1, by omega⟩
  rw [wheelSeek, if_neg h]

theorem wheelAnchor_two {fuel N : Nat} (hf : 0 < fuel) (h : ¬ ((N + 2) % 2 ^ 64 % 5 = 0)) :
    wheelAnchor fuel N 1 = wheelAnchor (fuel - 1) ((N + 2) % 2 ^ 64) 0 := by
  obtain ⟨f, rfl⟩ : ∃ f, fuel = f + 1 := ⟨fuel - 1, by omega⟩
  rw [wheelAnchor, if_pos one_ne_zero, u64, if_neg h]
  rfl

theorem wheelAnchor_two_done {fuel N : Nat} (hf : 0 < fuel) (h : (N + 2) % 2 ^ 64 % 5 = 0) :
    wheelAnchor fuel N 1 = some (((N + 2) % 2 ^ 64 + 2 ^ 64 - 2) % 2 ^ 64, 5) := by
  obtain ⟨f, rfl⟩ : ∃ f, fuel = f + 1 := ⟨fuel - 1, by omega⟩
  rw [wheelAnchor, if_pos one_ne_zero, u64, if_pos h]
  rfl

theorem wheelAnchor_four {fuel N : Nat} (hf : 0 < fuel) (h : ¬ ((N + 4) % 2 ^ 64 % 5 = 0)) :
    wheelAnchor fuel N 0 = wheelAnchor (fuel - 1) ((N + 4) % 2 ^ 64) 1 := by
  obtain ⟨f, rfl⟩ : ∃ f, fuel = f + 1 := ⟨fuel - 1, by omega⟩
  rw [wheelAnchor, if_neg (by simp), u64, if_neg h]
  rfl

theorem wheelAnchor_four_done {fuel N : Nat} (hf : 0 < fuel) (h : (N + 4) % 2 ^ 64 % 5 = 0) :
    wheelAnchor fuel N 0 = some (((N + 4) % 2 ^ 64 + 2 ^ 64 - 4) % 2 ^ 64, 7) := by
  obtain ⟨f, rfl⟩ : ∃ f, fuel = f + 1 := ⟨fuel - 1, by omega⟩
  rw [wheelAnchor, if_neg (by simp), u64, if_pos h]
  rfl

theorem wheelBack_step {start fuel N idx : Nat} (hf : 0 < fuel) (h : N ≠ start) :
    wheelBack start fuel N idx = wheelBack start (fuel - 1)
      ((N + 2 ^ 64 - wheel.getD (if idx = 0 then 7 else idx - 1) 0) % 2 ^ 64)
      (if idx = 0 then 7 else idx - 1) := by
  obtain ⟨f, rfl⟩ : ∃ f, fuel = f + 1 := ⟨fuel - 1, by omega⟩
  rw [wheelBack, if_pos h]
  rfl

theorem wheelBack_done {start fuel idx : Nat} (hf : 0 < fuel) :
    wheelBack start fuel start idx = some idx := by
  obtain ⟨f, rfl⟩ : ∃ f, fuel = f + 1 := ⟨fuel - 1, by omega⟩
  rw [wheelBack, if_neg (by simp)]

theorem wheelBack_done_of_eq {start fuel N idx : Nat} (hf : 0 < fuel) (h : N = start) :
    wheelBack start fuel N idx = some idx := by
  rw [h]; exact wheelBack_done hf

theorem wheelSeek_two_lt {start fuel N : Nat} (hf : 0 < fuel) (hb : N + 2 < 2 ^ 64)
    (h : N < start ∨ N % 5 = 0) :
    wheelSeek start fuel N 1 = wheelSeek start (fuel - 1) (N + 2) 0 := by
  rw [wheelSeek_two hf h, Nat.mod_eq_of_lt hb]

theorem wheelSeek_four_lt {start fuel N : Nat} (hf : 0 < fuel) (hb : N + 4 < 2 ^ 64)
    (h : N < start ∨ N % 5 = 0) :
    wheelSeek start fuel N 0 = wheelSeek start (fuel - 1) (N + 4) 1 := by
  rw [wheelSeek_four hf h, Nat.mod_eq_of_lt hb]

theorem wheelAnchor_two_lt {fuel N : Nat} (hf : 0 < fuel) (hb : N + 2 < 2 ^ 64)
    (h : ¬ ((N + 2) % 5 = 0)) :
    wheelAnchor fuel N 1 = wheelAnchor (fuel - 1) (N + 2) 0 := by
  rw [wheelAnchor_two hf (by rw [Nat.mod_eq_of_lt hb]; exact h), Nat.mod_eq_of_lt hb]

theorem wheelAnchor_two_done_lt {fuel N : Nat} (hf : 0 < fuel) (hb : N + 2 < 2 ^ 64)
    (h : (N + 2) % 5 = 0) : wheelAnchor fuel N 1 = some (N, 5) := by
  have e : (N + 2 + 2 ^ 64 - 2) % 2 ^ 64 = N := by omega
  rw [wheelAnchor_two_done hf (by rw [Nat.mod_eq_of_lt hb]; exact h), Nat.mod_eq_of_lt hb, e]

theorem wheelAnchor_four_lt {fuel N : Nat} (hf : 0 < fuel) (hb : N + 4 < 2 ^ 64)
    (h : ¬ ((N + 4) % 5 = 0)) :
    wheelAnchor fuel N 0 = wheelAnchor (fuel - 1) (N + 4) 1 := by
  rw [wheelAnchor_four hf (by rw [Nat.mod_eq_of_lt hb]; exact h), Nat.mod_eq_of_lt hb]

theorem wheelAnchor_four_done_lt {fuel N : Nat} (hf : 0 < fuel) (hb : N + 4 < 2 ^ 64)
    (h : (N + 4) % 5 = 0) : wheelAnchor fuel N 0 = some (N, 7) := by
  have e : (N + 4 + 2 ^ 64 - 4) % 2 ^ 64 = N := by omega
  rw [wheelAnchor_four_done hf (by rw [Nat.mod_eq_of_lt hb]; exact h), Nat.mod_eq_of_lt hb, e]

/-- One backward step that ends at `M`, for a concrete index. -/
theorem wheelBack_step_to {start fuel N idx : Nat} (M : Nat) (hf : 0 < fuel) (h : N ≠ start)
    (hN : N < 2 ^ 64)
    (hM : M + wheel.getD (if idx = 0 then 7 else idx - 1) 0 = N) :
    wheelBack start fuel N idx = wheelBack start (fuel - 1) M (if idx = 0 then 7 else idx - 1) := by
  rw [wheelBack_step hf h]
  congr 1
  have hw : wheel.getD (if idx = 0 then 7 else idx - 1) 0 ≤ N := by omega
  omega

theorem findWheelOffset_mod_7 (m fuel : Nat) (hf : 8 ≤ fuel) (hm : 30 * m + 7 < 2 ^ 63) :
    findWheelOffset fuel (30 * m + 7) = some (30 * m + 7, 0) := by
  have hN0 : u64 ((30 * m + 7) / 6 * 6 + 2 ^ 64 - 1) = 30 * m + 5 := by unfold u64; omega
  unfold findWheelOffset
  simp only [hN0]
  simp (disch := omega) only [wheelSeek_two_lt, wheelSeek_four_lt, wheelSeek_done]
  simp (disch := omega) only [wheelAnchor_two_lt, wheelAnchor_four_lt, wheelAnchor_two_done_lt,
    wheelAnchor_four_done_lt]
  rw [wheelBack_step_to (30 * m + 19) (by omega) (by omega) (by omega) (by simp [wheel])]
  simp only [OfNat.ofNat_ne_zero, if_false, if_true, Nat.reduceSub, Nat.reduceEqDiff]
  rw [wheelBack_step_to (30 * m + 17) (by omega) (by omega) (by omega) (by simp [wheel])]
  simp only [OfNat.ofNat_ne_zero, if_false, if_true, Nat.reduceSub, Nat.reduceEqDiff]
  rw [wheelBack_step_to (30 * m + 13) (by omega) (by omega) (by omega) (by simp [wheel])]
  simp only [OfNat.ofNat_ne_zero, if_false, if_true, Nat.reduceSub, Nat.reduceEqDiff]
  rw [wheelBack_step_to (30 * m + 11) (by omega) (by omega) (by omega) (by simp [wheel])]
  simp only [OfNat.ofNat_ne_zero, if_false, if_true, Nat.reduceSub, Nat.reduceEqDiff]
  rw [wheelBack_step_to (30 * m + 7) (by omega) (by omega) (by omega) (by simp [wheel])]
  simp only [OfNat.ofNat_ne_zero, if_false, if_true, Nat.reduceSub, Nat.reduceEqDiff]
  rw [wheelBack_done_of_eq (by omega) (by omega)]

theorem findWheelOffset_mod_11 (m fuel : Nat) (hf : 8 ≤ fuel) (hm : 30 * m + 11 < 2 ^ 63) :
    findWheelOffset fuel (30 * m + 11) = some (30 * m + 11, 1) := by
  have hN0 : u64 ((30 * m + 11) / 6 * 6 + 2 ^ 64 - 1) = 30 * m + 5 := by unfold u64; omega
  unfold findWheelOffset
  simp only [hN0]
  simp (disch := omega) only [wheelSeek_two_lt, wheelSeek_four_lt, wheelSeek_done]
  simp (disch := omega) only [wheelAnchor_two_lt, wheelAnchor_four_lt, wheelAnchor_two_done_lt,
    wheelAnchor_four_done_lt]
  rw [wheelBack_step_to (30 * m + 19) (by omega) (by omega) (by omega) (by simp [wheel])]
  simp only [OfNat.ofNat_ne_zero, if_false, if_true, Nat.reduceSub, Nat.reduceEqDiff]
  rw [wheelBack_step_to (30 * m + 17) (by omega) (by omega) (by omega) (by simp [wheel])]
  simp only [OfNat.ofNat_ne_zero, if_false, if_true, Nat.reduceSub, Nat.reduceEqDiff]
  rw [wheelBack_step_to (30 * m + 13) (by omega) (by omega) (by omega) (by simp [wheel])]
  simp only [OfNat.ofNat_ne_zero, if_false, if_true, Nat.reduceSub, Nat.reduceEqDiff]
  rw [wheelBack_step_to (30 * m + 11) (by omega) (by omega) (by omega) (by simp [wheel])]
  simp only [OfNat.ofNat_ne_zero, if_false, if_true, Nat.reduceSub, Nat.reduceEqDiff]
  rw [wheelBack_done_of_eq (by omega) (by omega)]

theorem findWheelOffset_mod_13 (m fuel : Nat) (hf : 8 ≤ fuel) (hm : 30 * m + 13 < 2 ^ 63) :
    findWheelOffset fuel (30 * m + 13) = some (30 * m + 13, 2) := by
  have hN0 : u64 ((30 * m + 13) / 6 * 6 + 2 ^ 64 - 1) = 30 * m + 11 := by unfold u64; omega
  unfold findWheelOffset
  simp only [hN0]
  simp (disch := omega) only [wheelSeek_two_lt, wheelSeek_four_lt, wheelSeek_done]
  simp (disch := omega) only [wheelAnchor_two_lt, wheelAnchor_four_lt, wheelAnchor_two_done_lt,
    wheelAnchor_four_done_lt]
  rw [wheelBack_step_to (30 * m + 19) (by omega) (by omega) (by omega) (by simp [wheel])]
  simp only [OfNat.ofNat_ne_zero, if_false, if_true, Nat.reduceSub, Nat.reduceEqDiff]
  rw [wheelBack_step_to (30 * m + 17) (by omega) (by omega) (by omega) (by simp [wheel])]
  simp only [OfNat.ofNat_ne_zero, if_false, if_true, Nat.reduceSub, Nat.reduceEqDiff]
  rw [wheelBack_step_to (30 * m + 13) (by omega) (by omega) (by omega) (by simp [wheel])]
  simp only [OfNat.ofNat_ne_zero, if_false, if_true, Nat.reduceSub, Nat.reduceEqDiff]
  rw [wheelBack_done_of_eq (by omega) (by omega)]

theorem findWheelOffset_mod_17 (m fuel : Nat) (hf : 8 ≤ fuel) (hm : 30 * m + 17 < 2 ^ 63) :
    findWheelOffset fuel (30 * m + 17) = some (30 * m + 17, 3) := by
  have hN0 : u64 ((30 * m + 17) / 6 * 6 + 2 ^ 64 - 1) = 30 * m + 11 := by unfold u64; omega
  unfold findWheelOffset
  simp only [hN0]
  simp (disch := omega) only [wheelSeek_two_lt, wheelSeek_four_lt, wheelSeek_done]
  simp (disch := omega) only [wheelAnchor_two_lt, wheelAnchor_four_lt, wheelAnchor_two_done_lt,
    wheelAnchor_four_done_lt]
  rw [wheelBack_step_to (30 * m + 19) (by omega) (by omega) (by omega) (by simp [wheel])]
  simp only [OfNat.ofNat_ne_zero, if_false, if_true, Nat.reduceSub, Nat.reduceEqDiff]
  rw [wheelBack_step_to (30 * m + 17) (by omega) (by omega) (by omega) (by simp [wheel])]
  simp only [OfNat.ofNat_ne_zero, if_false, if_true, Nat.reduceSub, Nat.reduceEqDiff]
  rw [wheelBack_done_of_eq (by omega) (by omega)]

theorem findWheelOffset_mod_19 (m fuel : Nat) (hf : 8 ≤ fuel) (hm : 30 * m + 19 < 2 ^ 63) :
    findWheelOffset fuel (30 * m + 19) = some (30 * m + 19, 4) := by
  have hN0 : u64 ((30 * m + 19) / 6 * 6 + 2 ^ 64 - 1) = 30 * m + 17 := by unfold u64; omega
  unfold findWheelOffset
  simp only [hN0]
  simp (disch := omega) only [wheelSeek_two_lt, wheelSeek_four_lt, wheelSeek_done]
  simp (disch := omega) only [wheelAnchor_two_lt, wheelAnchor_four_lt, wheelAnchor_two_done_lt,
    wheelAnchor_four_done_lt]
  rw [wheelBack_step_to (30 * m + 19) (by omega) (by omega) (by omega) (by simp [wheel])]
  simp only [OfNat.ofNat_ne_zero, if_false, if_true, Nat.reduceSub, Nat.reduceEqDiff]
  rw [wheelBack_done_of_eq (by omega) (by omega)]

theorem findWheelOffset_mod_23 (m fuel : Nat) (hf : 8 ≤ fuel) (hm : 30 * m + 23 < 2 ^ 63) :
    findWheelOffset fuel (30 * m + 23) = some (30 * m + 23, 5) := by
  have hN0 : u64 ((30 * m + 23) / 6 * 6 + 2 ^ 64 - 1) = 30 * m + 17 := by unfold u64; omega
  unfold findWheelOffset
  simp only [hN0]
  simp (disch := omega) only [wheelSeek_two_lt, wheelSeek_four_lt, wheelSeek_done]
  simp (disch := omega) only [wheelAnchor_two_lt, wheelAnchor_four_lt, wheelAnchor_two_done_lt,
    wheelAnchor_four_done_lt]
  rw [wheelBack_done_of_eq (by omega) (by omega)]

theorem findWheelOffset_mod_29 (m fuel : Nat) (hf : 8 ≤ fuel) (hm : 30 * m + 29 < 2 ^ 63) :
    findWheelOffset fuel (30 * m + 29) = some (30 * m + 29, 6) := by
  have hN0 : u64 ((30 * m + 29) / 6 * 6 + 2 ^ 64 - 1) = 30 * m + 23 := by unfold u64; omega
  unfold findWheelOffset
  simp only [hN0]
  simp (disch := omega) only [wheelSeek_two_lt, wheelSeek_four_lt, wheelSeek_done]
  simp (disch := omega) only [wheelAnchor_two_lt, wheelAnchor_four_lt, wheelAnchor_two_done_lt,
    wheelAnchor_four_done_lt]
  rw [wheelBack_step_to (30 * m + 29) (by omega) (by omega) (by omega) (by simp [wheel])]
  simp only [OfNat.ofNat_ne_zero, if_false, if_true, Nat.reduceSub, Nat.reduceEqDiff]
  rw [wheelBack_done_of_eq (by omega) (by omega)]

theorem findWheelOffset_mod_31 (m fuel : Nat) (hf : 8 ≤ fuel) (hm : 30 * m + 31 < 2 ^ 63) :
    findWheelOffset fuel (30 * m + 31) = some (30 * m + 31, 7) := by
  have hN0 : u64 ((30 * m + 31) / 6 * 6 + 2 ^ 64 - 1) = 30 * m + 29 := by unfold u64; omega
  unfold findWheelOffset
  simp only [hN0]
  simp (disch := omega) only [wheelSeek_two_lt, wheelSeek_four_lt, wheelSeek_done]
  simp (disch := omega) only [wheelAnchor_two_lt, wheelAnchor_four_lt, wheelAnchor_two_done_lt,
    wheelAnchor_four_done_lt]
  rw [wheelBack_done_of_eq (by omega) (by omega)]

theorem findWheelOffset_one (fuel : Nat) (hf : 8 ≤ fuel) :
    findWheelOffset fuel 1 = some (1, 7) := by
  have hN0 : u64 (1 / 6 * 6 + 2 ^ 64 - 1) = 18446744073709551615 := by decide
  unfold findWheelOffset
  simp only [hN0]
  rw [wheelSeek_two (by omega) (by norm_num)]
  have e : (18446744073709551615 + 2) % 2 ^ 64 = 1 := by norm_num
  rw [e, wheelSeek_done (by omega) (by norm_num)]
  simp only []
  rw [wheelAnchor_four_done_lt (by omega) (by norm_num) (by norm_num)]
  simp only []
  rw [wheelBack_done_of_eq (by omega) rfl]

/-- The residues modulo 30 of the numbers coprime to 30. -/
theorem mod_thirty_cases (n : Nat) (h2 : n % 2 ≠ 0) (h3 : n % 3 ≠ 0) (h5 : n % 5 ≠ 0) :
    n % 30 = 1 ∨ n % 30 = 7 ∨ n % 30 = 11 ∨ n % 30 = 13 ∨
      n % 30 = 17 ∨ n % 30 = 19 ∨ n % 30 = 23 ∨ n % 30 = 29 := by
  have e2 : n % 30 % 2 = n % 2 := Nat.mod_mod_of_dvd n (by norm_num)
  have e3 : n % 30 % 3 = n % 3 := Nat.mod_mod_of_dvd n (by norm_num)
  have e5 : n % 30 % 5 = n % 5 := Nat.mod_mod_of_dvd n (by norm_num)
  have hlt : n % 30 < 30 := Nat.mod_lt _ (by norm_num)
  rw [← e2] at h2
  rw [← e3] at h3
  rw [← e5] at h5
  generalize n % 30 = r at h2 h3 h5 hlt ⊢
  interval_cases r <;> simp_all

/-- The result of `findWheelOffset` on a start coprime to 30. -/
theorem findWheelOffset_eq (start fuel : Nat) (hf : 8 ≤ fuel) (hs : start < 2 ^ 63)
    (h2 : start % 2 ≠ 0) (h3 : start % 3 ≠ 0) (h5 : start % 5 ≠ 0) :
    findWheelOffset fuel start = some (start, wheelIndex (start % 30)) := by
  rcases mod_thirty_cases start h2 h3 h5 with h | h | h | h | h | h | h | h
  · rw [h]
    by_cases h1 : start = 1
    · rw [h1]; exact findWheelOffset_one fuel hf
    · obtain ⟨m, rfl⟩ : ∃ m, start = 30 * m + 31 := ⟨start / 30 - 1, by omega⟩
      exact findWheelOffset_mod_31 m fuel hf hs
  · obtain ⟨m, rfl⟩ : ∃ m, start = 30 * m + 7 := ⟨start / 30, by omega⟩
    rw [h]; exact findWheelOffset_mod_7 m fuel hf hs
  · obtain ⟨m, rfl⟩ : ∃ m, start = 30 * m + 11 := ⟨start / 30, by omega⟩
    rw [h]; exact findWheelOffset_mod_11 m fuel hf hs
  · obtain ⟨m, rfl⟩ : ∃ m, start = 30 * m + 13 := ⟨start / 30, by omega⟩
    rw [h]; exact findWheelOffset_mod_13 m fuel hf hs
  · obtain ⟨m, rfl⟩ : ∃ m, start = 30 * m + 17 := ⟨start / 30, by omega⟩
    rw [h]; exact findWheelOffset_mod_17 m fuel hf hs
  · obtain ⟨m, rfl⟩ : ∃ m, start = 30 * m + 19 := ⟨start / 30, by omega⟩
    rw [h]; exact findWheelOffset_mod_19 m fuel hf hs
  · obtain ⟨m, rfl⟩ : ∃ m, start = 30 * m + 23 := ⟨start / 30, by omega⟩
    rw [h]; exact findWheelOffset_mod_23 m fuel hf hs
  · obtain ⟨m, rfl⟩ : ∃ m, start = 30 * m + 29 := ⟨start / 30, by omega⟩
    rw [h]; exact findWheelOffset_mod_29 m fuel hf hs

/-- Coprimality to 30 in terms of the residues modulo 2, 3 and 5. -/
theorem coprime_thirty_iff (n : Nat) :
    Nat.Coprime n 30 ↔ n % 2 ≠ 0 ∧ n % 3 ≠ 0 ∧ n % 5 ≠ 0 := by
  have e : (30 : Nat) = 2 * (3 * 5) := by norm_num
  rw [e, Nat.coprime_mul_iff_right, Nat.coprime_mul_iff_right, Nat.coprime_comm,
    Nat.coprime_comm (m := 3), Nat.coprime_comm (m := 5),
    Nat.Prime.coprime_iff_not_dvd Nat.prime_two, Nat.Prime.coprime_iff_not_dvd Nat.prime_three,
    Nat.Prime.coprime_iff_not_dvd Nat.prime_five, Nat.dvd_iff_mod_eq_zero,
    Nat.dvd_iff_mod_eq_zero, Nat.dvd_iff_mod_eq_zero]

/-- One step of the wheel from a number coprime to 30 with its own index. -/
theorem wheel_step (a : Nat) (h2 : a % 2 ≠ 0) (h3 : a % 3 ≠ 0) (h5 : a % 5 ≠ 0) :
    a < a + wheel.getD (wheelIndex (a % 30)) 0 ∧
    ((a + wheel.getD (wheelIndex (a % 30)) 0) % 2 ≠ 0 ∧
      (a + wheel.getD (wheelIndex (a % 30)) 0) % 3 ≠ 0 ∧
      (a + wheel.getD (wheelIndex (a % 30)) 0) % 5 ≠ 0) ∧
    wheelIndex ((a + wheel.getD (wheelIndex (a % 30)) 0) % 30) = (wheelIndex (a % 30) + 1) % 8 ∧
    ∀ n, a < n → n < a + wheel.getD (wheelIndex (a % 30)) 0 →
      ¬ (n % 2 ≠ 0 ∧ n % 3 ≠ 0 ∧ n % 5 ≠ 0) := by
  rcases mod_thirty_cases a h2 h3 h5 with h | h | h | h | h | h | h | h <;>
  · rw [h]
    simp only [wheelIndex, wheel, OfNat.ofNat_ne_zero, if_false, if_true, Nat.reduceEqDiff,
      List.getD_cons_succ, List.getD_cons_zero, OfNat.ofNat_ne_one, Nat.reduceAdd, Nat.reduceMod,
      OfNat.one_ne_ofNat]
    refine ⟨by omega, by omega, ?_, fun n h1 h2 => ?_⟩
    · first
      | (have hb : (a + 6) % 30 = 7 := by omega); rw [hb]; rfl
      | (have hb : (a + 4) % 30 = 11 := by omega); rw [hb]; rfl
      | (have hb : (a + 2) % 30 = 13 := by omega); rw [hb]; rfl
      | (have hb : (a + 4) % 30 = 17 := by omega); rw [hb]; rfl
      | (have hb : (a + 2) % 30 = 19 := by omega); rw [hb]; rfl
      | (have hb : (a + 4) % 30 = 23 := by omega); rw [hb]; rfl
      | (have hb : (a + 6) % 30 = 29 := by omega); rw [hb]; rfl
      | (have hb : (a + 2) % 30 = 1 := by omega); rw [hb]; rfl
    · have hn : n = a + 1 ∨ n = a + 2 ∨ n = a + 3 ∨ n = a + 4 ∨ n = a + 5 := by omega
      rcases hn with rfl | rfl | rfl | rfl | rfl <;> omega

theorem wheelIndex_lt (r : Nat) : wheelIndex r < 8 := by
  unfold wheelIndex
  split_ifs <;> omega

/-- The walk from `start` with the index of `start` stays on the numbers coprime to 30, each
with its own index. -/
theorem wheelWalk_invariant (start : Nat) (h2 : start % 2 ≠ 0) (h3 : start % 3 ≠ 0)
    (h5 : start % 5 ≠ 0) : ∀ k : Nat,
    (wheelWalk start (wheelIndex (start % 30)) k % 2 ≠ 0 ∧
      wheelWalk start (wheelIndex (start % 30)) k % 3 ≠ 0 ∧
      wheelWalk start (wheelIndex (start % 30)) k % 5 ≠ 0) ∧
    wheelIndex (wheelWalk start (wheelIndex (start % 30)) k % 30)
      = (wheelIndex (start % 30) + k) % 8 := by
  intro k
  induction k with
  | zero =>
    have := wheelIndex_lt (start % 30)
    exact ⟨⟨h2, h3, h5⟩, by rw [wheelWalk, Nat.add_zero, Nat.mod_eq_of_lt this]⟩
  | succ k ih =>
    obtain ⟨⟨a2, a3, a5⟩, hi⟩ := ih
    have hstep := wheel_step _ a2 a3 a5
    rw [hi] at hstep
    rw [wheelWalk]
    refine ⟨hstep.2.1, ?_⟩
    rw [hstep.2.2.1]
    omega

/-- C14: for every `start < 2^63` not divisible by 2, 3 or 5, `findWheelOffset` ends (fuel for
8 iterations of each loop suffices), leaves `start` unchanged and returns the index that the
table `7->0, 11->1, 13->2, 17->3, 19->4, 23->5, 29->6, 1->7` gives to `start mod 30`; adding
`wheel[i]`, `wheel[(i+1) mod 8]`, ... to `start` walks through the integers above `start` that
are coprime to 30, in increasing order and without missing one; and the index is what the backward
walk from the anchor found by the second loop gives on reaching `start`. -/
theorem C14_findWheelOffset_index (fuel start : Nat) (hf : 8 ≤ fuel) (hs : start < 2 ^ 63)
    (h2 : start % 2 ≠ 0) (h3 : start % 3 ≠ 0) (h5 : start % 5 ≠ 0) :
    findWheelOffset fuel start = some (start, wheelIndex (start % 30)) ∧
    wheelIndex (start % 30) < 8 ∧
    (∀ k, wheelWalk start (wheelIndex (start % 30)) k
          < wheelWalk start (wheelIndex (start % 30)) (k + 1) ∧
        Nat.Coprime (wheelWalk start (wheelIndex (start % 30)) (k + 1)) 30 ∧
        ∀ n, wheelWalk start (wheelIndex (start % 30)) k < n →
          n < wheelWalk start (wheelIndex (start % 30)) (k + 1) → ¬ Nat.Coprime n 30) ∧
    ∃ i anchor idx, wheelSeek start fuel (u64 (start / 6 * 6 + 2 ^ 64 - 1)) 1 = some (start, i) ∧
      wheelAnchor fuel start i = some (anchor, idx) ∧
      wheelBack start fuel anchor idx = some (wheelIndex (start % 30)) := by
  have heq := findWheelOffset_eq start fuel hf hs h2 h3 h5
  refine ⟨heq, wheelIndex_lt _, ?_, ?_⟩
  · intro k
    obtain ⟨⟨a2, a3, a5⟩, hi⟩ := wheelWalk_invariant start h2 h3 h5 k
    have hstep := wheel_step _ a2 a3 a5
    rw [hi] at hstep
    have e : wheelWalk start (wheelIndex (start % 30)) (k + 1)
        = wheelWalk start (wheelIndex (start % 30)) k
          + wheel.getD ((wheelIndex (start % 30) + k) % 8) 0 := rfl
    rw [e]
    refine ⟨hstep.1, (coprime_thirty_iff _).2 hstep.2.1, ?_⟩
    intro n hn1 hn2 hc
    exact hstep.2.2.2 n hn1 hn2 ((coprime_thirty_iff _).1 hc)
  · unfold findWheelOffset at heq
    dsimp only at heq
    cases e1 : wheelSeek start fuel (u64 (start / 6 * 6 + 2 ^ 64 - 1)) 1 with
    | none => rw [e1] at heq; exact absurd heq (by simp)
    | some p =>
      obtain ⟨N, i⟩ := p
      rw [e1] at heq
      simp only [] at heq
      cases e2 : wheelAnchor fuel N i with
      | none => rw [e2] at heq; exact absurd heq (by simp)
      | some q =>
        obtain ⟨anchor, idx⟩ := q
        rw [e2] at heq
        simp only [] at heq
        cases e3 : wheelBack N fuel anchor idx with
        | none => rw [e3] at heq; exact absurd heq (by simp)
        | some index =>
          rw [e3] at heq
          simp only [Option.some.injEq, Prod.mk.injEq] at heq
          obtain ⟨hN, hidx⟩ := heq
          subst hN
          exact ⟨i, anchor, idx, rfl, e2, by rw [e3, hidx]⟩

/-- Witness of C14 at `start = 1000003` (residue 13 modulo 30, index 2). -/
theorem C14_findWheelOffset_index_witness :
    (8 ≤ 8 ∧ 1000003 < 2 ^ 63 ∧ 1000003 % 2 ≠ 0 ∧ 1000003 % 3 ≠ 0 ∧ 1000003 % 5 ≠ 0) ∧
    findWheelOffset 8 1000003 = some (1000003, 2) ∧
    (List.range 9).map (wheelWalk 1000003 2)
      = [1000003, 1000007, 1000009, 1000013, 1000019, 1000021, 1000027, 1000031, 1000033] ∧
    findWheelOffset 8 1000003 = some (1000003, wheelIndex (1000003 % 30)) :=
  ⟨⟨by decide, by decide, by decide, by decide, by decide⟩, by decide, by decide,
    (C14_findWheelOffset_index 8 1000003 (by decide) (by decide) (by decide) (by decide)
      (by decide)).1⟩

/-! ## Serialisation of a checkpoint -/

theorem leBytes_length : ∀ (n v : Nat), (leBytes n v).length = n := by
  intro n
  induction n with
  | zero => intro v; rfl
  | succ n ih => intro v; rw [leBytes, List.length_cons, ih]

theorem ofLeBytes_leBytes : ∀ (n v : Nat), ofLeBytes (leBytes n v) = v % 256 ^ n := by
  intro n
  induction n with
  | zero => intro v; simp [leBytes, ofLeBytes, Nat.mod_one]
  | succ n ih =>
    intro v
    rw [leBytes, ofLeBytes, ih, Nat.mod_mod, pow_succ, Nat.mul_comm (256 ^ n) 256,
      Nat.mod_mul]

/-- Reading back an integer that was written in front of other bytes. -/
theorem readLE_append (n v : Nat) (rest : List Nat) :
    readLE n (leBytes n v ++ rest) = (v % 256 ^ n, rest) := by
  unfold readLE
  rw [List.take_left' (leBytes_length n v), List.drop_left' (leBytes_length n v),
    ofLeBytes_leBytes]

theorem workStatus.bytes_length (st : workStatus) : st.bytes.length = 56 := by
  simp [workStatus.bytes, leBytes_length]

/-- Reading a `workStatus` back from its bytes. -/
theorem workStatus.ofBytes_bytes (st : workStatus) (hwf : st.wf) :
    workStatus.ofBytes st.bytes = st := by
  obtain ⟨h1, h2, h3, h4, h5, h6, h7, h8⟩ := hwf
  have e8 : (256 : Nat) ^ 8 = 2 ^ 64 := by norm_num
  have e4 : (256 : Nat) ^ 4 = 2 ^ 32 := by norm_num
  have hlast : readLE 4 (leBytes 4 st.done) = (st.done % 256 ^ 4, []) := by
    have := readLE_append 4 st.done []
    rwa [List.append_nil] at this
  unfold workStatus.ofBytes workStatus.bytes
  simp only [readLE_append, hlast, e8, e4, Nat.mod_eq_of_lt h1, Nat.mod_eq_of_lt h2,
    Nat.mod_eq_of_lt h3, Nat.mod_eq_of_lt h4, Nat.mod_eq_of_lt h5, Nat.mod_eq_of_lt h6,
    Nat.mod_eq_of_lt h7, Nat.mod_eq_of_lt h8]

theorem residueBytes_length : ∀ rs : List cl_ulong2, (residueBytes rs).length = 16 * rs.length := by
  intro rs
  induction rs with
  | nil => rfl
  | cons r rs ih =>
    rw [residueBytes, List.length_append, List.length_append, leBytes_length, leBytes_length, ih,
      List.length_cons]
    omega

/-- Reading a residue array back from its bytes. -/
theorem residuesOfBytes_residueBytes : ∀ (rs : List cl_ulong2) (rest : List Nat),
    (∀ r ∈ rs, r.s0 < 2 ^ 64 ∧ r.s1 < 2 ^ 64) →
    residuesOfBytes rs.length (residueBytes rs ++ rest) = rs := by
  intro rs
  induction rs with
  | nil => intro rest _; rfl
  | cons r rs ih =>
    intro rest h
    have e8 : (256 : Nat) ^ 8 = 2 ^ 64 := by norm_num
    obtain ⟨h0, h1⟩ := h r (List.mem_cons_self _ _)
    rw [residueBytes, List.length_cons, residuesOfBytes]
    simp only [List.append_assoc, readLE_append, e8, Nat.mod_eq_of_lt h0, Nat.mod_eq_of_lt h1]
    rw [ih rest (fun x hx => h x (List.mem_cons_of_mem _ hx))]

theorem residuesOfBytes_length : ∀ (n : Nat) (b : List Nat), (residuesOfBytes n b).length = n := by
  intro n
  induction n with
  | zero => intro b; rfl
  | succ n ih => intro b; rw [residuesOfBytes, List.length_cons, ih]

/-- The checksum loop in `uint64_t` adds both halves of every residue modulo `2^64`. -/
theorem checksumLoop_eq : ∀ (res : List cl_ulong2) (c : Nat),
    checksumLoop (u64 c) res = (c + (res.map (fun r => r.s0 + r.s1)).sum) % 2 ^ 64 := by
  intro res
  induction res with
  | nil => intro c; simp [checksumLoop, u64]
  | cons r rs ih =>
    intro c
    have h := ih (u64 c + u64 (r.s0 + r.s1))
    unfold checksumLoop at h ⊢
    rw [List.foldl_cons, h, List.map_cons, List.sum_cons]
    unfold u64
    omega

/-- The checksum of a checkpoint with `tpcount` residues in closed form. -/
theorem stateChecksum_eq (stat : workStatus) (res : List cl_ulong2) (tpcount : Nat)
    (hlen : res.length = tpcount) :
    stateChecksum stat res tpcount = (stat.pmin + stat.pmax + stat.currp + stat.trickle
      + stat.totalcount + stat.tpcount + stat.done + (res.map (fun r => r.s0 + r.s1)).sum)
      % 2 ^ 64 := by
  unfold stateChecksum
  rw [checksumLoop_eq, ← hlen, List.take_length]

theorem stateChecksum_lt (stat : workStatus) (res : List cl_ulong2) (tpcount : Nat) :
    stateChecksum stat res tpcount < 2 ^ 64 := by
  unfold stateChecksum
  rw [checksumLoop_eq]
  exact Nat.mod_lt _ (by norm_num)

/-! ## What `read_state` makes of a replica -/

/-- A replica is read as good exactly when it is valid and its `done` is zero. -/
theorem readReplica_good_iff (st : workStatus) (file : Option (List Nat)) (stat : workStatus)
    (res : List cl_ulong2) :
    readReplica st file = .good stat res ↔ ReplicaValid st file stat res ∧ stat.done = 0 := by
  unfold readReplica ReplicaValid
  cases file with
  | none => simp
  | some bytes =>
    simp only [Option.some.injEq, exists_eq_left']
    have hl : (residuesOfBytes st.tpcount (bytes.drop 56)).length = st.tpcount :=
      residuesOfBytes_length _ _
    have hc := stateChecksum_eq (workStatus.ofBytes (bytes.take 56))
      (residuesOfBytes st.tpcount (bytes.drop 56)) st.tpcount hl
    rw [List.length_drop]
    constructor
    · intro h
      split_ifs at h with h1 h2 h3 h4 h5
      · have e := ReplicaRead.good.inj h
        obtain ⟨e1, e2⟩ := e
        subst e1 e2
        refine ⟨⟨by omega, by omega, rfl, rfl, by tauto, by tauto, by tauto, ?_⟩, by tauto⟩
        rw [← hc]
        exact (not_not.1 h5).symm
    · rintro ⟨⟨h1, h2, rfl, rfl, h3, h4, h5, h6⟩, h7⟩
      rw [if_neg (by omega), if_neg (by omega), if_neg (by tauto), if_neg (by tauto),
        if_neg (by rw [hc, ← h6]; simp)]

/-- A replica is read as complete exactly when it parses, has the shape and `done` is not zero. -/
theorem readReplica_complete_iff (st : workStatus) (file : Option (List Nat)) :
    readReplica st file = .complete ↔ ReplicaComplete st file := by
  unfold readReplica ReplicaComplete
  cases file with
  | none => simp
  | some bytes =>
    simp only [Option.some.injEq, exists_eq_left']
    rw [List.length_drop]
    constructor
    · intro h
      split_ifs at h with h1 h2 h3 h4 h5
      · exact ⟨by omega, by omega, by tauto, by tauto, by tauto, h4⟩
    · rintro ⟨h1, h2, h3, h4, h5, h6⟩
      rw [if_neg (by omega), if_neg (by omega), if_neg (by tauto), if_pos h6]

/-! ## The selection between the replicas -/

theorem read_state_complete_A {flag : Bool} {st : workStatus} {residues : List cl_ulong2}
    {store : Store} (ha : readReplica st store.stateA = .complete) :
    read_state flag st residues store = ⟨2, flag, st, residues⟩ := by
  unfold read_state
  rw [ha]

theorem read_state_complete_B {flag : Bool} {st : workStatus} {residues : List cl_ulong2}
    {store : Store} (hb : readReplica st store.stateB = .complete) :
    read_state flag st residues store = ⟨2, flag, st, residues⟩ := by
  unfold read_state
  rw [hb]
  cases readReplica st store.stateA <;> rfl

theorem read_state_good_good {flag : Bool} {st : workStatus} {residues : List cl_ulong2}
    {store : Store} {stat_a stat_b : workStatus} {res_a res_b : List cl_ulong2}
    (ha : readReplica st store.stateA = .good stat_a res_a)
    (hb : readReplica st store.stateB = .good stat_b res_b) :
    read_state flag st residues store
      = if stat_a.currp > stat_b.currp then ⟨1, false, stat_a, res_a⟩
        else ⟨1, true, stat_b, res_b⟩ := by
  unfold read_state
  rw [ha, hb]

theorem read_state_good_bad {flag : Bool} {st : workStatus} {residues : List cl_ulong2}
    {store : Store} {stat_a : workStatus} {res_a : List cl_ulong2}
    (ha : readReplica st store.stateA = .good stat_a res_a)
    (hb : readReplica st store.stateB = .bad) :
    read_state flag st residues store = ⟨1, false, stat_a, res_a⟩ := by
  unfold read_state
  rw [ha, hb]

theorem read_state_bad_good {flag : Bool} {st : workStatus} {residues : List cl_ulong2}
    {store : Store} {stat_b : workStatus} {res_b : List cl_ulong2}
    (ha : readReplica st store.stateA = .bad)
    (hb : readReplica st store.stateB = .good stat_b res_b) :
    read_state flag st residues store = ⟨1, true, stat_b, res_b⟩ := by
  unfold read_state
  rw [ha, hb]

theorem read_state_bad_bad {flag : Bool} {st : workStatus} {residues : List cl_ulong2}
    {store : Store} (ha : readReplica st store.stateA = .bad)
    (hb : readReplica st store.stateB = .bad) :
    read_state flag st residues store = ⟨0, flag, st, residues⟩ := by
  unfold read_state
  rw [ha, hb]

/-! ## A checkpoint written, then read -/

/-- The result of `write_state` when every library call succeeds. -/
theorem write_state_success (flag : Bool) (st : workStatus) (residues : List cl_ulong2)
    (store : Store) (ev : WriteEvents)
    (hok : ev.openOk = true ∧ ev.write1 = none ∧ ev.write2 = none ∧ ev.closeOk = true) :
    write_state flag st residues store ev
      = (!flag, writtenStatus st residues,
          if flag then
            { store with stateA := some (checkpointBytes st residues) }
          else
            { store with stateB := some (checkpointBytes st residues) }) := by
  obtain ⟨h1, h2, h3, h4⟩ := hok
  unfold write_state
  simp [h1, h2, h3, h4, fwrite, checkpointBytes, writtenStatus]

/-- A file that `write_state` wrote in full is read back as a good replica. -/
theorem readReplica_written (st st0 : workStatus) (residues : List cl_ulong2)
    (hwf : st.wf) (hres : ∀ r ∈ residues, r.s0 < 2 ^ 64 ∧ r.s1 < 2 ^ 64)
    (hlen : residues.length = st.tpcount) (hdone : st.done = 0)
    (hshape : st0.tpcount = st.tpcount ∧ st0.pmin = st.pmin ∧ st0.pmax = st.pmax) :
    readReplica st0 (some (checkpointBytes st residues))
      = .good (writtenStatus st residues) residues := by
  rw [readReplica_good_iff]
  unfold checkpointBytes
  refine ⟨⟨_, rfl, ?_, ?_, ?_, ?_, ?_, ?_, ?_, ?_⟩, hdone⟩
  · rw [List.length_append, workStatus.bytes_length]; omega
  · rw [List.length_append, workStatus.bytes_length, residueBytes_length, ← hlen,
      List.take_length, hshape.1, hlen]
    omega
  · rw [List.take_left' (workStatus.bytes_length _), workStatus.ofBytes_bytes]
    obtain ⟨h1, h2, h3, h4, _, h6, h7, h8⟩ := hwf
    exact ⟨h1, h2, h3, h4, stateChecksum_lt _ _ _, h6, h7, h8⟩
  · rw [List.drop_left' (workStatus.bytes_length _), ← hlen, List.take_length, hshape.1]
    have h := residuesOfBytes_residueBytes residues [] hres
    rw [List.append_nil] at h
    rw [← hlen, h]
  · exact hshape.1.symm
  · exact hshape.2.1.symm
  · exact hshape.2.2.symm
  · exact stateChecksum_eq st residues st.tpcount hlen

theorem readReplica_none (st : workStatus) : readReplica st none = .bad := rfl

/-- C15: a `workStatus` with `done = 0` and `tpcount` residues, written by a `write_state` whose
library calls all succeed onto a store whose other replica is absent, is read back by
`read_state` (called with the same `tpcount`, `pmin`, `pmax`): it returns 1, the `workStatus`
and the residues are those written (the `workStatus` with its stored `state_sum`, which is the
checksum that `read_state` recomputes), and `write_state_a_next` points to the replica that was
not written, as `write_state` left it. -/
theorem C15_checkpoint_roundtrip (flag flag0 : Bool) (st st0 : workStatus)
    (residues res0 : List cl_ulong2) (store : Store) (ev : WriteEvents)
    (hwf : st.wf) (hres : ∀ r ∈ residues, r.s0 < 2 ^ 64 ∧ r.s1 < 2 ^ 64)
    (hlen : residues.length = st.tpcount) (hdone : st.done = 0)
    (hother : (if flag then store.stateB else store.stateA) = none)
    (hok : ev.openOk = true ∧ ev.write1 = none ∧ ev.write2 = none ∧ ev.closeOk = true)
    (hshape : st0.tpcount = st.tpcount ∧ st0.pmin = st.pmin ∧ st0.pmax = st.pmax) :
    (read_state flag0 st0 res0 (write_state flag st residues store ev).2.2).ret = 1 ∧
    (read_state flag0 st0 res0 (write_state flag st residues store ev).2.2).st
      = (write_state flag st residues store ev).2.1 ∧
    (read_state flag0 st0 res0 (write_state flag st residues store ev).2.2).st
      = writtenStatus st residues ∧
    (read_state flag0 st0 res0 (write_state flag st residues store ev).2.2).residues
      = residues ∧
    (read_state flag0 st0 res0 (write_state flag st residues store ev).2.2).st.state_sum
      = stateChecksum
          (read_state flag0 st0 res0 (write_state flag st residues store ev).2.2).st
          (read_state flag0 st0 res0 (write_state flag st residues store ev).2.2).residues
          st0.tpcount ∧
    (read_state flag0 st0 res0 (write_state flag st residues store ev).2.2).write_state_a_next
      = (write_state flag st residues store ev).1 ∧
    (write_state flag st residues store ev).1 = !flag := by
  have hw := write_state_success flag st residues store ev hok
  have hr := readReplica_written st st0 residues hwf hres hlen hdone hshape
  have hsum : (writtenStatus st residues).state_sum
      = stateChecksum (writtenStatus st residues) residues st0.tpcount := by
    rw [hshape.1]; rfl
  rw [hw]
  cases flag with
  | true =>
    rw [if_pos rfl] at hother
    have hrs : read_state flag0 st0 res0
        { store with stateA := some (checkpointBytes st residues) }
        = ⟨1, false, writtenStatus st residues, residues⟩ :=
      read_state_good_bad hr (by show readReplica st0 store.stateB = _; rw [hother]; rfl)
    simp only [if_true, hrs, ← hsum, Bool.not_true, and_self]
  | false =>
    rw [if_neg (by simp)] at hother
    have hrs : read_state flag0 st0 res0
        { store with stateB := some (checkpointBytes st residues) }
        = ⟨1, true, writtenStatus st residues, residues⟩ :=
      read_state_bad_good (by show readReplica st0 store.stateA = _; rw [hother]; rfl) hr
    simp only [Bool.false_eq_true, if_false, hrs, ← hsum, Bool.not_false, and_self]

/-- Witness of C15: `sampleStatus` and `sampleResidues` written to replica A of an empty store
and read back. -/
theorem C15_checkpoint_roundtrip_witness :
    (sampleStatus.wf ∧ (∀ r ∈ sampleResidues, r.s0 < 2 ^ 64 ∧ r.s1 < 2 ^ 64) ∧
      sampleResidues.length = sampleStatus.tpcount ∧ sampleStatus.done = 0) ∧
    (read_state true { sampleStatus with currp := 0, totalcount := 0 } []
      (write_state true sampleStatus sampleResidues ⟨none, none⟩
        ⟨true, none, none, true⟩).2.2).ret = 1 ∧
    (read_state true { sampleStatus with currp := 0, totalcount := 0 } []
      (write_state true sampleStatus sampleResidues ⟨none, none⟩
        ⟨true, none, none, true⟩).2.2).residues = sampleResidues :=
  have hwf : sampleStatus.wf := by unfold workStatus.wf sampleStatus; norm_num
  have hres : ∀ r ∈ sampleResidues, r.s0 < 2 ^ 64 ∧ r.s1 < 2 ^ 64 := by
    intro r hr
    simp only [sampleResidues, List.mem_cons, List.mem_singleton, List.not_mem_nil,
      or_false] at hr
    rcases hr with rfl | rfl <;> norm_num
  have h := C15_checkpoint_roundtrip true true sampleStatus
    { sampleStatus with currp := 0, totalcount := 0 } sampleResidues [] ⟨none, none⟩
    ⟨true, none, none, true⟩ hwf hres rfl rfl rfl ⟨rfl, rfl, rfl, rfl⟩ ⟨rfl, rfl, rfl⟩
  ⟨⟨hwf, hres, rfl, rfl⟩, h.1, h.2.2.2.1⟩

/-! ## Validation of the replicas -/

/-- A replica that is not read as complete and is not valid is read as bad. -/
theorem readReplica_bad_of {st : workStatus} {file : Option (List Nat)}
    (hc : ¬ ReplicaComplete st file) (hv : ¬ ∃ stat res, ReplicaValid st file stat res) :
    readReplica st file = .bad := by
  cases h : readReplica st file with
  | bad => rfl
  | complete => exact absurd ((readReplica_complete_iff st file).1 h) hc
  | good stat res => exact absurd ⟨stat, res, ((readReplica_good_iff st file stat res).1 h).1⟩ hv

/-- A valid replica that is not complete is read as good. -/
theorem readReplica_good_of {st : workStatus} {file : Option (List Nat)} {stat : workStatus}
    {res : List cl_ulong2} (hc : ¬ ReplicaComplete st file) (hv : ReplicaValid st file stat res) :
    readReplica st file = .good stat res := by
  rw [readReplica_good_iff]
  refine ⟨hv, ?_⟩
  by_contra hd
  obtain ⟨bytes, h1, h2, h3, h4, _, h6, h7, h8, _⟩ := hv
  exact hc ⟨bytes, h1, h2, h3, h4 ▸ h6, h4 ▸ h7, h4 ▸ h8, h4 ▸ hd⟩

/-- A replica with a checksum mismatch is never read as good. -/
theorem readReplica_mismatch {st : workStatus} {file : Option (List Nat)}
    (hm : ChecksumMismatch st file) (stat : workStatus) (res : List cl_ulong2) :
    readReplica st file ≠ .good stat res := by
  intro h
  obtain ⟨⟨bytes, h1, _, _, h4, h5, _, _, _, h9⟩, _⟩ := (readReplica_good_iff st file stat res).1 h
  obtain ⟨bytes1, g1, _, _, g4⟩ := hm
  rw [h1] at g1
  have e := Option.some.inj g1
  subst e
  subst h4 h5
  exact g4 h9

/-- C16: `read_state` returns 1 with the state of a replica only if that replica parses
completely, has the expected `tpcount`, `pmin`, `pmax` and its stored `state_sum` is the sum
modulo `2^64` of the other scalar fields and both halves of all residues; and when some replica
is valid with `done = 0` and no replica triggers the Complete result, `read_state` returns 1. -/
theorem C16_read_state_valid_replica (flag : Bool) (st : workStatus) (residues : List cl_ulong2)
    (store : Store) :
    ((read_state flag st residues store).ret = 1 →
      ((read_state flag st residues store).write_state_a_next = false ∧
        ReplicaValid st store.stateA (read_state flag st residues store).st
          (read_state flag st residues store).residues) ∨
      ((read_state flag st residues store).write_state_a_next = true ∧
        ReplicaValid st store.stateB (read_state flag st residues store).st
          (read_state flag st residues store).residues)) ∧
    ((∃ stat res, (ReplicaValid st store.stateA stat res ∨ ReplicaValid st store.stateB stat res) ∧
        stat.done = 0) →
      ¬ ReplicaComplete st store.stateA → ¬ ReplicaComplete st store.stateB →
      (read_state flag st residues store).ret = 1) := by
  constructor
  · intro h
    cases ha : readReplica st store.stateA with
    | complete => rw [read_state_complete_A ha] at h; exact absurd h (by simp)
    | bad =>
      cases hb : readReplica st store.stateB with
      | complete => rw [read_state_complete_B hb] at h; exact absurd h (by simp)
      | bad => rw [read_state_bad_bad ha hb] at h; exact absurd h (by simp)
      | good sb rb =>
        rw [read_state_bad_good ha hb]
        exact Or.inr ⟨rfl, ((readReplica_good_iff _ _ _ _).1 hb).1⟩
    | good sa ra =>
      cases hb : readReplica st store.stateB with
      | complete => rw [read_state_complete_B hb] at h; exact absurd h (by simp)
      | bad =>
        rw [read_state_good_bad ha hb]
        exact Or.inl ⟨rfl, ((readReplica_good_iff _ _ _ _).1 ha).1⟩
      | good sb rb =>
        rw [read_state_good_good ha hb]
        by_cases hc : sa.currp > sb.currp
        · rw [if_pos hc]
          exact Or.inl ⟨rfl, ((readReplica_good_iff _ _ _ _).1 ha).1⟩
        · rw [if_neg hc]
          exact Or.inr ⟨rfl, ((readReplica_good_iff _ _ _ _).1 hb).1⟩
  · rintro ⟨stat, res, hv, hd⟩ hca hcb
    cases ha : readReplica st store.stateA with
    | complete => exact absurd ((readReplica_complete_iff _ _).1 ha) hca
    | bad =>
      cases hb : readReplica st store.stateB with
      | complete => exact absurd ((readReplica_complete_iff _ _).1 hb) hcb
      | bad =>
        rcases hv with hv | hv
        · rw [readReplica_good_of hca hv] at ha; exact absurd ha (by simp)
        · rw [readReplica_good_of hcb hv] at hb; exact absurd hb (by simp)
      | good sb rb => rw [read_state_bad_good ha hb]
    | good sa ra =>
      cases hb : readReplica st store.stateB with
      | complete => exact absurd ((readReplica_complete_iff _ _).1 hb) hcb
      | bad => rw [read_state_good_bad ha hb]
      | good sb rb =>
        rw [read_state_good_good ha hb]
        split_ifs <;> rfl

/-- The sample checkpoint is read as good. -/
theorem readReplica_sample :
    readReplica sampleStatus (some (checkpointBytes sampleStatus sampleResidues))
      = .good (writtenStatus sampleStatus sampleResidues) sampleResidues := by
  apply readReplica_written
  · unfold workStatus.wf sampleStatus; norm_num
  · intro r hr
    simp only [sampleResidues, List.mem_cons, List.mem_singleton, List.not_mem_nil,
      or_false] at hr
    rcases hr with rfl | rfl <;> norm_num
  · rfl
  · rfl
  · exact ⟨rfl, rfl, rfl⟩

/-- The later sample checkpoint is read as good. -/
theorem readReplica_later :
    readReplica sampleStatus (some (checkpointBytes laterStatus sampleResidues))
      = .good (writtenStatus laterStatus sampleResidues) sampleResidues := by
  apply readReplica_written
  · unfold workStatus.wf laterStatus sampleStatus; norm_num
  · intro r hr
    simp only [sampleResidues, List.mem_cons, List.mem_singleton, List.not_mem_nil,
      or_false] at hr
    rcases hr with rfl | rfl <;> norm_num
  · rfl
  · rfl
  · exact ⟨rfl, rfl, rfl⟩

/-- Witness of C16: the sample checkpoint in replica A, replica B absent. -/
theorem C16_read_state_valid_replica_witness :
    (read_state true sampleStatus []
        ⟨some (checkpointBytes sampleStatus sampleResidues), none⟩).ret = 1 ∧
    (((read_state true sampleStatus []
        ⟨some (checkpointBytes sampleStatus sampleResidues), none⟩).write_state_a_next = false ∧
      ReplicaValid sampleStatus (some (checkpointBytes sampleStatus sampleResidues))
        (read_state true sampleStatus []
          ⟨some (checkpointBytes sampleStatus sampleResidues), none⟩).st
        (read_state true sampleStatus []
          ⟨some (checkpointBytes sampleStatus sampleResidues), none⟩).residues) ∨
     ((read_state true sampleStatus []
        ⟨some (checkpointBytes sampleStatus sampleResidues), none⟩).write_state_a_next = true ∧
      ReplicaValid sampleStatus none
        (read_state true sampleStatus []
          ⟨some (checkpointBytes sampleStatus sampleResidues), none⟩).st
        (read_state true sampleStatus []
          ⟨some (checkpointBytes sampleStatus sampleResidues), none⟩).residues)) :=
  have h1 : (read_state true sampleStatus []
      ⟨some (checkpointBytes sampleStatus sampleResidues), none⟩).ret = 1 := by
    rw [read_state_good_bad readReplica_sample (readReplica_none _)]
  ⟨h1, (C16_read_state_valid_replica true sampleStatus []
    ⟨some (checkpointBytes sampleStatus sampleResidues), none⟩).1 h1⟩

/-- The claim C17 as stated fails on a replica with `done = 1` whose stored `state_sum` (0) is
not its checksum (23): `read_state` returns 2 on its basis. -/
theorem C17_done_replica_counterexample :
    (workStatus.ofBytes doneStatus.bytes).state_sum = 0 ∧
    stateChecksum (workStatus.ofBytes doneStatus.bytes) [] 0 = 23 ∧
    (read_state true doneStatus [] ⟨some doneStatus.bytes, none⟩).ret = 2 := by
  refine ⟨by decide, by decide, by decide⟩

/-- C17 (amended): a replica whose recomputed checksum differs from its stored `state_sum` is
discarded unless it triggers the Complete result: `read_state` then does what it does when that
file is absent, and when it returns 1 it has loaded the other replica, which is valid. A replica
that parses completely with the expected shape and `done` not zero makes `read_state` return 2,
whatever its checksum. -/
theorem C17_mismatch_discarded (flag : Bool) (st : workStatus) (residues : List cl_ulong2)
    (store : Store) :
    (ChecksumMismatch st store.stateA → ¬ ReplicaComplete st store.stateA →
      read_state flag st residues store
        = read_state flag st residues { store with stateA := none }) ∧
    (ChecksumMismatch st store.stateB → ¬ ReplicaComplete st store.stateB →
      read_state flag st residues store
        = read_state flag st residues { store with stateB := none }) ∧
    (ChecksumMismatch st store.stateA → (read_state flag st residues store).ret = 1 →
      (read_state flag st residues store).write_state_a_next = true ∧
      ReplicaValid st store.stateB (read_state flag st residues store).st
        (read_state flag st residues store).residues) ∧
    (ChecksumMismatch st store.stateB → (read_state flag st residues store).ret = 1 →
      (read_state flag st residues store).write_state_a_next = false ∧
      ReplicaValid st store.stateA (read_state flag st residues store).st
        (read_state flag st residues store).residues) ∧
    (ReplicaComplete st store.stateA ∨ ReplicaComplete st store.stateB →
      (read_state flag st residues store).ret = 2) := by
  refine ⟨?_, ?_, ?_, ?_, ?_⟩
  · intro hm hc
    have ha : readReplica st store.stateA = .bad := by
      cases h : readReplica st store.stateA with
      | bad => rfl
      | complete => exact absurd ((readReplica_complete_iff _ _).1 h) hc
      | good sa ra => exact absurd h (readReplica_mismatch hm sa ra)
    unfold read_state
    rw [ha]
    rfl
  · intro hm hc
    have hb : readReplica st store.stateB = .bad := by
      cases h : readReplica st store.stateB with
      | bad => rfl
      | complete => exact absurd ((readReplica_complete_iff _ _).1 h) hc
      | good sb rb => exact absurd h (readReplica_mismatch hm sb rb)
    unfold read_state
    rw [hb]
    rfl
  · intro hm h
    cases ha : readReplica st store.stateA with
    | complete => rw [read_state_complete_A ha] at h; exact absurd h (by simp)
    | good sa ra => exact absurd ha (readReplica_mismatch hm sa ra)
    | bad =>
      cases hb : readReplica st store.stateB with
      | complete => rw [read_state_complete_B hb] at h; exact absurd h (by simp)
      | bad => rw [read_state_bad_bad ha hb] at h; exact absurd h (by simp)
      | good sb rb =>
        rw [read_state_bad_good ha hb]
        exact ⟨rfl, ((readReplica_good_iff _ _ _ _).1 hb).1⟩
  · intro hm h
    cases hb : readReplica st store.stateB with
    | complete => rw [read_state_complete_B hb] at h; exact absurd h (by simp)
    | good sb rb => exact absurd hb (readReplica_mismatch hm sb rb)
    | bad =>
      cases ha : readReplica st store.stateA with
      | complete => rw [read_state_complete_A ha] at h; exact absurd h (by simp)
      | bad => rw [read_state_bad_bad ha hb] at h; exact absurd h (by simp)
      | good sa ra =>
        rw [read_state_good_bad ha hb]
        exact ⟨rfl, ((readReplica_good_iff _ _ _ _).1 ha).1⟩
  · rintro (h | h)
    · rw [read_state_complete_A ((readReplica_complete_iff _ _).2 h)]
    · rw [read_state_complete_B ((readReplica_complete_iff _ _).2 h)]

/-- The stale checkpoint (`done = 0`, stored `state_sum` 42) has a checksum mismatch. -/
theorem staleStatus_mismatch :
    ChecksumMismatch sampleStatus (some (staleStatus.bytes ++ residueBytes sampleResidues)) :=
  ⟨_, rfl, by decide, by decide, by decide⟩

theorem staleStatus_not_complete :
    ¬ ReplicaComplete sampleStatus (some (staleStatus.bytes ++ residueBytes sampleResidues)) := by
  rintro ⟨bytes, h1, _, _, _, _, _, h7⟩
  have e := Option.some.inj h1
  subst e
  exact h7 (by decide)

/-- Witness of C17 (amended): replica A holds the stale checkpoint with a wrong `state_sum`,
replica B the sample checkpoint; `read_state` does what it does without A, and loads B. -/
theorem C17_mismatch_discarded_witness :
    (ChecksumMismatch sampleStatus (some (staleStatus.bytes ++ residueBytes sampleResidues)) ∧
      ¬ ReplicaComplete sampleStatus
        (some (staleStatus.bytes ++ residueBytes sampleResidues))) ∧
    read_state true sampleStatus []
        ⟨some (staleStatus.bytes ++ residueBytes sampleResidues),
          some (checkpointBytes sampleStatus sampleResidues)⟩
      = read_state true sampleStatus []
        ⟨none, some (checkpointBytes sampleStatus sampleResidues)⟩ ∧
    read_state true sampleStatus [] ⟨none, some (checkpointBytes sampleStatus sampleResidues)⟩
      = ⟨1, true, writtenStatus sampleStatus sampleResidues, sampleResidues⟩ :=
  ⟨⟨staleStatus_mismatch, staleStatus_not_complete⟩,
    (C17_mismatch_discarded true sampleStatus []
      ⟨some (staleStatus.bytes ++ residueBytes sampleResidues),
        some (checkpointBytes sampleStatus sampleResidues)⟩).1
      staleStatus_mismatch staleStatus_not_complete,
    read_state_bad_good (readReplica_none _) readReplica_sample⟩

/-! ## The choice between two replicas -/

/-- The checkpoint of a finished run is complete. -/
theorem finishedStatus_complete :
    ReplicaComplete sampleStatus (some (checkpointBytes finishedStatus sampleResidues)) :=
  ⟨_, rfl, by decide, by decide, by decide, by decide, by decide, by decide⟩

/-- The claim C18 as stated fails when a replica triggers the Complete result. First: replica A
is absent and replica B holds the valid checkpoint of a finished run (`done = 1`, correct
checksum), so exactly one replica is valid, yet `read_state` returns 2 and loads nothing.
Second: replica A is absent and replica B holds `doneStatus`, whose stored `state_sum` is not
its checksum, so neither replica is valid, yet `read_state` returns 2, not 0. -/
theorem C18_complete_replica_counterexample :
    (ReplicaValid sampleStatus (some (checkpointBytes finishedStatus sampleResidues))
        (writtenStatus finishedStatus sampleResidues) sampleResidues ∧
      (¬ ∃ stat res, ReplicaValid sampleStatus none stat res) ∧
      read_state true sampleStatus [] ⟨none, some (checkpointBytes finishedStatus sampleResidues)⟩
        = ⟨2, true, sampleStatus, []⟩) ∧
    ((¬ ∃ stat res, ReplicaValid doneStatus none stat res) ∧
      (¬ ∃ stat res, ReplicaValid doneStatus (some doneStatus.bytes) stat res) ∧
      (read_state true doneStatus [] ⟨none, some doneStatus.bytes⟩).ret = 2) := by
  have hnone : ∀ st : workStatus, ¬ ∃ stat res, ReplicaValid st none stat res := by
    rintro st ⟨stat, res, bytes, h1, _⟩
    exact absurd h1 (by simp)
  refine ⟨⟨?_, hnone _, ?_⟩, hnone _, ?_, by decide⟩
  · exact ⟨_, rfl, by decide, by decide, by decide, by decide, by decide, by decide, by decide,
      by decide⟩
  · exact read_state_complete_B ((readReplica_complete_iff _ _).2 finishedStatus_complete)
  · rintro ⟨stat, res, bytes, h1, _, _, h4, h5, _, _, _, h9⟩
    have e := Option.some.inj h1
    subst e
    subst h4 h5
    exact absurd h9 (by decide)

/-- C18 (amended): when no replica triggers the Complete result (none parses completely with the
expected shape and `done` not zero): with both replicas valid, `read_state` loads the one with
the strictly greater `currp` and makes the other the next write target, and on equal `currp` it
loads B and targets A; with exactly one valid it loads that one and targets the other; with
none valid it returns 0 and leaves `st`, `residues` and `write_state_a_next` as they were. -/
theorem C18_most_recent_replica (flag : Bool) (st : workStatus) (residues : List cl_ulong2)
    (store : Store) (hca : ¬ ReplicaComplete st store.stateA)
    (hcb : ¬ ReplicaComplete st store.stateB) :
    (∀ sa ra sb rb, ReplicaValid st store.stateA sa ra → ReplicaValid st store.stateB sb rb →
      (sa.currp > sb.currp → read_state flag st residues store = ⟨1, false, sa, ra⟩) ∧
      (sa.currp ≤ sb.currp → read_state flag st residues store = ⟨1, true, sb, rb⟩)) ∧
    (∀ sa ra, ReplicaValid st store.stateA sa ra →
      (¬ ∃ sb rb, ReplicaValid st store.stateB sb rb) →
      read_state flag st residues store = ⟨1, false, sa, ra⟩) ∧
    (∀ sb rb, ReplicaValid st store.stateB sb rb →
      (¬ ∃ sa ra, ReplicaValid st store.stateA sa ra) →
      read_state flag st residues store = ⟨1, true, sb, rb⟩) ∧
    ((¬ ∃ sa ra, ReplicaValid st store.stateA sa ra) →
      (¬ ∃ sb rb, ReplicaValid st store.stateB sb rb) →
      read_state flag st residues store = ⟨0, flag, st, residues⟩) := by
  refine ⟨?_, ?_, ?_, ?_⟩
  · intro sa ra sb rb ha hb
    rw [read_state_good_good (readReplica_good_of hca ha) (readReplica_good_of hcb hb)]
    constructor
    · intro h; rw [if_pos h]
    · intro h; rw [if_neg (by omega)]
  · intro sa ra ha hb
    exact read_state_good_bad (readReplica_good_of hca ha) (readReplica_bad_of hcb hb)
  · intro sb rb hb ha
    exact read_state_bad_good (readReplica_bad_of hca ha) (readReplica_good_of hcb hb)
  · intro ha hb
    exact read_state_bad_bad (readReplica_bad_of hca ha) (readReplica_bad_of hcb hb)

/-- Witness of C18 (amended): replica A holds the sample checkpoint (`currp = 1500`), replica B
the later one (`currp = 1800`); `read_state` loads B and makes A the next write target. -/
theorem C18_most_recent_replica_witness :
    (¬ ReplicaComplete sampleStatus (some (checkpointBytes sampleStatus sampleResidues)) ∧
      ¬ ReplicaComplete sampleStatus (some (checkpointBytes laterStatus sampleResidues)) ∧
      ReplicaValid sampleStatus (some (checkpointBytes sampleStatus sampleResidues))
        (writtenStatus sampleStatus sampleResidues) sampleResidues ∧
      ReplicaValid sampleStatus (some (checkpointBytes laterStatus sampleResidues))
        (writtenStatus laterStatus sampleResidues) sampleResidues ∧
      (writtenStatus sampleStatus sampleResidues).currp
        ≤ (writtenStatus laterStatus sampleResidues).currp) ∧
    read_state false sampleStatus []
        ⟨some (checkpointBytes sampleStatus sampleResidues),
          some (checkpointBytes laterStatus sampleResidues)⟩
      = ⟨1, true, writtenStatus laterStatus sampleResidues, sampleResidues⟩ :=
  have hca : ¬ ReplicaComplete sampleStatus
      (some (checkpointBytes sampleStatus sampleResidues)) := by
    intro h
    have := (readReplica_complete_iff _ _).2 h
    rw [readReplica_sample] at this
    exact absurd this (by simp)
  have hcb : ¬ ReplicaComplete sampleStatus
      (some (checkpointBytes laterStatus sampleResidues)) := by
    intro h
    have := (readReplica_complete_iff _ _).2 h
    rw [readReplica_later] at this
    exact absurd this (by simp)
  have hva := ((readReplica_good_iff _ _ _ _).1 readReplica_sample).1
  have hvb := ((readReplica_good_iff _ _ _ _).1 readReplica_later).1
  have hle : (writtenStatus sampleStatus sampleResidues).currp
      ≤ (writtenStatus laterStatus sampleResidues).currp := by decide
  ⟨⟨hca, hcb, hva, hvb, hle⟩,
    ((C18_most_recent_replica false sampleStatus []
      ⟨some (checkpointBytes sampleStatus sampleResidues),
        some (checkpointBytes laterStatus sampleResidues)⟩ hca hcb).1 _ _ _ _ hva hvb).2 hle⟩

/-! ## A completed checkpoint -/

/-- C19: when `read_state` returns 1 the loaded `workStatus` has `done = 0`; when some replica
parses completely, has the expected `tpcount`, `pmin`, `pmax` and `done` not zero, `read_state`
returns 2, and on 2 `cl_sieve` finishes (`boinc_finish`) without going on to the main loop; so
whenever `cl_sieve` goes on to the main loop resuming a checkpoint, that checkpoint has
`done = 0`. -/
theorem C19_done_never_resumed (flag : Bool) (st : workStatus) (residues : List cl_ulong2)
    (store : Store) (clearOk : Bool) (now : Nat) :
    ((read_state flag st residues store).ret = 1 →
      (read_state flag st residues store).st.done = 0) ∧
    (ReplicaComplete st store.stateA ∨ ReplicaComplete st store.stateB →
      (read_state flag st residues store).ret = 2) ∧
    ((read_state flag st residues store).ret = 2 →
      cl_sieve_startup false flag st residues store clearOk now = .finished) ∧
    (∀ f s r, cl_sieve_startup false flag st residues store clearOk now = .mainLoop 1 f s r →
      s.done = 0 ∧ ¬ ReplicaComplete st store.stateA ∧ ¬ ReplicaComplete st store.stateB) := by
  have h1 : (read_state flag st residues store).ret = 1 →
      (read_state flag st residues store).st.done = 0 := by
    intro h
    cases ha : readReplica st store.stateA with
    | complete => rw [read_state_complete_A ha] at h; exact absurd h (by simp)
    | bad =>
      cases hb : readReplica st store.stateB with
      | complete => rw [read_state_complete_B hb] at h; exact absurd h (by simp)
      | bad => rw [read_state_bad_bad ha hb] at h; exact absurd h (by simp)
      | good sb rb =>
        rw [read_state_bad_good ha hb]
        exact ((readReplica_good_iff _ _ _ _).1 hb).2
    | good sa ra =>
      cases hb : readReplica st store.stateB with
      | complete => rw [read_state_complete_B hb] at h; exact absurd h (by simp)
      | bad =>
        rw [read_state_good_bad ha hb]
        exact ((readReplica_good_iff _ _ _ _).1 ha).2
      | good sb rb =>
        rw [read_state_good_good ha hb]
        by_cases hc : sa.currp > sb.currp
        · rw [if_pos hc]
          exact ((readReplica_good_iff _ _ _ _).1 ha).2
        · rw [if_neg hc]
          exact ((readReplica_good_iff _ _ _ _).1 hb).2
  have h2 : ReplicaComplete st store.stateA ∨ ReplicaComplete st store.stateB →
      (read_state flag st residues store).ret = 2 := by
    rintro (h | h)
    · rw [read_state_complete_A ((readReplica_complete_iff _ _).2 h)]
    · rw [read_state_complete_B ((readReplica_complete_iff _ _).2 h)]
  refine ⟨h1, h2, ?_, ?_⟩
  · intro h
    unfold cl_sieve_startup
    simp [h]
  · intro f s r h
    unfold cl_sieve_startup at h
    simp only [Bool.false_eq_true, if_false] at h
    by_cases e2 : (read_state flag st residues store).ret = 2
    · rw [if_pos e2] at h; exact absurd h (by simp)
    · rw [if_neg e2] at h
      by_cases e1 : (read_state flag st residues store).ret = 1
      · rw [if_pos e1] at h
        have hs := (Startup.mainLoop.inj h).2.2.1
        refine ⟨by rw [← hs]; exact h1 e1, fun hc => e2 (h2 (Or.inl hc)),
          fun hc => e2 (h2 (Or.inr hc))⟩
      · rw [if_neg e1] at h
        split_ifs at h
        · exact absurd (Startup.mainLoop.inj h).1 (by decide)

/-- Witness of C19: replica A holds the sample checkpoint, replica B the checkpoint written at
the end of the run (`done = 1`, greater `currp`, correct checksum); `cl_sieve` finishes. -/
theorem C19_done_never_resumed_witness :
    (ReplicaComplete sampleStatus (some (checkpointBytes sampleStatus sampleResidues)) ∨
      ReplicaComplete sampleStatus (some (checkpointBytes finishedStatus sampleResidues))) ∧
    (read_state true sampleStatus []
        ⟨some (checkpointBytes sampleStatus sampleResidues),
          some (checkpointBytes finishedStatus sampleResidues)⟩).ret = 2 ∧
    cl_sieve_startup false true sampleStatus []
        ⟨some (checkpointBytes sampleStatus sampleResidues),
          some (checkpointBytes finishedStatus sampleResidues)⟩ true 1700000000 = .finished :=
  have h := C19_done_never_resumed true sampleStatus []
    ⟨some (checkpointBytes sampleStatus sampleResidues),
      some (checkpointBytes finishedStatus sampleResidues)⟩ true 1700000000
  ⟨Or.inr finishedStatus_complete, h.2.1 (Or.inr finishedStatus_complete),
    h.2.2.1 (h.2.1 (Or.inr finishedStatus_complete))⟩

/-! ## Rotation of the replicas -/

/-- C20: `write_state` toggles `write_state_a_next` exactly when `fopen`, both `fwrite` and
`fclose` all succeed; otherwise the flag is unchanged, so the next `write_state` has the same
target; in every case the file of the other replica is left as it was, also by the next
`write_state` after a failure. -/
theorem C20_rotate_only_on_success (flag : Bool) (st : workStatus) (residues : List cl_ulong2)
    (store : Store) (ev ev2 : WriteEvents) :
    ((write_state flag st residues store ev).1 = !flag ↔
      (ev.openOk = true ∧ ev.write1 = none ∧ ev.write2 = none ∧ ev.closeOk = true)) ∧
    (¬ (ev.openOk = true ∧ ev.write1 = none ∧ ev.write2 = none ∧ ev.closeOk = true) →
      (write_state flag st residues store ev).1 = flag) ∧
    (flag = true → (write_state flag st residues store ev).2.2.stateB = store.stateB) ∧
    (flag = false → (write_state flag st residues store ev).2.2.stateA = store.stateA) ∧
    (ev.openOk = false → (write_state flag st residues store ev).2.2 = store) ∧
    (¬ (ev.openOk = true ∧ ev.write1 = none ∧ ev.write2 = none ∧ ev.closeOk = true) →
      (flag = true →
        (write_state (write_state flag st residues store ev).1
          (write_state flag st residues store ev).2.1 residues
          (write_state flag st residues store ev).2.2 ev2).2.2.stateB = store.stateB) ∧
      (flag = false →
        (write_state (write_state flag st residues store ev).1
          (write_state flag st residues store ev).2.1 residues
          (write_state flag st residues store ev).2.2 ev2).2.2.stateA = store.stateA)) := by
  obtain ⟨o1, w1, w2, c1⟩ := ev
  obtain ⟨o2, v1, v2, c2⟩ := ev2
  cases flag <;> cases o1 <;> cases w1 <;> cases w2 <;> cases c1 <;>
    cases o2 <;> cases v1 <;> cases v2 <;> cases c2 <;>
    simp [write_state, fwrite]

/-- Witness of C20: the second `fwrite` fails after 10 bytes while writing replica A of a store
that holds the sample checkpoint in B; the flag stays on A and B is as it was. -/
theorem C20_rotate_only_on_success_witness :
    ¬ ((⟨true, none, some 10, true⟩ : WriteEvents).openOk = true ∧
      (⟨true, none, some 10, true⟩ : WriteEvents).write1 = none ∧
      (⟨true, none, some 10, true⟩ : WriteEvents).write2 = none ∧
      (⟨true, none, some 10, true⟩ : WriteEvents).closeOk = true) ∧
    (write_state true laterStatus sampleResidues
      ⟨none, some (checkpointBytes sampleStatus sampleResidues)⟩
      ⟨true, none, some 10, true⟩).1 = true ∧
    (write_state true laterStatus sampleResidues
      ⟨none, some (checkpointBytes sampleStatus sampleResidues)⟩
      ⟨true, none, some 10, true⟩).2.2.stateB
      = some (checkpointBytes sampleStatus sampleResidues) :=
  have hfail : ¬ ((⟨true, none, some 10, true⟩ : WriteEvents).openOk = true ∧
      (⟨true, none, some 10, true⟩ : WriteEvents).write1 = none ∧
      (⟨true, none, some 10, true⟩ : WriteEvents).write2 = none ∧
      (⟨true, none, some 10, true⟩ : WriteEvents).closeOk = true) := by simp
  have h := C20_rotate_only_on_success true laterStatus sampleResidues
    ⟨none, some (checkpointBytes sampleStatus sampleResidues)⟩ ⟨true, none, some 10, true⟩
    ⟨true, none, none, true⟩
  ⟨hfail, h.2.1 hfail, h.2.2.1 rfl⟩

/-! ## A failed checkpoint write -/

/-- C21, as stated, fails: `write_state` stores the recomputed checksum in `st.state_sum` before
it opens the file, so after a failed `fopen` the field `state_sum` of the sample state (0 before
the call) holds the checksum. -/
theorem C21_state_sum_counterexample :
    WriteFailed ⟨false, none, none, true⟩ ∧
    sampleStatus.state_sum = 0 ∧
    (write_state true sampleStatus sampleResidues ⟨none, none⟩
      ⟨false, none, none, true⟩).2.1.state_sum = 1823461365 ∧
    (write_state true sampleStatus sampleResidues ⟨none, none⟩
      ⟨false, none, none, true⟩).2.1.state_sum ≠ sampleStatus.state_sum := by
  refine ⟨by simp [WriteFailed], rfl, ?_, ?_⟩
  · decide
  · decide

/-- C21 (amended): when `write_state` fails (open, write or close failure), every field of the
`workStatus` other than `state_sum` has the value it had before the call, `state_sum` holds the
checksum of that unchanged state and of the residues (which `write_state` only reads), the flag
`write_state_a_next` is unchanged and the file of the other replica is unchanged. -/
theorem C21_failed_write_frame (flag : Bool) (st : workStatus) (residues : List cl_ulong2)
    (store : Store) (ev : WriteEvents) (hfail : WriteFailed ev) :
    (write_state flag st residues store ev).2.1
      = { st with state_sum := stateChecksum st residues st.tpcount } ∧
    (write_state flag st residues store ev).2.1.pmin = st.pmin ∧
    (write_state flag st residues store ev).2.1.pmax = st.pmax ∧
    (write_state flag st residues store ev).2.1.currp = st.currp ∧
    (write_state flag st residues store ev).2.1.trickle = st.trickle ∧
    (write_state flag st residues store ev).2.1.totalcount = st.totalcount ∧
    (write_state flag st residues store ev).2.1.tpcount = st.tpcount ∧
    (write_state flag st residues store ev).2.1.done = st.done ∧
    (write_state flag st residues store ev).1 = flag ∧
    (flag = true → (write_state flag st residues store ev).2.2.stateB = store.stateB) ∧
    (flag = false → (write_state flag st residues store ev).2.2.stateA = store.stateA) := by
  obtain ⟨o1, w1, w2, c1⟩ := ev
  unfold WriteFailed at hfail
  cases flag <;> cases o1 <;> cases w1 <;> cases w2 <;> cases c1 <;>
    simp [write_state, fwrite] at hfail ⊢

/-- Witness of C21 (amended): the second `fwrite` fails after 10 bytes while `write_state` writes
replica A of a store that holds the sample checkpoint in B. -/
theorem C21_failed_write_frame_witness :
    WriteFailed ⟨true, none, some 10, true⟩ ∧
    (write_state true laterStatus sampleResidues
      ⟨none, some (checkpointBytes sampleStatus sampleResidues)⟩
      ⟨true, none, some 10, true⟩).2.1.currp = laterStatus.currp ∧
    (write_state true laterStatus sampleResidues
      ⟨none, some (checkpointBytes sampleStatus sampleResidues)⟩
      ⟨true, none, some 10, true⟩).2.2.stateB
      = some (checkpointBytes sampleStatus sampleResidues) :=
  have hfail : WriteFailed ⟨true, none, some 10, true⟩ := by simp [WriteFailed]
  have h := C21_failed_write_frame true laterStatus sampleResidues
    ⟨none, some (checkpointBytes sampleStatus sampleResidues)⟩ ⟨true, none, some 10, true⟩ hfail
  ⟨hfail, h.2.2.2.1, h.2.2.2.2.2.2.2.2.2.1 rfl⟩

/-! ## The wheel offset of an arbitrary start -/

theorem findWheelOffset_mod_6 (m fuel : Nat) (hf : 8 ≤ fuel) (hm : 30 * m + 6 < 2 ^ 63) :
    findWheelOffset fuel (30 * m + 6) = some (30 * m + 7, 0) := by
  have hN0 : u64 ((30 * m + 6) / 6 * 6 + 2 ^ 64 - 1) = 30 * m + 5 := by unfold u64; omega
  unfold findWheelOffset
  simp only [hN0]
  simp (disch := omega) only [wheelSeek_two_lt, wheelSeek_four_lt, wheelSeek_done]
  simp (disch := omega) only [wheelAnchor_two_lt, wheelAnchor_four_lt, wheelAnchor_two_done_lt,
    wheelAnchor_four_done_lt]
  rw [wheelBack_step_to (30 * m + 19) (by omega) (by omega) (by omega) (by simp [wheel])]
  simp only [OfNat.ofNat_ne_zero, if_false, if_true, Nat.reduceSub, Nat.reduceEqDiff]
  rw [wheelBack_step_to (30 * m + 17) (by omega) (by omega) (by omega) (by simp [wheel])]
  simp only [OfNat.ofNat_ne_zero, if_false, if_true, Nat.reduceSub, Nat.reduceEqDiff]
  rw [wheelBack_step_to (30 * m + 13) (by omega) (by omega) (by omega) (by simp [wheel])]
  simp only [OfNat.ofNat_ne_zero, if_false, if_true, Nat.reduceSub, Nat.reduceEqDiff]
  rw [wheelBack_step_to (30 * m + 11) (by omega) (by omega) (by omega) (by simp [wheel])]
  simp only [OfNat.ofNat_ne_zero, if_false, if_true, Nat.reduceSub, Nat.reduceEqDiff]
  rw [wheelBack_step_to (30 * m + 7) (by omega) (by omega) (by omega) (by simp [wheel])]
  simp only [OfNat.ofNat_ne_zero, if_false, if_true, Nat.reduceSub, Nat.reduceEqDiff]
  rw [wheelBack_done_of_eq (by omega) (by omega)]

theorem findWheelOffset_mod_8 (m fuel : Nat) (hf : 8 ≤ fuel) (hm : 30 * m + 8 < 2 ^ 63) :
    findWheelOffset fuel (30 * m + 8) = some (30 * m + 11, 1) := by
  have hN0 : u64 ((30 * m + 8) / 6 * 6 + 2 ^ 64 - 1) = 30 * m + 5 := by unfold u64; omega
  unfold findWheelOffset
  simp only [hN0]
  simp (disch := omega) only [wheelSeek_two_lt, wheelSeek_four_lt, wheelSeek_done]
  simp (disch := omega) only [wheelAnchor_two_lt, wheelAnchor_four_lt, wheelAnchor_two_done_lt,
    wheelAnchor_four_done_lt]
  rw [wheelBack_step_to (30 * m + 19) (by omega) (by omega) (by omega) (by simp [wheel])]
  simp only [OfNat.ofNat_ne_zero, if_false, if_true, Nat.reduceSub, Nat.reduceEqDiff]
  rw [wheelBack_step_to (30 * m + 17) (by omega) (by omega) (by omega) (by simp [wheel])]
  simp only [OfNat.ofNat_ne_zero, if_false, if_true, Nat.reduceSub, Nat.reduceEqDiff]
  rw [wheelBack_step_to (30 * m + 13) (by omega) (by omega) (by omega) (by simp [wheel])]
  simp only [OfNat.ofNat_ne_zero, if_false, if_true, Nat.reduceSub, Nat.reduceEqDiff]
  rw [wheelBack_step_to (30 * m + 11) (by omega) (by omega) (by omega) (by simp [wheel])]
  simp only [OfNat.ofNat_ne_zero, if_false, if_true, Nat.reduceSub, Nat.reduceEqDiff]
  rw [wheelBack_done_of_eq (by omega) (by omega)]

theorem findWheelOffset_mod_9 (m fuel : Nat) (hf : 8 ≤ fuel) (hm : 30 * m + 9 < 2 ^ 63) :
    findWheelOffset fuel (30 * m + 9) = some (30 * m + 11, 1) := by
  have hN0 : u64 ((30 * m + 9) / 6 * 6 + 2 ^ 64 - 1) = 30 * m + 5 := by unfold u64; omega
  unfold findWheelOffset
  simp only [hN0]
  simp (disch := omega) only [wheelSeek_two_lt, wheelSeek_four_lt, wheelSeek_done]
  simp (disch := omega) only [wheelAnchor_two_lt, wheelAnchor_four_lt, wheelAnchor_two_done_lt,
    wheelAnchor_four_done_lt]
  rw [wheelBack_step_to (30 * m + 19) (by omega) (by omega) (by omega) (by simp [wheel])]
  simp only [OfNat.ofNat_ne_zero, if_false, if_true, Nat.reduceSub, Nat.reduceEqDiff]
  rw [wheelBack_step_to (30 * m + 17) (by omega) (by omega) (by omega) (by simp [wheel])]
  simp only [OfNat.ofNat_ne_zero, if_false, if_true, Nat.reduceSub, Nat.reduceEqDiff]
  rw [wheelBack_step_to (30 * m + 13) (by omega) (by omega) (by omega) (by simp [wheel])]
  simp only [OfNat.ofNat_ne_zero, if_false, if_true, Nat.reduceSub, Nat.reduceEqDiff]
  rw [wheelBack_step_to (30 * m + 11) (by omega) (by omega) (by omega) (by simp [wheel])]
  simp only [OfNat.ofNat_ne_zero, if_false, if_true, Nat.reduceSub, Nat.reduceEqDiff]
  rw [wheelBack_done_of_eq (by omega) (by omega)]

theorem findWheelOffset_mod_10 (m fuel : Nat) (hf : 8 ≤ fuel) (hm : 30 * m + 10 < 2 ^ 63) :
    findWheelOffset fuel (30 * m + 10) = some (30 * m + 11, 1) := by
  have hN0 : u64 ((30 * m + 10) / 6 * 6 + 2 ^ 64 - 1) = 30 * m + 5 := by unfold u64; omega
  unfold findWheelOffset
  simp only [hN0]
  simp (disch := omega) only [wheelSeek_two_lt, wheelSeek_four_lt, wheelSeek_done]
  simp (disch := omega) only [wheelAnchor_two_lt, wheelAnchor_four_lt, wheelAnchor_two_done_lt,
    wheelAnchor_four_done_lt]
  rw [wheelBack_step_to (30 * m + 19) (by omega) (by omega) (by omega) (by simp [wheel])]
  simp only [OfNat.ofNat_ne_zero, if_false, if_true, Nat.reduceSub, Nat.reduceEqDiff]
  rw [wheelBack_step_to (30 * m + 17) (by omega) (by omega) (by omega) (by simp [wheel])]
  simp only [OfNat.ofNat_ne_zero, if_false, if_true, Nat.reduceSub, Nat.reduceEqDiff]
  rw [wheelBack_step_to (30 * m + 13) (by omega) (by omega) (by omega) (by simp [wheel])]
  simp only [OfNat.ofNat_ne_zero, if_false, if_true, Nat.reduceSub, Nat.reduceEqDiff]
  rw [wheelBack_step_to (30 * m + 11) (by omega) (by omega) (by omega) (by simp [wheel])]
  simp only [OfNat.ofNat_ne_zero, if_false, if_true, Nat.reduceSub, Nat.reduceEqDiff]
  rw [wheelBack_done_of_eq (by omega) (by omega)]

theorem findWheelOffset_mod_12 (m fuel : Nat) (hf : 8 ≤ fuel) (hm : 30 * m + 12 < 2 ^ 63) :
    findWheelOffset fuel (30 * m + 12) = some (30 * m + 13, 2) := by
  have hN0 : u64 ((30 * m + 12) / 6 * 6 + 2 ^ 64 - 1) = 30 * m + 11 := by unfold u64; omega
  unfold findWheelOffset
  simp only [hN0]
  simp (disch := omega) only [wheelSeek_two_lt, wheelSeek_four_lt, wheelSeek_done]
  simp (disch := omega) only [wheelAnchor_two_lt, wheelAnchor_four_lt, wheelAnchor_two_done_lt,
    wheelAnchor_four_done_lt]
  rw [wheelBack_step_to (30 * m + 19) (by omega) (by omega) (by omega) (by simp [wheel])]
  simp only [OfNat.ofNat_ne_zero, if_false, if_true, Nat.reduceSub, Nat.reduceEqDiff]
  rw [wheelBack_step_to (30 * m + 17) (by omega) (by omega) (by omega) (by simp [wheel])]
  simp only [OfNat.ofNat_ne_zero, if_false, if_true, Nat.reduceSub, Nat.reduceEqDiff]
  rw [wheelBack_step_to (30 * m + 13) (by omega) (by omega) (by omega) (by simp [wheel])]
  simp only [OfNat.ofNat_ne_zero, if_false, if_true, Nat.reduceSub, Nat.reduceEqDiff]
  rw [wheelBack_done_of_eq (by omega) (by omega)]

theorem findWheelOffset_mod_14 (m fuel : Nat) (hf : 8 ≤ fuel) (hm : 30 * m + 14 < 2 ^ 63) :
    findWheelOffset fuel (30 * m + 14) = some (30 * m + 17, 3) := by
  have hN0 : u64 ((30 * m + 14) / 6 * 6 + 2 ^ 64 - 1) = 30 * m + 11 := by unfold u64; omega
  unfold findWheelOffset
  simp only [hN0]
  simp (disch := omega) only [wheelSeek_two_lt, wheelSeek_four_lt, wheelSeek_done]
  simp (disch := omega) only [wheelAnchor_two_lt, wheelAnchor_four_lt, wheelAnchor_two_done_lt,
    wheelAnchor_four_done_lt]
  rw [wheelBack_step_to (30 * m + 19) (by omega) (by omega) (by omega) (by simp [wheel])]
  simp only [OfNat.ofNat_ne_zero, if_false, if_true, Nat.reduceSub, Nat.reduceEqDiff]
  rw [wheelBack_step_to (30 * m + 17) (by omega) (by omega) (by omega) (by simp [wheel])]
  simp only [OfNat.ofNat_ne_zero, if_false, if_true, Nat.reduceSub, Nat.reduceEqDiff]
  rw [wheelBack_done_of_eq (by omega) (by omega)]

theorem findWheelOffset_mod_15 (m fuel : Nat) (hf : 8 ≤ fuel) (hm : 30 * m + 15 < 2 ^ 63) :
    findWheelOffset fuel (30 * m + 15) = some (30 * m + 17, 3) := by
  have hN0 : u64 ((30 * m + 15) / 6 * 6 + 2 ^ 64 - 1) = 30 * m + 11 := by unfold u64; omega
  unfold findWheelOffset
  simp only [hN0]
  simp (disch := omega) only [wheelSeek_two_lt, wheelSeek_four_lt, wheelSeek_done]
  simp (disch := omega) only [wheelAnchor_two_lt, wheelAnchor_four_lt, wheelAnchor_two_done_lt,
    wheelAnchor_four_done_lt]
  rw [wheelBack_step_to (30 * m + 19) (by omega) (by omega) (by omega) (by simp [wheel])]
  simp only [OfNat.ofNat_ne_zero, if_false, if_true, Nat.reduceSub, Nat.reduceEqDiff]
  rw [wheelBack_step_to (30 * m + 17) (by omega) (by omega) (by omega) (by simp [wheel])]
  simp only [OfNat.ofNat_ne_zero, if_false, if_true, Nat.reduceSub, Nat.reduceEqDiff]
  rw [wheelBack_done_of_eq (by omega) (by omega)]

theorem findWheelOffset_mod_16 (m fuel : Nat) (hf : 8 ≤ fuel) (hm : 30 * m + 16 < 2 ^ 63) :
    findWheelOffset fuel (30 * m + 16) = some (30 * m + 17, 3) := by
  have hN0 : u64 ((30 * m + 16) / 6 * 6 + 2 ^ 64 - 1) = 30 * m + 11 := by unfold u64; omega
  unfold findWheelOffset
  simp only [hN0]
  simp (disch := omega) only [wheelSeek_two_lt, wheelSeek_four_lt, wheelSeek_done]
  simp (disch := omega) only [wheelAnchor_two_lt, wheelAnchor_four_lt, wheelAnchor_two_done_lt,
    wheelAnchor_four_done_lt]
  rw [wheelBack_step_to (30 * m + 19) (by omega) (by omega) (by omega) (by simp [wheel])]
  simp only [OfNat.ofNat_ne_zero, if_false, if_true, Nat.reduceSub, Nat.reduceEqDiff]
  rw [wheelBack_step_to (30 * m + 17) (by omega) (by omega) (by omega) (by simp [wheel])]
  simp only [OfNat.ofNat_ne_zero, if_false, if_true, Nat.reduceSub, Nat.reduceEqDiff]
  rw [wheelBack_done_of_eq (by omega) (by omega)]

theorem findWheelOffset_mod_18 (m fuel : Nat) (hf : 8 ≤ fuel) (hm : 30 * m + 18 < 2 ^ 63) :
    findWheelOffset fuel (30 * m + 18) = some (30 * m + 19, 4) := by
  have hN0 : u64 ((30 * m + 18) / 6 * 6 + 2 ^ 64 - 1) = 30 * m + 17 := by unfold u64; omega
  unfold findWheelOffset
  simp only [hN0]
  simp (disch := omega) only [wheelSeek_two_lt, wheelSeek_four_lt, wheelSeek_done]
  simp (disch := omega) only [wheelAnchor_two_lt, wheelAnchor_four_lt, wheelAnchor_two_done_lt,
    wheelAnchor_four_done_lt]
  rw [wheelBack_step_to (30 * m + 19) (by omega) (by omega) (by omega) (by simp [wheel])]
  simp only [OfNat.ofNat_ne_zero, if_false, if_true, Nat.reduceSub, Nat.reduceEqDiff]
  rw [wheelBack_done_of_eq (by omega) (by omega)]

theorem findWheelOffset_mod_20 (m fuel : Nat) (hf : 8 ≤ fuel) (hm : 30 * m + 20 < 2 ^ 63) :
    findWheelOffset fuel (30 * m + 20) = some (30 * m + 23, 5) := by
  have hN0 : u64 ((30 * m + 20) / 6 * 6 + 2 ^ 64 - 1) = 30 * m + 17 := by unfold u64; omega
  unfold findWheelOffset
  simp only [hN0]
  simp (disch := omega) only [wheelSeek_two_lt, wheelSeek_four_lt, wheelSeek_done]
  simp (disch := omega) only [wheelAnchor_two_lt, wheelAnchor_four_lt, wheelAnchor_two_done_lt,
    wheelAnchor_four_done_lt]
  rw [wheelBack_done_of_eq (by omega) (by omega)]

theorem findWheelOffset_mod_21 (m fuel : Nat) (hf : 8 ≤ fuel) (hm : 30 * m + 21 < 2 ^ 63) :
    findWheelOffset fuel (30 * m + 21) = some (30 * m + 23, 5) := by
  have hN0 : u64 ((30 * m + 21) / 6 * 6 + 2 ^ 64 - 1) = 30 * m + 17 := by unfold u64; omega
  unfold findWheelOffset
  simp only [hN0]
  simp (disch := omega) only [wheelSeek_two_lt, wheelSeek_four_lt, wheelSeek_done]
  simp (disch := omega) only [wheelAnchor_two_lt, wheelAnchor_four_lt, wheelAnchor_two_done_lt,
    wheelAnchor_four_done_lt]
  rw [wheelBack_done_of_eq (by omega) (by omega)]

theorem findWheelOffset_mod_22 (m fuel : Nat) (hf : 8 ≤ fuel) (hm : 30 * m + 22 < 2 ^ 63) :
    findWheelOffset fuel (30 * m + 22) = some (30 * m + 23, 5) := by
  have hN0 : u64 ((30 * m + 22) / 6 * 6 + 2 ^ 64 - 1) = 30 * m + 17 := by unfold u64; omega
  unfold findWheelOffset
  simp only [hN0]
  simp (disch := omega) only [wheelSeek_two_lt, wheelSeek_four_lt, wheelSeek_done]
  simp (disch := omega) only [wheelAnchor_two_lt, wheelAnchor_four_lt, wheelAnchor_two_done_lt,
    wheelAnchor_four_done_lt]
  rw [wheelBack_done_of_eq (by omega) (by omega)]

theorem findWheelOffset_mod_24 (m fuel : Nat) (hf : 8 ≤ fuel) (hm : 30 * m + 24 < 2 ^ 63) :
    findWheelOffset fuel (30 * m + 24) = some (30 * m + 29, 6) := by
  have hN0 : u64 ((30 * m + 24) / 6 * 6 + 2 ^ 64 - 1) = 30 * m + 23 := by unfold u64; omega
  unfold findWheelOffset
  simp only [hN0]
  simp (disch := omega) only [wheelSeek_two_lt, wheelSeek_four_lt, wheelSeek_done]
  simp (disch := omega) only [wheelAnchor_two_lt, wheelAnchor_four_lt, wheelAnchor_two_done_lt,
    wheelAnchor_four_done_lt]
  rw [wheelBack_step_to (30 * m + 29) (by omega) (by omega) (by omega) (by simp [wheel])]
  simp only [OfNat.ofNat_ne_zero, if_false, if_true, Nat.reduceSub, Nat.reduceEqDiff]
  rw [wheelBack_done_of_eq (by omega) (by omega)]

theorem findWheelOffset_mod_25 (m fuel : Nat) (hf : 8 ≤ fuel) (hm : 30 * m + 25 < 2 ^ 63) :
    findWheelOffset fuel (30 * m + 25) = some (30 * m + 29, 6) := by
  have hN0 : u64 ((30 * m + 25) / 6 * 6 + 2 ^ 64 - 1) = 30 * m + 23 := by unfold u64; omega
  unfold findWheelOffset
  simp only [hN0]
  simp (disch := omega) only [wheelSeek_two_lt, wheelSeek_four_lt, wheelSeek_done]
  simp (disch := omega) only [wheelAnchor_two_lt, wheelAnchor_four_lt, wheelAnchor_two_done_lt,
    wheelAnchor_four_done_lt]
  rw [wheelBack_step_to (30 * m + 29) (by omega) (by omega) (by omega) (by simp [wheel])]
  simp only [OfNat.ofNat_ne_zero, if_false, if_true, Nat.reduceSub, Nat.reduceEqDiff]
  rw [wheelBack_done_of_eq (by omega) (by omega)]

theorem findWheelOffset_mod_26 (m fuel : Nat) (hf : 8 ≤ fuel) (hm : 30 * m + 26 < 2 ^ 63) :
    findWheelOffset fuel (30 * m + 26) = some (30 * m + 29, 6) := by
  have hN0 : u64 ((30 * m + 26) / 6 * 6 + 2 ^ 64 - 1) = 30 * m + 23 := by unfold u64; omega
  unfold findWheelOffset
  simp only [hN0]
  simp (disch := omega) only [wheelSeek_two_lt, wheelSeek_four_lt, wheelSeek_done]
  simp (disch := omega) only [wheelAnchor_two_lt, wheelAnchor_four_lt, wheelAnchor_two_done_lt,
    wheelAnchor_four_done_lt]
  rw [wheelBack_step_to (30 * m + 29) (by omega) (by omega) (by omega) (by simp [wheel])]
  simp only [OfNat.ofNat_ne_zero, if_false, if_true, Nat.reduceSub, Nat.reduceEqDiff]
  rw [wheelBack_done_of_eq (by omega) (by omega)]

theorem findWheelOffset_mod_27 (m fuel : Nat) (hf : 8 ≤ fuel) (hm : 30 * m + 27 < 2 ^ 63) :
    findWheelOffset fuel (30 * m + 27) = some (30 * m + 29, 6) := by
  have hN0 : u64 ((30 * m + 27) / 6 * 6 + 2 ^ 64 - 1) = 30 * m + 23 := by unfold u64; omega
  unfold findWheelOffset
  simp only [hN0]
  simp (disch := omega) only [wheelSeek_two_lt, wheelSeek_four_lt, wheelSeek_done]
  simp (disch := omega) only [wheelAnchor_two_lt, wheelAnchor_four_lt, wheelAnchor_two_done_lt,
    wheelAnchor_four_done_lt]
  rw [wheelBack_step_to (30 * m + 29) (by omega) (by omega) (by omega) (by simp [wheel])]
  simp only [OfNat.ofNat_ne_zero, if_false, if_true, Nat.reduceSub, Nat.reduceEqDiff]
  rw [wheelBack_done_of_eq (by omega) (by omega)]

theorem findWheelOffset_mod_28 (m fuel : Nat) (hf : 8 ≤ fuel) (hm : 30 * m + 28 < 2 ^ 63) :
    findWheelOffset fuel (30 * m + 28) = some (30 * m + 29, 6) := by
  have hN0 : u64 ((30 * m + 28) / 6 * 6 + 2 ^ 64 - 1) = 30 * m + 23 := by unfold u64; omega
  unfold findWheelOffset
  simp only [hN0]
  simp (disch := omega) only [wheelSeek_two_lt, wheelSeek_four_lt, wheelSeek_done]
  simp (disch := omega) only [wheelAnchor_two_lt, wheelAnchor_four_lt, wheelAnchor_two_done_lt,
    wheelAnchor_four_done_lt]
  rw [wheelBack_step_to (30 * m + 29) (by omega) (by omega) (by omega) (by simp [wheel])]
  simp only [OfNat.ofNat_ne_zero, if_false, if_true, Nat.reduceSub, Nat.reduceEqDiff]
  rw [wheelBack_done_of_eq (by omega) (by omega)]

theorem findWheelOffset_mod_30 (m fuel : Nat) (hf : 8 ≤ fuel) (hm : 30 * m + 30 < 2 ^ 63) :
    findWheelOffset fuel (30 * m + 30) = some (30 * m + 31, 7) := by
  have hN0 : u64 ((30 * m + 30) / 6 * 6 + 2 ^ 64 - 1) = 30 * m + 29 := by unfold u64; omega
  unfold findWheelOffset
  simp only [hN0]
  simp (disch := omega) only [wheelSeek_two_lt, wheelSeek_four_lt, wheelSeek_done]
  simp (disch := omega) only [wheelAnchor_two_lt, wheelAnchor_four_lt, wheelAnchor_two_done_lt,
    wheelAnchor_four_done_lt]
  rw [wheelBack_done_of_eq (by omega) (by omega)]

theorem findWheelOffset_mod_32 (m fuel : Nat) (hf : 8 ≤ fuel) (hm : 30 * m + 32 < 2 ^ 63) :
    findWheelOffset fuel (30 * m + 32) = some (30 * m + 37, 0) := by
  have hN0 : u64 ((30 * m + 32) / 6 * 6 + 2 ^ 64 - 1) = 30 * m + 29 := by unfold u64; omega
  unfold findWheelOffset
  simp only [hN0]
  simp (disch := omega) only [wheelSeek_two_lt, wheelSeek_four_lt, wheelSeek_done]
  simp (disch := omega) only [wheelAnchor_two_lt, wheelAnchor_four_lt, wheelAnchor_two_done_lt,
    wheelAnchor_four_done_lt]
  rw [wheelBack_step_to (30 * m + 49) (by omega) (by omega) (by omega) (by simp [wheel])]
  simp only [OfNat.ofNat_ne_zero, if_false, if_true, Nat.reduceSub, Nat.reduceEqDiff]
  rw [wheelBack_step_to (30 * m + 47) (by omega) (by omega) (by omega) (by simp [wheel])]
  simp only [OfNat.ofNat_ne_zero, if_false, if_true, Nat.reduceSub, Nat.reduceEqDiff]
  rw [wheelBack_step_to (30 * m + 43) (by omega) (by omega) (by omega) (by simp [wheel])]
  simp only [OfNat.ofNat_ne_zero, if_false, if_true, Nat.reduceSub, Nat.reduceEqDiff]
  rw [wheelBack_step_to (30 * m + 41) (by omega) (by omega) (by omega) (by simp [wheel])]
  simp only [OfNat.ofNat_ne_zero, if_false, if_true, Nat.reduceSub, Nat.reduceEqDiff]
  rw [wheelBack_step_to (30 * m + 37) (by omega) (by omega) (by omega) (by simp [wheel])]
  simp only [OfNat.ofNat_ne_zero, if_false, if_true, Nat.reduceSub, Nat.reduceEqDiff]
  rw [wheelBack_done_of_eq (by omega) (by omega)]

theorem findWheelOffset_mod_33 (m fuel : Nat) (hf : 8 ≤ fuel) (hm : 30 * m + 33 < 2 ^ 63) :
    findWheelOffset fuel (30 * m + 33) = some (30 * m + 37, 0) := by
  have hN0 : u64 ((30 * m + 33) / 6 * 6 + 2 ^ 64 - 1) = 30 * m + 29 := by unfold u64; omega
  unfold findWheelOffset
  simp only [hN0]
  simp (disch := omega) only [wheelSeek_two_lt, wheelSeek_four_lt, wheelSeek_done]
  simp (disch := omega) only [wheelAnchor_two_lt, wheelAnchor_four_lt, wheelAnchor_two_done_lt,
    wheelAnchor_four_done_lt]
  rw [wheelBack_step_to (30 * m + 49) (by omega) (by omega) (by omega) (by simp [wheel])]
  simp only [OfNat.ofNat_ne_zero, if_false, if_true, Nat.reduceSub, Nat.reduceEqDiff]
  rw [wheelBack_step_to (30 * m + 47) (by omega) (by omega) (by omega) (by simp [wheel])]
  simp only [OfNat.ofNat_ne_zero, if_false, if_true, Nat.reduceSub, Nat.reduceEqDiff]
  rw [wheelBack_step_to (30 * m + 43) (by omega) (by omega) (by omega) (by simp [wheel])]
  simp only [OfNat.ofNat_ne_zero, if_false, if_true, Nat.reduceSub, Nat.reduceEqDiff]
  rw [wheelBack_step_to (30 * m + 41) (by omega) (by omega) (by omega) (by simp [wheel])]
  simp only [OfNat.ofNat_ne_zero, if_false, if_true, Nat.reduceSub, Nat.reduceEqDiff]
  rw [wheelBack_step_to (30 * m + 37) (by omega) (by omega) (by omega) (by simp [wheel])]
  simp only [OfNat.ofNat_ne_zero, if_false, if_true, Nat.reduceSub, Nat.reduceEqDiff]
  rw [wheelBack_done_of_eq (by omega) (by omega)]

theorem findWheelOffset_mod_34 (m fuel : Nat) (hf : 8 ≤ fuel) (hm : 30 * m + 34 < 2 ^ 63) :
    findWheelOffset fuel (30 * m + 34) = some (30 * m + 37, 0) := by
  have hN0 : u64 ((30 * m + 34) / 6 * 6 + 2 ^ 64 - 1) = 30 * m + 29 := by unfold u64; omega
  unfold findWheelOffset
  simp only [hN0]
  simp (disch := omega) only [wheelSeek_two_lt, wheelSeek_four_lt, wheelSeek_done]
  simp (disch := omega) only [wheelAnchor_two_lt, wheelAnchor_four_lt, wheelAnchor_two_done_lt,
    wheelAnchor_four_done_lt]
  rw [wheelBack_step_to (30 * m + 49) (by omega) (by omega) (by omega) (by simp [wheel])]
  simp only [OfNat.ofNat_ne_zero, if_false, if_true, Nat.reduceSub, Nat.reduceEqDiff]
  rw [wheelBack_step_to (30 * m + 47) (by omega) (by omega) (by omega) (by simp [wheel])]
  simp only [OfNat.ofNat_ne_zero, if_false, if_true, Nat.reduceSub, Nat.reduceEqDiff]
  rw [wheelBack_step_to (30 * m + 43) (by omega) (by omega) (by omega) (by simp [wheel])]
  simp only [OfNat.ofNat_ne_zero, if_false, if_true, Nat.reduceSub, Nat.reduceEqDiff]
  rw [wheelBack_step_to (30 * m + 41) (by omega) (by omega) (by omega) (by simp [wheel])]
  simp only [OfNat.ofNat_ne_zero, if_false, if_true, Nat.reduceSub, Nat.reduceEqDiff]
  rw [wheelBack_step_to (30 * m + 37) (by omega) (by omega) (by omega) (by simp [wheel])]
  simp only [OfNat.ofNat_ne_zero, if_false, if_true, Nat.reduceSub, Nat.reduceEqDiff]
  rw [wheelBack_done_of_eq (by omega) (by omega)]

theorem findWheelOffset_mod_35 (m fuel : Nat) (hf : 8 ≤ fuel) (hm : 30 * m + 35 < 2 ^ 63) :
    findWheelOffset fuel (30 * m + 35) = some (30 * m + 37, 0) := by
  have hN0 : u64 ((30 * m + 35) / 6 * 6 + 2 ^ 64 - 1) = 30 * m + 29 := by unfold u64; omega
  unfold findWheelOffset
  simp only [hN0]
  simp (disch := omega) only [wheelSeek_two_lt, wheelSeek_four_lt, wheelSeek_done]
  simp (disch := omega) only [wheelAnchor_two_lt, wheelAnchor_four_lt, wheelAnchor_two_done_lt,
    wheelAnchor_four_done_lt]
  rw [wheelBack_step_to (30 * m + 49) (by omega) (by omega) (by omega) (by simp [wheel])]
  simp only [OfNat.ofNat_ne_zero, if_false, if_true, Nat.reduceSub, Nat.reduceEqDiff]
  rw [wheelBack_step_to (30 * m + 47) (by omega) (by omega) (by omega) (by simp [wheel])]
  simp only [OfNat.ofNat_ne_zero, if_false, if_true, Nat.reduceSub, Nat.reduceEqDiff]
  rw [wheelBack_step_to (30 * m + 43) (by omega) (by omega) (by omega) (by simp [wheel])]
  simp only [OfNat.ofNat_ne_zero, if_false, if_true, Nat.reduceSub, Nat.reduceEqDiff]
  rw [wheelBack_step_to (30 * m + 41) (by omega) (by omega) (by omega) (by simp [wheel])]
  simp only [OfNat.ofNat_ne_zero, if_false, if_true, Nat.reduceSub, Nat.reduceEqDiff]
  rw [wheelBack_step_to (30 * m + 37) (by omega) (by omega) (by omega) (by simp [wheel])]
  simp only [OfNat.ofNat_ne_zero, if_false, if_true, Nat.reduceSub, Nat.reduceEqDiff]
  rw [wheelBack_done_of_eq (by omega) (by omega)]

/-- The initial value `6 * (N / 6) - 1` of `findWheelOffset` wraps to `2^64 - 1` below 6. -/
theorem wheelStart_wrap (N : Nat) (h : N < 6) :
    u64 (N / 6 * 6 + 2 ^ 64 - 1) = 2 ^ 64 - 1 := by
  have e : N / 6 = 0 := by omega
  rw [e]
  decide

theorem findWheelOffset_zero (fuel : Nat) (hf : 8 ≤ fuel) :
    findWheelOffset fuel 0 = some (1, 7) := by
  have hN0 : u64 (0 / 6 * 6 + 2 ^ 64 - 1) = 18446744073709551615 := by decide
  unfold findWheelOffset
  simp only [hN0]
  rw [wheelSeek_two (by omega) (by norm_num)]
  have e : (18446744073709551615 + 2) % 2 ^ 64 = 1 := by norm_num
  rw [e, wheelSeek_done (by omega) (by norm_num)]
  simp only []
  rw [wheelAnchor_four_done_lt (by omega) (by norm_num) (by norm_num)]
  simp only []
  rw [wheelBack_done_of_eq (by omega) rfl]

theorem findWheelOffset_small (fuel N : Nat) (hf : 8 ≤ fuel) (h2 : 2 ≤ N) (h5 : N ≤ 5) :
    findWheelOffset fuel N = some (7, 0) := by
  have hN0 : u64 (N / 6 * 6 + 2 ^ 64 - 1) = 18446744073709551615 := wheelStart_wrap N (by omega)
  unfold findWheelOffset
  simp only [hN0]
  rw [wheelSeek_two (by omega) (by norm_num)]
  have e : (18446744073709551615 + 2) % 2 ^ 64 = 1 := by norm_num
  rw [e, wheelSeek_four_lt (by omega) (by norm_num) (Or.inl (by omega))]
  have e2 : 1 + 4 = 5 := rfl
  rw [e2, wheelSeek_two_lt (by omega) (by norm_num) (Or.inr (by norm_num))]
  have e3 : 5 + 2 = 7 := rfl
  rw [e3, wheelSeek_done (by omega) (by omega)]
  simp only []
  simp (disch := omega) only [wheelAnchor_two_lt, wheelAnchor_four_lt, wheelAnchor_two_done_lt,
    wheelAnchor_four_done_lt]
  rw [wheelBack_step_to 19 (by omega) (by omega) (by omega) (by simp [wheel])]
  simp only [OfNat.ofNat_ne_zero, if_false, if_true, Nat.reduceSub, Nat.reduceEqDiff]
  rw [wheelBack_step_to 17 (by omega) (by omega) (by omega) (by simp [wheel])]
  simp only [OfNat.ofNat_ne_zero, if_false, if_true, Nat.reduceSub, Nat.reduceEqDiff]
  rw [wheelBack_step_to 13 (by omega) (by omega) (by omega) (by simp [wheel])]
  simp only [OfNat.ofNat_ne_zero, if_false, if_true, Nat.reduceSub, Nat.reduceEqDiff]
  rw [wheelBack_step_to 11 (by omega) (by omega) (by omega) (by simp [wheel])]
  simp only [OfNat.ofNat_ne_zero, if_false, if_true, Nat.reduceSub, Nat.reduceEqDiff]
  rw [wheelBack_step_to 7 (by omega) (by omega) (by omega) (by simp [wheel])]
  simp only [OfNat.ofNat_ne_zero, if_false, if_true, Nat.reduceSub, Nat.reduceEqDiff]
  rw [wheelBack_done_of_eq (by omega) (by omega)]

/-- The value that `findWheelOffset` leaves in `start`, for a start of at least 6: the least
number from `N` on that is not divisible by 2, 3 or 5, with its wheel index. -/
theorem findWheelOffset_align (fuel N : Nat) (hf : 8 ≤ fuel) (h6 : 6 ≤ N) (hN : N < 2 ^ 63) :
    ∃ A, findWheelOffset fuel N = some (A, wheelIndex (A % 30)) ∧ N ≤ A ∧
      (A % 2 ≠ 0 ∧ A % 3 ≠ 0 ∧ A % 5 ≠ 0) ∧
      ∀ n, N ≤ n → n < A → ¬ (n % 2 ≠ 0 ∧ n % 3 ≠ 0 ∧ n % 5 ≠ 0) := by
  obtain ⟨m, r, rfl, h1, h2⟩ : ∃ m r, N = 30 * m + r ∧ 6 ≤ r ∧ r < 36 :=
    ⟨(N - 6) / 30, (N - 6) % 30 + 6, by omega, by omega, by omega⟩
  interval_cases r
  · refine ⟨30 * m + 7, ?_, by omega, ⟨by omega, by omega, by omega⟩, ?_⟩
    · have e : (30 * m + 7) % 30 = 7 := by omega
      rw [e]
      exact findWheelOffset_mod_6 m fuel hf hN
    · intro n hn1 hn2
      have hn : n = 30 * m + 6 := by omega
      rw [hn]
      omega
  · refine ⟨30 * m + 7, ?_, by omega, ⟨by omega, by omega, by omega⟩, ?_⟩
    · have e : (30 * m + 7) % 30 = 7 := by omega
      rw [e]
      exact findWheelOffset_mod_7 m fuel hf hN
    · intro n hn1 hn2
      omega
  · refine ⟨30 * m + 11, ?_, by omega, ⟨by omega, by omega, by omega⟩, ?_⟩
    · have e : (30 * m + 11) % 30 = 11 := by omega
      rw [e]
      exact findWheelOffset_mod_8 m fuel hf hN
    · intro n hn1 hn2
      have hn : n = 30 * m + 8 ∨ n = 30 * m + 9 ∨ n = 30 * m + 10 := by omega
      rcases hn with rfl | rfl | rfl <;> omega
  · refine ⟨30 * m + 11, ?_, by omega, ⟨by omega, by omega, by omega⟩, ?_⟩
    · have e : (30 * m + 11) % 30 = 11 := by omega
      rw [e]
      exact findWheelOffset_mod_9 m fuel hf hN
    · intro n hn1 hn2
      have hn : n = 30 * m + 9 ∨ n = 30 * m + 10 := by omega
      rcases hn with rfl | rfl <;> omega
  · refine ⟨30 * m + 11, ?_, by omega, ⟨by omega, by omega, by omega⟩, ?_⟩
    · have e : (30 * m + 11) % 30 = 11 := by omega
      rw [e]
      exact findWheelOffset_mod_10 m fuel hf hN
    · intro n hn1 hn2
      have hn : n = 30 * m + 10 := by omega
      rw [hn]
      omega
  · refine ⟨30 * m + 11, ?_, by omega, ⟨by omega, by omega, by omega⟩, ?_⟩
    · have e : (30 * m + 11) % 30 = 11 := by omega
      rw [e]
      exact findWheelOffset_mod_11 m fuel hf hN
    · intro n hn1 hn2
      omega
  · refine ⟨30 * m + 13, ?_, by omega, ⟨by omega, by omega, by omega⟩, ?_⟩
    · have e : (30 * m + 13) % 30 = 13 := by omega
      rw [e]
      exact findWheelOffset_mod_12 m fuel hf hN
    · intro n hn1 hn2
      have hn : n = 30 * m + 12 := by omega
      rw [hn]
      omega
  · refine ⟨30 * m + 13, ?_, by omega, ⟨by omega, by omega, by omega⟩, ?_⟩
    · have e : (30 * m + 13) % 30 = 13 := by omega
      rw [e]
      exact findWheelOffset_mod_13 m fuel hf hN
    · intro n hn1 hn2
      omega
  · refine ⟨30 * m + 17, ?_, by omega, ⟨by omega, by omega, by omega⟩, ?_⟩
    · have e : (30 * m + 17) % 30 = 17 := by omega
      rw [e]
      exact findWheelOffset_mod_14 m fuel hf hN
    · intro n hn1 hn2
      have hn : n = 30 * m + 14 ∨ n = 30 * m + 15 ∨ n = 30 * m + 16 := by omega
      rcases hn with rfl | rfl | rfl <;> omega
  · refine ⟨30 * m + 17, ?_, by omega, ⟨by omega, by omega, by omega⟩, ?_⟩
    · have e : (30 * m + 17) % 30 = 17 := by omega
      rw [e]
      exact findWheelOffset_mod_15 m fuel hf hN
    · intro n hn1 hn2
      have hn : n = 30 * m + 15 ∨ n = 30 * m + 16 := by omega
      rcases hn with rfl | rfl <;> omega
  · refine ⟨30 * m + 17, ?_, by omega, ⟨by omega, by omega, by omega⟩, ?_⟩
    · have e : (30 * m + 17) % 30 = 17 := by omega
      rw [e]
      exact findWheelOffset_mod_16 m fuel hf hN
    · intro n hn1 hn2
      have hn : n = 30 * m + 16 := by omega
      rw [hn]
      omega
  · refine ⟨30 * m + 17, ?_, by omega, ⟨by omega, by omega, by omega⟩, ?_⟩
    · have e : (30 * m + 17) % 30 = 17 := by omega
      rw [e]
      exact findWheelOffset_mod_17 m fuel hf hN
    · intro n hn1 hn2
      omega
  · refine ⟨30 * m + 19, ?_, by omega, ⟨by omega, by omega, by omega⟩, ?_⟩
    · have e : (30 * m + 19) % 30 = 19 := by omega
      rw [e]
      exact findWheelOffset_mod_18 m fuel hf hN
    · intro n hn1 hn2
      have hn : n = 30 * m + 18 := by omega
      rw [hn]
      omega
  · refine ⟨30 * m + 19, ?_, by omega, ⟨by omega, by omega, by omega⟩, ?_⟩
    · have e : (30 * m + 19) % 30 = 19 := by omega
      rw [e]
      exact findWheelOffset_mod_19 m fuel hf hN
    · intro n hn1 hn2
      omega
  · refine ⟨30 * m + 23, ?_, by omega, ⟨by omega, by omega, by omega⟩, ?_⟩
    · have e : (30 * m + 23) % 30 = 23 := by omega
      rw [e]
      exact findWheelOffset_mod_20 m fuel hf hN
    · intro n hn1 hn2
      have hn : n = 30 * m + 20 ∨ n = 30 * m + 21 ∨ n = 30 * m + 22 := by omega
      rcases hn with rfl | rfl | rfl <;> omega
  · refine ⟨30 * m + 23, ?_, by omega, ⟨by omega, by omega, by omega⟩, ?_⟩
    · have e : (30 * m + 23) % 30 = 23 := by omega
      rw [e]
      exact findWheelOffset_mod_21 m fuel hf hN
    · intro n hn1 hn2
      have hn : n = 30 * m + 21 ∨ n = 30 * m + 22 := by omega
      rcases hn with rfl | rfl <;> omega
  · refine ⟨30 * m + 23, ?_, by omega, ⟨by omega, by omega, by omega⟩, ?_⟩
    · have e : (30 * m + 23) % 30 = 23 := by omega
      rw [e]
      exact findWheelOffset_mod_22 m fuel hf hN
    · intro n hn1 hn2
      have hn : n = 30 * m + 22 := by omega
      rw [hn]
      omega
  · refine ⟨30 * m + 23, ?_, by omega, ⟨by omega, by omega, by omega⟩, ?_⟩
    · have e : (30 * m + 23) % 30 = 23 := by omega
      rw [e]
      exact findWheelOffset_mod_23 m fuel hf hN
    · intro n hn1 hn2
      omega
  · refine ⟨30 * m + 29, ?_, by omega, ⟨by omega, by omega, by omega⟩, ?_⟩
    · have e : (30 * m + 29) % 30 = 29 := by omega
      rw [e]
      exact findWheelOffset_mod_24 m fuel hf hN
    · intro n hn1 hn2
      have hn : n = 30 * m + 24 ∨ n = 30 * m + 25 ∨ n = 30 * m + 26 ∨ n = 30 * m + 27 ∨ n = 30 * m + 28 := by omega
      rcases hn with rfl | rfl | rfl | rfl | rfl <;> omega
  · refine ⟨30 * m + 29, ?_, by omega, ⟨by omega, by omega, by omega⟩, ?_⟩
    · have e : (30 * m + 29) % 30 = 29 := by omega
      rw [e]
      exact findWheelOffset_mod_25 m fuel hf hN
    · intro n hn1 hn2
      have hn : n = 30 * m + 25 ∨ n = 30 * m + 26 ∨ n = 30 * m + 27 ∨ n = 30 * m + 28 := by omega
      rcases hn with rfl | rfl | rfl | rfl <;> omega
  · refine ⟨30 * m + 29, ?_, by omega, ⟨by omega, by omega, by omega⟩, ?_⟩
    · have e : (30 * m + 29) % 30 = 29 := by omega
      rw [e]
      exact findWheelOffset_mod_26 m fuel hf hN
    · intro n hn1 hn2
      have hn : n = 30 * m + 26 ∨ n = 30 * m + 27 ∨ n = 30 * m + 28 := by omega
      rcases hn with rfl | rfl | rfl <;> omega
  · refine ⟨30 * m + 29, ?_, by omega, ⟨by omega, by omega, by omega⟩, ?_⟩
    · have e : (30 * m + 29) % 30 = 29 := by omega
      rw [e]
      exact findWheelOffset_mod_27 m fuel hf hN
    · intro n hn1 hn2
      have hn : n = 30 * m + 27 ∨ n = 30 * m + 28 := by omega
      rcases hn with rfl | rfl <;> omega
  · refine ⟨30 * m + 29, ?_, by omega, ⟨by omega, by omega, by omega⟩, ?_⟩
    · have e : (30 * m + 29) % 30 = 29 := by omega
      rw [e]
      exact findWheelOffset_mod_28 m fuel hf hN
    · intro n hn1 hn2
      have hn : n = 30 * m + 28 := by omega
      rw [hn]
      omega
  · refine ⟨30 * m + 29, ?_, by omega, ⟨by omega, by omega, by omega⟩, ?_⟩
    · have e : (30 * m + 29) % 30 = 29 := by omega
      rw [e]
      exact findWheelOffset_mod_29 m fuel hf hN
    · intro n hn1 hn2
      omega
  · refine ⟨30 * m + 31, ?_, by omega, ⟨by omega, by omega, by omega⟩, ?_⟩
    · have e : (30 * m + 31) % 30 = 1 := by omega
      rw [e]
      exact findWheelOffset_mod_30 m fuel hf hN
    · intro n hn1 hn2
      have hn : n = 30 * m + 30 := by omega
      rw [hn]
      omega
  · refine ⟨30 * m + 31, ?_, by omega, ⟨by omega, by omega, by omega⟩, ?_⟩
    · have e : (30 * m + 31) % 30 = 1 := by omega
      rw [e]
      exact findWheelOffset_mod_31 m fuel hf hN
    · intro n hn1 hn2
      omega
  · refine ⟨30 * m + 37, ?_, by omega, ⟨by omega, by omega, by omega⟩, ?_⟩
    · have e : (30 * m + 37) % 30 = 7 := by omega
      rw [e]
      exact findWheelOffset_mod_32 m fuel hf hN
    · intro n hn1 hn2
      have hn : n = 30 * m + 32 ∨ n = 30 * m + 33 ∨ n = 30 * m + 34 ∨ n = 30 * m + 35 ∨ n = 30 * m + 36 := by omega
      rcases hn with rfl | rfl | rfl | rfl | rfl <;> omega
  · refine ⟨30 * m + 37, ?_, by omega, ⟨by omega, by omega, by omega⟩, ?_⟩
    · have e : (30 * m + 37) % 30 = 7 := by omega
      rw [e]
      exact findWheelOffset_mod_33 m fuel hf hN
    · intro n hn1 hn2
      have hn : n = 30 * m + 33 ∨ n = 30 * m + 34 ∨ n = 30 * m + 35 ∨ n = 30 * m + 36 := by omega
      rcases hn with rfl | rfl | rfl | rfl <;> omega
  · refine ⟨30 * m + 37, ?_, by omega, ⟨by omega, by omega, by omega⟩, ?_⟩
    · have e : (30 * m + 37) % 30 = 7 := by omega
      rw [e]
      exact findWheelOffset_mod_34 m fuel hf hN
    · intro n hn1 hn2
      have hn : n = 30 * m + 34 ∨ n = 30 * m + 35 ∨ n = 30 * m + 36 := by omega
      rcases hn with rfl | rfl | rfl <;> omega
  · refine ⟨30 * m + 37, ?_, by omega, ⟨by omega, by omega, by omega⟩, ?_⟩
    · have e : (30 * m + 37) % 30 = 7 := by omega
      rw [e]
      exact findWheelOffset_mod_35 m fuel hf hN
    · intro n hn1 hn2
      have hn : n = 30 * m + 35 ∨ n = 30 * m + 36 := by omega
      rcases hn with rfl | rfl <;> omega

/-- C24: for every `N < 2^63`, `findWheelOffset` ends (fuel for 8 iterations of each loop
suffices) and replaces `start` by the least integer `A ≥ N` that is coprime to 30; below 6 the
initial value `6 * (N / 6) - 1` wraps to `2^64 - 1`, and then `N = 0` or `1` gives 1 and `N` in
`2..5` gives 7; the returned index is the wheel index of `A` and lies in `0..7`. -/
theorem C24_findWheelOffset_any_start (fuel N : Nat) (hf : 8 ≤ fuel) (hN : N < 2 ^ 63) :
    ∃ A, findWheelOffset fuel N = some (A, wheelIndex (A % 30)) ∧ N ≤ A ∧ Nat.Coprime A 30 ∧
      (∀ n, N ≤ n → n < A → ¬ Nat.Coprime n 30) ∧ wheelIndex (A % 30) < 8 ∧
      (N < 6 → u64 (N / 6 * 6 + 2 ^ 64 - 1) = 2 ^ 64 - 1) ∧
      (N ≤ 1 → A = 1) ∧ (2 ≤ N → N ≤ 5 → A = 7) := by
  by_cases h6 : 6 ≤ N
  · obtain ⟨A, hA, hle, hc, hmin⟩ := findWheelOffset_align fuel N hf h6 hN
    refine ⟨A, hA, hle, (coprime_thirty_iff A).2 hc, ?_, wheelIndex_lt _, ?_, ?_, ?_⟩
    · intro n hn1 hn2 hco
      exact hmin n hn1 hn2 ((coprime_thirty_iff n).1 hco)
    · intro h; omega
    · intro h; omega
    · intro h1 h2; omega
  · by_cases h1 : N ≤ 1
    · refine ⟨1, ?_, h1, by decide, ?_, wheelIndex_lt _, fun h => wheelStart_wrap N h,
        fun _ => rfl, fun h => by omega⟩
      · have hN01 : N = 0 ∨ N = 1 := by omega
        rcases hN01 with rfl | rfl
        · exact findWheelOffset_zero fuel hf
        · exact findWheelOffset_one fuel hf
      · intro n hn1 hn2
        have hn : n = 0 := by omega
        rw [hn]
        decide
    · refine ⟨7, findWheelOffset_small fuel N hf (by omega) (by omega), by omega, by decide, ?_,
        wheelIndex_lt _, fun h => wheelStart_wrap N h, fun h => by omega, fun _ _ => rfl⟩
      intro n hn1 hn2
      have hn : n = 2 ∨ n = 3 ∨ n = 4 ∨ n = 5 ∨ n = 6 := by omega
      rcases hn with rfl | rfl | rfl | rfl | rfl <;> decide

/-- Witness of C24 at `N = 1000004`: the aligned value is 1000007 (residue 17 modulo 30), so
the index is 3. -/
theorem C24_findWheelOffset_any_start_witness :
    (8 ≤ 8 ∧ 1000004 < 2 ^ 63) ∧ findWheelOffset 8 1000004 = some (1000007, 3) ∧
    ∃ A, findWheelOffset 8 1000004 = some (A, wheelIndex (A % 30)) ∧ 1000004 ≤ A ∧
      Nat.Coprime A 30 ∧ (∀ n, 1000004 ≤ n → n < A → ¬ Nat.Coprime n 30) ∧
      wheelIndex (A % 30) < 8 :=
  have h := C24_findWheelOffset_any_start 8 1000004 (by decide) (by decide)
  ⟨⟨by decide, by decide⟩, by decide,
    h.elim fun A hA => ⟨A, hA.1, hA.2.1, hA.2.2.1, hA.2.2.2.1, hA.2.2.2.2.1⟩⟩

/-! ## The compressed table of `get32bitprimes` -/

/-- The loop over `b` computes the multiplicities of the window primes up to the first one that
exceeds the target. -/
theorem powerLoop_spec (fuel target : Nat) (smprime : Nat → Nat) (hf : 64 ≤ fuel)
    (ht : target < 2 ^ 64) : ∀ (left b : Nat) (smpower : Nat → Nat × Nat),
    (∀ i, b ≤ i → i < b + left → 2 ≤ smprime i ∧ smprime i < 2 ^ 32) →
    ∃ newcount smpower1, powerLoop fuel target smprime left b smpower = some (newcount, smpower1) ∧
      b ≤ newcount ∧ newcount ≤ b + left ∧
      (∀ i, b ≤ i → i < newcount → smprime i ≤ target ∧
        getPower fuel (u32 (smprime i)) target = some (smpower1 i)) ∧
      (newcount < b + left → target < smprime newcount) ∧
      (∀ i, i < b → smpower1 i = smpower i) := by
  intro left
  induction left with
  | zero =>
    intro b smpower _
    exact ⟨b, smpower, rfl, le_refl _, le_refl _, fun i h1 h2 => by omega, fun h => by omega,
      fun i _ => rfl⟩
  | succ left ih =>
    intro b smpower hpr
    rw [powerLoop]
    by_cases hgt : smprime b > target
    · rw [if_pos hgt]
      exact ⟨b, smpower, rfl, le_refl _, by omega, fun i h1 h2 => by omega, fun _ => hgt,
        fun i _ => rfl⟩
    · rw [if_neg hgt]
      obtain ⟨h2, h32⟩ := hpr b (le_refl _) (by omega)
      have hu : u32 (smprime b) = smprime b := Nat.mod_eq_of_lt h32
      obtain ⟨curBit, hc⟩ := getPower_sum fuel (smprime b) target h2 h32 ht (by omega) hf
      rw [hu, hc]
      simp only []
      obtain ⟨nc, pw, hrun, hb1, hb2, hval, hstop, hkeep⟩ :=
        ih (b + 1) (Function.update smpower b
          (∑ i in Finset.Ico 1 (Nat.log (smprime b) target + 1), target / smprime b ^ i, curBit))
          (fun i h1 h2 => hpr i (by omega) (by omega))
      refine ⟨nc, pw, hrun, by omega, by omega, ?_, ?_, ?_⟩
      · intro i h1 h3
        by_cases hib : i = b
        · subst hib
          refine ⟨by omega, ?_⟩
          rw [hu, hc, hkeep i (by omega), Function.update_same]
        · exact hval i (by omega) h3
      · intro h; exact hstop (by omega)
      · intro i hi
        rw [hkeep i (by omega), Function.update_noteq (by omega)]

/-- The inner loop of the compression extends the entry by a run of primes of the same
multiplicity, while the product fits 64 bits. -/
theorem mergeRun_spec (smprime : Nat → Nat) (smpower : Nat → Nat × Nat) (newcount s0 : Nat)
    (h64 : ∀ i, i < newcount → smprime i < 2 ^ 64) : ∀ (left hprime i : Nat),
    i ≤ newcount → hprime < 2 ^ 64 →
    i ≤ (mergeRun smprime smpower newcount s0 left hprime i).2 ∧
    (mergeRun smprime smpower newcount s0 left hprime i).2 ≤ newcount ∧
    (mergeRun smprime smpower newcount s0 left hprime i).1
      = hprime * ∏ k in Finset.Ico i (mergeRun smprime smpower newcount s0 left hprime i).2,
          smprime k ∧
    (mergeRun smprime smpower newcount s0 left hprime i).1 < 2 ^ 64 ∧
    ∀ k, i ≤ k → k < (mergeRun smprime smpower newcount s0 left hprime i).2 →
      (smpower k).1 = s0 := by
  intro left
  induction left with
  | zero =>
    intro hprime i hi hh
    simp only [mergeRun, Finset.Ico_self, Finset.prod_empty, mul_one]
    exact ⟨le_refl _, hi, trivial, hh, fun k h1 h2 => by omega⟩
  | succ left ih =>
    intro hprime i hi hh
    rw [mergeRun]
    by_cases hc : i < newcount ∧ s0 = (smpower i).1
    · rw [if_pos hc]
      have hlt : hprime * smprime i < 2 ^ 128 := by
        have h1 := h64 i hc.1
        calc hprime * smprime i < 2 ^ 64 * 2 ^ 64 :=
              Nat.mul_lt_mul_of_lt_of_lt hh h1
          _ = 2 ^ 128 := by norm_num
      rw [Nat.mod_eq_of_lt hlt]
      by_cases hov : hprime * smprime i > 0xFFFFFFFFFFFFFFFF
      · rw [if_pos hov]
        simp only [Finset.Ico_self, Finset.prod_empty, mul_one]
        exact ⟨le_refl _, hi, trivial, hh, fun k h1 h2 => by omega⟩
      · rw [if_neg hov]
        have hfit : hprime * smprime i < 2 ^ 64 := by
          have : (0xFFFFFFFFFFFFFFFF : Nat) = 2 ^ 64 - 1 := by norm_num
          omega
        obtain ⟨r1, r2, r3, r4, r5⟩ := ih (hprime * smprime i) (i + 1) (by omega) hfit
        refine ⟨by omega, r2, ?_, r4, ?_⟩
        · rw [r3, Finset.prod_eq_prod_Ico_succ_bot (by omega : i <
            (mergeRun smprime smpower newcount s0 left (hprime * smprime i) (i + 1)).2), mul_assoc]
        · intro k h1 h2
          by_cases hk : k = i
          · rw [hk]; exact hc.2.symm
          · exact r5 k (by omega) h2
    · rw [if_neg hc]
      simp only [Finset.Ico_self, Finset.prod_empty, mul_one]
      exact ⟨le_refl _, hi, trivial, hh, fun k h1 h2 => by omega⟩

/-- A table of runs up to `c`, extended by the entry of the run from `c` to below `d`. -/
theorem RunTable_append (smprime : Nat → Nat) (smpower : Nat → Nat × Nat) {c d : Nat}
    {e : Nat × (Nat × Nat)} (hcd : c < d) (he : e.1 = ∏ i in Finset.Ico c d, smprime i)
    (h64 : e.1 < 2 ^ 64) (hpw : e.2 = smpower c)
    (hrun : ∀ i, c ≤ i → i < d → (smpower i).1 = e.2.1) :
    ∀ (table : List (Nat × (Nat × Nat))) (a : Nat), RunTable smprime smpower a c table →
      RunTable smprime smpower a d (table ++ [e]) := by
  intro table
  induction table with
  | nil =>
    intro a h
    have hac : a = c := h
    subst hac
    exact ⟨d, hcd, le_refl _, he, h64, hpw, hrun, rfl⟩
  | cons x rest ih =>
    intro a h
    obtain ⟨c0, h1, h2, h3, h4, h5, h6, h7⟩ := h
    exact ⟨c0, h1, by omega, h3, h4, h5, h6, ih c0 h7⟩

/-- The indices covered by a table of runs, and its length. -/
theorem RunTable_length (smprime : Nat → Nat) (smpower : Nat → Nat × Nat) :
    ∀ (table : List (Nat × (Nat × Nat))) (a b : Nat), RunTable smprime smpower a b table →
      a + table.length ≤ b := by
  intro table
  induction table with
  | nil => intro a b h; have hab : a = b := h; simp [hab]
  | cons x rest ih =>
    intro a b h
    obtain ⟨c0, h1, h2, h3, h4, h5, h6, h7⟩ := h
    have := ih c0 b h7
    rw [List.length_cons]
    omega

/-- The product of the entries of a table of runs, each raised to its multiplicity, is the
product of the primes it covers, each raised to its own multiplicity. -/
theorem RunTable_prod (smprime : Nat → Nat) (smpower : Nat → Nat × Nat) :
    ∀ (table : List (Nat × (Nat × Nat))) (a b : Nat), RunTable smprime smpower a b table →
      (table.map (fun e => e.1 ^ e.2.1)).prod
        = ∏ i in Finset.Ico a b, smprime i ^ (smpower i).1 := by
  intro table
  induction table with
  | nil =>
    intro a b h
    have hab : a = b := h
    simp [hab]
  | cons x rest ih =>
    intro a b h
    obtain ⟨c0, h1, h2, h3, h4, h5, h6, h7⟩ := h
    rw [List.map_cons, List.prod_cons, ih c0 b h7,
      ← Finset.prod_Ico_consecutive _ (le_of_lt h1) h2, h3, ← Finset.prod_pow]
    congr 1
    apply Finset.prod_congr rfl
    intro i hi
    rw [Finset.mem_Ico] at hi
    rw [h6 i hi.1 hi.2]

/-- The outer loop of the compression completes a table of runs up to `newcount`. -/
theorem compressLoop_spec (smprime : Nat → Nat) (smpower : Nat → Nat × Nat) (newcount : Nat)
    (h64 : ∀ i, i < newcount → smprime i < 2 ^ 64) :
    ∀ (left i : Nat) (table : List (Nat × (Nat × Nat))), i ≤ newcount → newcount - i ≤ left →
      RunTable smprime smpower 0 i table →
      RunTable smprime smpower 0 newcount (compressLoop smprime smpower newcount left i table) ∧
      ∃ more, compressLoop smprime smpower newcount left i table = table ++ more := by
  intro left
  induction left with
  | zero =>
    intro i table hi hleft h
    have e : i = newcount := by omega
    rw [compressLoop, ← e]
    exact ⟨h, [], by simp⟩
  | succ left ih =>
    intro i table hi hleft h
    rw [compressLoop]
    by_cases hlt : i < newcount
    · rw [if_pos hlt]
      obtain ⟨r1, r2, r3, r4, r5⟩ := mergeRun_spec smprime smpower newcount (smpower i).1 h64
        newcount (smprime i) (i + 1) (by omega) (h64 i hlt)
      have happ := RunTable_append smprime smpower
        (e := ((mergeRun smprime smpower newcount (smpower i).1 newcount (smprime i)
          (i + 1)).1, smpower i))
        (c := i)
        (d := (mergeRun smprime smpower newcount (smpower i).1 newcount (smprime i) (i + 1)).2)
        (by omega)
        (by
          show (mergeRun smprime smpower newcount (smpower i).1 newcount (smprime i) (i + 1)).1
            = _
          rw [r3, Finset.prod_eq_prod_Ico_succ_bot (by omega : i <
            (mergeRun smprime smpower newcount (smpower i).1 newcount (smprime i) (i + 1)).2)])
        r4 rfl
        (by
          intro k h1 h2
          by_cases hk : k = i
          · rw [hk]
          · exact r5 k (by omega) h2)
        table 0 h
      obtain ⟨hrun, more, hmore⟩ := ih _ _ r2 (by omega) happ
      refine ⟨hrun, [((mergeRun smprime smpower newcount (smpower i).1 newcount (smprime i)
        (i + 1)).1, smpower i)] ++ more, ?_⟩
      rw [hmore, List.append_assoc]
    · rw [if_neg hlt]
      have e : i = newcount := by omega
      rw [← e]
      exact ⟨h, [], by simp⟩

/-- Every entry of a table of runs is the product of one run. -/
theorem RunTable_mem (smprime : Nat → Nat) (smpower : Nat → Nat × Nat) :
    ∀ (table : List (Nat × (Nat × Nat))) (a b : Nat), RunTable smprime smpower a b table →
      ∀ e ∈ table, ∃ lo hi, a ≤ lo ∧ lo < hi ∧ hi ≤ b ∧
        e.1 = ∏ i in Finset.Ico lo hi, smprime i ∧ e.1 < 2 ^ 64 ∧ e.2 = smpower lo ∧
        ∀ i, lo ≤ i → i < hi → (smpower i).1 = e.2.1 := by
  intro table
  induction table with
  | nil => intro a b _ e he; exact absurd he (List.not_mem_nil e)
  | cons x rest ih =>
    intro a b h e he
    obtain ⟨c0, h1, h2, h3, h4, h5, h6, h7⟩ := h
    rcases List.mem_cons.1 he with rfl | hmem
    · exact ⟨a, c0, le_refl _, h1, h2, h3, h4, h5, h6⟩
    · obtain ⟨lo, hi, g1, g2, g3, g4⟩ := ih c0 b h7 e hmem
      exact ⟨lo, hi, by omega, g2, g3, g4⟩

/-- C25: in `get32bitprimes`, for a type that is processed (`tpcnt[t] != 0` and
`smprime[0] <= typeTarget[t]`) with a window of `smcount >= 1` strictly ascending primes below
`2^32`, the loops end and the compressed table `(h_prime[j], h_power[j])`, `j < m`, satisfies:
`newcount` counts the window primes up to the target, `smpower[i] = getPower(smprime[i], target)`
below `newcount`, the product of the `h_prime[j] ^ h_power[j].s0` is the product of the
`smprime[i] ^ smpower[i].s0` over `i < newcount`, every `h_prime[j]` is below `2^64` and is the
product of a run of consecutive window primes that all have the multiplicity `h_power[j].s0`,
the first entry is the first window prime alone, and `1 <= m <= newcount`. -/
theorem C25_compressed_table (fuel tpcnt target smcount : Nat) (smprime : Nat → Nat)
    (smpower : Nat → Nat × Nat) (hf : 64 ≤ fuel) (htp : tpcnt ≠ 0) (h1 : 1 ≤ smcount)
    (hprime : ∀ i, i < smcount → (smprime i).Prime ∧ smprime i < 2 ^ 32)
    (hasc : ∀ i j, i < j → j < smcount → smprime i < smprime j)
    (hT : smprime 0 ≤ target) (ht : target < 2 ^ 64) :
    ∃ newcount smpower1 rest,
      typeTable fuel tpcnt target smcount smprime smpower
        = some (smpower1, some ((smprime 0, smpower1 0) :: rest)) ∧
      newcount ≤ smcount ∧ (∀ i, i < smcount → (i < newcount ↔ smprime i ≤ target)) ∧
      (∀ i, i < newcount → getPower fuel (u32 (smprime i)) target = some (smpower1 i)) ∧
      (((smprime 0, smpower1 0) :: rest).map (fun e => e.1 ^ e.2.1)).prod
        = ∏ i in Finset.range newcount, smprime i ^ (smpower1 i).1 ∧
      (∀ e ∈ (smprime 0, smpower1 0) :: rest, ∃ lo hi, lo < hi ∧ hi ≤ newcount ∧
        e.1 = ∏ i in Finset.Ico lo hi, smprime i ∧ e.1 < 2 ^ 64 ∧ e.2 = smpower1 lo ∧
        ∀ i, lo ≤ i → i < hi → (smpower1 i).1 = e.2.1) ∧
      1 ≤ ((smprime 0, smpower1 0) :: rest).length ∧
      ((smprime 0, smpower1 0) :: rest).length ≤ newcount := by
  obtain ⟨nc, pw, hrun, -, hb2, hval, hstop, -⟩ :=
    powerLoop_spec fuel target smprime hf ht smcount 0 smpower
      (fun i _ h2 => ⟨(hprime i (by omega)).1.two_le, (hprime i (by omega)).2⟩)
  have hnc1 : 1 ≤ nc := by
    by_contra hcon
    have h0 : nc = 0 := by omega
    have := hstop (by omega)
    rw [h0] at this
    omega
  have h64 : ∀ i, i < nc → smprime i < 2 ^ 64 := by
    intro i hi
    have := (hprime i (by omega)).2
    calc smprime i < 2 ^ 32 := this
      _ < 2 ^ 64 := by norm_num
  have hinit : RunTable smprime pw 0 1 [(smprime 0, pw 0)] :=
    ⟨1, by omega, le_refl _, by simp, h64 0 (by omega), rfl,
      fun i h1 h2 => by have : i = 0 := by omega
                        rw [this], rfl⟩
  obtain ⟨htab, more, hmore⟩ :=
    compressLoop_spec smprime pw nc h64 nc 1 [(smprime 0, pw 0)] hnc1 (by omega) hinit
  have htt : typeTable fuel tpcnt target smcount smprime smpower
      = some (pw, some ((smprime 0, pw 0) :: more)) := by
    unfold typeTable
    rw [if_neg (by simp only [not_or]; exact ⟨by simpa using htp, by omega⟩), hrun]
    simp only []
    rw [hmore]
    rfl
  have hmore2 : compressLoop smprime pw nc nc 1 [(smprime 0, pw 0)]
      = (smprime 0, pw 0) :: more := by rw [hmore]; rfl
  rw [hmore2] at htab
  refine ⟨nc, pw, more, htt, by omega, ?_, fun i hi => (hval i (by omega) hi).2, ?_, ?_, ?_, ?_⟩
  · intro i hi
    constructor
    · intro h; exact (hval i (by omega) h).1
    · intro h
      by_contra hcon
      have hlt : nc < smcount := by omega
      have h3 := hstop (by omega)
      rcases Nat.eq_or_lt_of_le (by omega : nc ≤ i) with e | e
      · rw [← e] at h; omega
      · have := hasc nc i e hi
        omega
  · rw [RunTable_prod smprime pw _ 0 nc htab, Finset.range_eq_Ico]
  · intro e he
    obtain ⟨lo, hi, -, g2, g3, g4⟩ := RunTable_mem smprime pw _ 0 nc htab e he
    exact ⟨lo, hi, g2, g3, g4⟩
  · simp
  · have := RunTable_length smprime pw _ 0 nc htab
    omega

/-- Witness of C25: the window `2, 3, 5, 7, 11, 13` with the target 11 gives `newcount = 5`
and the table `2^8, 3^4, 5^2, (7 * 11)^1`, whose product is `11!`. -/
theorem C25_compressed_table_witness :
    (64 ≤ 64 ∧ (1 : Nat) ≠ 0 ∧ 1 ≤ 6 ∧
      (∀ i, i < 6 → (sampleWindow i).Prime ∧ sampleWindow i < 2 ^ 32) ∧
      (∀ i j, i < j → j < 6 → sampleWindow i < sampleWindow j) ∧
      sampleWindow 0 ≤ 11 ∧ 11 < 2 ^ 64) ∧
    (typeTable 64 1 11 6 sampleWindow (fun _ => (0, 0))).map (fun r => r.2)
      = some (some [(2, 8, 4), (3, 4, 2), (5, 2, 1), (77, 1, 9223372036854775808)]) ∧
    ∃ newcount smpower1 rest,
      typeTable 64 1 11 6 sampleWindow (fun _ => (0, 0))
        = some (smpower1, some ((sampleWindow 0, smpower1 0) :: rest)) ∧
      (((sampleWindow 0, smpower1 0) :: rest).map (fun e => e.1 ^ e.2.1)).prod
        = ∏ i in Finset.range newcount, sampleWindow i ^ (smpower1 i).1 :=
  have hp : ∀ i, i < 6 → (sampleWindow i).Prime ∧ sampleWindow i < 2 ^ 32 := by
    intro i hi
    interval_cases i <;> simp only [sampleWindow] <;> norm_num
  have ha : ∀ i j, i < j → j < 6 → sampleWindow i < sampleWindow j := by
    intro i j hij hj
    interval_cases j <;> interval_cases i <;> simp only [sampleWindow] <;> norm_num
  have h := C25_compressed_table 64 1 11 6 sampleWindow (fun _ => (0, 0)) (le_refl _)
    one_ne_zero (by norm_num) hp ha (by decide) (by norm_num)
  ⟨⟨le_refl _, one_ne_zero, by norm_num, hp, ha, by decide, by norm_num⟩, by decide,
    h.elim fun nc h1 => h1.elim fun pw h2 => h2.elim fun rest h3 =>
      ⟨nc, pw, rest, h3.1, h3.2.2.2.2.1⟩⟩

/-! ## A window without primes -/

/-- C30, failing input: in the run on `[101, 102)` with `sd.range = 23` the first window is
`[2, 25)` and the second is `[25, 26)`, which holds no prime. The second call of
`get32bitprimes` finds `smcount = 0`, reads the value `smprime[0] = 2` that the first call left,
and sends the table `(2, getPower(2, 25))` of one entry for type 1: `pcount32[1] = 1`. -/
theorem C30_stale_entry_at_empty_window :
    getPrimes 23 25 2 = 25 ∧ getPrimes 23 25 25 = 26 ∧
    (∀ q, 25 ≤ q → q < 26 → ¬ q.Prime) ∧
    ((get32bitprimes 64 100 25 tpcntTypeOne targetsOf101
        (freshHost 2 (fun _ => 0) (fun _ => (0, 0))) 0).bind
      (fun s1 => (get32bitprimes 64 100 26 tpcntTypeOne targetsOf101 s1.host s1.totalcount).map
        (fun s2 => (s1.smcount, s1.host.smprime 0, s2.smcount, s2.tables 1, s2.pcount32 1,
          s2.totalcount))))
      = some (9, 2, 0, some [(2, 22, 8)], 1, 9) := by
  refine ⟨by decide, by decide, ?_, by rfl⟩
  intro q h1 h2
  have hq : q = 25 := by omega
  rw [hq]
  norm_num

/-! ## The window of `getPrimes` -/

/-- The value that `getPrimes` returns, for a cursor within the scan. -/
theorem getPrimes_spec (range maxtarget currp : Nat) (h2 : 2 ≤ currp) (hc : currp ≤ maxtarget)
    (hr1 : 1 ≤ range) (hr : range < 2 ^ 32) (hm : maxtarget < 2 ^ 63) :
    currp < getPrimes range maxtarget currp ∧ getPrimes range maxtarget currp ≤ maxtarget + 1 ∧
    getPrimes range maxtarget currp - currp ≤ range ∧
    (currp < 0xFFFFFFFF → getPrimes range maxtarget currp ≤ 0xFFFFFFFF) ∧
    (getPrimes range maxtarget currp = currp + range ∨
      getPrimes range maxtarget currp = maxtarget + 1 ∨
      getPrimes range maxtarget currp = 0xFFFFFFFF) := by
  unfold getPrimes u64
  have e1 : (currp + range) % 2 ^ 64 = currp + range := Nat.mod_eq_of_lt (by omega)
  have e2 : (maxtarget + 1) % 2 ^ 64 = maxtarget + 1 := Nat.mod_eq_of_lt (by omega)
  simp only [e1, e2]
  split_ifs <;> omega

/-- The largest of the three targets. -/
theorem maxtargetOf_spec (typeTarget : Nat → Nat) :
    (∀ t, t < 3 → typeTarget t ≤ maxtargetOf typeTarget) ∧
    ∃ t, t < 3 ∧ maxtargetOf typeTarget = typeTarget t := by
  unfold maxtargetOf
  constructor
  · intro t ht
    have : t = 0 ∨ t = 1 ∨ t = 2 := by omega
    dsimp only
    rcases this with rfl | rfl | rfl <;> split_ifs <;> omega
  · dsimp only
    split_ifs
    · exact ⟨0, by omega, rfl⟩
    · exact ⟨1, by omega, rfl⟩
    · exact ⟨0, by omega, rfl⟩
    · exact ⟨2, by omega, rfl⟩

/-! ## The cursor in one iteration -/

theorem drainQueue_st {G : Type} (s : SieveState G) : (drainQueue s).st = s.st := by
  unfold drainQueue waitOnEvent
  split_ifs <;> rfl

theorem getDataFromGPU_currp {G : Type} {gpu : Gpu G} {psize : Nat} {s s1 : SieveState G}
    (h : getDataFromGPU gpu psize s = .ok s1) :
    s1.st.currp = s.st.currp ∧ s1.iterations = s.iterations ∧ s1.host = s.host ∧
    s1.kernelq = s.kernelq ∧ s1.launchEvent = s.launchEvent ∧ s1.created = s.created ∧
    s1.queue = s.queue := by
  unfold getDataFromGPU at h
  split_ifs at h
  simp only [Except.ok.injEq] at h
  subst h
  exact ⟨rfl, rfl, rfl, rfl, rfl, rfl, rfl⟩

theorem handle_trickle_up_currp (now : Option Nat) (st : workStatus) :
    (handle_trickle_up now st).currp = st.currp := by
  unfold handle_trickle_up
  cases now with
  | none => rfl
  | some t => dsimp only; split_ifs <;> rfl

theorem write_state_currp (flag : Bool) (st : workStatus) (residues : List cl_ulong2)
    (store : Store) (ev : WriteEvents) :
    (write_state flag st residues store ev).2.1.currp = st.currp := by
  unfold write_state
  dsimp only
  split_ifs <;> rfl

theorem checkpoint_currp {G : Type} (tick : Tick) (s : SieveState G) :
    (checkpoint tick s).st.currp = s.st.currp := by
  unfold checkpoint
  dsimp only
  rw [write_state_currp, handle_trickle_up_currp]

theorem checkpointBlock_currp {G : Type} {gpu : Gpu G} {cfg : SieveData} {tick : Tick}
    {s s1 : SieveState G} (h : checkpointBlock gpu cfg tick s = .ok s1) :
    s1.st.currp = s.st.currp ∧ s1.iterations = s.iterations := by
  unfold checkpointBlock at h
  cases hg : getDataFromGPU gpu cfg.psize (drainQueue s) with
  | error e => rw [hg] at h; exact absurd h (by simp)
  | ok s2 =>
    rw [hg] at h
    simp only [Except.ok.injEq] at h
    subst h
    obtain ⟨h1, h2, -⟩ := getDataFromGPU_currp hg
    refine ⟨?_, ?_⟩
    · show (checkpoint tick s2).st.currp = _
      rw [checkpoint_currp, h1, drainQueue_st]
    · show s2.iterations = _
      rw [h2]
      unfold drainQueue waitOnEvent
      split_ifs <;> rfl

theorem submitReduce_st {G : Type} (gpu : Gpu G) (tpnum : Nat) (s : SieveState G) :
    (submitReduce gpu tpnum s).st = s.st ∧ (submitReduce gpu tpnum s).iterations = s.iterations ∧
    (submitReduce gpu tpnum s).host = s.host ∧
    (submitReduce gpu tpnum s).pcount32 = s.pcount32 := by
  unfold submitReduce waitOnEvent
  dsimp only
  split_ifs <;> exact ⟨rfl, rfl, rfl, rfl⟩

theorem multiply_st {G : Type} (gpu : Gpu G) (cfg : SieveData) (i j : Nat) (s : SieveState G) :
    (multiply gpu cfg i j s).st = s.st ∧ (multiply gpu cfg i j s).iterations = s.iterations ∧
    (multiply gpu cfg i j s).host = s.host ∧ (multiply gpu cfg i j s).pcount32 = s.pcount32 ∧
    (multiply gpu cfg i j s).kernelq = s.kernelq ∧
    (multiply gpu cfg i j s).launchEvent = s.launchEvent ∧
    (multiply gpu cfg i j s).created = s.created ∧ (multiply gpu cfg i j s).queue = s.queue := by
  unfold multiply
  split_ifs <;> exact ⟨rfl, rfl, rfl, rfl, rfl, rfl, rfl, rfl⟩

theorem typePass_st {G : Type} (gpu : Gpu G) (cfg : SieveData) (j : Nat) :
    ∀ (l : List testPrime) (i : Nat) (s : SieveState G),
      (typePass gpu cfg j l i s).st = s.st ∧ (typePass gpu cfg j l i s).iterations = s.iterations ∧
      (typePass gpu cfg j l i s).host = s.host ∧
      (typePass gpu cfg j l i s).pcount32 = s.pcount32 := by
  intro l
  induction l with
  | nil => intro i s; exact ⟨rfl, rfl, rfl, rfl⟩
  | cons t rest ih =>
    intro i s
    rw [typePass]
    split_ifs
    · exact ih _ _
    · exact ih _ _
    · obtain ⟨a1, a2, a3, a4⟩ := ih (i + 1) (submitReduce gpu i (multiply gpu cfg i j s))
      obtain ⟨b1, b2, b3, b4⟩ := submitReduce_st gpu i (multiply gpu cfg i j s)
      obtain ⟨c1, c2, c3, c4, -⟩ := multiply_st gpu cfg i j s
      exact ⟨by rw [a1, b1, c1], by rw [a2, b2, c2], by rw [a3, b3, c3], by rw [a4, b4, c4]⟩

theorem multiplyAll_st {G : Type} (gpu : Gpu G) (cfg : SieveData) (s : SieveState G) :
    (multiplyAll gpu cfg s).st = s.st ∧ (multiplyAll gpu cfg s).iterations = s.iterations ∧
    (multiplyAll gpu cfg s).host = s.host ∧ (multiplyAll gpu cfg s).pcount32 = s.pcount32 := by
  unfold multiplyAll
  obtain ⟨a1, a2, a3, a4⟩ := typePass_st gpu cfg 2 cfg.tp 0
    (typePass gpu cfg 1 cfg.tp 0 (typePass gpu cfg 0 cfg.tp 0 s))
  obtain ⟨b1, b2, b3, b4⟩ := typePass_st gpu cfg 1 cfg.tp 0 (typePass gpu cfg 0 cfg.tp 0 s)
  obtain ⟨c1, c2, c3, c4⟩ := typePass_st gpu cfg 0 cfg.tp 0 s
  exact ⟨by rw [a1, b1, c1], by rw [a2, b2, c2], by rw [a3, b3, c3], by rw [a4, b4, c4]⟩

theorem generate_currp {G : Type} {gpu : Gpu G} {cfg : SieveData} {stop : Nat}
    {s s1 : SieveState G} (h : generate gpu cfg stop s = .ok s1) :
    s1.st.currp = s.st.currp ∧ s1.iterations = s.iterations ∧ s1.kernelq = s.kernelq ∧
    s1.launchEvent = s.launchEvent ∧ s1.created = s.created ∧ s1.queue = s.queue := by
  unfold generate at h
  split_ifs at h
  · cases hg : get32bitprimes 64 cfg.psize stop cfg.tpcnt cfg.typeTarget s.host s.st.totalcount with
    | none => rw [hg] at h; exact absurd h (by simp)
    | some seg =>
      rw [hg] at h
      simp only [Except.ok.injEq] at h
      subst h
      exact ⟨rfl, rfl, rfl, rfl, rfl, rfl⟩
  · cases hg : findWheelOffset 8 s.st.currp with
    | none => rw [hg] at h; exact absurd h (by simp)
    | some r =>
      obtain ⟨a, b⟩ := r
      rw [hg] at h
      simp only [Except.ok.injEq] at h
      subst h
      exact ⟨rfl, rfl, rfl, rfl, rfl, rfl⟩

/-- An iteration of the main loop moves the cursor to the value that `getPrimes` returns. -/
theorem sieveStep_currp {G : Type} {gpu : Gpu G} {cfg : SieveData} {tick : Tick}
    {s s1 : SieveState G} (h : sieveStep gpu cfg tick s = .ok s1) :
    s1.st.currp = getPrimes cfg.range cfg.maxtarget s.st.currp ∧
    s1.iterations = s.iterations + 1 := by
  unfold sieveStep at h
  cases hc : (if tick.ckptDue then checkpointBlock gpu cfg tick s else .ok s) with
  | error e => rw [hc] at h; exact absurd h (by simp)
  | ok s2 =>
    rw [hc] at h
    simp only [] at h
    have hcur : s2.st.currp = s.st.currp ∧ s2.iterations = s.iterations := by
      by_cases hd : tick.ckptDue = true
      · rw [if_pos hd] at hc
        exact checkpointBlock_currp hc
      · rw [if_neg hd] at hc
        simp only [Except.ok.injEq] at hc
        subst hc
        exact ⟨rfl, rfl⟩
    cases hg : generate gpu cfg (getPrimes cfg.range cfg.maxtarget s2.st.currp) s2 with
    | error e => rw [hg] at h; exact absurd h (by simp)
    | ok s3 =>
      rw [hg] at h
      simp only [Except.ok.injEq] at h
      subst h
      obtain ⟨g1, g2, -⟩ := generate_currp hg
      obtain ⟨m1, m2, -⟩ := multiplyAll_st gpu cfg s3
      refine ⟨?_, ?_⟩
      · show getPrimes cfg.range cfg.maxtarget s2.st.currp = _
        rw [hcur.1]
      · show (multiplyAll gpu cfg s3).iterations + 1 = _
        rw [m2, g2, hcur.2]

/-! ## The prime iterator -/

/-- The search for the next prime finds the least prime from `n` on, when there is one among
the candidates. -/
theorem nextPrimeFrom_spec : ∀ (fuel n : Nat), (∃ p, p.Prime ∧ n ≤ p ∧ p < n + fuel) →
    (nextPrimeFrom fuel n).Prime ∧ n ≤ nextPrimeFrom fuel n ∧
    ∀ q, n ≤ q → q < nextPrimeFrom fuel n → ¬ q.Prime := by
  intro fuel
  induction fuel with
  | zero => intro n ⟨p, _, h1, h2⟩; omega
  | succ fuel ih =>
    intro n ⟨p, hp, h1, h2⟩
    rw [nextPrimeFrom]
    by_cases hn : isPrimeNat n = true
    · rw [if_pos hn]
      exact ⟨(isPrimeNat_iff n).1 hn, le_refl _, fun q h3 h4 => by omega⟩
    · rw [if_neg hn]
      have hnp : ¬ n.Prime := fun h => hn ((isPrimeNat_iff n).2 h)
      have hpn : p ≠ n := fun h => hnp (h ▸ hp)
      obtain ⟨a1, a2, a3⟩ := ih (n + 1) ⟨p, hp, by omega, by omega⟩
      refine ⟨a1, by omega, fun q h3 h4 => ?_⟩
      by_cases hq : q = n
      · rw [hq]; exact hnp
      · exact a3 q (by omega) h4

/-- The call `primesieve_next_prime` returns the least prime from the position of the iterator
on, and leaves the iterator on it. -/
theorem primesieve_next_prime_spec (it : primesieve_iterator) :
    (primesieve_next_prime it).1.Prime ∧ iterPos it ≤ (primesieve_next_prime it).1 ∧
    (∀ q, iterPos it ≤ q → q < (primesieve_next_prime it).1 → ¬ q.Prime) ∧
    (primesieve_next_prime it).2 = .on (primesieve_next_prime it).1 := by
  rcases it with start | q
  · rcases Nat.eq_zero_or_pos start with h0 | hpos
    · subst h0
      have e : (primesieve_next_prime (.jumped 0)).1 = 2 := by decide
      refine ⟨by rw [e]; exact Nat.prime_two, Nat.zero_le _, ?_, rfl⟩
      intro q _ h2
      rw [e] at h2
      have : q = 0 ∨ q = 1 := by
        have : iterPos (.jumped 0) = 0 := rfl
        omega
      rcases this with rfl | rfl <;> norm_num
    · obtain ⟨p, hp, h1, h2⟩ := Nat.exists_prime_lt_and_le_two_mul start (by omega)
      obtain ⟨a1, a2, a3⟩ := nextPrimeFrom_spec (start + 2) start ⟨p, hp, by omega, by omega⟩
      exact ⟨a1, a2, a3, rfl⟩
  · obtain ⟨p, hp, h1, h2⟩ := Nat.exists_prime_lt_and_le_two_mul (q + 1) (by omega)
    obtain ⟨a1, a2, a3⟩ := nextPrimeFrom_spec (q + 3) (q + 1) ⟨p, hp, by omega, by omega⟩
    exact ⟨a1, a2, a3, rfl⟩

/-- The entries that the first loop of `get32bitprimes` writes are primes below `stop`. -/
theorem fillSegment_prime (stop : Nat) : ∀ (room smcount : Nat) (it : primesieve_iterator)
    (smprime : Nat → Nat), (∀ i, i < smcount → (smprime i).Prime ∧ smprime i < stop) →
    ∀ i, i < (fillSegment stop room smcount it smprime).1 →
      ((fillSegment stop room smcount it smprime).2.2 i).Prime ∧
      (fillSegment stop room smcount it smprime).2.2 i < stop := by
  intro room
  induction room with
  | zero => intro smcount it smprime h i hi; exact h i hi
  | succ room ih =>
    intro smcount it smprime h i hi
    rw [fillSegment] at hi ⊢
    by_cases hge : (primesieve_next_prime it).1 ≥ stop
    · rw [if_pos hge] at hi ⊢
      exact h i hi
    · rw [if_neg hge] at hi ⊢
      refine ih (smcount + 1) _ _ ?_ i hi
      intro k hk
      by_cases hks : k = smcount
      · rw [hks, Function.update_same]
        exact ⟨(primesieve_next_prime_spec it).1, by omega⟩
      · rw [Function.update_noteq hks]
        exact h k (by omega)

/-! ## The inner loops of the main loop end -/

/-- The table of one type is computed for every window of primes below `2^32`, also for an
empty one. -/
theorem typeTable_some (tpcnt target smcount : Nat) (smprime : Nat → Nat)
    (smpower : Nat → Nat × Nat) (ht : target < 2 ^ 64)
    (hprime : ∀ i, i < smcount → (smprime i).Prime ∧ smprime i < 2 ^ 32) :
    ∃ r, typeTable 64 tpcnt target smcount smprime smpower = some r := by
  unfold typeTable
  split_ifs
  · exact ⟨_, rfl⟩
  · obtain ⟨nc, pw, hrun, -⟩ := powerLoop_spec 64 target smprime (le_refl _) ht smcount 0 smpower
      (fun i _ h2 => ⟨(hprime i (by omega)).1.two_le, (hprime i (by omega)).2⟩)
    rw [hrun]
    exact ⟨_, rfl⟩

/-- The function `get32bitprimes` returns for every `stop` up to `2^32`: the window comes from
the first loop, and its length is added to `st.totalcount`. -/
theorem get32bitprimes_some (psize stop : Nat) (tpcnt typeTarget : Nat → Nat)
    (host : HostTables) (totalcount : Nat) (hs : stop ≤ 2 ^ 32)
    (ht : ∀ t, t < 3 → typeTarget t < 2 ^ 64) :
    ∃ seg, get32bitprimes 64 psize stop tpcnt typeTarget host totalcount = some seg ∧
      seg.smcount = (fillSegment stop psize 0 host.it host.smprime).1 ∧
      seg.host.it = (fillSegment stop psize 0 host.it host.smprime).2.1 ∧
      seg.host.smprime = (fillSegment stop psize 0 host.it host.smprime).2.2 ∧
      seg.totalcount = u64 (totalcount + (fillSegment stop psize 0 host.it host.smprime).1) := by
  have hprime : ∀ i, i < (fillSegment stop psize 0 host.it host.smprime).1 →
      ((fillSegment stop psize 0 host.it host.smprime).2.2 i).Prime ∧
      (fillSegment stop psize 0 host.it host.smprime).2.2 i < 2 ^ 32 := by
    intro i hi
    have := fillSegment_prime stop psize 0 host.it host.smprime (fun k hk => by omega) i hi
    exact ⟨this.1, by omega⟩
  unfold get32bitprimes
  dsimp only
  obtain ⟨⟨pw0, t0⟩, h0⟩ := typeTable_some (tpcnt 0) (typeTarget 0) _ _ host.smpower
    (ht 0 (by omega)) hprime
  rw [h0]
  dsimp only
  obtain ⟨⟨pw1, t1⟩, h1⟩ := typeTable_some (tpcnt 1) (typeTarget 1) _ _ pw0
    (ht 1 (by omega)) hprime
  rw [h1]
  dsimp only
  obtain ⟨⟨pw2, t2⟩, h2⟩ := typeTable_some (tpcnt 2) (typeTarget 2) _ _ pw1
    (ht 2 (by omega)) hprime
  rw [h2]
  exact ⟨_, rfl, rfl, rfl, rfl, rfl⟩

/-- The function `findWheelOffset` returns for every start below `2^63`. -/
theorem findWheelOffset_returns (fuel N : Nat) (hf : 8 ≤ fuel) (hN : N < 2 ^ 63) :
    ∃ r, findWheelOffset fuel N = some r := by
  by_cases h6 : 6 ≤ N
  · obtain ⟨A, hA, -⟩ := findWheelOffset_align fuel N hf h6 hN
    exact ⟨_, hA⟩
  · have hcases : N = 0 ∨ N = 1 ∨ (2 ≤ N ∧ N ≤ 5) := by omega
    rcases hcases with rfl | rfl | ⟨h2, h5⟩
    · exact ⟨_, findWheelOffset_zero fuel hf⟩
    · exact ⟨_, findWheelOffset_one fuel hf⟩
    · exact ⟨_, findWheelOffset_small fuel N hf h2 h5⟩

/-- The generation step of an iteration does not hang: `get32bitprimes` and `findWheelOffset`
return. -/
theorem generate_ok {G : Type} (gpu : Gpu G) (cfg : SieveData) (stop : Nat) (s : SieveState G)
    (hc : s.st.currp < 2 ^ 63) (hs : s.st.currp < 0xFFFFFFFF → stop ≤ 0xFFFFFFFF)
    (ht : ∀ t, t < 3 → cfg.typeTarget t < 2 ^ 64) :
    ∃ s1, generate gpu cfg stop s = .ok s1 := by
  unfold generate
  by_cases h32 : s.st.currp < 0xFFFFFFFF
  · rw [if_pos h32]
    obtain ⟨seg, hseg, -⟩ := get32bitprimes_some cfg.psize stop cfg.tpcnt cfg.typeTarget s.host
      s.st.totalcount (by have := hs h32; omega) ht
    rw [hseg]
    exact ⟨_, rfl⟩
  · rw [if_neg h32]
    obtain ⟨r, hr⟩ := findWheelOffset_returns 8 s.st.currp (le_refl _) hc
    rw [hr]
    exact ⟨_, rfl⟩

theorem SieveData.wf_target {cfg : SieveData} (h : cfg.wf) :
    ∀ t, t < 3 → cfg.typeTarget t < 2 ^ 64 := by
  intro t ht
  obtain ⟨-, -, h3, h4⟩ := h
  have := (maxtargetOf_spec cfg.typeTarget).1 t ht
  rw [← h4] at this
  have : (2 : Nat) ^ 63 < 2 ^ 64 := by norm_num
  omega

/-- The checkpoint block ends with one of the two exits of `getDataFromGPU` or goes on. -/
theorem checkpointBlock_outcome {G : Type} (gpu : Gpu G) (cfg : SieveData) (tick : Tick)
    (s : SieveState G) :
    checkpointBlock gpu cfg tick s = .error SieveStop.primeArrayOverflow ∨
    checkpointBlock gpu cfg tick s = .error SieveStop.localMemoryOverflow ∨
    ∃ s1, checkpointBlock gpu cfg tick s = .ok s1 := by
  unfold checkpointBlock getDataFromGPU
  split_ifs
  · exact Or.inl rfl
  · exact Or.inr (Or.inl rfl)
  · exact Or.inr (Or.inr ⟨_, rfl⟩)

/-- An iteration of the main loop within the scan ends with one of the two exits of
`getDataFromGPU` or with a new state: no inner loop hangs. -/
theorem sieveStep_outcome {G : Type} (gpu : Gpu G) (cfg : SieveData) (tick : Tick)
    (s : SieveState G) (hw : cfg.wf) (h2 : 2 ≤ s.st.currp) (hc : s.st.currp ≤ cfg.maxtarget) :
    sieveStep gpu cfg tick s = .error SieveStop.primeArrayOverflow ∨
    sieveStep gpu cfg tick s = .error SieveStop.localMemoryOverflow ∨
    ∃ s1, sieveStep gpu cfg tick s = .ok s1 := by
  have hgen : ∀ s2 : SieveState G, s2.st.currp = s.st.currp →
      ∃ s3, generate gpu cfg (getPrimes cfg.range cfg.maxtarget s2.st.currp) s2 = .ok s3 := by
    intro s2 h
    obtain ⟨g1, g2, g3, g4, -⟩ := getPrimes_spec cfg.range cfg.maxtarget s2.st.currp
      (by omega) (by omega) hw.1 hw.2.1 hw.2.2.1
    exact generate_ok gpu cfg _ s2 (by have := hw.2.2.1; omega) g4 (SieveData.wf_target hw)
  unfold sieveStep
  by_cases hd : tick.ckptDue = true
  · rw [if_pos hd]
    rcases checkpointBlock_outcome gpu cfg tick s with h | h | ⟨s1, h⟩
    · rw [h]; exact Or.inl rfl
    · rw [h]; exact Or.inr (Or.inl rfl)
    · rw [h]
      obtain ⟨s3, h3⟩ := hgen s1 (checkpointBlock_currp h).1
      simp only []
      rw [h3]
      exact Or.inr (Or.inr ⟨_, rfl⟩)
  · rw [if_neg hd]
    obtain ⟨s3, h3⟩ := hgen s rfl
    simp only []
    rw [h3]
    exact Or.inr (Or.inr ⟨_, rfl⟩)

/-- Running the loop for `n + k` iterations is running it for `n` and then for `k` more. -/
theorem sieveLoop_add {G : Type} (gpu : Gpu G) (cfg : SieveData) (ticks : Nat → Tick) (k : Nat) :
    ∀ (n : Nat) (s : SieveState G),
      sieveLoop gpu cfg ticks (n + k) s
        = match sieveLoop gpu cfg ticks n s with
          | .error e => .error e
          | .ok s1 => sieveLoop gpu cfg ticks k s1 := by
  intro n
  induction n with
  | zero => intro s; rw [Nat.zero_add]; rfl
  | succ n ih =>
    intro s
    have e : n + 1 + k = (n + k) + 1 := by omega
    rw [e]
    simp only [sieveLoop]
    by_cases hc : s.st.currp ≤ cfg.maxtarget
    · simp only [if_pos hc]
      cases hs : sieveStep gpu cfg (ticks s.iterations) s with
      | error e => rfl
      | ok s1 => exact ih s1
    · simp only [if_neg hc]
      cases k with
      | zero => rfl
      | succ k => simp only [sieveLoop, if_neg hc]

/-- The cursor never decreases and stays in `[2, maxtarget + 1]`. -/
theorem sieveLoop_cursor {G : Type} (gpu : Gpu G) (cfg : SieveData) (ticks : Nat → Tick)
    (hw : cfg.wf) : ∀ (n : Nat) (s s1 : SieveState G), 2 ≤ s.st.currp →
      s.st.currp ≤ cfg.maxtarget + 1 → sieveLoop gpu cfg ticks n s = .ok s1 →
      s.st.currp ≤ s1.st.currp ∧ s1.st.currp ≤ cfg.maxtarget + 1 ∧
      s.iterations ≤ s1.iterations ∧
      (s1.iterations - s.iterations) ≤ s1.st.currp - s.st.currp := by
  intro n
  induction n with
  | zero =>
    intro s s1 h2 hm h
    rw [sieveLoop] at h
    simp only [Except.ok.injEq] at h
    subst h
    exact ⟨le_refl _, hm, le_refl _, by omega⟩
  | succ n ih =>
    intro s s1 h2 hm h
    rw [sieveLoop] at h
    by_cases hc : s.st.currp ≤ cfg.maxtarget
    · rw [if_pos hc] at h
      cases hs : sieveStep gpu cfg (ticks s.iterations) s with
      | error e => rw [hs] at h; exact absurd h (by simp)
      | ok s2 =>
        rw [hs] at h
        simp only [] at h
        obtain ⟨e1, e2⟩ := sieveStep_currp hs
        obtain ⟨g1, g2, -⟩ := getPrimes_spec cfg.range cfg.maxtarget s.st.currp h2 hc
          hw.1 hw.2.1 hw.2.2.1
        obtain ⟨a1, a2, a3, a4⟩ := ih s2 s1 (by omega) (by omega) h
        exact ⟨by omega, a2, by omega, by omega⟩
    · rw [if_neg hc] at h
      simp only [Except.ok.injEq] at h
      subst h
      exact ⟨le_refl _, hm, le_refl _, by omega⟩

/-- With fuel for the distance to `maxtarget + 1` the loop comes to its end: one of the two
exits of `getDataFromGPU`, or the cursor at `maxtarget + 1`. -/
theorem sieveLoop_end {G : Type} (gpu : Gpu G) (cfg : SieveData) (ticks : Nat → Tick)
    (hw : cfg.wf) : ∀ (n : Nat) (s : SieveState G), 2 ≤ s.st.currp →
      s.st.currp ≤ cfg.maxtarget + 1 → cfg.maxtarget + 1 - s.st.currp ≤ n →
      sieveLoop gpu cfg ticks n s = .error SieveStop.primeArrayOverflow ∨
      sieveLoop gpu cfg ticks n s = .error SieveStop.localMemoryOverflow ∨
      ∃ s1, sieveLoop gpu cfg ticks n s = .ok s1 ∧ s1.st.currp = cfg.maxtarget + 1 := by
  intro n
  induction n with
  | zero =>
    intro s h2 hm hn
    exact Or.inr (Or.inr ⟨s, rfl, by omega⟩)
  | succ n ih =>
    intro s h2 hm hn
    rw [sieveLoop]
    by_cases hc : s.st.currp ≤ cfg.maxtarget
    · rw [if_pos hc]
      rcases sieveStep_outcome gpu cfg (ticks s.iterations) s hw h2 hc with h | h | ⟨s2, h⟩
      · rw [h]; exact Or.inl rfl
      · rw [h]; exact Or.inr (Or.inl rfl)
      · rw [h]
        simp only []
        obtain ⟨e1, e2⟩ := sieveStep_currp h
        obtain ⟨g1, g2, -⟩ := getPrimes_spec cfg.range cfg.maxtarget s.st.currp h2 hc
          hw.1 hw.2.1 hw.2.2.1
        exact ih s2 (by omega) (by omega) (by omega)
    · rw [if_neg hc]
      exact Or.inr (Or.inr ⟨s, rfl, by omega⟩)

/-! ## The window and the end of the main loop -/

/-- C27: for every call of `getPrimes` in a scan with `2 <= currp <= maxtarget` and
`range >= 1`, the returned `stop` satisfies `currp < stop <= maxtarget + 1` and
`stop - currp <= range`, and the chunk does not straddle `0xFFFFFFFF`: `get32bitprimes` (and in
`multiply` the kernel `mulsmall`) is chosen exactly when `currp < 0xFFFFFFFF`, and then
`stop <= 0xFFFFFFFF`; otherwise `findWheelOffset` and `getsegprps` (and `mullarge`). Hence an
iteration of the main loop strictly increases the cursor, and the loop ends, unless
`getDataFromGPU` exits on an overflow flag of the device, with `currp = maxtarget + 1` after at
most `maxtarget - 1` iterations. -/
theorem C27_window_and_termination {G : Type} (gpu : Gpu G) (cfg : SieveData)
    (ticks : Nat → Tick) (s : SieveState G) (n : Nat) (hw : cfg.wf) (h2 : 2 ≤ s.st.currp)
    (hc : s.st.currp ≤ cfg.maxtarget) (hn : cfg.maxtarget + 1 - s.st.currp ≤ n) :
    (s.st.currp < getPrimes cfg.range cfg.maxtarget s.st.currp ∧
      getPrimes cfg.range cfg.maxtarget s.st.currp ≤ cfg.maxtarget + 1 ∧
      getPrimes cfg.range cfg.maxtarget s.st.currp - s.st.currp ≤ cfg.range) ∧
    (s.st.currp < 0xFFFFFFFF → getPrimes cfg.range cfg.maxtarget s.st.currp ≤ 0xFFFFFFFF) ∧
    (s.st.currp < 0xFFFFFFFF → ∃ seg s1,
      get32bitprimes 64 cfg.psize (getPrimes cfg.range cfg.maxtarget s.st.currp) cfg.tpcnt
        cfg.typeTarget s.host s.st.totalcount = some seg ∧
      generate gpu cfg (getPrimes cfg.range cfg.maxtarget s.st.currp) s = .ok s1 ∧
      s1.host = seg.host ∧ s1.pcount32 = seg.pcount32 ∧ s1.st.totalcount = seg.totalcount) ∧
    (¬ s.st.currp < 0xFFFFFFFF → ∃ start wheelidx,
      findWheelOffset 8 s.st.currp = some (start, wheelidx) ∧
      generate gpu cfg (getPrimes cfg.range cfg.maxtarget s.st.currp) s
        = .ok { s with gpu := (gpu.getsegprps start
            (getPrimes cfg.range cfg.maxtarget s.st.currp) wheelidx s.gpu) }) ∧
    (∀ i j, (s.st.currp < 0xFFFFFFFF →
        (multiply gpu cfg i j s).gpu = gpu.mulsmall i j (s.pcount32 j) s.gpu) ∧
      (¬ s.st.currp < 0xFFFFFFFF →
        (multiply gpu cfg i j s).gpu
          = gpu.mullarge i j (cfg.powerLimit j) (cfg.typeTarget j) s.gpu)) ∧
    (∀ tick s1, sieveStep gpu cfg tick s = .ok s1 →
      s.st.currp < s1.st.currp ∧ s1.st.currp = getPrimes cfg.range cfg.maxtarget s.st.currp) ∧
    (sieveLoop gpu cfg ticks n s = .error SieveStop.primeArrayOverflow ∨
      sieveLoop gpu cfg ticks n s = .error SieveStop.localMemoryOverflow ∨
      ∃ s1, sieveLoop gpu cfg ticks n s = .ok s1 ∧ s1.st.currp = cfg.maxtarget + 1 ∧
        cfg.maxtarget < s1.st.currp ∧ s1.iterations - s.iterations ≤ cfg.maxtarget - 1) := by
  obtain ⟨g1, g2, g3, g4, -⟩ := getPrimes_spec cfg.range cfg.maxtarget s.st.currp h2 hc
    hw.1 hw.2.1 hw.2.2.1
  refine ⟨⟨g1, g2, g3⟩, g4, ?_, ?_, ?_, ?_, ?_⟩
  · intro h32
    obtain ⟨seg, hseg, -⟩ := get32bitprimes_some cfg.psize
      (getPrimes cfg.range cfg.maxtarget s.st.currp) cfg.tpcnt cfg.typeTarget
      s.host s.st.totalcount (by have := g4 h32; omega) (SieveData.wf_target hw)
    unfold generate
    rw [if_pos h32, hseg]
    exact ⟨seg, _, rfl, rfl, rfl, rfl, rfl⟩
  · intro h32
    obtain ⟨⟨a, b⟩, hr⟩ := findWheelOffset_returns 8 s.st.currp (le_refl _)
      (by have := hw.2.2.1; omega)
    refine ⟨a, b, hr, ?_⟩
    unfold generate
    rw [if_neg h32, hr]
  · intro i j
    unfold multiply
    constructor
    · intro h; rw [if_pos h]
    · intro h; rw [if_neg h]
  · intro tick s1 h
    obtain ⟨e1, -⟩ := sieveStep_currp h
    exact ⟨by omega, e1⟩
  · rcases sieveLoop_end gpu cfg ticks hw n s h2 (by omega) hn with h | h | ⟨s1, h, hcur⟩
    · exact Or.inl h
    · exact Or.inr (Or.inl h)
    · obtain ⟨a1, a2, a3, a4⟩ := sieveLoop_cursor gpu cfg ticks hw n s s1 h2 (by omega) h
      exact Or.inr (Or.inr ⟨s1, h, hcur, by omega, by omega⟩)

theorem cfg101_wf : cfg101.wf := by
  refine ⟨by decide, by decide, by decide, by decide⟩

/-- Witness of C27: the run on `[101, 102)` with `sd.range = 23` has the windows `[2, 25)` and
`[25, 26)`; its loop ends after 2 iterations with `currp = 26 = maxtarget + 1`. -/
theorem C27_window_and_termination_witness :
    (cfg101.wf ∧ 2 ≤ start101.st.currp ∧ start101.st.currp ≤ cfg101.maxtarget ∧
      cfg101.maxtarget + 1 - start101.st.currp ≤ 24) ∧
    getPrimes cfg101.range cfg101.maxtarget 2 = 25 ∧
    getPrimes cfg101.range cfg101.maxtarget 25 = 26 ∧
    (match sieveLoop idleGpu cfg101 noCheckpoint 24 start101 with
      | .ok s1 => some (s1.st.currp, s1.iterations, s1.st.totalcount)
      | .error _ => none) = some (26, 2, 9) ∧
    (sieveLoop idleGpu cfg101 noCheckpoint 24 start101 = .error SieveStop.primeArrayOverflow ∨
      sieveLoop idleGpu cfg101 noCheckpoint 24 start101 = .error SieveStop.localMemoryOverflow ∨
      ∃ s1, sieveLoop idleGpu cfg101 noCheckpoint 24 start101 = .ok s1 ∧
        s1.st.currp = cfg101.maxtarget + 1 ∧ cfg101.maxtarget < s1.st.currp ∧
        s1.iterations - start101.iterations ≤ cfg101.maxtarget - 1) :=
  ⟨⟨cfg101_wf, by decide, by decide, by decide⟩, by decide, by decide, by rfl,
    (C27_window_and_termination idleGpu cfg101 noCheckpoint start101 24 cfg101_wf (by decide)
      (by decide) (by decide)).2.2.2.2.2.2⟩

/-! ## The bounds of the cursor -/

theorem sieveFinish_st {G : Type} {gpu : Gpu G} {cfg : SieveData} {itergroups : Nat}
    {tick : Tick} {s s1 : SieveState G} (h : sieveFinish gpu cfg itergroups tick s = .ok s1) :
    s1.st.currp = s.st.currp ∧ s1.st.done = 1 := by
  unfold sieveFinish at h
  cases hg : getDataFromGPU gpu cfg.psize
      { drainQueue s with gpu := iterateAll gpu itergroups s.st.tpcount (drainQueue s).gpu } with
  | error e => rw [hg] at h; exact absurd h (by simp)
  | ok s2 =>
    rw [hg] at h
    simp only [Except.ok.injEq] at h
    subst h
    obtain ⟨h1, -⟩ := getDataFromGPU_currp hg
    constructor
    · rw [checkpoint_currp]
      show s2.st.currp = _
      rw [h1]
      show (drainQueue s).st.currp = _
      rw [drainQueue_st]
    · unfold checkpoint write_state handle_trickle_up
      dsimp only
      cases tick.now with
      | none => dsimp only; split_ifs <;> rfl
      | some t => dsimp only; split_ifs <;> rfl

/-- C22, as stated, fails: the loop is left with `currp = maxtarget + 1`, which is the value
that the checkpoint of the finalization holds. In the run on `[101, 102)` with `sd.range = 23`
the cursor ends at `26` while `maxtarget = 25`. And `read_state` does not look at the `currp`
of a replica: one with `currp = 0` and the right checksum is loaded. -/
theorem C22_cursor_past_maxtarget :
    cfg101.maxtarget = 25 ∧
    (match sieveLoop idleGpu cfg101 noCheckpoint 24 start101 with
      | .ok s1 =>
        (match sieveFinish idleGpu cfg101 10000 (noCheckpoint 0) s1 with
          | .ok s2 => some (s1.st.currp, s2.st.currp, s2.st.done)
          | .error _ => none)
      | .error _ => none) = some (26, 26, 1) ∧
    ¬ (26 ≤ cfg101.maxtarget) ∧
    (read_state true st101 [⟨0, 0⟩]
      ⟨some (checkpointBytes { st101 with currp := 0 } [⟨1, 0⟩]), none⟩).ret = 1 ∧
    (read_state true st101 [⟨0, 0⟩]
      ⟨some (checkpointBytes { st101 with currp := 0 } [⟨1, 0⟩]), none⟩).st.currp = 0 := by
  refine ⟨rfl, by rfl, by decide, by decide, by decide⟩

/-- C22 (amended): throughout the main loop of `cl_sieve` the cursor `currp` never decreases and
stays in `[2, maxtarget + 1]`, from `setupSearch` (`currp = 2`) or from a loaded checkpoint whose
`currp` lies in that interval, up to the state that the finalization writes, which has the
`currp` with which the loop ended. -/
theorem C22_cursor_bounds {G : Type} (gpu : Gpu G) (cfg : SieveData) (ticks : Nat → Tick)
    (s0 s1 s2 : SieveState G) (n m : Nat) (hw : cfg.wf) (h2 : 2 ≤ s0.st.currp)
    (hm : s0.st.currp ≤ cfg.maxtarget + 1)
    (h1 : sieveLoop gpu cfg ticks n s0 = .ok s1)
    (h12 : sieveLoop gpu cfg ticks (n + m) s0 = .ok s2) :
    (∀ st st1, setupSearch st = some st1 → st1.currp = 2) ∧
    2 ≤ s1.st.currp ∧ s0.st.currp ≤ s1.st.currp ∧ s1.st.currp ≤ s2.st.currp ∧
    s2.st.currp ≤ cfg.maxtarget + 1 ∧
    ∀ itergroups tick s3, sieveFinish gpu cfg itergroups tick s2 = .ok s3 →
      s3.st.currp = s2.st.currp ∧ s3.st.done = 1 := by
  obtain ⟨a1, a2, -⟩ := sieveLoop_cursor gpu cfg ticks hw n s0 s1 h2 hm h1
  rw [sieveLoop_add, h1] at h12
  simp only [] at h12
  obtain ⟨b1, b2, -⟩ := sieveLoop_cursor gpu cfg ticks hw m s1 s2 (by omega) a2 h12
  refine ⟨?_, by omega, a1, b1, b2, fun itergroups tick s3 h => sieveFinish_st h⟩
  intro st st1 h
  unfold setupSearch at h
  split_ifs at h
  simp only [Option.some.injEq] at h
  rw [← h]

/-- Witness of C22 (amended) on the run on `[101, 102)`: after one iteration the cursor is 25,
after two it is 26. -/
theorem C22_cursor_bounds_witness :
    (cfg101.wf ∧ 2 ≤ start101.st.currp ∧ start101.st.currp ≤ cfg101.maxtarget + 1) ∧
    (match sieveLoop idleGpu cfg101 noCheckpoint 1 start101,
        sieveLoop idleGpu cfg101 noCheckpoint (1 + 1) start101 with
      | .ok s1, .ok s2 => some (s1.st.currp, s2.st.currp)
      | _, _ => none) = some (25, 26) ∧
    ∀ s1 s2, sieveLoop idleGpu cfg101 noCheckpoint 1 start101 = .ok s1 →
      sieveLoop idleGpu cfg101 noCheckpoint (1 + 1) start101 = .ok s2 →
      2 ≤ s1.st.currp ∧ s1.st.currp ≤ s2.st.currp ∧ s2.st.currp ≤ cfg101.maxtarget + 1 :=
  ⟨⟨cfg101_wf, by decide, by decide⟩, by rfl, fun s1 s2 h1 h2 =>
    have h := C22_cursor_bounds idleGpu cfg101 noCheckpoint start101 s1 s2 1 1 cfg101_wf
      (by decide) (by decide) h1 h2
    ⟨h.2.1, h.2.2.2.1, h.2.2.2.2.1⟩⟩

/-! ## The throttle of the command queue -/

theorem queueReplay_append : ∀ (q1 q2 : List QueueEvent) (r : Nat × List Nat),
    queueReplay (q1 ++ q2) r
      = match queueReplay q1 r with
        | none => none
        | some r1 => queueReplay q2 r1 := by
  intro q1
  induction q1 with
  | nil => intro q2 r; rfl
  | cons x rest ih =>
    intro q2 r
    cases x with
    | enqueueEvent e =>
      simp only [List.cons_append, queueReplay]
      split_ifs
      · exact ih _ _
      · rfl
    | enqueue =>
      simp only [List.cons_append, queueReplay]
      exact ih _ _
    | wait e =>
      cases e with
      | none => simp only [List.cons_append, queueReplay]
      | some e =>
        simp only [List.cons_append, queueReplay]
        split_ifs
        · exact ih _ _
        · rfl

/-- One submission of `reduce`: what it does to `kernelq`, to the events and to the log. -/
theorem submitReduce_spec {G : Type} (gpu : Gpu G) (tpnum : Nat) (s : SieveState G)
    (hq : s.kernelq < 100) :
    (submitReduce gpu tpnum s).kernelq = (if s.kernelq + 1 = 100 then 0 else s.kernelq + 1) ∧
    (submitReduce gpu tpnum s).created = (if s.kernelq = 0 then s.created + 1 else s.created) ∧
    (submitReduce gpu tpnum s).launchEvent
      = (if s.kernelq = 0 then some s.created else s.launchEvent) ∧
    (submitReduce gpu tpnum s).queue
      = s.queue
        ++ [if s.kernelq = 0 then QueueEvent.enqueueEvent s.created else QueueEvent.enqueue]
        ++ (if s.kernelq + 1 = 100 then [QueueEvent.wait s.launchEvent] else []) := by
  have hu : u32 (s.kernelq + 1) = s.kernelq + 1 := Nat.mod_eq_of_lt (by omega)
  unfold submitReduce waitOnEvent
  dsimp only
  by_cases h0 : s.kernelq = 0
  · simp only [if_pos h0]
    rw [h0]
    simp [u32]
  · simp only [if_neg h0]
    rw [hu]
    by_cases h100 : s.kernelq + 1 = 100
    · simp only [if_pos h100]
      simp
    · simp only [if_neg h100]
      simp

/-- The invariant of the throttle only looks at `kernelq`, the events and the log. -/
theorem QueueInv_congr {G : Type} {s s1 : SieveState G} (h : QueueInv s)
    (h1 : s1.kernelq = s.kernelq) (h2 : s1.launchEvent = s.launchEvent)
    (h3 : s1.created = s.created) (h4 : s1.queue = s.queue) : QueueInv s1 := by
  unfold QueueInv at h ⊢
  rw [h1, h2, h3, h4]
  exact h

theorem submitReduce_inv {G : Type} (gpu : Gpu G) (tpnum : Nat) (s : SieveState G)
    (h : QueueInv s) : QueueInv (submitReduce gpu tpnum s) := by
  obtain ⟨hq, h0, h1⟩ := h
  obtain ⟨e1, e2, e3, e4⟩ := submitReduce_spec gpu tpnum s hq
  unfold QueueInv
  rw [e1, e2, e3, e4]
  by_cases hz : s.kernelq = 0
  · have hrep := h0 hz
    simp only [hz, if_true, Nat.zero_add, OfNat.one_ne_ofNat, if_false, List.append_nil]
    refine ⟨by norm_num, fun h => absurd h (by norm_num), fun _ => ⟨s.created, rfl, rfl, ?_⟩⟩
    rw [queueReplay_append, hrep]
    simp [queueReplay]
  · obtain ⟨e, he1, he2, hrep⟩ := h1 hz
    simp only [if_neg hz]
    by_cases h100 : s.kernelq + 1 = 100
    · simp only [if_pos h100]
      refine ⟨by norm_num, fun _ => ?_, fun h => absurd rfl h⟩
      rw [queueReplay_append, queueReplay_append, hrep, he1]
      simp [queueReplay]
    · simp only [if_neg h100, List.append_nil]
      refine ⟨by omega, fun h => by omega, fun _ => ⟨e, he1, he2, ?_⟩⟩
      rw [queueReplay_append, hrep]
      simp [queueReplay]

theorem drainQueue_inv {G : Type} (s : SieveState G) (h : QueueInv s) :
    QueueInv (drainQueue s) ∧ (drainQueue s).kernelq = 0 ∧
    (drainQueue s).created = s.created := by
  obtain ⟨hq, h0, h1⟩ := h
  unfold drainQueue waitOnEvent
  by_cases hz : s.kernelq = 0
  · rw [if_neg (by omega)]
    exact ⟨⟨hq, h0, h1⟩, hz, rfl⟩
  · rw [if_pos (by omega)]
    obtain ⟨e, he1, he2, hrep⟩ := h1 hz
    refine ⟨⟨by norm_num, fun _ => ?_, fun h => absurd rfl h⟩, rfl, rfl⟩
    show queueReplay (s.queue ++ [QueueEvent.wait s.launchEvent]) (0, []) = _
    rw [queueReplay_append, hrep, he1]
    simp [queueReplay]

theorem typePass_inv {G : Type} (gpu : Gpu G) (cfg : SieveData) (j : Nat) :
    ∀ (l : List testPrime) (i : Nat) (s : SieveState G), QueueInv s →
      QueueInv (typePass gpu cfg j l i s) := by
  intro l
  induction l with
  | nil => intro i s h; exact h
  | cons t rest ih =>
    intro i s h
    rw [typePass]
    split_ifs
    · exact ih _ _ h
    · exact ih _ _ h
    · apply ih
      apply submitReduce_inv
      obtain ⟨-, -, -, -, c5, c6, c7, c8⟩ := multiply_st gpu cfg i j s
      exact QueueInv_congr h c5 c6 c7 c8

theorem multiplyAll_inv {G : Type} (gpu : Gpu G) (cfg : SieveData) (s : SieveState G)
    (h : QueueInv s) : QueueInv (multiplyAll gpu cfg s) := by
  unfold multiplyAll
  exact typePass_inv gpu cfg 2 _ _ _ (typePass_inv gpu cfg 1 _ _ _ (typePass_inv gpu cfg 0 _ _ _ h))

theorem checkpointBlock_inv {G : Type} {gpu : Gpu G} {cfg : SieveData} {tick : Tick}
    {s s1 : SieveState G} (hinv : QueueInv s) (h : checkpointBlock gpu cfg tick s = .ok s1) :
    QueueInv s1 ∧ s1.kernelq = 0 := by
  unfold checkpointBlock at h
  cases hg : getDataFromGPU gpu cfg.psize (drainQueue s) with
  | error e => rw [hg] at h; exact absurd h (by simp)
  | ok s2 =>
    rw [hg] at h
    simp only [Except.ok.injEq] at h
    subst h
    obtain ⟨-, -, -, g4, g5, g6, g7⟩ := getDataFromGPU_currp hg
    obtain ⟨d1, d2, -⟩ := drainQueue_inv s hinv
    have hs2 : QueueInv s2 := QueueInv_congr d1 g4 g5 g6 g7
    exact ⟨QueueInv_congr hs2 rfl rfl rfl rfl, by show s2.kernelq = 0; rw [g4, d2]⟩

theorem sieveStep_inv {G : Type} {gpu : Gpu G} {cfg : SieveData} {tick : Tick}
    {s s1 : SieveState G} (hinv : QueueInv s) (h : sieveStep gpu cfg tick s = .ok s1) :
    QueueInv s1 := by
  unfold sieveStep at h
  cases hc : (if tick.ckptDue then checkpointBlock gpu cfg tick s else .ok s) with
  | error e => rw [hc] at h; exact absurd h (by simp)
  | ok s2 =>
    rw [hc] at h
    simp only [] at h
    have hs2 : QueueInv s2 := by
      by_cases hd : tick.ckptDue = true
      · rw [if_pos hd] at hc
        exact (checkpointBlock_inv hinv hc).1
      · rw [if_neg hd] at hc
        simp only [Except.ok.injEq] at hc
        subst hc
        exact hinv
    cases hg : generate gpu cfg (getPrimes cfg.range cfg.maxtarget s2.st.currp) s2 with
    | error e => rw [hg] at h; exact absurd h (by simp)
    | ok s3 =>
      rw [hg] at h
      simp only [Except.ok.injEq] at h
      subst h
      obtain ⟨-, -, g3, g4, g5, g6⟩ := generate_currp hg
      have hs3 : QueueInv s3 := QueueInv_congr hs2 g3 g4 g5 g6
      exact QueueInv_congr (multiplyAll_inv gpu cfg s3 hs3) rfl rfl rfl rfl

theorem sieveLoop_inv {G : Type} (gpu : Gpu G) (cfg : SieveData) (ticks : Nat → Tick) :
    ∀ (n : Nat) (s s1 : SieveState G), QueueInv s → sieveLoop gpu cfg ticks n s = .ok s1 →
      QueueInv s1 := by
  intro n
  induction n with
  | zero =>
    intro s s1 hinv h
    rw [sieveLoop] at h
    simp only [Except.ok.injEq] at h
    subst h
    exact hinv
  | succ n ih =>
    intro s s1 hinv h
    rw [sieveLoop] at h
    by_cases hc : s.st.currp ≤ cfg.maxtarget
    · rw [if_pos hc] at h
      cases hs : sieveStep gpu cfg (ticks s.iterations) s with
      | error e => rw [hs] at h; exact absurd h (by simp)
      | ok s2 =>
        rw [hs] at h
        exact ih s2 s1 (sieveStep_inv hinv hs) h
    · rw [if_neg hc] at h
      simp only [Except.ok.injEq] at h
      subst h
      exact hinv

theorem sieveFinish_inv {G : Type} {gpu : Gpu G} {cfg : SieveData} {itergroups : Nat}
    {tick : Tick} {s s1 : SieveState G} (hinv : QueueInv s)
    (h : sieveFinish gpu cfg itergroups tick s = .ok s1) :
    s1.kernelq = 0 ∧ queueReplay s1.queue (0, []) = some (s1.created, []) := by
  unfold sieveFinish at h
  cases hg : getDataFromGPU gpu cfg.psize
      { drainQueue s with gpu := iterateAll gpu itergroups s.st.tpcount (drainQueue s).gpu } with
  | error e => rw [hg] at h; exact absurd h (by simp)
  | ok s2 =>
    rw [hg] at h
    simp only [Except.ok.injEq] at h
    subst h
    obtain ⟨-, -, -, g4, g5, g6, g7⟩ := getDataFromGPU_currp hg
    obtain ⟨d1, d2, -⟩ := drainQueue_inv s hinv
    have hs2 : QueueInv s2 := QueueInv_congr d1 g4 g5 g6 g7
    have hk : s2.kernelq = 0 := by rw [g4]; exact d2
    exact ⟨hk, hs2.2.1 hk⟩

theorem sieveStart_inv {G : Type} (st : workStatus) (flag : Bool) (store : Store)
    (residues : List cl_ulong2) (smprime0 : Nat → Nat) (smpower0 : Nat → Nat × Nat) (g : G) :
    QueueInv (sieveStart st flag store residues smprime0 smpower0 g) :=
  ⟨by show 0 < 100; norm_num, fun _ => rfl, fun h => absurd rfl h⟩

/-- What a log that replays says about the events: each event number between the two counts is
created once, the creations and the waits balance with the outstanding events, and there is no
`waitOnEvent` on `NULL`. -/
theorem queueReplay_count : ∀ (q : List QueueEvent) (c0 : Nat) (out0 : List Nat) (c1 : Nat)
    (out1 : List Nat), queueReplay q (c0, out0) = some (c1, out1) → out0.Nodup →
    (∀ e ∈ out0, e < c0) →
    out1.Nodup ∧ (∀ e ∈ out1, e < c1) ∧ c0 ≤ c1 ∧
    (∀ e, q.count (QueueEvent.enqueueEvent e) = if c0 ≤ e ∧ e < c1 then 1 else 0) ∧
    (∀ e, out0.count e + q.count (QueueEvent.enqueueEvent e)
      = q.count (QueueEvent.wait (some e)) + out1.count e) ∧
    q.count (QueueEvent.wait none) = 0 := by
  intro q
  induction q with
  | nil =>
    intro c0 out0 c1 out1 h hnd hlt
    simp only [queueReplay, Option.some.injEq, Prod.mk.injEq] at h
    obtain ⟨rfl, rfl⟩ := h
    refine ⟨hnd, hlt, le_refl _, fun e => ?_, fun e => by simp, by simp⟩
    rw [if_neg (by omega)]
    simp
  | cons x rest ih =>
    intro c0 out0 c1 out1 h hnd hlt
    cases x with
    | enqueueEvent x =>
      simp only [queueReplay] at h
      by_cases hx : x = c0
      · rw [if_pos hx] at h
        subst hx
        have hnotin : x ∉ out0 := fun hm => by have := hlt x hm; omega
        obtain ⟨a1, a2, a3, a4, a5, a6⟩ := ih (x + 1) (out0 ++ [x]) c1 out1 h
          (by
            rw [List.nodup_append]
            refine ⟨hnd, List.nodup_singleton x, ?_⟩
            intro a ha hb
            rw [List.mem_singleton] at hb
            exact hnotin (hb ▸ ha))
          (by
            intro e he
            rcases List.mem_append.1 he with h1 | h1
            · have := hlt e h1; omega
            · rw [List.mem_singleton] at h1; omega)
        refine ⟨a1, a2, by omega, fun e => ?_, fun e => ?_, ?_⟩
        · rw [List.count_cons, a4 e]
          by_cases hex : e = x
          · subst hex
            have hlt1 : e < c1 := by omega
            simp [hlt1]
          · have hne : ¬ (QueueEvent.enqueueEvent x = QueueEvent.enqueueEvent e) := by
              intro hcon; injection hcon with hcon; exact hex hcon.symm
            simp only [beq_iff_eq, hne, if_false, Nat.add_zero]
            by_cases hc : x + 1 ≤ e ∧ e < c1
            · rw [if_pos hc, if_pos ⟨by omega, hc.2⟩]
            · rw [if_neg hc, if_neg (by omega)]
        · have h5 := a5 e
          rw [List.count_append, List.count_cons, List.count_nil] at h5
          rw [List.count_cons, List.count_cons]
          by_cases hex : e = x
          · subst hex
            simp at h5 ⊢
            omega
          · have hne : ¬ (QueueEvent.enqueueEvent x = QueueEvent.enqueueEvent e) := by
              intro hcon; injection hcon with hcon; exact hex hcon.symm
            have hne2 : ¬ (x = e) := fun hcon => hex hcon.symm
            simp [hne, hne2] at h5 ⊢
            omega
        · rw [List.count_cons, a6]
          simp
      · rw [if_neg hx] at h
        exact absurd h (by simp)
    | enqueue =>
      simp only [queueReplay] at h
      obtain ⟨a1, a2, a3, a4, a5, a6⟩ := ih c0 out0 c1 out1 h hnd hlt
      refine ⟨a1, a2, a3, fun e => ?_, fun e => ?_, ?_⟩
      · rw [List.count_cons, a4 e]; simp
      · rw [List.count_cons, List.count_cons]; simpa using a5 e
      · rw [List.count_cons, a6]; simp
    | wait w =>
      cases w with
      | none => simp only [queueReplay] at h; exact absurd h (by simp)
      | some x =>
        simp only [queueReplay] at h
        by_cases hx : x ∈ out0
        · rw [if_pos hx] at h
          obtain ⟨a1, a2, a3, a4, a5, a6⟩ := ih c0 (out0.erase x) c1 out1 h
            (hnd.erase x) (fun e he => hlt e (List.mem_of_mem_erase he))
          refine ⟨a1, a2, a3, fun e => ?_, fun e => ?_, ?_⟩
          · rw [List.count_cons, a4 e]; simp
          · have h5 := a5 e
            rw [List.count_cons, List.count_cons]
            by_cases hex : e = x
            · subst hex
              have hc1 : out0.count e = 1 := List.count_eq_one_of_mem hnd hx
              have hc0 : (out0.erase e).count e = 0 := by
                rw [List.count_eq_zero]
                exact fun hm => (List.Nodup.mem_erase_iff hnd).1 hm |>.1 rfl
              simp at h5 ⊢
              omega
            · have hce : (out0.erase x).count e = out0.count e := by
                rw [List.count_erase_of_ne hex]
              have hne2 : ¬ (x = e) := fun hcon => hex hcon.symm
              simp [hne2] at h5 ⊢
              omega
          · rw [List.count_cons, a6]; simp
        · rw [if_neg hx] at h
          exact absurd h (by simp)

/-- C28: in the main loop of `cl_sieve`, entered with `kernelq = 0`, the counter `kernelq` is
between 0 and 99 between two steps; a submission of `reduce` increments it once and resets it to
0, with a wait, exactly when it reaches `maxq = 100`; the submission creates a completion event
exactly when it finds `kernelq = 0`; the checkpoint block leaves `kernelq = 0`; every call of
`waitOnEvent` is on an outstanding event (the log replays, with an event outstanding exactly when
`kernelq > 0`); and after the loop is left and drained, `kernelq = 0` and every event that was
created has been waited for exactly once. -/
theorem C28_throttle {G : Type} (gpu : Gpu G) (cfg : SieveData) (ticks : Nat → Tick)
    (st : workStatus) (flag : Bool) (store : Store) (residues : List cl_ulong2)
    (smprime0 : Nat → Nat) (smpower0 : Nat → Nat × Nat) (g : G) (n : Nat) (s1 : SieveState G)
    (h : sieveLoop gpu cfg ticks n (sieveStart st flag store residues smprime0 smpower0 g)
      = .ok s1) :
    s1.kernelq ≤ 99 ∧
    (∀ tpnum,
      (submitReduce gpu tpnum s1).kernelq = (if s1.kernelq + 1 = 100 then 0 else s1.kernelq + 1) ∧
      (submitReduce gpu tpnum s1).created
        = (if s1.kernelq = 0 then s1.created + 1 else s1.created) ∧
      (submitReduce gpu tpnum s1).queue
        = s1.queue
          ++ [if s1.kernelq = 0 then QueueEvent.enqueueEvent s1.created else QueueEvent.enqueue]
          ++ (if s1.kernelq + 1 = 100 then [QueueEvent.wait s1.launchEvent] else [])) ∧
    (∀ tick s2, checkpointBlock gpu cfg tick s1 = .ok s2 → s2.kernelq = 0) ∧
    (∃ out, queueReplay s1.queue (0, []) = some (s1.created, out) ∧
      (s1.kernelq = 0 → out = []) ∧
      (s1.kernelq ≠ 0 → ∃ e, s1.launchEvent = some e ∧ out = [e])) ∧
    (∀ itergroups tick s2, sieveFinish gpu cfg itergroups tick s1 = .ok s2 →
      s2.kernelq = 0 ∧ queueReplay s2.queue (0, []) = some (s2.created, []) ∧
      s2.queue.count (QueueEvent.wait none) = 0 ∧
      ∀ e, s2.queue.count (QueueEvent.enqueueEvent e) = (if e < s2.created then 1 else 0) ∧
        s2.queue.count (QueueEvent.wait (some e)) = s2.queue.count (QueueEvent.enqueueEvent e)) := by
  have hinv : QueueInv s1 :=
    sieveLoop_inv gpu cfg ticks n _ s1
      (sieveStart_inv st flag store residues smprime0 smpower0 g) h
  obtain ⟨hq, h0, h1⟩ := hinv
  refine ⟨by omega, fun tpnum => ?_, fun tick s2 hc => (checkpointBlock_inv ⟨hq, h0, h1⟩ hc).2,
    ?_, fun itergroups tick s2 hf => ?_⟩
  · obtain ⟨e1, e2, -, e4⟩ := submitReduce_spec gpu tpnum s1 hq
    exact ⟨e1, e2, e4⟩
  · by_cases hz : s1.kernelq = 0
    · exact ⟨[], h0 hz, fun _ => rfl, fun hne => absurd hz hne⟩
    · obtain ⟨e, he1, he2, hrep⟩ := h1 hz
      exact ⟨[e], hrep, fun hz0 => absurd hz0 hz, fun _ => ⟨e, he1, rfl⟩⟩
  · obtain ⟨f1, f2⟩ := sieveFinish_inv ⟨hq, h0, h1⟩ hf
    obtain ⟨-, -, -, c4, c5, c6⟩ := queueReplay_count s2.queue 0 [] s2.created [] f2
      List.nodup_nil (fun e he => absurd he (List.not_mem_nil e))
    refine ⟨f1, f2, c6, fun e => ⟨?_, ?_⟩⟩
    · rw [c4 e]
      simp
    · have := c5 e
      simp only [List.count_nil, Nat.zero_add, Nat.add_zero] at this
      exact this.symm

/-- Witness of C28: the run on `[101, 102)` with `sd.range = 23` submits two `reduce` kernels,
the first with the event 0, and leaves the loop with `kernelq = 2`; the finalization waits for
the event 0. A submission that finds `kernelq = 99` waits and resets the counter. -/
theorem C28_throttle_witness :
    sieveLoop idleGpu cfg101 noCheckpoint 24
      (sieveStart st101 true ⟨none, none⟩ [⟨0, 0⟩] (fun _ => 0) (fun _ => (0, 0)) ())
      = .ok final101 ∧
    final101.kernelq = 2 ∧
    final101.queue = [QueueEvent.enqueueEvent 0, QueueEvent.enqueue] ∧
    (match sieveFinish idleGpu cfg101 10000 (noCheckpoint 0) final101 with
      | .ok s2 => some (s2.kernelq, s2.queue)
      | .error _ => none)
      = some (0, [QueueEvent.enqueueEvent 0, QueueEvent.enqueue, QueueEvent.wait (some 0)]) ∧
    (submitReduce idleGpu 0 queued99).kernelq = 0 ∧
    (submitReduce idleGpu 0 queued99).queue
      = [QueueEvent.enqueueEvent 0, QueueEvent.enqueue, QueueEvent.wait (some 0)] ∧
    final101.kernelq ≤ 99 ∧
    ∃ out, queueReplay final101.queue (0, []) = some (final101.created, out) ∧
      (final101.kernelq ≠ 0 → ∃ e, final101.launchEvent = some e ∧ out = [e]) :=
  have h : sieveLoop idleGpu cfg101 noCheckpoint 24
      (sieveStart st101 true ⟨none, none⟩ [⟨0, 0⟩] (fun _ => 0) (fun _ => (0, 0)) ())
      = .ok final101 := by rfl
  have hc := C28_throttle idleGpu cfg101 noCheckpoint st101 true ⟨none, none⟩ [⟨0, 0⟩]
    (fun _ => 0) (fun _ => (0, 0)) () 24 final101 h
  ⟨h, by rfl, by rfl, by rfl, by rfl, by rfl, hc.1,
    hc.2.2.2.1.elim fun out ho => ⟨out, ho.1, ho.2.2⟩⟩

/-! ## The windows of a scan below `2^32` -/

/-- The windows of a scan fit when the array has room for a chunk. -/
theorem WindowsFit_of_range_le (cfg : SieveData) (hw : cfg.wf) (h : cfg.range ≤ cfg.psize) :
    WindowsFit cfg := by
  intro k hk
  obtain ⟨g1, g2, g3, -⟩ := getPrimes_spec cfg.range cfg.maxtarget (2 + k * cfg.range)
    (by omega) hk hw.1 hw.2.1 hw.2.2.1
  unfold primesieve_generate_primes
  refine le_trans (List.length_filter_le _ _) ?_
  rw [List.length_map, List.length_range]
  omega

set_option maxRecDepth 1000000 in
/-- C23, failing inputs, on the reference device. (1) The run on `[101, 102)` with
`sd.range = 23`: a checkpoint is taken at the cursor 25, before the window `[25, 26)`, which
holds no prime. The uninterrupted run sends the entry `(2, 22)` left in `smprime[0]`,
`smpower[0]` once more, its residue is `25! * 2^22 mod 101^2 = 9703` and `processResult` exits
on the Wilson check. The run resumed from that checkpoint has freshly allocated arrays (read
here as zeros, or as values above the target), keeps the residue `25! mod 101^2 = 6712` and
reports the near-Wilson result `101 -29` with checksum 173. (2) The same range with
`sd.range = 8` and `sd.psize = 3`: the first window `[2, 10)` holds four primes, so the prime 7
is delivered in the second window. The uninterrupted run reports `101 -29`; the run resumed
from the checkpoint at the cursor 10 positions its iterator at 10, never multiplies by 7 and
exits on the Wilson check. -/
theorem C23_resume_diverges :
    ((interrupted101 cfg101).map (fun s =>
      (s.iterations, (read_state true st101 [⟨0, 0⟩] s.store).ret,
        (read_state true st101 [⟨0, 0⟩] s.store).st.currp,
        (read_state true st101 [⟨0, 0⟩] s.store).residues))) = some (2, 1, 25, [⟨46, 66⟩]) ∧
    101 * 66 + 46 = Nat.factorial 25 % (101 * 101) ∧
    (Nat.factorial 25 * 2 ^ 22) % (101 * 101) = 9703 ∧
    uninterrupted101 cfg101 = some (.inl (Fatal.wilsonCheck 101 1 10)) ∧
    resumed101 cfg101 (fun _ => 0) = some (.inr (173, 1, [ResultLine.nearWilson 101 (-29)])) ∧
    resumed101 cfg101 (fun _ => 2 ^ 64 - 1)
      = some (.inr (173, 1, [ResultLine.nearWilson 101 (-29)])) ∧
    ((interrupted101 cfg101lag).map (fun s =>
      (s.iterations, (read_state true st101 [⟨0, 0⟩] s.store).ret,
        (read_state true st101 [⟨0, 0⟩] s.store).st.currp))) = some (2, 1, 10) ∧
    uninterrupted101 cfg101lag = some (.inr (173, 1, [ResultLine.nearWilson 101 (-29)])) ∧
    resumed101 cfg101lag (fun _ => 0) = some (.inl (Fatal.wilsonCheck 101 1 44)) := by
  refine ⟨by rfl, by decide, by decide, by rfl, by rfl, by rfl, by rfl, by rfl, by rfl⟩

/-! ## Representations of `4 p` by `u^2 + 3 v^2` and `c^2 + 27 d^2` -/

/-- A multiple `x` of the prime `p` with `k x^2 <= 16 p^2`, `k >= 3`, is `m p` with `|m| <= 2`. -/
theorem small_multiple_of_prime {p : ℕ} (hp : p.Prime) {x : ℤ} (hd : (p : ℤ) ∣ x)
    (hb : 3 * x ^ 2 ≤ 16 * (p : ℤ) ^ 2) :
    x = 0 ∨ x = p ∨ x = -p ∨ x = 2 * p ∨ x = -(2 * p) := by
  obtain ⟨m, rfl⟩ := hd
  have hp0 : (0 : ℤ) < p := by exact_mod_cast hp.pos
  have hm : 3 * m ^ 2 ≤ 16 := by
    have h1 : (p : ℤ) ^ 2 * (3 * m ^ 2) ≤ (p : ℤ) ^ 2 * 16 := by nlinarith
    exact le_of_mul_le_mul_left h1 (by positivity)
  have hm2 : -2 ≤ m ∧ m ≤ 2 := by
    constructor <;> nlinarith
  obtain ⟨h1, h2⟩ := hm2
  interval_cases m
  · right; right; right; right; ring
  · right; right; left; ring
  · left; ring
  · right; left; ring
  · right; right; right; left; ring

/-- The number `13 p^2` is not a square. -/
theorem not_sq_thirteen {p : ℕ} (hp : p.Prime) (w : ℤ) : w ^ 2 ≠ 13 * (p : ℤ) ^ 2 := by
  intro h
  have hpp : Prime (p : ℤ) := Nat.prime_iff_prime_int.1 hp
  have hd : (p : ℤ) ∣ w := by
    have : (p : ℤ) ∣ w ^ 2 := ⟨13 * p, by rw [h]; ring⟩
    exact hpp.dvd_of_dvd_pow this
  obtain ⟨k, rfl⟩ := hd
  have hp0 : (0 : ℤ) < p := by exact_mod_cast hp.pos
  have hk : k ^ 2 = 13 := by
    have h1 : (p : ℤ) ^ 2 * k ^ 2 = (p : ℤ) ^ 2 * 13 := by linear_combination h
    exact mul_left_cancel₀ (by positivity) h1
  have hk2 : -3 ≤ k ∧ k ≤ 3 := by constructor <;> nlinarith
  obtain ⟨h1, h2⟩ := hk2
  interval_cases k <;> norm_num at hk

/-- The representation `4 p = c^2 + 27 d^2` with `c = 1 mod 3` has a unique `c`. -/
theorem rep_c_unique {p : ℕ} (hp : p.Prime) {c d c0 d0 : ℤ}
    (h : c ^ 2 + 27 * d ^ 2 = 4 * (p : ℤ)) (h0 : c0 ^ 2 + 27 * d0 ^ 2 = 4 * (p : ℤ))
    (hc : c % 3 = 1) (hc0 : c0 % 3 = 1) : c = c0 := by
  have hpp : Prime (p : ℤ) := Nat.prime_iff_prime_int.1 hp
  have hp0 : (0 : ℤ) < p := by exact_mod_cast hp.pos
  have hxy : (c * d0 - c0 * d) * (c * d0 + c0 * d) = (p : ℤ) * (4 * (d0 ^ 2 - d ^ 2)) := by
    linear_combination d0 ^ 2 * h - d ^ 2 * h0
  have hdvd : (p : ℤ) ∣ (c * d0 - c0 * d) * (c * d0 + c0 * d) := ⟨_, hxy⟩
  have key : ∀ (e : ℤ), e ^ 2 = 1 → (p : ℤ) ∣ (c * d0 - e * (c0 * d)) → c = c0 := by
    intro e he hd
    have hid : (c * c0 + e * (27 * d * d0)) ^ 2 + 27 * (c * d0 - e * (c0 * d)) ^ 2
        = 16 * (p : ℤ) ^ 2 := by
      linear_combination (c0 ^ 2 + 27 * d0 ^ 2) * h + 4 * (p : ℤ) * h0
        + 27 * c0 ^ 2 * d ^ 2 * he + 729 * d ^ 2 * d0 ^ 2 * he
    have hb : 3 * (c * d0 - e * (c0 * d)) ^ 2 ≤ 16 * (p : ℤ) ^ 2 := by nlinarith [sq_nonneg (c * c0 + e * (27 * d * d0)), sq_nonneg (c * d0 - e * (c0 * d))]
    have hx0 : c * d0 - e * (c0 * d) = 0 := by
      rcases small_multiple_of_prime hp hd hb with h1 | h1 | h1 | h1 | h1
      · exact h1
      all_goals
        exfalso
        rw [h1] at hid
        nlinarith [sq_nonneg (c * c0 + e * (27 * d * d0))]
    rw [hx0] at hid
    have hw : (c * c0 + e * (27 * d * d0) - 4 * p) * (c * c0 + e * (27 * d * d0) + 4 * p) = 0 := by
      linear_combination hid
    have hcc : c * (4 * (p : ℤ)) = c0 * (c * c0 + e * (27 * d * d0)) := by
      linear_combination (-c) * h0 + 27 * d0 * hx0
    rcases mul_eq_zero.1 hw with h1 | h1
    · have h2 : c * c0 + e * (27 * d * d0) = 4 * p := by linarith
      rw [h2] at hcc
      have : (4 * (p : ℤ)) * c = (4 * (p : ℤ)) * c0 := by linarith
      exact mul_left_cancel₀ (by positivity) this
    · have h2 : c * c0 + e * (27 * d * d0) = -(4 * p) := by linarith
      rw [h2] at hcc
      have : (4 * (p : ℤ)) * c = (4 * (p : ℤ)) * (-c0) := by linarith
      have h3 : c = -c0 := mul_left_cancel₀ (by positivity) this
      omega
  rcases hpp.dvd_or_dvd hdvd with hd | hd
  · exact key 1 (by norm_num) (by simpa using hd)
  · exact key (-1) (by norm_num) (by
      have e : c * d0 - -1 * (c0 * d) = c * d0 + c0 * d := by ring
      rw [e]; exact hd)

/-- In a representation `4 p = u^2 + 3 v^2` of a prime `p ≠ 3`, `u` is not a multiple of 3. -/
theorem rep_u_not_dvd {p : ℕ} (hp : p.Prime) (h3 : p ≠ 3) {u v : ℤ}
    (h : u ^ 2 + 3 * v ^ 2 = 4 * (p : ℤ)) : u % 3 = 1 ∨ u % 3 = 2 := by
  have hcases : u % 3 = 0 ∨ u % 3 = 1 ∨ u % 3 = 2 := by omega
  rcases hcases with h0 | h1 | h2
  · exfalso
    obtain ⟨k, hk⟩ : (3 : ℤ) ∣ u := Int.dvd_of_emod_eq_zero h0
    have hd : (3 : ℤ) ∣ 4 * (p : ℤ) := ⟨3 * k ^ 2 + v ^ 2, by rw [← h, hk]; ring⟩
    have h3p : (3 : ℤ) ∣ (p : ℤ) := by
      have hc : IsCoprime (3 : ℤ) 4 := by
        rw [Int.isCoprime_iff_gcd_eq_one]; decide
      exact hc.dvd_of_dvd_mul_left hd
    have h3n : 3 ∣ p := by exact_mod_cast h3p
    exact h3 ((Nat.prime_dvd_prime_iff_eq (by norm_num) hp).1 h3n).symm
  · exact Or.inl h1
  · exact Or.inr h2

/-- Two representations `4 p = u^2 + 3 v^2 = u0^2 + 3 v0^2` for which `p` divides
`u v0 - u0 v`: the cube trace `u^3 - 3 p u` is that of `u0` up to the sign `ε` with
`u = ε u0 mod 3`. -/
theorem rep_u_cube_aux {p : ℕ} (hp : p.Prime) (h3 : p ≠ 3) {u v u0 v0 ε : ℤ}
    (h : u ^ 2 + 3 * v ^ 2 = 4 * (p : ℤ)) (h0 : u0 ^ 2 + 3 * v0 ^ 2 = 4 * (p : ℤ))
    (hε : ε = 1 ∨ ε = -1) (hmod : (u - ε * u0) % 3 = 0) (hd : (p : ℤ) ∣ u * v0 - u0 * v) :
    u ^ 3 - 3 * p * u = ε * (u0 ^ 3 - 3 * p * u0) := by
  have hp0 : (0 : ℤ) < p := by exact_mod_cast hp.pos
  have hu0 := rep_u_not_dvd hp h3 h0
  have hid : (u * u0 + 3 * v * v0) ^ 2 + 3 * (u * v0 - u0 * v) ^ 2 = 16 * (p : ℤ) ^ 2 := by
    linear_combination (u0 ^ 2 + 3 * v0 ^ 2) * h + 4 * (p : ℤ) * h0
  have hb : 3 * (u * v0 - u0 * v) ^ 2 ≤ 16 * (p : ℤ) ^ 2 := by
    nlinarith [sq_nonneg (u * u0 + 3 * v * v0)]
  have h4 : 4 * (p : ℤ) * u = (u * u0 + 3 * v * v0) * u0 + 3 * (u * v0 - u0 * v) * v0 := by
    linear_combination (-u) * h0
  -- the cases of `w = u u0 + 3 v v0` and `x = u v0 - u0 v`
  have hsame : ∀ s : ℤ, (s = 1 ∨ s = -1) → u = s * u0 →
      u ^ 3 - 3 * p * u = ε * (u0 ^ 3 - 3 * p * u0) := by
    intro s hs hu
    have hse : s = ε := by
      rcases hs with rfl | rfl <;> rcases hε with rfl | rfl
      · rfl
      · exfalso; rw [hu] at hmod; omega
      · exfalso; rw [hu] at hmod; omega
      · rfl
    rw [hu, hse]
    rcases hε with rfl | rfl <;> ring
  have hrot : ∀ s r : ℤ, (s = 1 ∨ s = -1) → (r = 1 ∨ r = -1) → 2 * u = s * u0 + 3 * r * v0 →
      u ^ 3 - 3 * p * u = ε * (u0 ^ 3 - 3 * p * u0) := by
    intro s r hs hr hu
    have hse : ε = -s := by
      obtain ⟨k, hk⟩ : ∃ k, 3 * r * v0 = 3 * k := ⟨r * v0, by ring⟩
      rw [hk] at hu
      rcases hs with rfl | rfl <;> rcases hε with rfl | rfl
      · exfalso; omega
      · rfl
      · rfl
      · exfalso; omega
    rw [hse]
    have h8 : 8 * (u ^ 3 - 3 * p * u - -s * (u0 ^ 3 - 3 * p * u0)) = 0 := by
      rcases hs with rfl | rfl <;> rcases hr with rfl | rfl
      · linear_combination ((2 * u) ^ 2 + 2 * u * (u0 + 3 * v0) + (u0 + 3 * v0) ^ 2
          - 12 * (p : ℤ)) * hu + 9 * (u0 + v0) * h0
      · linear_combination ((2 * u) ^ 2 + 2 * u * (u0 - 3 * v0) + (u0 - 3 * v0) ^ 2
          - 12 * (p : ℤ)) * hu + 9 * (u0 - v0) * h0
      · linear_combination ((2 * u) ^ 2 + 2 * u * (-u0 + 3 * v0) + (-u0 + 3 * v0) ^ 2
          - 12 * (p : ℤ)) * hu + 9 * (-u0 + v0) * h0
      · linear_combination ((2 * u) ^ 2 + 2 * u * (-u0 - 3 * v0) + (-u0 - 3 * v0) ^ 2
          - 12 * (p : ℤ)) * hu + 9 * (-u0 - v0) * h0
    linarith
  rcases small_multiple_of_prime hp hd hb with hx | hx | hx | hx | hx
  · -- x = 0
    rw [hx] at hid h4
    have hw : (u * u0 + 3 * v * v0 - 4 * p) * (u * u0 + 3 * v * v0 + 4 * p) = 0 := by
      linear_combination hid
    rcases mul_eq_zero.1 hw with h1 | h1
    · have h2 : u * u0 + 3 * v * v0 = 4 * p := by linarith
      rw [h2] at h4
      have : (4 * (p : ℤ)) * u = (4 * (p : ℤ)) * (1 * u0) := by linarith
      exact hsame 1 (Or.inl rfl) (mul_left_cancel₀ (by positivity) this)
    · have h2 : u * u0 + 3 * v * v0 = -(4 * p) := by linarith
      rw [h2] at h4
      have : (4 * (p : ℤ)) * u = (4 * (p : ℤ)) * (-1 * u0) := by linarith
      exact hsame (-1) (Or.inr rfl) (mul_left_cancel₀ (by positivity) this)
  · exfalso
    rw [hx] at hid
    exact not_sq_thirteen hp (u * u0 + 3 * v * v0) (by linarith)
  · exfalso
    rw [hx] at hid
    exact not_sq_thirteen hp (u * u0 + 3 * v * v0) (by linarith)
  · rw [hx] at hid h4
    have hw : (u * u0 + 3 * v * v0 - 2 * p) * (u * u0 + 3 * v * v0 + 2 * p) = 0 := by
      linear_combination hid
    rcases mul_eq_zero.1 hw with h1 | h1
    · have h2 : u * u0 + 3 * v * v0 = 2 * p := by linarith
      rw [h2] at h4
      have : (2 * (p : ℤ)) * (2 * u) = (2 * (p : ℤ)) * (1 * u0 + 3 * 1 * v0) := by linarith
      exact hrot 1 1 (Or.inl rfl) (Or.inl rfl) (mul_left_cancel₀ (by positivity) this)
    · have h2 : u * u0 + 3 * v * v0 = -(2 * p) := by linarith
      rw [h2] at h4
      have : (2 * (p : ℤ)) * (2 * u) = (2 * (p : ℤ)) * (-1 * u0 + 3 * 1 * v0) := by linarith
      exact hrot (-1) 1 (Or.inr rfl) (Or.inl rfl) (mul_left_cancel₀ (by positivity) this)
  · rw [hx] at hid h4
    have hw : (u * u0 + 3 * v * v0 - 2 * p) * (u * u0 + 3 * v * v0 + 2 * p) = 0 := by
      linear_combination hid
    rcases mul_eq_zero.1 hw with h1 | h1
    · have h2 : u * u0 + 3 * v * v0 = 2 * p := by linarith
      rw [h2] at h4
      have : (2 * (p : ℤ)) * (2 * u) = (2 * (p : ℤ)) * (1 * u0 + 3 * (-1) * v0) := by linarith
      exact hrot 1 (-1) (Or.inl rfl) (Or.inr rfl) (mul_left_cancel₀ (by positivity) this)
    · have h2 : u * u0 + 3 * v * v0 = -(2 * p) := by linarith
      rw [h2] at h4
      have : (2 * (p : ℤ)) * (2 * u) = (2 * (p : ℤ)) * (-1 * u0 + 3 * (-1) * v0) := by
        linarith
      exact hrot (-1) (-1) (Or.inr rfl) (Or.inr rfl) (mul_left_cancel₀ (by positivity) this)

/-- For two representations `4 p = u^2 + 3 v^2 = u0^2 + 3 v0^2` of a prime `p ≠ 3` with
`u = ε u0 mod 3`, `ε = ±1`: `u^3 - 3 p u = ε (u0^3 - 3 p u0)`. -/
theorem rep_u_cube {p : ℕ} (hp : p.Prime) (h3 : p ≠ 3) {u v u0 v0 ε : ℤ}
    (h : u ^ 2 + 3 * v ^ 2 = 4 * (p : ℤ)) (h0 : u0 ^ 2 + 3 * v0 ^ 2 = 4 * (p : ℤ))
    (hε : ε = 1 ∨ ε = -1) (hmod : (u - ε * u0) % 3 = 0) :
    u ^ 3 - 3 * p * u = ε * (u0 ^ 3 - 3 * p * u0) := by
  have hpp : Prime (p : ℤ) := Nat.prime_iff_prime_int.1 hp
  have hxy : (u * v0 - u0 * v) * (u * v0 + u0 * v) = (p : ℤ) * (4 * (v0 ^ 2 - v ^ 2)) := by
    linear_combination v0 ^ 2 * h - v ^ 2 * h0
  rcases hpp.dvd_or_dvd ⟨_, hxy⟩ with hd | hd
  · exact rep_u_cube_aux hp h3 h h0 hε hmod hd
  · have h0' : u0 ^ 2 + 3 * (-v0) ^ 2 = 4 * (p : ℤ) := by rw [neg_sq]; exact h0
    apply rep_u_cube_aux hp h3 h h0' hε hmod
    have e : u * -v0 - u0 * v = -(u * v0 + u0 * v) := by ring
    rw [e]
    exact (dvd_neg).2 hd

/-! ## Harmonic sums and the formula of Lerch -/

/-- If `p * X = 0` modulo `p^2` then `X` reduces to 0 modulo `p`. -/
theorem redp_eq_zero_of_p_mul {p : ℕ} [hp : Fact p.Prime] {X : ZMod (p ^ 2)}
    (h : (p : ZMod (p ^ 2)) * X = 0) : redp p X = 0 := by
  haveI : NeZero (p ^ 2) := ⟨pow_ne_zero 2 hp.out.ne_zero⟩
  have hc : ((X.val : ℕ) : ZMod (p ^ 2)) = X := ZMod.natCast_zmod_val X
  rw [← hc] at h ⊢
  rw [redp_natCast, ZMod.natCast_zmod_eq_zero_iff_dvd]
  rw [← Nat.cast_mul, ZMod.natCast_zmod_eq_zero_iff_dvd] at h
  have h2 : p * p ∣ p * X.val := by rw [← sq]; exact h
  exact (Nat.mul_dvd_mul_iff_left hp.out.pos).1 h2

/-- First-order expansion of a product `∏ (r j + p m j)` modulo `p^2`. -/
theorem prod_add_p_mul {p : ℕ} [hp : Fact p.Prime] (r m : ℕ → ℕ) : ∀ (n : ℕ),
    (∀ j, j < n → 0 < r j ∧ r j < p) → ∀ D : ZMod (p ^ 2),
    redp p D = ∑ j in Finset.range n, ((m j : ℕ) : ZMod p) * ((r j : ℕ) : ZMod p)⁻¹ →
    ∏ j in Finset.range n, ((r j : ZMod (p ^ 2)) + (p : ZMod (p ^ 2)) * (m j : ZMod (p ^ 2)))
      = (∏ j in Finset.range n, (r j : ZMod (p ^ 2))) * (1 + (p : ZMod (p ^ 2)) * D) := by
  intro n
  induction n with
  | zero =>
    intro _ D hD
    have h0 : redp p D = redp p 0 := by rw [hD, map_zero]; simp
    have := p_mul_eq_of_redp_eq h0
    simp only [Finset.range_zero, Finset.prod_empty, one_mul]
    rw [this, mul_zero, add_zero]
  | succ n ih =>
    intro ha D hD
    obtain ⟨D1, hD1⟩ := exists_redp_eq
      (∑ j in Finset.range n, ((m j : ℕ) : ZMod p) * ((r j : ℕ) : ZMod p)⁻¹)
    have h1 := ih (fun j hj => ha j (by omega)) D1 hD1
    rw [Finset.prod_range_succ, Finset.prod_range_succ, h1]
    have hne : ((r n : ℕ) : ZMod p) ≠ 0 :=
      natCast_ne_zero_zmod (ha n (by omega)).1 (ha n (by omega)).2
    have hred : redp p ((m n : ZMod (p ^ 2)) + D1 * (r n : ZMod (p ^ 2)))
        = redp p ((r n : ZMod (p ^ 2)) * D) := by
      rw [map_add, map_mul, map_mul, hD1, hD, redp_natCast, redp_natCast,
        Finset.sum_range_succ, mul_add]
      have : ((r n : ℕ) : ZMod p) * (((m n : ℕ) : ZMod p) * ((r n : ℕ) : ZMod p)⁻¹)
          = ((m n : ℕ) : ZMod p) * (((r n : ℕ) : ZMod p) * ((r n : ℕ) : ZMod p)⁻¹) := by ring
      rw [this, mul_inv_cancel₀ hne]
      ring
    have h2 := p_mul_eq_of_redp_eq hred
    have hpp := natCast_p_mul_self p
    linear_combination (∏ j in Finset.range n, (r j : ZMod (p ^ 2))) * h2
      + (∏ j in Finset.range n, (r j : ZMod (p ^ 2))) * D1 * (m n : ZMod (p ^ 2)) * hpp

/-- Multiplication by `a` permutes the nonzero residues: the product of the remainders of
`a, 2 a, ..., (p - 1) a` is `(p - 1)!`. -/
theorem prod_mul_mod {p : ℕ} (hp : p.Prime) {a : ℕ} (ha : ¬ p ∣ a) :
    ∏ j in Finset.range (p - 1), (a * (j + 1) % p) = (p - 1).factorial := by
  have hmem : ∀ j ∈ Finset.range (p - 1), a * (j + 1) % p - 1 ∈ Finset.range (p - 1) := by
    intro j hj
    have hj' := Finset.mem_range.1 hj
    have hlt : a * (j + 1) % p < p := Nat.mod_lt _ hp.pos
    have hne : a * (j + 1) % p ≠ 0 := by
      intro h
      have hd : p ∣ a * (j + 1) := Nat.dvd_of_mod_eq_zero h
      rcases (Nat.Prime.dvd_mul hp).1 hd with h1 | h1
      · exact ha h1
      · exact absurd (Nat.le_of_dvd (by omega) h1) (by omega)
    exact Finset.mem_range.2 (by omega)
  have hpos : ∀ j ∈ Finset.range (p - 1), 0 < a * (j + 1) % p := by
    intro j hj
    have := Finset.mem_range.1 (hmem j hj)
    have hj' := Finset.mem_range.1 hj
    by_contra hcon
    have h0 : a * (j + 1) % p = 0 := by omega
    have hd : p ∣ a * (j + 1) := Nat.dvd_of_mod_eq_zero h0
    rcases (Nat.Prime.dvd_mul hp).1 hd with h1 | h1
    · exact ha h1
    · exact absurd (Nat.le_of_dvd (by omega) h1) (by omega)
  have hinj : Set.InjOn (fun j => a * (j + 1) % p - 1) (Finset.range (p - 1) : Set ℕ) := by
    intro j hj k hk hjk
    have hj' := Finset.mem_range.1 hj
    have hk' := Finset.mem_range.1 hk
    have hpj := hpos j hj
    have hpk := hpos k hk
    have heq : a * (j + 1) % p = a * (k + 1) % p := by
      dsimp only at hjk
      omega
    have hmod : a * (j + 1) ≡ a * (k + 1) [MOD p] := heq
    have hcop : Nat.Coprime p a := (Nat.Prime.coprime_iff_not_dvd hp).2 ha
    have h2 : j + 1 ≡ k + 1 [MOD p] := Nat.ModEq.cancel_left_of_coprime hcop hmod
    have h3 : (j + 1) % p = (k + 1) % p := h2
    rw [Nat.mod_eq_of_lt (by omega), Nat.mod_eq_of_lt (by omega)] at h3
    omega
  have himg : (Finset.range (p - 1)).image (fun j => a * (j + 1) % p - 1)
      = Finset.range (p - 1) := by
    apply Finset.eq_of_subset_of_card_le
    · intro x hx
      obtain ⟨j, hj, rfl⟩ := Finset.mem_image.1 hx
      exact hmem j hj
    · rw [Finset.card_image_of_injOn hinj]
  have h1 : ∏ j in Finset.range (p - 1), (a * (j + 1) % p)
      = ∏ j in Finset.range (p - 1), ((a * (j + 1) % p - 1) + 1) := by
    apply Finset.prod_congr rfl
    intro j hj
    have := hpos j hj
    omega
  rw [h1, ← Finset.prod_image (s := Finset.range (p - 1))
    (g := fun j => a * (j + 1) % p - 1) (f := fun x => x + 1) hinj, himg,
    Finset.prod_range_add_one_eq_factorial]

/-- The formula of Lerch: `a^(p-1) = 1 + p D` modulo `p^2` for every lift `D` of the sum
`∑ floor(a j / p) / (a j)`. -/
theorem pow_pred_eq_lerch {p : ℕ} [hp : Fact p.Prime] {a : ℕ} (ha : ¬ p ∣ a)
    (D : ZMod (p ^ 2)) (hD : redp p D = lerchSum p a) :
    (a : ZMod (p ^ 2)) ^ (p - 1) = 1 + (p : ZMod (p ^ 2)) * D := by
  have hpos : ∀ j, j < p - 1 → 0 < a * (j + 1) % p ∧ a * (j + 1) % p < p := by
    intro j hj
    refine ⟨?_, Nat.mod_lt _ hp.out.pos⟩
    by_contra hcon
    have h0 : a * (j + 1) % p = 0 := by omega
    have hd : p ∣ a * (j + 1) := Nat.dvd_of_mod_eq_zero h0
    rcases (Nat.Prime.dvd_mul hp.out).1 hd with h1 | h1
    · exact ha h1
    · exact absurd (Nat.le_of_dvd (by omega) h1) (by omega)
  have hD' : redp p D = ∑ j in Finset.range (p - 1),
      ((a * (j + 1) / p : ℕ) : ZMod p) * ((a * (j + 1) % p : ℕ) : ZMod p)⁻¹ := by
    rw [hD, lerchSum]
    apply Finset.sum_congr rfl
    intro j _
    rw [ZMod.natCast_mod]
  have h1 := prod_add_p_mul (p := p) (fun j => a * (j + 1) % p) (fun j => a * (j + 1) / p)
    (p - 1) hpos D hD'
  have e1 : ∀ j : ℕ, ((a * (j + 1) % p : ℕ) : ZMod (p ^ 2))
      + (p : ZMod (p ^ 2)) * ((a * (j + 1) / p : ℕ) : ZMod (p ^ 2))
      = (a : ZMod (p ^ 2)) * ((j + 1 : ℕ) : ZMod (p ^ 2)) := by
    intro j
    rw [← Nat.cast_mul, ← Nat.cast_add, Nat.mod_add_div, Nat.cast_mul]
  rw [Finset.prod_congr rfl (fun j _ => e1 j), Finset.prod_mul_distrib, Finset.prod_const,
    Finset.card_range, ← Nat.cast_prod, ← Nat.cast_prod, prod_mul_mod hp.out ha,
    Finset.prod_range_add_one_eq_factorial] at h1
  have hu := isUnit_factorial_of_lt (p := p) (n := p - 1) (by have := hp.out.pos; omega)
  apply hu.mul_left_cancel
  rw [mul_comm]
  exact h1

/-- The harmonic sum up to `p - 1` vanishes modulo `p`. -/
theorem harm_pred {p : ℕ} (hp : p.Prime) (h2 : p ≠ 2) : harm p (p - 1) = 0 :=
  sum_inv_range_zmod hp h2

/-- The step of the harmonic sums. -/
theorem harm_succ (p n : ℕ) : harm p (n + 1) = harm p n + ((n + 1 : ℕ) : ZMod p)⁻¹ :=
  Finset.sum_range_succ _ _

/-- The sum of the inverses of `n + 1, ..., n + k` as a difference of harmonic sums. -/
theorem harm_add (p n : ℕ) : ∀ k : ℕ,
    ∑ i in Finset.range k, ((n + (i + 1) : ℕ) : ZMod p)⁻¹ = harm p (n + k) - harm p n := by
  intro k
  induction k with
  | zero => simp
  | succ k ih =>
    rw [Finset.sum_range_succ, ih, ← Nat.add_assoc n k 1, harm_succ]
    ring

/-- The symmetry of the harmonic sums modulo `p`: `H_(p-1-n) = H_n`. -/
theorem harm_symm {p : ℕ} (hp : p.Prime) (h2 : p ≠ 2) : ∀ n : ℕ, n ≤ p - 1 →
    harm p (p - 1 - n) = harm p n := by
  haveI := Fact.mk hp
  intro n
  induction n with
  | zero => intro _; rw [Nat.sub_zero, harm_pred hp h2]; simp [harm]
  | succ n ih =>
    intro hn
    have ih' := ih (by omega)
    have e : p - 1 - n = (p - 1 - (n + 1)) + 1 := by omega
    rw [e, harm_succ] at ih'
    rw [harm_succ]
    have e2 : ((p - 1 - (n + 1) + 1 : ℕ) : ZMod p) = -((n + 1 : ℕ) : ZMod p) := by
      have h3 : ((p - 1 - (n + 1) + 1 + (n + 1) : ℕ) : ZMod p) = 0 := by
        have : p - 1 - (n + 1) + 1 + (n + 1) = p := by omega
        rw [this]; exact ZMod.natCast_self p
      rw [Nat.cast_add] at h3
      exact eq_neg_of_add_eq_zero_left h3
    rw [e2, inv_neg] at ih'
    linear_combination ih'

/-- For `p = 6 f + 1` and `a` one of 2, 3, 6, the quotient `floor(a j / p)` is constant on the
six blocks of `f` consecutive `j`. -/
theorem block_floor {p f a k i : ℕ} (h6 : p = 6 * f + 1) (ha : a = 2 ∨ a = 3 ∨ a = 6)
    (hk : k < 6) (hi : i < f) : a * (k * f + i + 1) / p = a * k / 6 := by
  subst h6
  apply Nat.div_eq_of_lt_le
  · rcases ha with rfl | rfl | rfl <;> interval_cases k <;> norm_num <;> omega
  · rcases ha with rfl | rfl | rfl <;> interval_cases k <;> norm_num <;> omega

/-- A sum over `6 f` terms in six blocks. -/
theorem sum_range_six_mul {M : Type*} [AddCommMonoid M] (g : ℕ → M) (f : ℕ) :
    ∑ j in Finset.range (6 * f), g j
      = ∑ k in Finset.range 6, ∑ i in Finset.range f, g (k * f + i) := by
  have e : 6 * f = f + f + f + f + f + f := by ring
  rw [e]
  simp only [Finset.sum_range_add, Finset.sum_range_succ, Finset.sum_range_zero, zero_add]
  have c : ∀ (c1 c2 : ℕ), c1 = c2 → ∑ i in Finset.range f, g (c1 + i)
      = ∑ i in Finset.range f, g (c2 + i) := by
    intro c1 c2 h; rw [h]
  simp only [zero_mul, one_mul, zero_add]
  rw [c (f + f) (2 * f) (by ring), c (f + f + f) (3 * f) (by ring),
    c (f + f + f + f) (4 * f) (by ring), c (f + f + f + f + f) (5 * f) (by ring)]

/-- The sum of Lerch for `p = 6 f + 1` and `a` one of 2, 3, 6, by blocks. -/
theorem lerchSum_blocks {p f a : ℕ} [hp : Fact p.Prime] (h6 : p = 6 * f + 1)
    (ha : a = 2 ∨ a = 3 ∨ a = 6) :
    lerchSum p a = ((a : ℕ) : ZMod p)⁻¹ * ∑ k in Finset.range 6,
      ((a * k / 6 : ℕ) : ZMod p) * (harm p (k * f + f) - harm p (k * f)) := by
  have hp1 : p - 1 = 6 * f := by omega
  unfold lerchSum
  rw [hp1, sum_range_six_mul, Finset.mul_sum]
  apply Finset.sum_congr rfl
  intro k hk
  have hk' := Finset.mem_range.1 hk
  rw [← harm_add, Finset.mul_sum, Finset.mul_sum]
  apply Finset.sum_congr rfl
  intro i hi
  have hi' := Finset.mem_range.1 hi
  rw [block_floor h6 ha hk' hi', Nat.cast_mul a (k * f + i + 1), mul_inv]
  have e : k * f + (i + 1) = k * f + i + 1 := by ring
  rw [e]
  ring

/-- The harmonic sums that occur for `p = 6 f + 1`. -/
theorem harm_six {p f : ℕ} [hp : Fact p.Prime] (h6 : p = 6 * f + 1) :
    harm p (6 * f) = 0 ∧ harm p (5 * f) = harm p f ∧ harm p (4 * f) = harm p (2 * f) := by
  have h2 : p ≠ 2 := by omega
  have hp1 : p - 1 = 6 * f := by omega
  refine ⟨?_, ?_, ?_⟩
  · rw [← hp1]; exact harm_pred hp.out h2
  · have := harm_symm hp.out h2 f (by omega)
    have e : p - 1 - f = 5 * f := by omega
    rw [e] at this
    exact this
  · have := harm_symm hp.out h2 (2 * f) (by omega)
    have e : p - 1 - 2 * f = 4 * f := by omega
    rw [e] at this
    exact this

/-- The sums of Lerch for 2, 3 and 6 modulo `p = 6 f + 1` in terms of harmonic sums. -/
theorem lerchSum_values {p f : ℕ} [hp : Fact p.Prime] (h6 : p = 6 * f + 1) :
    lerchSum p 2 = -((2 : ZMod p)⁻¹ * harm p (3 * f)) ∧
    lerchSum p 3 = -((3 : ZMod p)⁻¹ * (2 * harm p (2 * f))) ∧
    lerchSum p 6 = -((6 : ZMod p)⁻¹ *
      (2 * harm p f + 2 * harm p (2 * f) + harm p (3 * f))) := by
  obtain ⟨a1, a2, a3⟩ := harm_six h6
  have h0 : harm p 0 = 0 := by simp [harm]
  have e1 : 0 * f = 0 := by ring
  have e2 : 0 * f + f = f := by ring
  have e3 : 1 * f = f := by ring
  have e4 : 1 * f + f = 2 * f := by ring
  have e5 : 2 * f + f = 3 * f := by ring
  have e6 : 3 * f + f = 4 * f := by ring
  have e7 : 4 * f + f = 5 * f := by ring
  have e8 : 5 * f + f = 6 * f := by ring
  refine ⟨?_, ?_, ?_⟩
  · rw [lerchSum_blocks h6 (Or.inl rfl)]
    simp only [Finset.sum_range_succ, Finset.sum_range_zero, e1, e2, e3, e4, e5, e6, e7, e8,
      h0, a1, a2, a3]
    norm_num
    ring_nf
  · rw [lerchSum_blocks h6 (Or.inr (Or.inl rfl))]
    simp only [Finset.sum_range_succ, Finset.sum_range_zero, e1, e2, e3, e4, e5, e6, e7, e8,
      h0, a1, a2, a3]
    norm_num
    ring_nf
  · rw [lerchSum_blocks h6 (Or.inr (Or.inr rfl))]
    simp only [Finset.sum_range_succ, Finset.sum_range_zero, e1, e2, e3, e4, e5, e6, e7, e8,
      h0, a1, a2, a3]
    norm_num
    ring_nf

/-- A number from 1 to 6 is not zero modulo a prime `p = 6 f + 1`. -/
theorem small_ne_zero {p f : ℕ} [hp : Fact p.Prime] (h6 : p = 6 * f + 1) {n : ℕ}
    (h0 : 0 < n) (hn : n ≤ 6) : ((n : ℕ) : ZMod p) ≠ 0 := by
  have hf : 0 < f := by
    rcases Nat.eq_zero_or_pos f with h | h
    · rw [h] at h6; exact absurd (h6 ▸ hp.out) (by norm_num)
    · exact h
  exact natCast_ne_zero_zmod h0 (by omega)

/-- The congruence of Lehmer for `p = 6 f + 1`: `H_f = H_(2f) + H_(3f)` modulo `p`, and the
Fermat quotients of 2 and 3 are `-H_(3f)/2` and `-2 H_(2f)/3`: modulo `p^2`,
`2^(p-1) = 1 + p D2` and `3^(p-1) = 1 + p D3` for lifts `D2`, `D3` of these. -/
theorem lehmer_six {p f : ℕ} [hp : Fact p.Prime] (h6 : p = 6 * f + 1) :
    harm p f = harm p (2 * f) + harm p (3 * f) ∧
    (∀ D : ZMod (p ^ 2), redp p D = -((2 : ZMod p)⁻¹ * harm p (3 * f)) →
      (2 : ZMod (p ^ 2)) ^ (p - 1) = 1 + (p : ZMod (p ^ 2)) * D) ∧
    (∀ D : ZMod (p ^ 2), redp p D = -((3 : ZMod p)⁻¹ * (2 * harm p (2 * f))) →
      (3 : ZMod (p ^ 2)) ^ (p - 1) = 1 + (p : ZMod (p ^ 2)) * D) := by
  have hf : 0 < f := by
    rcases Nat.eq_zero_or_pos f with h | h
    · rw [h] at h6; exact absurd (h6 ▸ hp.out) (by norm_num)
    · exact h
  obtain ⟨v2, v3, v6⟩ := lerchSum_values h6
  have nd : ∀ n : ℕ, 0 < n → n ≤ 6 → ¬ p ∣ n := by
    intro n h0 hn hd
    exact absurd (Nat.le_of_dvd h0 hd) (by omega)
  have l2 : ∀ D : ZMod (p ^ 2), redp p D = lerchSum p 2 →
      (2 : ZMod (p ^ 2)) ^ (p - 1) = 1 + (p : ZMod (p ^ 2)) * D := by
    intro D hD
    have := pow_pred_eq_lerch (nd 2 (by norm_num) (by norm_num)) D hD
    exact_mod_cast this
  have l3 : ∀ D : ZMod (p ^ 2), redp p D = lerchSum p 3 →
      (3 : ZMod (p ^ 2)) ^ (p - 1) = 1 + (p : ZMod (p ^ 2)) * D := by
    intro D hD
    have := pow_pred_eq_lerch (nd 3 (by norm_num) (by norm_num)) D hD
    exact_mod_cast this
  have l6 : ∀ D : ZMod (p ^ 2), redp p D = lerchSum p 6 →
      (6 : ZMod (p ^ 2)) ^ (p - 1) = 1 + (p : ZMod (p ^ 2)) * D := by
    intro D hD
    have := pow_pred_eq_lerch (nd 6 (by norm_num) (by norm_num)) D hD
    exact_mod_cast this
  refine ⟨?_, fun D hD => l2 D (by rw [hD, v2]), fun D hD => l3 D (by rw [hD, v3])⟩
  obtain ⟨D2, hD2⟩ := exists_redp_eq (lerchSum p 2)
  obtain ⟨D3, hD3⟩ := exists_redp_eq (lerchSum p 3)
  obtain ⟨D6, hD6⟩ := exists_redp_eq (lerchSum p 6)
  have hpp := natCast_p_mul_self p
  have e6 : (6 : ZMod (p ^ 2)) ^ (p - 1)
      = (2 : ZMod (p ^ 2)) ^ (p - 1) * (3 : ZMod (p ^ 2)) ^ (p - 1) := by
    rw [← mul_pow]; norm_num
  rw [l6 D6 hD6, l2 D2 hD2, l3 D3 hD3] at e6
  have hz : (p : ZMod (p ^ 2)) * (D6 - D2 - D3) = 0 := by
    linear_combination e6 + D2 * D3 * hpp
  have hr := redp_eq_zero_of_p_mul hz
  rw [map_sub, map_sub, hD2, hD3, hD6, v2, v3, v6] at hr
  have h2 := small_ne_zero h6 (n := 2) (by norm_num) (by norm_num)
  have h3 := small_ne_zero h6 (n := 3) (by norm_num) (by norm_num)
  have h2' : (2 : ZMod p) ≠ 0 := by exact_mod_cast h2
  have h3' : (3 : ZMod p) ≠ 0 := by exact_mod_cast h3
  have h6' : (6 : ZMod p) ≠ 0 := by
    have : (6 : ZMod p) = 2 * 3 := by norm_num
    rw [this]; exact mul_ne_zero h2' h3'
  field_simp at hr
  have h12 : (12 : ZMod p) ≠ 0 := by
    have : (12 : ZMod p) = 2 * 6 := by norm_num
    rw [this]; exact mul_ne_zero h2' h6'
  have : (12 : ZMod p) * (harm p f - (harm p (2 * f) + harm p (3 * f))) = 0 := by
    linear_combination (-1 : ZMod p) * hr
  rcases mul_eq_zero.1 this with h | h
  · exact absurd h h12
  · exact sub_eq_zero.1 h

/-! ## Jacobi-type sums modulo `p^2` in terms of binomial coefficients -/

/-- A multiple of `q` in `(0, 2 q)` is `q`. -/
theorem eq_of_dvd_lt_two {q n : ℕ} (h0 : 0 < n) (h2 : n < 2 * q) (hd : q ∣ n) : n = q := by
  obtain ⟨c, hc⟩ := hd
  rcases c with _ | _ | c
  · omega
  · omega
  · have : q * 2 ≤ q * (c + 1 + 1) := Nat.mul_le_mul_left _ (by omega)
    omega

/-- A multiple of `q` in `(0, 3 q)` is `q` or `2 q`. -/
theorem eq_of_dvd_lt_three {q n : ℕ} (h0 : 0 < n) (h3 : n < 3 * q) (hd : q ∣ n) :
    n = q ∨ n = 2 * q := by
  obtain ⟨c, hc⟩ := hd
  rcases c with _ | _ | _ | c
  · omega
  · omega
  · omega
  · have : q * 3 ≤ q * (c + 1 + 1 + 1) := Nat.mul_le_mul_left _ (by omega)
    omega

/-- The sum of `teich x ^ m * (1 - teich x) ^ N` when `p - 1 ≤ m + N < 2 (p - 1)`. -/
theorem sum_teich_single {p : ℕ} [hp : Fact p.Prime] {m N : ℕ} (hm0 : 0 < m)
    (hm : m ≤ p - 1) (h1 : p - 1 ≤ m + N) (h2 : m + N < 2 * (p - 1)) :
    ∑ x : ZMod p, teich x ^ m * (1 - teich x) ^ N
      = (-1) ^ (p - 1 - m) * (N.choose (p - 1 - m) : ZMod (p ^ 2))
        * ((p : ZMod (p ^ 2)) - 1) := by
  have hq : 0 < p - 1 := by have := hp.out.two_le; omega
  rw [sum_teich_mul_one_sub_pow, Finset.sum_eq_single (p - 1 - m)]
  · rw [teichSum_of_dvd (by omega) ⟨1, by omega⟩]
  · intro k hk hne
    have hk2 := Finset.mem_range.1 hk
    rw [teichSum_of_not_dvd, mul_zero]
    intro hd
    have := eq_of_dvd_lt_two (by omega) (by omega) hd
    omega
  · intro hn
    exact absurd (Finset.mem_range.2 (by omega)) hn

/-- The sum of `teich x ^ m * (1 - teich x) ^ N` when `2 (p - 1) ≤ m + N < 3 (p - 1)`. -/
theorem sum_teich_double {p : ℕ} [hp : Fact p.Prime] {m N : ℕ} (hm0 : 0 < m)
    (hm : m ≤ p - 1) (h1 : 2 * (p - 1) ≤ m + N) (h2 : m + N < 3 * (p - 1)) :
    ∑ x : ZMod p, teich x ^ m * (1 - teich x) ^ N
      = ((-1) ^ (p - 1 - m) * (N.choose (p - 1 - m) : ZMod (p ^ 2))
          + (-1) ^ (2 * (p - 1) - m) * (N.choose (2 * (p - 1) - m) : ZMod (p ^ 2)))
        * ((p : ZMod (p ^ 2)) - 1) := by
  have hq : 0 < p - 1 := by have := hp.out.two_le; omega
  rw [sum_teich_mul_one_sub_pow,
    Finset.sum_eq_add (p - 1 - m) (2 * (p - 1) - m) (by omega)]
  · rw [teichSum_of_dvd (by omega) ⟨1, by omega⟩, teichSum_of_dvd (by omega) ⟨2, by omega⟩]
    ring
  · intro k hk hne
    have hk2 := Finset.mem_range.1 hk
    rw [teichSum_of_not_dvd, mul_zero]
    intro hd
    rcases eq_of_dvd_lt_three (by omega) (by omega) hd with h | h
    · exact hne.1 (by omega)
    · exact hne.2 (by omega)
  · intro hn
    exact absurd (Finset.mem_range.2 (by omega)) hn
  · intro hn
    exact absurd (Finset.mem_range.2 (by omega)) hn

/-- The sum `jacobiT p a b` for `0 < a ≤ p - 1`, `0 < b < p - 1` and `p - 1 ≤ a + b` in terms
of three binomial coefficients. -/
theorem jacobiT_eq {p a b : ℕ} [hp : Fact p.Prime] (ha0 : 0 < a) (ha : a ≤ p - 1)
    (hb0 : 0 < b) (hb : b < p - 1) (hab : p - 1 ≤ a + b) :
    jacobiT p a b = ((p : ZMod (p ^ 2)) - 1) *
      ((b : ZMod (p ^ 2)) * ((-1) ^ (p - 1 - a) * ((b + (p - 1)).choose (p - 1 - a) : ZMod (p ^ 2))
          + (-1) ^ (2 * (p - 1) - a)
            * ((b + (p - 1)).choose (2 * (p - 1) - a) : ZMod (p ^ 2)))
        - ((b : ZMod (p ^ 2)) - 1)
          * ((-1) ^ (p - 1 - a) * (b.choose (p - 1 - a) : ZMod (p ^ 2)))) := by
  obtain ⟨n, hn⟩ : ∃ n, b = n + 1 := ⟨b - 1, by omega⟩
  have hp2 := hp.out.two_le
  have h1 : ∀ x : ZMod p, teich x ^ a * teich (1 - x) ^ b
      = (b : ZMod (p ^ 2)) * (teich x ^ a * (1 - teich x) ^ (b + (p - 1)))
        - ((b : ZMod (p ^ 2)) - 1) * (teich x ^ a * (1 - teich x) ^ b) := by
    intro x
    have e1 : n + p = b + (p - 1) := by omega
    have e3 : (n : ZMod (p ^ 2)) = (b : ZMod (p ^ 2)) - 1 := by
      rw [hn]; push_cast; ring
    have e4 : teich (1 - x) ^ b = teich (1 - x) ^ (n + 1) := by rw [hn]
    rw [e4, teich_one_sub_pow, e1, e3, ← hn]
    ring
  unfold jacobiT
  rw [Finset.sum_congr rfl (fun x _ => h1 x), Finset.sum_sub_distrib, ← Finset.mul_sum,
    ← Finset.mul_sum, sum_teich_double ha0 ha (by omega) (by omega),
    sum_teich_single ha0 ha (by omega) (by omega)]
  ring

/-- The product `∏ (p - (j + 1))` over `j < k` modulo `p^2`. -/
theorem prod_p_sub {p : ℕ} [hp : Fact p.Prime] : ∀ (k : ℕ), k < p → ∀ D : ZMod (p ^ 2),
    redp p D = harm p k →
    ∏ j in Finset.range k, ((p : ZMod (p ^ 2)) - ((j + 1 : ℕ) : ZMod (p ^ 2)))
      = (-1) ^ k * (k.factorial : ZMod (p ^ 2)) * (1 - (p : ZMod (p ^ 2)) * D) := by
  intro k
  induction k with
  | zero =>
    intro _ D hD
    have h0 : redp p D = redp p 0 := by rw [hD, map_zero]; simp [harm]
    have := p_mul_eq_of_redp_eq h0
    simp only [Finset.range_zero, Finset.prod_empty, pow_zero, Nat.factorial_zero, Nat.cast_one,
      one_mul]
    rw [this, mul_zero, sub_zero]
  | succ k ih =>
    intro hk D hD
    obtain ⟨D1, hD1⟩ := exists_redp_eq (harm p k)
    have h1 := ih (by omega) D1 hD1
    rw [Finset.prod_range_succ, h1, Nat.factorial_succ]
    have hne : ((k + 1 : ℕ) : ZMod p) ≠ 0 := natCast_ne_zero_zmod (by omega) hk
    have hred : redp p (1 + D1 * ((k + 1 : ℕ) : ZMod (p ^ 2)))
        = redp p (((k + 1 : ℕ) : ZMod (p ^ 2)) * D) := by
      rw [map_add, map_one, map_mul, map_mul, hD1, hD, redp_natCast, harm_succ, mul_add,
        mul_inv_cancel₀ hne]
      ring
    have h2 := p_mul_eq_of_redp_eq hred
    have hpp := natCast_p_mul_self p
    push_cast at h2 ⊢
    linear_combination ((-1) ^ k * (k.factorial : ZMod (p ^ 2))) * h2
      - ((-1) ^ k * (k.factorial : ZMod (p ^ 2)) * D1) * hpp

/-- The binomial coefficient `C(p - 1, k)` modulo `p^2`. -/
theorem choose_pred_sq {p : ℕ} [hp : Fact p.Prime] {k : ℕ} (hk : k < p) (D : ZMod (p ^ 2))
    (hD : redp p D = harm p k) :
    ((p - 1).choose k : ZMod (p ^ 2)) = (-1) ^ k * (1 - (p : ZMod (p ^ 2)) * D) := by
  have h1 := prod_p_sub k hk D hD
  have e1 : ∏ j in Finset.range k, ((p : ZMod (p ^ 2)) - ((j + 1 : ℕ) : ZMod (p ^ 2)))
      = ((k.factorial * (p - 1).choose k : ℕ) : ZMod (p ^ 2)) := by
    rw [← Nat.descFactorial_eq_factorial_mul_choose, Nat.descFactorial_eq_prod_range,
      Nat.cast_prod]
    apply Finset.prod_congr rfl
    intro j hj
    have hj' := Finset.mem_range.1 hj
    have e : p - 1 - j + (j + 1) = p := by omega
    have : ((p - 1 - j : ℕ) : ZMod (p ^ 2)) + ((j + 1 : ℕ) : ZMod (p ^ 2))
        = (p : ZMod (p ^ 2)) := by
      rw [← Nat.cast_add, e]
    rw [← this]
    ring
  rw [e1] at h1
  have hu := isUnit_factorial_of_lt (p := p) (n := k) hk
  apply hu.mul_left_cancel
  push_cast at h1
  rw [h1]
  ring

/-- The binomial coefficient `C(p - 1 + 2 k, k)` modulo `p^2`, for `0 < k` and `2 k < p`. -/
theorem two_mul_choose_add {p : ℕ} [hp : Fact p.Prime] {k : ℕ} (hk0 : 0 < k) (hk : 2 * k < p)
    (D : ZMod (p ^ 2))
    (hD : redp p D = harm p (2 * k) - harm p k + ((2 * k : ℕ) : ZMod p)⁻¹) :
    2 * ((p - 1 + 2 * k).choose k : ZMod (p ^ 2))
      = ((2 * k).choose k : ZMod (p ^ 2)) * (1 + (p : ZMod (p ^ 2)) * D) := by
  have hD' : redp p D = ∑ j in Finset.range k, ((2 * k - 1 - j : ℕ) : ZMod p)⁻¹ := by
    rw [hD]
    have r1 : ∑ j in Finset.range k, ((2 * k - 1 - j : ℕ) : ZMod p)⁻¹
        = ∑ j in Finset.range k, ((k - 1 + (j + 1) : ℕ) : ZMod p)⁻¹ := by
      rw [← Finset.sum_range_reflect (fun j => ((k - 1 + (j + 1) : ℕ) : ZMod p)⁻¹) k]
      apply Finset.sum_congr rfl
      intro j hj
      have := Finset.mem_range.1 hj
      congr 2
      omega
    rw [r1, harm_add]
    have e1 : k - 1 + k = 2 * k - 1 := by omega
    have e2 : harm p (2 * k) = harm p (2 * k - 1) + ((2 * k : ℕ) : ZMod p)⁻¹ := by
      have : 2 * k = (2 * k - 1) + 1 := by omega
      rw [this, harm_succ, ← this]
    have e3 : harm p k = harm p (k - 1) + ((k : ℕ) : ZMod p)⁻¹ := by
      have : k = (k - 1) + 1 := by omega
      rw [this, harm_succ, ← this]
    have hkne : ((k : ℕ) : ZMod p) ≠ 0 := natCast_ne_zero_zmod hk0 (by omega)
    have h2ne : ((2 : ℕ) : ZMod p) ≠ 0 := natCast_ne_zero_zmod (by norm_num) (by omega)
    have e4 : ((k : ℕ) : ZMod p)⁻¹ = 2 * ((2 * k : ℕ) : ZMod p)⁻¹ := by
      rw [Nat.cast_mul, mul_inv, ← mul_assoc]
      have : (2 : ZMod p) * ((2 : ℕ) : ZMod p)⁻¹ = 1 := by
        have h := mul_inv_cancel₀ h2ne
        exact_mod_cast h
      rw [this, one_mul]
    rw [e1, e2, e3, e4]
    ring
  have hprod := prod_p_add (p := p) (fun j => 2 * k - 1 - j) k
    (fun j hj => by constructor <;> (dsimp only; omega)) D hD'
  have e1 : ∏ j in Finset.range k,
      ((p : ZMod (p ^ 2)) + ((2 * k - 1 - j : ℕ) : ZMod (p ^ 2)))
      = ((k.factorial * (p - 1 + 2 * k).choose k : ℕ) : ZMod (p ^ 2)) := by
    rw [← Nat.descFactorial_eq_factorial_mul_choose, Nat.descFactorial_eq_prod_range,
      Nat.cast_prod]
    apply Finset.prod_congr rfl
    intro j hj
    have := Finset.mem_range.1 hj
    rw [← Nat.cast_add]
    congr 1
    omega
  have e2 : ∏ j in Finset.range k, ((2 * k - 1 - j : ℕ) : ZMod (p ^ 2))
      = ((k.factorial * (2 * k - 1).choose k : ℕ) : ZMod (p ^ 2)) := by
    rw [← Nat.descFactorial_eq_factorial_mul_choose, Nat.descFactorial_eq_prod_range,
      Nat.cast_prod]
  have e3 : (2 * k).choose k = 2 * (2 * k - 1).choose k := by
    obtain ⟨n, rfl⟩ : ∃ n, k = n + 1 := ⟨k - 1, by omega⟩
    have e : 2 * (n + 1) = (2 * n + 1) + 1 := by ring
    have e' : 2 * (n + 1) - 1 = 2 * n + 1 := by omega
    rw [e', e, Nat.choose_succ_succ]
    have hs : (2 * n + 1).choose n = (2 * n + 1).choose (n + 1) := by
      rw [← Nat.choose_symm (by omega : n ≤ 2 * n + 1)]
      congr 1
      omega
    rw [hs]
    ring
  rw [Finset.prod_congr rfl (fun j _ => rfl)] at hprod
  rw [e1, e2] at hprod
  have hu := isUnit_factorial_of_lt (p := p) (n := k) (by omega)
  have hc : ((p - 1 + 2 * k).choose k : ZMod (p ^ 2))
      = ((2 * k - 1).choose k : ZMod (p ^ 2)) * (1 + (p : ZMod (p ^ 2)) * D) := by
    apply hu.mul_left_cancel
    push_cast at hprod
    rw [hprod]
    ring
  rw [hc, e3]
  push_cast
  ring

/-! ## The two Jacobi-type sums of the type-0 primes -/

/-- For `p = 6 f + 1`, `6 f = -1` modulo `p`. -/
theorem six_mul_eq_neg_one {p f : ℕ} (h6 : p = 6 * f + 1) : (6 : ZMod p) * (f : ZMod p) = -1 := by
  have h : ((6 * f + 1 : ℕ) : ZMod p) = 0 := by rw [← h6]; exact ZMod.natCast_self p
  push_cast at h
  linear_combination h

/-- For `p = 6 f + 1`, `6 f p = -p` modulo `p^2`. -/
theorem six_mul_p {p f : ℕ} (h6 : p = 6 * f + 1) :
    (6 : ZMod (p ^ 2)) * (f : ZMod (p ^ 2)) * (p : ZMod (p ^ 2)) = -(p : ZMod (p ^ 2)) := by
  have h : ((6 * f + 1 : ℕ) : ZMod (p ^ 2)) = (p : ZMod (p ^ 2)) := by rw [← h6]
  have hpp := natCast_p_mul_self p
  push_cast at h
  linear_combination (p : ZMod (p ^ 2)) * h + hpp

/-- The sum `jacobiT p (5 f) (2 f)` for `p = 6 f + 1` modulo `p^2`. -/
theorem jacobiT_five_two {p f : ℕ} [hp : Fact p.Prime] (h6 : p = 6 * f + 1)
    (D : ZMod (p ^ 2))
    (hD : redp p D = harm p (2 * f) - harm p f + ((2 * f : ℕ) : ZMod p)⁻¹) :
    jacobiT p (5 * f) (2 * f) = ((p : ZMod (p ^ 2)) - 1) * (-1) ^ f
      * ((2 * f).choose f : ZMod (p ^ 2))
      * (1 + 2 * (f : ZMod (p ^ 2)) * (p : ZMod (p ^ 2)) * D) := by
  have hf : 0 < f := by
    rcases Nat.eq_zero_or_pos f with h | h
    · rw [h] at h6; exact absurd (h6 ▸ hp.out) (by norm_num)
    · exact h
  have hp1 : p - 1 = 6 * f := by omega
  have h := jacobiT_eq (p := p) (a := 5 * f) (b := 2 * f) (by omega) (by omega) (by omega)
    (by omega) (by omega)
  have e1 : p - 1 - 5 * f = f := by omega
  have e2 : 2 * (p - 1) - 5 * f = 7 * f := by omega
  have e3 : 2 * f + (p - 1) = p - 1 + 2 * f := by omega
  have e4 : (p - 1 + 2 * f).choose (7 * f) = (p - 1 + 2 * f).choose f := by
    rw [← Nat.choose_symm (by omega : f ≤ p - 1 + 2 * f)]
    congr 1
    omega
  have e5 : ((-1 : ZMod (p ^ 2))) ^ (7 * f) = (-1) ^ f := by
    have : 7 * f = 2 * (3 * f) + f := by ring
    rw [this, pow_add, pow_mul]
    norm_num
  rw [e1, e2, e3, e4, e5] at h
  have hc := two_mul_choose_add (p := p) hf (by omega) D hD
  rw [h]
  push_cast
  linear_combination (((p : ZMod (p ^ 2)) - 1) * (f : ZMod (p ^ 2)) * (-1) ^ f * 2) * hc

/-- The sum `jacobiT p (4 f) (4 f)` for `p = 6 f + 1` modulo `p^2`. -/
theorem jacobiT_four_four {p f : ℕ} [hp : Fact p.Prime] (h6 : p = 6 * f + 1)
    (D : ZMod (p ^ 2))
    (hD : redp p D = harm p (2 * (2 * f)) - harm p (2 * f) + ((2 * (2 * f) : ℕ) : ZMod p)⁻¹) :
    jacobiT p (4 * f) (4 * f) = ((p : ZMod (p ^ 2)) - 1)
      * ((2 * (2 * f)).choose (2 * f) : ZMod (p ^ 2))
      * (1 + 4 * (f : ZMod (p ^ 2)) * (p : ZMod (p ^ 2)) * D) := by
  have hf : 0 < f := by
    rcases Nat.eq_zero_or_pos f with h | h
    · rw [h] at h6; exact absurd (h6 ▸ hp.out) (by norm_num)
    · exact h
  have hp1 : p - 1 = 6 * f := by omega
  have h := jacobiT_eq (p := p) (a := 4 * f) (b := 4 * f) (by omega) (by omega) (by omega)
    (by omega) (by omega)
  have e1 : p - 1 - 4 * f = 2 * f := by omega
  have e2 : 2 * (p - 1) - 4 * f = 8 * f := by omega
  have e3 : 4 * f + (p - 1) = p - 1 + 2 * (2 * f) := by omega
  have e4 : (p - 1 + 2 * (2 * f)).choose (8 * f) = (p - 1 + 2 * (2 * f)).choose (2 * f) := by
    rw [← Nat.choose_symm (by omega : 2 * f ≤ p - 1 + 2 * (2 * f))]
    congr 1
    omega
  have e5 : ((-1 : ZMod (p ^ 2))) ^ (8 * f) = 1 := by
    have : 8 * f = 2 * (4 * f) := by ring
    rw [this, pow_mul]
    norm_num
  have e6 : ((-1 : ZMod (p ^ 2))) ^ (2 * f) = 1 := by
    rw [pow_mul]
    norm_num
  have e7 : (4 * f).choose (2 * f) = (2 * (2 * f)).choose (2 * f) := by
    congr 1
    ring
  rw [e1, e2, e3, e4, e5, e6, e7] at h
  have hc := two_mul_choose_add (p := p) (k := 2 * f) (by omega) (by omega) D hD
  rw [h]
  push_cast
  linear_combination (((p : ZMod (p ^ 2)) - 1) * (f : ZMod (p ^ 2)) * 4) * hc

/-- The factorial `(6 f)!` as a product of `f!^6` and central binomial coefficients. -/
theorem factorial_six_mul (f : ℕ) : (6 * f).factorial
    = f.factorial ^ 6 * (2 * f).choose f ^ 3 * (2 * (2 * f)).choose (2 * f)
      * (6 * f).choose (2 * f) := by
  have h1 := Nat.choose_mul_factorial_mul_factorial (by omega : 2 * f ≤ 6 * f)
  have h2 := Nat.choose_mul_factorial_mul_factorial (by omega : 2 * f ≤ 2 * (2 * f))
  have h3 := Nat.choose_mul_factorial_mul_factorial (by omega : f ≤ 2 * f)
  have e1 : 6 * f - 2 * f = 2 * (2 * f) := by omega
  have e2 : 2 * (2 * f) - 2 * f = 2 * f := by omega
  have e3 : 2 * f - f = f := by omega
  rw [e1] at h1
  rw [e2] at h2
  rw [e3] at h3
  rw [← h1, ← h2, ← h3]
  ring

/-- The product of two elements `1 + p x`, `1 + p y` modulo `p^2`. -/
theorem one_add_p_mul (p : ℕ) (a b x y : ZMod (p ^ 2)) :
    (a + (p : ZMod (p ^ 2)) * x) * (b + (p : ZMod (p ^ 2)) * y)
      = a * b + (p : ZMod (p ^ 2)) * (a * y + b * x) := by
  have hpp := natCast_p_mul_self p
  linear_combination (x * y) * hpp

/-- The binomial side of the type-0 identity: for `p = 6 f + 1`, twice `(p - 1)!` is
`(-1)^f f!^6 J52^3 J44 (2^p - 1) (3^p - 1)` modulo `p^2`, with the Jacobi-type sums
`J52 = jacobiT p (5 f) (2 f)` and `J44 = jacobiT p (4 f) (4 f)`. -/
theorem type0_binomial {p f : ℕ} [hp : Fact p.Prime] (h6 : p = 6 * f + 1) :
    2 * ((p - 1).factorial : ZMod (p ^ 2))
      = (-1) ^ f * (f.factorial : ZMod (p ^ 2)) ^ 6 * jacobiT p (5 * f) (2 * f) ^ 3
        * jacobiT p (4 * f) (4 * f) * (2 ^ p - 1) * (3 ^ p - 1) := by
  have hf : 0 < f := by
    rcases Nat.eq_zero_or_pos f with h | h
    · rw [h] at h6; exact absurd (h6 ▸ hp.out) (by norm_num)
    · exact h
  have hp1 : p - 1 = 6 * f := by omega
  obtain ⟨a1, a2, a3⟩ := harm_six h6
  obtain ⟨l1, l2, l3⟩ := lehmer_six h6
  have hpp := natCast_p_mul_self p
  have h6p := six_mul_p h6
  have h6z := six_mul_eq_neg_one h6
  obtain ⟨H1, hH1⟩ := exists_redp_eq (harm p f)
  obtain ⟨H2, hH2⟩ := exists_redp_eq (harm p (2 * f))
  obtain ⟨H3, hH3⟩ := exists_redp_eq (harm p (3 * f))
  obtain ⟨D1, hD1⟩ := exists_redp_eq
    (harm p (2 * f) - harm p f + ((2 * f : ℕ) : ZMod p)⁻¹)
  obtain ⟨D2, hD2⟩ := exists_redp_eq
    (harm p (2 * (2 * f)) - harm p (2 * f) + ((2 * (2 * f) : ℕ) : ZMod p)⁻¹)
  obtain ⟨Q2, hQ2⟩ := exists_redp_eq (-((2 : ZMod p)⁻¹ * harm p (3 * f)))
  obtain ⟨Q3, hQ3⟩ := exists_redp_eq (-((3 : ZMod p)⁻¹ * (2 * harm p (2 * f))))
  have hJ52 := jacobiT_five_two h6 D1 hD1
  have hJ44 := jacobiT_four_four h6 D2 hD2
  have hq2 := l2 Q2 hQ2
  have hq3 := l3 Q3 hQ3
  have hch := choose_pred_sq (p := p) (k := 2 * f) (by omega) H2 hH2
  have hfac : ((p - 1).factorial : ZMod (p ^ 2))
      = (f.factorial : ZMod (p ^ 2)) ^ 6 * ((2 * f).choose f : ZMod (p ^ 2)) ^ 3
        * ((2 * (2 * f)).choose (2 * f) : ZMod (p ^ 2))
        * ((p - 1).choose (2 * f) : ZMod (p ^ 2)) := by
    rw [hp1, factorial_six_mul]
    push_cast
    ring
  have hs : ((-1 : ZMod (p ^ 2))) ^ (2 * f) = 1 := by
    rw [pow_mul]; norm_num
  have hs4 : (((-1 : ZMod (p ^ 2))) ^ f) ^ 4 = 1 := by
    rw [← pow_mul]
    have : f * 4 = 2 * (2 * f) := by ring
    rw [this, pow_mul]; norm_num
  rw [hs] at hch
  have n2 : ((2 : ℕ) : ZMod p) ≠ 0 := small_ne_zero h6 (by norm_num) (by norm_num)
  have n3 : ((3 : ℕ) : ZMod p) ≠ 0 := small_ne_zero h6 (by norm_num) (by norm_num)
  have n2f : ((2 * f : ℕ) : ZMod p) ≠ 0 := natCast_ne_zero_zmod (by omega) (by omega)
  have n4f : ((2 * (2 * f) : ℕ) : ZMod p) ≠ 0 := natCast_ne_zero_zmod (by omega) (by omega)
  push_cast at n2 n3
  -- the linear term
  have hE : redp p (-8 + 12 * (f : ZMod (p ^ 2)) * D1 + 8 * (f : ZMod (p ^ 2)) * D2
      + 4 * Q2 + 3 * Q3) = redp p (-(2 * H2)) := by
    simp only [map_add, map_mul, map_neg, map_ofNat, map_natCast, hD1, hD2, hQ2, hQ3, hH2]
    have i2 : (2 : ZMod p) * (2 : ZMod p)⁻¹ = 1 := mul_inv_cancel₀ n2
    have i3 : (3 : ZMod p) * (3 : ZMod p)⁻¹ = 1 := mul_inv_cancel₀ n3
    have i2f : ((2 * f : ℕ) : ZMod p) * ((2 * f : ℕ) : ZMod p)⁻¹ = 1 := mul_inv_cancel₀ n2f
    have i4f : ((2 * (2 * f) : ℕ) : ZMod p) * ((2 * (2 * f) : ℕ) : ZMod p)⁻¹ = 1 :=
      mul_inv_cancel₀ n4f
    have a3' : harm p (2 * (2 * f)) = harm p (2 * f) := by
      rw [← a3]; congr 1; ring
    rw [a3']
    push_cast at i2f i4f ⊢
    linear_combination (2 * (harm p (2 * f) - harm p f)) * h6z
      + 6 * i2f + 2 * i4f - 2 * harm p (3 * f) * i2 - 2 * harm p (2 * f) * i3
      + 2 * l1
  have hpE := p_mul_eq_of_redp_eq hE
  have hpw2 : (2 : ZMod (p ^ 2)) ^ p = 2 * (1 + (p : ZMod (p ^ 2)) * Q2) := by
    have e : (2 : ZMod (p ^ 2)) ^ p = 2 ^ (p - 1) * 2 := by
      rw [← pow_succ]; congr 1; omega
    rw [e, hq2]
    ring
  have hpw3 : (3 : ZMod (p ^ 2)) ^ p = 3 * (1 + (p : ZMod (p ^ 2)) * Q3) := by
    have e : (3 : ZMod (p ^ 2)) ^ p = 3 ^ (p - 1) * 3 := by
      rw [← pow_succ]; congr 1; omega
    rw [e, hq3]
    ring
  -- the factors `1 + p x`
  have t1 : ((p : ZMod (p ^ 2)) - 1) ^ 4 = 1 + (p : ZMod (p ^ 2)) * (-4) := by
    linear_combination ((p : ZMod (p ^ 2)) ^ 2 - 4 * p + 6) * hpp
  have t2 : (1 + 2 * (f : ZMod (p ^ 2)) * (p : ZMod (p ^ 2)) * D1) ^ 3
      = 1 + (p : ZMod (p ^ 2)) * (6 * f * D1) := by
    linear_combination (12 * (f : ZMod (p ^ 2)) ^ 2 * D1 ^ 2
      + 8 * (f : ZMod (p ^ 2)) ^ 3 * D1 ^ 3 * p) * hpp
  have t3 : (1 + 4 * (f : ZMod (p ^ 2)) * (p : ZMod (p ^ 2)) * D2)
      = 1 + (p : ZMod (p ^ 2)) * (4 * f * D2) := by ring
  have t4 : (2 : ZMod (p ^ 2)) ^ p - 1 = 1 + (p : ZMod (p ^ 2)) * (2 * Q2) := by
    rw [hpw2]; ring
  have t5 : (3 : ZMod (p ^ 2)) ^ p - 1 = 2 + (p : ZMod (p ^ 2)) * (3 * Q3) := by
    rw [hpw3]; ring
  have tall : ((p : ZMod (p ^ 2)) - 1) ^ 4
      * (1 + 2 * (f : ZMod (p ^ 2)) * (p : ZMod (p ^ 2)) * D1) ^ 3
      * (1 + 4 * (f : ZMod (p ^ 2)) * (p : ZMod (p ^ 2)) * D2)
      * ((2 : ZMod (p ^ 2)) ^ p - 1) * ((3 : ZMod (p ^ 2)) ^ p - 1)
      = 2 * (1 - (p : ZMod (p ^ 2)) * H2) := by
    rw [t1, t2, t3, t4, t5, one_add_p_mul, one_add_p_mul, one_add_p_mul, one_add_p_mul]
    linear_combination hpE
  rw [hJ52, hJ44, hfac, hch]
  linear_combination
    (-((f.factorial : ZMod (p ^ 2)) ^ 6 * ((2 * f).choose f : ZMod (p ^ 2)) ^ 3
        * ((2 * (2 * f)).choose (2 * f) : ZMod (p ^ 2)))) * tall
    + (-((f.factorial : ZMod (p ^ 2)) ^ 6 * ((2 * f).choose f : ZMod (p ^ 2)) ^ 3
        * ((2 * (2 * f)).choose (2 * f) : ZMod (p ^ 2)))
      * ((p : ZMod (p ^ 2)) - 1) ^ 4
      * (1 + 2 * (f : ZMod (p ^ 2)) * (p : ZMod (p ^ 2)) * D1) ^ 3
      * (1 + 4 * (f : ZMod (p ^ 2)) * (p : ZMod (p ^ 2)) * D2)
      * ((2 : ZMod (p ^ 2)) ^ p - 1) * ((3 : ZMod (p ^ 2)) ^ p - 1)) * hs4

/-! ## The Eisenstein integers -/

theorem Eis.zero_re : (0 : Eis).re = 0 := rfl
theorem Eis.zero_im : (0 : Eis).im = 0 := rfl
theorem Eis.one_re : (1 : Eis).re = 1 := rfl
theorem Eis.one_im : (1 : Eis).im = 0 := rfl
theorem Eis.add_re (z w : Eis) : (z + w).re = z.re + w.re := rfl
theorem Eis.add_im (z w : Eis) : (z + w).im = z.im + w.im := rfl
theorem Eis.neg_re (z : Eis) : (-z).re = -z.re := rfl
theorem Eis.neg_im (z : Eis) : (-z).im = -z.im := rfl
theorem Eis.mul_re (z w : Eis) : (z * w).re = z.re * w.re - z.im * w.im := rfl
theorem Eis.mul_im (z w : Eis) :
    (z * w).im = z.re * w.im + z.im * w.re - z.im * w.im := rfl
theorem Eis.intCast_re (n : ℤ) : ((n : ℤ) : Eis).re = n := rfl
theorem Eis.intCast_im (n : ℤ) : ((n : ℤ) : Eis).im = 0 := rfl
theorem Eis.natCast_re (n : ℕ) : ((n : ℕ) : Eis).re = n := rfl
theorem Eis.natCast_im (n : ℕ) : ((n : ℕ) : Eis).im = 0 := rfl

theorem Eis.sub_re (z w : Eis) : (z - w).re = z.re - w.re := by
  rw [sub_eq_add_neg, Eis.add_re, Eis.neg_re, sub_eq_add_neg]

theorem Eis.sub_im (z w : Eis) : (z - w).im = z.im - w.im := by
  rw [sub_eq_add_neg, Eis.add_im, Eis.neg_im, sub_eq_add_neg]

/-- The value of `Eis.lift` at `re + im ω`. -/
theorem Eis.lift_apply {S : Type} [CommRing S] (r : S) (hr : r * r + r + 1 = 0) (z : Eis) :
    Eis.lift r hr z = (z.re : S) + (z.im : S) * r := rfl

/-- An Eisenstein integer is a root of `X ^ 2 - (2 re - im) X + (re ^ 2 - re im + im ^ 2)`. -/
theorem Eis.quadratic (z : Eis) :
    z * z - ((2 * z.re - z.im : ℤ) : Eis) * z
      + ((z.re ^ 2 - z.re * z.im + z.im ^ 2 : ℤ) : Eis) = 0 := by
  apply Eis.ext
  · simp only [Eis.add_re, Eis.sub_re, Eis.mul_re, Eis.intCast_re, Eis.intCast_im, Eis.zero_re]
    ring
  · simp only [Eis.add_im, Eis.sub_im, Eis.mul_im, Eis.intCast_re, Eis.intCast_im, Eis.zero_im]
    ring

/-- The product of an Eisenstein integer and its conjugate is its norm. -/
theorem Eis.mul_conj (z : Eis) :
    z * z.conj = ((z.re ^ 2 - z.re * z.im + z.im ^ 2 : ℤ) : Eis) := by
  apply Eis.ext
  · simp only [Eis.mul_re, Eis.intCast_re, Eis.conj]
    ring
  · simp only [Eis.mul_im, Eis.intCast_im, Eis.conj]
    ring

/-- There is an injective ring homomorphism from the Eisenstein integers to the complex numbers
that sends the conjugate to the complex conjugate. -/
theorem Eis.exists_toComplex : ∃ φ : Eis →+* ℂ, Function.Injective φ ∧
    ∀ z : Eis, φ z.conj = star (φ z) := by
  have h3 : Real.sqrt 3 * Real.sqrt 3 = 3 := Real.mul_self_sqrt (by norm_num)
  have h30 : Real.sqrt 3 ≠ 0 := by
    intro h
    rw [h] at h3
    norm_num at h3
  have hr : (⟨-1 / 2, Real.sqrt 3 / 2⟩ : ℂ) * ⟨-1 / 2, Real.sqrt 3 / 2⟩
      + ⟨-1 / 2, Real.sqrt 3 / 2⟩ + 1 = 0 := by
    apply Complex.ext
    · simp only [Complex.add_re, Complex.mul_re, Complex.one_re, Complex.zero_re]
      linear_combination (-1 / 4 : ℝ) * h3
    · simp only [Complex.add_im, Complex.mul_im, Complex.one_im, Complex.zero_im]
      ring
  refine ⟨Eis.lift _ hr, ?_, ?_⟩
  · rw [injective_iff_map_eq_zero]
    intro z hz
    rw [Eis.lift_apply] at hz
    have him := congrArg Complex.im hz
    have hre := congrArg Complex.re hz
    simp at him hre
    rw [him] at hre
    have hr' : z.re = 0 := by
      have : (z.re : ℝ) = 0 := by simpa using hre
      exact_mod_cast this
    exact Eis.ext hr' him
  · intro z
    rw [Eis.lift_apply, Eis.lift_apply]
    apply Complex.ext
    · simp [Eis.conj]
      ring
    · simp [Eis.conj]

/-- The Eisenstein integers have no zero divisors. -/
theorem Eis.isDomain : IsDomain Eis := by
  obtain ⟨φ, hφ, _⟩ := Eis.exists_toComplex
  exact Function.Injective.isDomain φ hφ

/-! ## Sextic characters with values in the Eisenstein integers -/

/-- For `p = 6 f + 1` and a generator `g` of the units of `ZMod p`, the element
`r = teich g ^ f - 1` of `ZMod (p^2)` is a root of `r ^ 2 + r + 1`. -/
theorem teich_generator_pow_sextic {p f : ℕ} [hp : Fact p.Prime] (h6 : p = 6 * f + 1)
    {g : (ZMod p)ˣ} (hg : ∀ x, x ∈ Subgroup.zpowers g) :
    (teich (g : ZMod p) ^ f - 1) * (teich (g : ZMod p) ^ f - 1)
      + (teich (g : ZMod p) ^ f - 1) + 1 = 0 := by
  have hf : 0 < f := by
    rcases Nat.eq_zero_or_pos f with h0 | h0
    · rw [h0] at h6; exact absurd (h6 ▸ hp.out) (by norm_num)
    · exact h0
  have hord := orderOf_generator hg
  have hp1 : p - 1 = 6 * f := by omega
  have hpow : ∀ n : ℕ, 0 < n → n < 6 * f → (g : ZMod p) ^ n ≠ 1 := by
    intro n hn0 hn h
    have h' : g ^ n = 1 := by
      apply Units.ext
      rw [Units.val_pow_eq_pow_val, h]; rfl
    have := orderOf_dvd_of_pow_eq_one h'
    rw [hord, hp1] at this
    have := Nat.le_of_dvd hn0 this
    omega
  have h3 : (teich (g : ZMod p) ^ f) ^ 3 = -1 := by
    apply eq_neg_one_of_sq_eq_one (by omega)
    · rw [← pow_add, ← pow_mul]
      have : f * (3 + 3) = p - 1 := by omega
      rw [this, teich_pow_pred (Units.ne_zero g)]
    · rw [map_pow, map_pow, redp_teich, ← pow_mul]
      exact hpow (f * 3) (by omega) (by omega)
  have hu : IsUnit (teich (g : ZMod p) ^ f + 1) := by
    apply isUnit_of_redp_ne_zero
    rw [map_add, map_pow, map_one, redp_teich]
    intro h
    apply hpow (2 * f) (by omega) (by omega)
    have e : (g : ZMod p) ^ f = -1 := eq_neg_of_add_eq_zero_left h
    rw [mul_comm, pow_mul, e]
    norm_num
  have hz : (teich (g : ZMod p) ^ f + 1) * ((teich (g : ZMod p) ^ f - 1)
      * (teich (g : ZMod p) ^ f - 1) + (teich (g : ZMod p) ^ f - 1) + 1) = 0 := by
    linear_combination h3
  exact (hu.mul_right_eq_zero).1 hz

/-- The unit `1 + ω` has sixth power `1`. -/
theorem eisZeta_pow_six : eisZeta ^ 6 = 1 := by
  apply Units.ext
  rw [Units.val_pow_eq_pow_val]
  show (⟨1, 1⟩ : Eis) ^ 6 = 1
  decide

/-- The unit `1 + ω` is a primitive sixth root of unity. -/
theorem eisZeta_primitiveRoot : IsPrimitiveRoot (eisZeta : Eis) 6 := by
  apply IsPrimitiveRoot.mk_of_lt _ (by norm_num)
  · show (⟨1, 1⟩ : Eis) ^ 6 = 1
    decide
  · intro l hl0 hl6
    show (⟨1, 1⟩ : Eis) ^ l ≠ 1
    interval_cases l <;> decide

/-- The element `ω` is a primitive third root of unity. -/
theorem eisOmega_primitiveRoot : IsPrimitiveRoot (⟨0, 1⟩ : Eis) 3 := by
  apply IsPrimitiveRoot.mk_of_lt _ (by norm_num)
  · decide
  · intro l hl0 hl3
    interval_cases l <;> decide

/-- For `p = 6 f + 1` there is a character of `ZMod p` with values in the Eisenstein integers
that sends the generator `g` to `1 + ω`. -/
theorem exists_sexticChar {p f : ℕ} [hp : Fact p.Prime] (h6 : p = 6 * f + 1)
    {g : (ZMod p)ˣ} (hg : ∀ x, x ∈ Subgroup.zpowers g) :
    ∃ χ : MulChar (ZMod p) Eis, χ (g : ZMod p) = (eisZeta : Eis) := by
  have hζ : eisZeta ∈ rootsOfUnity (Fintype.card (ZMod p)ˣ) Eis := by
    rw [mem_rootsOfUnity, ZMod.card_units_eq_totient, Nat.totient_prime hp.out]
    have : p - 1 = 6 * f := by omega
    rw [this, pow_mul, eisZeta_pow_six, one_pow]
  exact ⟨MulChar.ofRootOfUnity hζ hg, MulChar.ofRootOfUnity_spec hζ hg⟩

/-- The image in `ZMod (p^2)` of a character that sends `g` to `1 + ω` is `teich x ^ f`. -/
theorem eisLift_char {p f : ℕ} [hp : Fact p.Prime] (h6 : p = 6 * f + 1)
    {g : (ZMod p)ˣ} (hg : ∀ x, x ∈ Subgroup.zpowers g) {χ : MulChar (ZMod p) Eis}
    (hχ : χ (g : ZMod p) = (eisZeta : Eis)) (x : ZMod p) :
    Eis.lift (teich (g : ZMod p) ^ f - 1) (teich_generator_pow_sextic h6 hg) (χ x)
      = teich x ^ f := by
  have hf : 0 < f := by
    rcases Nat.eq_zero_or_pos f with h0 | h0
    · rw [h0] at h6; exact absurd (h6 ▸ hp.out) (by norm_num)
    · exact h0
  by_cases hx : x = 0
  · rw [hx, MulChar.map_zero, map_zero, teich_zero, zero_pow (by omega)]
  · obtain ⟨u, rfl⟩ : ∃ u : (ZMod p)ˣ, (u : ZMod p) = x := ⟨Units.mk0 x hx, rfl⟩
    have hfin : IsOfFinOrder g := isOfFinOrder_of_finite g
    obtain ⟨n, hn⟩ := (hfin.mem_powers_iff_mem_zpowers).2 (hg u)
    have hn' : g ^ n = u := hn
    rw [← hn', Units.val_pow_eq_pow_val, map_pow, map_pow, hχ, teich_pow,
      ← pow_mul, mul_comm n f, pow_mul]
    congr 1
    rw [Eis.lift_apply]
    show ((1 : ℤ) : ZMod (p ^ 2)) + ((1 : ℤ) : ZMod (p ^ 2)) * _ = _
    simp

/-- The sums `jacobiT` are the images of Jacobi sums of characters with values in the Eisenstein
integers. -/
theorem jacobiT_eq_eisLift {p f : ℕ} [hp : Fact p.Prime] (h6 : p = 6 * f + 1)
    {g : (ZMod p)ˣ} (hg : ∀ x, x ∈ Subgroup.zpowers g) {χ : MulChar (ZMod p) Eis}
    (hχ : χ (g : ZMod p) = (eisZeta : Eis)) {a b : ℕ} (ha : a ≠ 0) (hb : b ≠ 0) :
    jacobiT p (a * f) (b * f)
      = Eis.lift (teich (g : ZMod p) ^ f - 1) (teich_generator_pow_sextic h6 hg)
          (jacobiSum (χ ^ a) (χ ^ b)) := by
  unfold jacobiT jacobiSum
  rw [map_sum]
  apply Finset.sum_congr rfl
  intro x _
  rw [map_mul, MulChar.pow_apply' χ ha, MulChar.pow_apply' χ hb,
    map_pow, map_pow, eisLift_char h6 hg hχ, eisLift_char h6 hg hχ, ← pow_mul, ← pow_mul,
    mul_comm f a, mul_comm f b]

/-- The Jacobi sum of two powers of a sextic character has norm `p` when neither the exponents
nor their sum are multiples of 6. -/
theorem eis_jacobiSum_norm {p : ℕ} [hp : Fact p.Prime]
    {g : (ZMod p)ˣ} {χ : MulChar (ZMod p) Eis}
    (hχ : χ (g : ZMod p) = (eisZeta : Eis)) {a b : ℕ} (ha : ¬ 6 ∣ a) (hb : ¬ 6 ∣ b)
    (hab : ¬ 6 ∣ a + b) :
    (jacobiSum (χ ^ a) (χ ^ b)).re ^ 2
      - (jacobiSum (χ ^ a) (χ ^ b)).re * (jacobiSum (χ ^ a) (χ ^ b)).im
      + (jacobiSum (χ ^ a) (χ ^ b)).im ^ 2 = (p : ℤ) := by
  obtain ⟨φ, hφ, hconj⟩ := Eis.exists_toComplex
  have hc : ∀ n : ℕ, ((χ.ringHomComp φ) ^ n) (g : ZMod p) = φ ((eisZeta : Eis) ^ n) := by
    intro n
    rw [MulChar.pow_apply_coe, MulChar.ringHomComp_apply, hχ, map_pow]
  have hne : ∀ n : ℕ, ¬ 6 ∣ n → (χ.ringHomComp φ) ^ n ≠ 1 := by
    intro n hn
    rw [MulChar.ne_one_iff]
    refine ⟨g, ?_⟩
    rw [hc]
    intro h
    have h1 : (eisZeta : Eis) ^ n = 1 := hφ (by rw [h, map_one])
    exact hn ((eisZeta_primitiveRoot.pow_eq_one_iff_dvd n).1 h1)
  have n5 : (χ.ringHomComp φ) ^ a * (χ.ringHomComp φ) ^ b ≠ 1 := by
    rw [← pow_add]
    exact hne _ hab
  have hchar : ringChar ℂ ≠ ringChar (ZMod p) := by
    rw [ZMod.ringChar_zmod_n, ringChar.eq_zero]
    exact (hp.out.pos).ne
  have hJ := jacobiSum_mul_jacobiSum_inv hchar (hne a ha) (hne b hb) n5
  have hstar : jacobiSum ((χ.ringHomComp φ) ^ a)⁻¹ ((χ.ringHomComp φ) ^ b)⁻¹
      = star (jacobiSum ((χ.ringHomComp φ) ^ a) ((χ.ringHomComp φ) ^ b)) := by
    rw [← MulChar.star_eq_inv, ← MulChar.star_eq_inv]
    unfold jacobiSum
    rw [star_sum]
    apply Finset.sum_congr rfl
    intro x _
    rw [star_mul', MulChar.star_apply, MulChar.star_apply]
  have hz : jacobiSum ((χ.ringHomComp φ) ^ a) ((χ.ringHomComp φ) ^ b)
      = φ (jacobiSum (χ ^ a) (χ ^ b)) := by
    rw [MulChar.ringHomComp_pow, MulChar.ringHomComp_pow, jacobiSum_ringHomComp]
  rw [hstar, hz, ← hconj, ← map_mul, Eis.mul_conj, ZMod.card] at hJ
  have h5 : φ ((((jacobiSum (χ ^ a) (χ ^ b)).re ^ 2
      - (jacobiSum (χ ^ a) (χ ^ b)).re * (jacobiSum (χ ^ a) (χ ^ b)).im
      + (jacobiSum (χ ^ a) (χ ^ b)).im ^ 2 : ℤ)) : Eis) = φ (((p : ℤ) : Eis)) := by
    rw [hJ, map_intCast]
    simp
  have h6 := congrArg Eis.re (hφ h5)
  simpa only [Eis.intCast_re] using h6

/-- Modulo 3, the reduction `ω ↦ 1` of a Jacobi sum of an odd and an even power of a sextic
character is `-1`. -/
theorem eis_jacobiSum_odd_even {p : ℕ} [hp : Fact p.Prime]
    {g : (ZMod p)ˣ} (hg : ∀ x, x ∈ Subgroup.zpowers g) {χ : MulChar (ZMod p) Eis}
    (hχ : χ (g : ZMod p) = (eisZeta : Eis)) {a b : ℕ} (ha : Odd a) (hb : Even b) :
    Eis.lift (1 : ZMod 3) (by decide) (jacobiSum (χ ^ a) (χ ^ b)) = -1 := by
  have hc : ∀ n : ℕ, ((χ.ringHomComp (Eis.lift (1 : ZMod 3) (by decide))) ^ n) (g : ZMod p)
      = (-1) ^ n := by
    intro n
    rw [MulChar.pow_apply_coe, MulChar.ringHomComp_apply, hχ]
    congr 1
  have h1 : (χ.ringHomComp (Eis.lift (1 : ZMod 3) (by decide))) ^ b = 1 := by
    rw [MulChar.eq_iff hg, hc, MulChar.one_apply_coe, hb.neg_one_pow]
  have h2 : (χ.ringHomComp (Eis.lift (1 : ZMod 3) (by decide))) ^ a ≠ 1 := by
    rw [MulChar.ne_one_iff]
    refine ⟨g, ?_⟩
    rw [hc, ha.neg_one_pow]
    decide
  rw [← jacobiSum_ringHomComp, ← MulChar.ringHomComp_pow, ← MulChar.ringHomComp_pow, h1,
    jacobiSum_comm, jacobiSum_one_nontrivial h2]

/-- Modulo 3, the reduction `ω ↦ 1` of a Jacobi sum of two even powers of a sextic character
is `-1`. -/
theorem eis_jacobiSum_even_even {p f : ℕ} [hp : Fact p.Prime] (h6 : p = 6 * f + 1)
    {g : (ZMod p)ˣ} (hg : ∀ x, x ∈ Subgroup.zpowers g) {χ : MulChar (ZMod p) Eis}
    (hχ : χ (g : ZMod p) = (eisZeta : Eis)) {a b : ℕ} (ha : Even a) (hb : Even b) :
    Eis.lift (1 : ZMod 3) (by decide) (jacobiSum (χ ^ a) (χ ^ b)) = -1 := by
  have hc : ∀ n : ℕ, ((χ.ringHomComp (Eis.lift (1 : ZMod 3) (by decide))) ^ n) (g : ZMod p)
      = (-1) ^ n := by
    intro n
    rw [MulChar.pow_apply_coe, MulChar.ringHomComp_apply, hχ]
    congr 1
  have h1 : ∀ n : ℕ, Even n → (χ.ringHomComp (Eis.lift (1 : ZMod 3) (by decide))) ^ n = 1 := by
    intro n hn
    rw [MulChar.eq_iff hg, hc, MulChar.one_apply_coe, hn.neg_one_pow]
  rw [← jacobiSum_ringHomComp, ← MulChar.ringHomComp_pow, ← MulChar.ringHomComp_pow, h1 a ha,
    h1 b hb, jacobiSum_one_one, ZMod.card, h6]
  push_cast
  have e : (6 : ZMod 3) = 0 := by decide
  rw [e]
  ring

/-- An Eisenstein integer whose reduction `ω ↦ 1` modulo 3 is `-1` has trace `1` modulo 3. -/
theorem eis_trace_mod_three {z : Eis} (h : Eis.lift (1 : ZMod 3) (by decide) z = -1) :
    (2 * z.re - z.im) % 3 = 1 := by
  rw [Eis.lift_apply, mul_one] at h
  have h0 : ((2 * z.re - z.im - 1 : ℤ) : ZMod 3) = 0 := by
    push_cast
    have e : (3 : ZMod 3) = 0 := by decide
    linear_combination 2 * h - ((z.im : ZMod 3) + 1) * e
  rw [ZMod.intCast_zmod_eq_zero_iff_dvd] at h0
  omega

/-- The coefficient of `ω` in a Jacobi sum of two cubic characters is a multiple of 3. -/
theorem eis_jacobiSum_cubic_im {p f : ℕ} [hp : Fact p.Prime] (h6 : p = 6 * f + 1)
    {χ ψ : MulChar (ZMod p) Eis} (hχ : χ ^ 3 = 1) (hψ : ψ ^ 3 = 1) :
    (3 : ℤ) ∣ (jacobiSum χ ψ).im := by
  haveI := Eis.isDomain
  have hdvd : 3 ∣ Fintype.card (ZMod p) - 1 := by
    rw [ZMod.card]
    exact ⟨2 * f, by omega⟩
  obtain ⟨z, _, hz⟩ := exists_jacobiSum_eq_neg_one_add (by norm_num : 2 < 3) hχ hψ hdvd
    eisOmega_primitiveRoot
  have e : ((⟨0, 1⟩ : Eis) - 1) ^ 2 = ⟨0, -3⟩ := by decide
  rw [hz, e]
  simp only [Eis.add_im, Eis.neg_im, Eis.one_im, Eis.mul_im]
  exact ⟨z.im - z.re, by ring⟩

/-- A character that sends the generator to `1 + ω` has sixth power 1. -/
theorem char_pow_six {p : ℕ} [hp : Fact p.Prime]
    {g : (ZMod p)ˣ} (hg : ∀ x, x ∈ Subgroup.zpowers g) {χ : MulChar (ZMod p) Eis}
    (hχ : χ (g : ZMod p) = (eisZeta : Eis)) : χ ^ 6 = 1 := by
  rw [MulChar.eq_iff hg, MulChar.pow_apply_coe, hχ, MulChar.one_apply_coe]
  show (⟨1, 1⟩ : Eis) ^ 6 = 1
  decide

/-- The sum `jacobiT p (5 f) (2 f)` is a root of `X ^ 2 - u0 X + p` modulo `p^2`, for a solution
of `u0 ^ 2 + 3 v0 ^ 2 = 4 p` with `u0 = 1` modulo 3. -/
theorem jacobiT_five_two_rep {p f : ℕ} [hp : Fact p.Prime] (h6 : p = 6 * f + 1) :
    ∃ u0 v0 : ℤ, u0 ^ 2 + 3 * v0 ^ 2 = 4 * (p : ℤ) ∧ u0 % 3 = 1 ∧
      jacobiT p (5 * f) (2 * f) ^ 2 - (u0 : ZMod (p ^ 2)) * jacobiT p (5 * f) (2 * f)
        + (p : ZMod (p ^ 2)) = 0 := by
  obtain ⟨g, hg⟩ := IsCyclic.exists_generator (α := (ZMod p)ˣ)
  obtain ⟨χ, hχ⟩ := exists_sexticChar h6 hg
  have hnorm := eis_jacobiSum_norm (g := g) hχ (a := 5) (b := 2) (by norm_num) (by norm_num)
    (by norm_num)
  have hmod := eis_trace_mod_three
    (eis_jacobiSum_odd_even hg hχ (a := 5) (b := 2) (by decide) (by decide))
  have hJ := jacobiT_eq_eisLift h6 hg hχ (a := 5) (b := 2) (by norm_num) (by norm_num)
  have hq := congrArg (Eis.lift (teich (g : ZMod p) ^ f - 1) (teich_generator_pow_sextic h6 hg))
    (Eis.quadratic (jacobiSum (χ ^ 5) (χ ^ 2)))
  rw [hnorm] at hq
  simp only [map_add, map_sub, map_mul, map_intCast, map_zero, ← hJ] at hq
  refine ⟨2 * (jacobiSum (χ ^ 5) (χ ^ 2)).re - (jacobiSum (χ ^ 5) (χ ^ 2)).im,
    (jacobiSum (χ ^ 5) (χ ^ 2)).im, ?_, hmod, ?_⟩
  · linear_combination 4 * hnorm
  · rw [← hq]
    push_cast
    ring

/-- The sum `jacobiT p (4 f) (4 f)` is a root of `X ^ 2 - c0 X + p` modulo `p^2`, for a solution
of `c0 ^ 2 + 27 d0 ^ 2 = 4 p` with `c0 = 1` modulo 3. -/
theorem jacobiT_four_four_rep {p f : ℕ} [hp : Fact p.Prime] (h6 : p = 6 * f + 1) :
    ∃ c0 d0 : ℤ, c0 ^ 2 + 27 * d0 ^ 2 = 4 * (p : ℤ) ∧ c0 % 3 = 1 ∧
      jacobiT p (4 * f) (4 * f) ^ 2 - (c0 : ZMod (p ^ 2)) * jacobiT p (4 * f) (4 * f)
        + (p : ZMod (p ^ 2)) = 0 := by
  obtain ⟨g, hg⟩ := IsCyclic.exists_generator (α := (ZMod p)ˣ)
  obtain ⟨χ, hχ⟩ := exists_sexticChar h6 hg
  have hnorm := eis_jacobiSum_norm (g := g) hχ (a := 4) (b := 4) (by norm_num) (by norm_num)
    (by norm_num)
  have hmod := eis_trace_mod_three
    (eis_jacobiSum_even_even h6 hg hχ (a := 4) (b := 4) (by decide) (by decide))
  have h66 := char_pow_six hg hχ
  have h3 : (χ ^ 4) ^ 3 = 1 := by
    rw [← pow_mul]
    have : 4 * 3 = 6 * 2 := by norm_num
    rw [this, pow_mul, h66, one_pow]
  obtain ⟨k, hk⟩ := eis_jacobiSum_cubic_im h6 h3 h3
  have hJ := jacobiT_eq_eisLift h6 hg hχ (a := 4) (b := 4) (by norm_num) (by norm_num)
  have hq := congrArg (Eis.lift (teich (g : ZMod p) ^ f - 1) (teich_generator_pow_sextic h6 hg))
    (Eis.quadratic (jacobiSum (χ ^ 4) (χ ^ 4)))
  rw [hnorm] at hq
  simp only [map_add, map_sub, map_mul, map_intCast, map_zero, ← hJ] at hq
  refine ⟨2 * (jacobiSum (χ ^ 4) (χ ^ 4)).re - (jacobiSum (χ ^ 4) (χ ^ 4)).im, k, ?_, hmod, ?_⟩
  · rw [hk] at hnorm
    rw [hk]
    linear_combination 4 * hnorm
  · rw [← hq]
    push_cast
    ring

/-! ## The closed form of type 0 -/

/-- The type-0 closed form in `ZMod (p^2)`: for `p = 6 f + 1`, `4 p = u^2 + 3 v^2` with `u` in
the class 1 modulo 3 for even `f` and 2 for odd `f`, and `4 p = c^2 + 27 d^2` with `c = 1`
modulo 3, `f!^6 (-u^3 (2^p - 1) + 3 p u) (p / c - c) ((3^p - 1) / 2) = (p - 1)!`. -/
theorem sixth_factorial_zmod {p f : ℕ} [hp : Fact p.Prime] (h6 : p = 6 * f + 1)
    {u v c d : ℤ} (huv : u ^ 2 + 3 * v ^ 2 = 4 * (p : ℤ))
    (hu : u % 3 = if f % 2 = 0 then 1 else 2)
    (hcd : c ^ 2 + 27 * d ^ 2 = 4 * (p : ℤ)) (hc : c % 3 = 1)
    {ci b : ZMod (p ^ 2)} (hci : ci * (c : ZMod (p ^ 2)) = 1) (hb : b * 2 = 1) :
    ((f.factorial : ℕ) : ZMod (p ^ 2)) ^ 6
        * (-(u : ZMod (p ^ 2)) ^ 3 * (2 ^ p - 1) + (u : ZMod (p ^ 2)) * (p : ZMod (p ^ 2)) * 3)
        * ((p : ZMod (p ^ 2)) * ci - (c : ZMod (p ^ 2))) * ((3 ^ p - 1) * b)
      = (((p - 1).factorial : ℕ) : ZMod (p ^ 2)) := by
  have hf : 0 < f := by
    rcases Nat.eq_zero_or_pos f with h0 | h0
    · rw [h0] at h6; exact absurd (h6 ▸ hp.out) (by norm_num)
    · exact h0
  obtain ⟨u0, v0, h0, hu0, hX⟩ := jacobiT_five_two_rep h6
  obtain ⟨c0, d0, hc0r, hc0, hY⟩ := jacobiT_four_four_rep h6
  have hcc : c = c0 := rep_c_unique hp.out hcd hc0r hc hc0
  subst hcc
  have hε : ((-1 : ℤ)) ^ f = 1 ∨ ((-1 : ℤ)) ^ f = -1 := neg_one_pow_eq_or ℤ f
  have hmod : (u - (-1) ^ f * u0) % 3 = 0 := by
    rcases Nat.even_or_odd f with he | ho
    · rw [he.neg_one_pow]
      have : f % 2 = 0 := Nat.even_iff.1 he
      rw [if_pos this] at hu
      omega
    · rw [ho.neg_one_pow]
      have : f % 2 = 1 := Nat.odd_iff.1 ho
      rw [if_neg (by omega)] at hu
      omega
  have hcube := rep_u_cube hp.out (by omega) huv h0 hε hmod
  have hcubeR : (u : ZMod (p ^ 2)) ^ 3 - 3 * (p : ZMod (p ^ 2)) * u
      = (-1) ^ f * ((u0 : ZMod (p ^ 2)) ^ 3 - 3 * (p : ZMod (p ^ 2)) * u0) := by
    have h := congrArg (fun z : ℤ => (z : ZMod (p ^ 2))) hcube
    simp only [Int.cast_sub, Int.cast_mul, Int.cast_pow, Int.cast_natCast, Int.cast_ofNat,
      Int.cast_neg, Int.cast_one] at h
    exact h
  have hbin := type0_binomial h6
  have hpp := natCast_p_mul_self p
  -- the two sums are units
  have h2u : IsUnit (2 * (((p - 1).factorial : ℕ) : ZMod (p ^ 2))) := by
    have h2 := isUnit_natCast_of_lt (p := p) (n := 2) (by norm_num) (by omega)
    have hfa := isUnit_factorial_of_lt (p := p) (n := p - 1) (by omega)
    have := h2.mul hfa
    exact_mod_cast this
  rw [hbin] at h2u
  have hXY := isUnit_of_mul_isUnit_left (isUnit_of_mul_isUnit_left h2u)
  have hYu : IsUnit (jacobiT p (4 * f) (4 * f)) := isUnit_of_mul_isUnit_right hXY
  have hXu : IsUnit (jacobiT p (5 * f) (2 * f)) := by
    have h3 := isUnit_of_mul_isUnit_right (isUnit_of_mul_isUnit_left hXY)
    exact (isUnit_pow_iff (by norm_num)).1 h3
  -- the conjugates have square zero
  have hW2 : ((u0 : ZMod (p ^ 2)) - jacobiT p (5 * f) (2 * f)) ^ 2 = 0 := by
    have : jacobiT p (5 * f) (2 * f) ^ 2
        * ((u0 : ZMod (p ^ 2)) - jacobiT p (5 * f) (2 * f)) ^ 2 = 0 := by
      linear_combination hpp + (jacobiT p (5 * f) (2 * f) ^ 2
        - (u0 : ZMod (p ^ 2)) * jacobiT p (5 * f) (2 * f) - (p : ZMod (p ^ 2))) * hX
    exact ((hXu.pow 2).mul_right_eq_zero).1 this
  have hV2 : ((c : ZMod (p ^ 2)) - jacobiT p (4 * f) (4 * f)) ^ 2 = 0 := by
    have : jacobiT p (4 * f) (4 * f) ^ 2
        * ((c : ZMod (p ^ 2)) - jacobiT p (4 * f) (4 * f)) ^ 2 = 0 := by
      linear_combination hpp + (jacobiT p (4 * f) (4 * f) ^ 2
        - (c : ZMod (p ^ 2)) * jacobiT p (4 * f) (4 * f) - (p : ZMod (p ^ 2))) * hY
    exact ((hYu.pow 2).mul_right_eq_zero).1 this
  have hu0cube : (u0 : ZMod (p ^ 2)) ^ 3 - 3 * (p : ZMod (p ^ 2)) * u0
      = jacobiT p (5 * f) (2 * f) ^ 3 := by
    linear_combination ((u0 : ZMod (p ^ 2)) - jacobiT p (5 * f) (2 * f)) * hW2
      - 3 * (u0 : ZMod (p ^ 2)) * hX
  have hcu : IsUnit (c : ZMod (p ^ 2)) := isUnit_of_mul_eq_one _ _ (by rw [mul_comm]; exact hci)
  have hYc : (p : ZMod (p ^ 2)) * ci - (c : ZMod (p ^ 2)) = -jacobiT p (4 * f) (4 * f) := by
    have : (c : ZMod (p ^ 2)) * (((p : ZMod (p ^ 2)) * ci - (c : ZMod (p ^ 2)))
        + jacobiT p (4 * f) (4 * f)) = 0 := by
      linear_combination (p : ZMod (p ^ 2)) * hci - hV2 + hY
    have h := (hcu.mul_right_eq_zero).1 this
    linear_combination h
  have hp2 : (p : ZMod (p ^ 2)) * (2 ^ p - 2) = 0 := by
    have hr : redp p ((2 : ZMod (p ^ 2)) ^ p) = redp p 2 := by
      rw [map_pow]
      have hr2 : redp p (2 : ZMod (p ^ 2)) = 2 := by
        have := redp_natCast p 2
        exact_mod_cast this
      rw [hr2, ZMod.pow_card]
    have := p_mul_eq_of_redp_eq hr
    linear_combination this
  have hS : -(u : ZMod (p ^ 2)) ^ 3 * (2 ^ p - 1) + (u : ZMod (p ^ 2)) * (p : ZMod (p ^ 2)) * 3
      = -((-1) ^ f * jacobiT p (5 * f) (2 * f) ^ 3 * (2 ^ p - 1)) := by
    linear_combination (-((2 : ZMod (p ^ 2)) ^ p - 1)) * hcubeR
      - ((-1) ^ f * ((2 : ZMod (p ^ 2)) ^ p - 1)) * hu0cube - 3 * (u : ZMod (p ^ 2)) * hp2
  rw [hS, hYc]
  linear_combination (-b) * hbin + (((p - 1).factorial : ℕ) : ZMod (p ^ 2)) * hb

/-- An integer coprime to `m` has an inverse, so `mpz_invert` finds one. -/
theorem mpz_invert_of_isCoprime {m : Nat} (hm : 0 < m) {a : Int} (h : IsCoprime a (m : Int)) :
    ∃ x, mpz_invert a m = some x := by
  cases hx : mpz_invert a m with
  | some x => exact ⟨x, rfl⟩
  | none =>
    exfalso
    obtain ⟨s, t, hst⟩ := h
    apply mpz_invert_none hm hx s
    apply Int.ModEq.symm
    rw [Int.modEq_iff_dvd]
    exact ⟨-t, by linear_combination hst⟩

/-- In a representation `4 p = c^2 + 27 d^2` of a prime `p > 3`, `c` is coprime to `p^2`. -/
theorem rep_c_coprime {p : ℕ} (hp : p.Prime) (h3 : p % 3 = 1) {c d : ℤ}
    (hcd : c ^ 2 + 27 * d ^ 2 = 4 * (p : ℤ)) : IsCoprime c ((p * p : ℕ) : ℤ) := by
  have hpp : Prime (p : ℤ) := Nat.prime_iff_prime_int.1 hp
  have hp0 : (0 : ℤ) < p := by exact_mod_cast hp.pos
  have hnd : ¬ (p : ℤ) ∣ c := by
    rintro ⟨k, hk⟩
    have h27 : (p : ℤ) ∣ 27 * d ^ 2 := ⟨4 - p * k ^ 2, by rw [hk] at hcd; linear_combination hcd⟩
    have hd : (p : ℤ) ∣ d := by
      rcases hpp.dvd_or_dvd h27 with h | h
      · exfalso
        have h' : p ∣ 27 := by exact_mod_cast h
        have hle := Nat.le_of_dvd (by norm_num) h'
        have : p ∣ 3 ^ 3 := by simpa using h'
        have := (Nat.prime_dvd_prime_iff_eq hp Nat.prime_three).1 (hp.dvd_of_dvd_pow this)
        omega
      · exact hpp.dvd_of_dvd_pow h
    obtain ⟨l, hl⟩ := hd
    have h4 : (p : ℤ) * (p * (k ^ 2 + 27 * l ^ 2)) = p * 4 := by
      rw [hk, hl] at hcd
      linear_combination hcd
    have h4' : (p : ℤ) * (k ^ 2 + 27 * l ^ 2) = 4 := mul_left_cancel₀ hp0.ne' h4
    have hd4 : (p : ℤ) ∣ 4 := ⟨_, h4'.symm⟩
    have hd4' : p ∣ 4 := by exact_mod_cast hd4
    have hle := Nat.le_of_dvd (by norm_num) hd4'
    have : p ∣ 2 ^ 2 := by simpa using hd4'
    have := (Nat.prime_dvd_prime_iff_eq hp Nat.prime_two).1 (hp.dvd_of_dvd_pow this)
    omega
  have h1 : IsCoprime c (p : ℤ) := ((Prime.coprime_iff_not_dvd hpp).2 hnd).symm
  have h2 := h1.mul_right h1
  push_cast
  exact h2

/-- C29: `find_u` requests the residue class `umod = 1` when `(p-1)/6` is even and `umod = 2` when
`(p-1)/6` is odd; and for every prime `p = 1 mod 3`, every integer `u` with `u^2 + 3 v^2 = 4 p`
in that class modulo 3 and every integer `c` with `c^2 + 27 d^2 = 4 p` and `c = 1 mod 3`, if the
residue entering step 2 of `processResult` is congruent to `((p-1)/6)!` modulo `p^2`, then both
calls of `mpz_invert` succeed and the type-0 value that step 2 computes,
`residue^6 * (-u^3 * (2^p - 1) + 3 p u) * (p * c^(-1) - c) * ((3^p - 1) * 2^(-1))`, is congruent
to `(p-1)!` modulo `p^2`. -/
theorem C29_type0_identity (dev : Device) (p : Nat) (residue u v c d : Int) (hp : p.Prime)
    (h3 : p % 3 = 1) (huv : u * u + 3 * (v * v) = ((4 * p : Nat) : Int))
    (hu : u % 3 = ((if ((p - 1) / 6) % 2 = 0 then 1 else 2 : Nat) : Int))
    (hcd : c * c + 27 * (d * d) = ((4 * p : Nat) : Int)) (hc : c % 3 = 1)
    (hres : residue ≡ ((((p - 1) / 6).factorial : Nat) : Int) [ZMOD ((p * p : Nat) : Int)]) :
    (p < 2 ^ 64 → umod p = if ((p - 1) / 6) % 2 = 0 then 1 else 2) ∧
    (p ≤ maxp → find_u dev p =
      match dev.findu (4 * p) (isqrt (4 * p / 3)) (if ((p - 1) / 6) % 2 = 0 then 1 else 2) with
      | none => .error (Fatal.acuNotFound p)
      | some mu => .ok mu) ∧
    (find_u dev p = .ok u → find_c dev p = .ok c →
      reconstruct dev p 0 residue = type0Value p residue u c) ∧
    ∃ (ci b : Nat) (val : Int), mpz_invert c (p * p) = some ci ∧ mpz_invert 2 (p * p) = some b ∧
      val = residue ^ 6 % ((p * p : Nat) : Int)
          * (-(u ^ 3) * (2 ^ p % ((p * p : Nat) : Int) - 1) + u * (p : Int) * 3)
          * ((p : Int) * (ci : Int) - c) * ((3 ^ p % ((p * p : Nat) : Int) - 1) * (b : Int)) ∧
      type0Value p residue u c = .ok val ∧
      val ≡ (((p - 1).factorial : Nat) : Int) [ZMOD ((p * p : Nat) : Int)] := by
  haveI := Fact.mk hp
  have hodd : p % 2 = 1 := by
    rcases hp.eq_two_or_odd with h | h
    · rw [h] at h3; norm_num at h3
    · exact h
  have h6 : p = 6 * ((p - 1) / 6) + 1 := by omega
  have hum : p < 2 ^ 64 → umod p = if ((p - 1) / 6) % 2 = 0 then 1 else 2 := by
    intro h64
    unfold umod
    rw [u64_pred (by omega) h64]
  have hm : 0 < p * p := Nat.mul_pos hp.pos hp.pos
  have hcd' : c ^ 2 + 27 * d ^ 2 = 4 * (p : ℤ) := by
    push_cast at hcd
    linear_combination hcd
  have huv' : u ^ 2 + 3 * v ^ 2 = 4 * (p : ℤ) := by
    push_cast at huv
    linear_combination huv
  have hu' : u % 3 = if ((p - 1) / 6) % 2 = 0 then 1 else 2 := by
    by_cases h : ((p - 1) / 6) % 2 = 0
    · rw [if_pos h] at hu ⊢
      exact_mod_cast hu
    · rw [if_neg h] at hu ⊢
      exact_mod_cast hu
  obtain ⟨ci, hci⟩ := mpz_invert_of_isCoprime hm (rep_c_coprime hp h3 hcd')
  obtain ⟨b, hb⟩ := mpz_invert_of_coprime hm (q := 2)
    (Nat.Coprime.mul_right ((Nat.coprime_primes Nat.prime_two hp).2 (by omega))
      ((Nat.coprime_primes Nat.prime_two hp).2 (by omega)))
  have hb' : mpz_invert 2 (p * p) = some b := hb
  refine ⟨hum, ?_, ?_, ci, b, _, hci, hb', rfl, ?_, ?_⟩
  · intro hle
    have h64 : p < 2 ^ 64 := by
      unfold maxp at hle
      omega
    unfold find_u
    rw [if_pos hle, u64_four_mul hle, hum h64]
  · intro hfu hfc
    unfold reconstruct
    rw [hfu, hfc]
    rfl
  · unfold type0Value
    simp only [mpz_powm_eq, hci, hb']
  · have e : ((p * p : Nat) : Int) = ((p ^ 2 : Nat) : Int) := by push_cast; ring
    have hciZ : ((ci : ℕ) : ZMod (p ^ 2)) * ((c : ℤ) : ZMod (p ^ 2)) = 1 := by
      have h := (mpz_invert_some hm hci).2
      rw [e, ← ZMod.intCast_eq_intCast_iff] at h
      push_cast at h
      exact h
    have hbZ : ((b : ℕ) : ZMod (p ^ 2)) * 2 = 1 := by
      have h := (mpz_invert_some hm hb').2
      rw [e, ← ZMod.intCast_eq_intCast_iff] at h
      push_cast at h
      exact h
    have hZ := sixth_factorial_zmod h6 huv' hu' hcd' hc hciZ hbZ
    have hI : ((((p - 1) / 6).factorial : Nat) : Int) ^ 6
          * (-(u ^ 3) * (2 ^ p - 1) + u * (p : Int) * 3)
          * ((p : Int) * (ci : Int) - c) * ((3 ^ p - 1) * (b : Int))
        ≡ (((p - 1).factorial : Nat) : Int) [ZMOD ((p ^ 2 : Nat) : Int)] := by
      rw [← ZMod.intCast_eq_intCast_iff]
      push_cast
      rw [← hZ]
    rw [← e] at hI
    refine Int.ModEq.trans ?_ hI
    apply Int.ModEq.mul
    · apply Int.ModEq.mul
      · apply Int.ModEq.mul
        · exact (Int.mod_modEq _ _).trans (hres.pow 6)
        · exact Int.ModEq.add
            (Int.ModEq.mul_left _ (Int.ModEq.sub_right _ (Int.mod_modEq _ _))) (Int.ModEq.refl _)
      · exact Int.ModEq.refl _
    · exact Int.ModEq.mul_right _ (Int.ModEq.sub_right _ (Int.mod_modEq _ _))

set_option maxRecDepth 1000000 in
/-- Witness of C29 at `p = 7` with the residue `1! = 1`, `28 = (-1)^2 + 3 * 3^2` (class 2
modulo 3, as `(7-1)/6` is odd) and `28 = 1^2 + 27 * 1^2`: the value is `36000 = 34 = 6!` modulo
`49`; and the value at `p = 13` with the residue `2! = 2`, `u = 7`, `c = -5` is `168 = 12!`
modulo `169`. -/
theorem C29_type0_identity_witness :
    (Nat.Prime 7 ∧ 7 % 3 = 1 ∧ (-1 : Int) * (-1) + 3 * (3 * 3) = ((4 * 7 : Nat) : Int) ∧
      (-1 : Int) % 3 = ((if ((7 - 1) / 6) % 2 = 0 then 1 else 2 : Nat) : Int) ∧
      (1 : Int) * 1 + 27 * (1 * 1) = ((4 * 7 : Nat) : Int) ∧ (1 : Int) % 3 = 1 ∧
      (1 : Int) ≡ ((((7 - 1) / 6).factorial : Nat) : Int) [ZMOD ((7 * 7 : Nat) : Int)]) ∧
    (∃ (ci b : Nat) (val : Int), mpz_invert 1 (7 * 7) = some ci ∧ mpz_invert 2 (7 * 7) = some b ∧
      val = (1 : Int) ^ 6 % ((7 * 7 : Nat) : Int)
          * (-((-1 : Int) ^ 3) * (2 ^ 7 % ((7 * 7 : Nat) : Int) - 1) + (-1 : Int) * ((7 : Nat) : Int) * 3)
          * (((7 : Nat) : Int) * (ci : Int) - 1) * ((3 ^ 7 % ((7 * 7 : Nat) : Int) - 1) * (b : Int)) ∧
      type0Value 7 1 (-1) 1 = .ok val ∧
      val ≡ (((7 - 1).factorial : Nat) : Int) [ZMOD ((7 * 7 : Nat) : Int)]) ∧
    umod 7 = 2 ∧ type0Value 7 1 (-1) 1 = .ok 36000 ∧ (36000 : Int) % 49 = 34 ∧
    (((7 - 1).factorial : Nat) : Int) % 49 = 34 ∧
    umod 13 = 1 ∧ type0Value 13 2 7 (-5) = .ok (-37239437312000) ∧
    (-37239437312000 : Int) % 169 = 168 ∧ (((13 - 1).factorial : Nat) : Int) % 169 = 168 :=
  have h1 : Nat.Prime 7 := by norm_num
  have h2 : (-1 : Int) * (-1) + 3 * (3 * 3) = ((4 * 7 : Nat) : Int) := by norm_num
  have h3 : (-1 : Int) % 3 = ((if ((7 - 1) / 6) % 2 = 0 then 1 else 2 : Nat) : Int) := by decide
  have h4 : (1 : Int) * 1 + 27 * (1 * 1) = ((4 * 7 : Nat) : Int) := by norm_num
  have h5 : (1 : Int) ≡ ((((7 - 1) / 6).factorial : Nat) : Int) [ZMOD ((7 * 7 : Nat) : Int)] := by
    decide
  ⟨⟨h1, by norm_num, h2, h3, h4, by norm_num, h5⟩,
    (C29_type0_identity ⟨fun _ _ => none, fun _ _ => none, fun _ _ _ => none⟩ 7 1 (-1) 3 1 1 h1
      (by norm_num) h2 h3 h4 (by norm_num) h5).2.2.2,
    by decide, by rfl, by decide, by decide, by decide, by rfl, by decide, by decide⟩

/-- C5 (amended): for every prime `p = 1 mod 3`, every integer `u` with `u^2 + 3 v^2 = 4 p` and
`u = 1 mod 3` and every integer `c` with `c^2 + 27 d^2 = 4 p` and `c = 1 mod 3`, if the residue
entering step 2 of `processResult` is congruent to `((p-1)/6)!` modulo `p^2`, then both calls of
`mpz_invert` succeed and the type-0 value
`residue^6 * (-u^3 * (2^p - 1) + 3 p u) * (p * c^(-1) - c) * ((3^p - 1) * 2^(-1))` is congruent
to `(-1)^((p-1)/6) * (p-1)!` modulo `p^2`: to `(p-1)!` when `(p-1)/6` is even, to `-(p-1)!` when
it is odd. -/
theorem C5_type0_identity_sign (p : Nat) (residue u v c d : Int) (hp : p.Prime)
    (h3 : p % 3 = 1) (huv : u * u + 3 * (v * v) = ((4 * p : Nat) : Int)) (hu : u % 3 = 1)
    (hcd : c * c + 27 * (d * d) = ((4 * p : Nat) : Int)) (hc : c % 3 = 1)
    (hres : residue ≡ ((((p - 1) / 6).factorial : Nat) : Int) [ZMOD ((p * p : Nat) : Int)]) :
    ∃ (ci b : Nat) (val : Int), mpz_invert c (p * p) = some ci ∧ mpz_invert 2 (p * p) = some b ∧
      val = residue ^ 6 % ((p * p : Nat) : Int)
          * (-(u ^ 3) * (2 ^ p % ((p * p : Nat) : Int) - 1) + u * (p : Int) * 3)
          * ((p : Int) * (ci : Int) - c) * ((3 ^ p % ((p * p : Nat) : Int) - 1) * (b : Int)) ∧
      type0Value p residue u c = .ok val ∧
      val ≡ (-1) ^ ((p - 1) / 6) * (((p - 1).factorial : Nat) : Int)
        [ZMOD ((p * p : Nat) : Int)] := by
  haveI := Fact.mk hp
  have hodd : p % 2 = 1 := by
    rcases hp.eq_two_or_odd with h | h
    · rw [h] at h3; norm_num at h3
    · exact h
  have h6 : p = 6 * ((p - 1) / 6) + 1 := by omega
  have hm : 0 < p * p := Nat.mul_pos hp.pos hp.pos
  have hcd' : c ^ 2 + 27 * d ^ 2 = 4 * (p : ℤ) := by
    push_cast at hcd
    linear_combination hcd
  have hε : ((-1 : ℤ)) ^ ((p - 1) / 6) = 1 ∨ ((-1 : ℤ)) ^ ((p - 1) / 6) = -1 :=
    neg_one_pow_eq_or ℤ _
  have hε2 : ((-1 : ℤ)) ^ ((p - 1) / 6) * (-1) ^ ((p - 1) / 6) = 1 := by
    rcases hε with h | h <;> rw [h] <;> norm_num
  -- the solution in the class that `find_u` requests
  have huv' : ((-1) ^ ((p - 1) / 6) * u) ^ 2 + 3 * v ^ 2 = 4 * (p : ℤ) := by
    push_cast at huv
    linear_combination huv + u ^ 2 * hε2
  have hu' : ((-1) ^ ((p - 1) / 6) * u) % 3 = if ((p - 1) / 6) % 2 = 0 then 1 else 2 := by
    rcases Nat.even_or_odd ((p - 1) / 6) with he | ho
    · have : ((p - 1) / 6) % 2 = 0 := Nat.even_iff.1 he
      rw [he.neg_one_pow, if_pos this]
      omega
    · have : ((p - 1) / 6) % 2 = 1 := Nat.odd_iff.1 ho
      rw [ho.neg_one_pow, if_neg (by omega)]
      omega
  obtain ⟨ci, hci⟩ := mpz_invert_of_isCoprime hm (rep_c_coprime hp h3 hcd')
  obtain ⟨b, hb⟩ := mpz_invert_of_coprime hm (q := 2)
    (Nat.Coprime.mul_right ((Nat.coprime_primes Nat.prime_two hp).2 (by omega))
      ((Nat.coprime_primes Nat.prime_two hp).2 (by omega)))
  have hb' : mpz_invert 2 (p * p) = some b := hb
  refine ⟨ci, b, _, hci, hb', rfl, ?_, ?_⟩
  · unfold type0Value
    simp only [mpz_powm_eq, hci, hb']
  · have e : ((p * p : Nat) : Int) = ((p ^ 2 : Nat) : Int) := by push_cast; ring
    have hciZ : ((ci : ℕ) : ZMod (p ^ 2)) * ((c : ℤ) : ZMod (p ^ 2)) = 1 := by
      have h := (mpz_invert_some hm hci).2
      rw [e, ← ZMod.intCast_eq_intCast_iff] at h
      push_cast at h
      exact h
    have hbZ : ((b : ℕ) : ZMod (p ^ 2)) * 2 = 1 := by
      have h := (mpz_invert_some hm hb').2
      rw [e, ← ZMod.intCast_eq_intCast_iff] at h
      push_cast at h
      exact h
    have hZ := sixth_factorial_zmod h6 huv' hu' hcd' hc hciZ hbZ
    have hε2Z : ((-1 : ZMod (p ^ 2))) ^ ((p - 1) / 6) * (-1) ^ ((p - 1) / 6) = 1 := by
      have h := congrArg (fun z : ℤ => (z : ZMod (p ^ 2))) hε2
      simpa using h
    have hI : ((((p - 1) / 6).factorial : Nat) : Int) ^ 6
          * (-(u ^ 3) * (2 ^ p - 1) + u * (p : Int) * 3)
          * ((p : Int) * (ci : Int) - c) * ((3 ^ p - 1) * (b : Int))
        ≡ (-1) ^ ((p - 1) / 6) * (((p - 1).factorial : Nat) : Int)
          [ZMOD ((p ^ 2 : Nat) : Int)] := by
      rw [← ZMod.intCast_eq_intCast_iff]
      push_cast at hZ ⊢
      rw [← hZ]
      linear_combination
        (-(((((p - 1) / 6).factorial : ℕ) : ZMod (p ^ 2)) ^ 6
          * (-(u : ZMod (p ^ 2)) ^ 3 * (2 ^ p - 1) * ((-1) ^ ((p - 1) / 6) * (-1) ^ ((p - 1) / 6) + 1)
            + (u : ZMod (p ^ 2)) * (p : ZMod (p ^ 2)) * 3)
          * ((p : ZMod (p ^ 2)) * (ci : ZMod (p ^ 2)) - (c : ZMod (p ^ 2)))
          * ((3 ^ p - 1) * (b : ZMod (p ^ 2))))) * hε2Z
    rw [← e] at hI
    refine Int.ModEq.trans ?_ hI
    apply Int.ModEq.mul
    · apply Int.ModEq.mul
      · apply Int.ModEq.mul
        · exact (Int.mod_modEq _ _).trans (hres.pow 6)
        · exact Int.ModEq.add
            (Int.ModEq.mul_left _ (Int.ModEq.sub_right _ (Int.mod_modEq _ _))) (Int.ModEq.refl _)
      · exact Int.ModEq.refl _
    · exact Int.ModEq.mul_right _ (Int.ModEq.sub_right _ (Int.mod_modEq _ _))

set_option maxRecDepth 1000000 in
/-- Witness of the amended C5 at `p = 7` with the residue `1! = 1`, `28 = 1^2 + 3 * 3^2` and
`28 = 1^2 + 27 * 1^2`: `(7-1)/6` is odd and the value `-36000` is congruent to `-6!` modulo
`49`. -/
theorem C5_type0_identity_sign_witness :
    (Nat.Prime 7 ∧ 7 % 3 = 1 ∧ (1 : Int) * 1 + 3 * (3 * 3) = ((4 * 7 : Nat) : Int) ∧
      (1 : Int) % 3 = 1 ∧ (1 : Int) * 1 + 27 * (1 * 1) = ((4 * 7 : Nat) : Int) ∧
      (1 : Int) ≡ ((((7 - 1) / 6).factorial : Nat) : Int) [ZMOD ((7 * 7 : Nat) : Int)]) ∧
    (∃ (ci b : Nat) (val : Int), mpz_invert 1 (7 * 7) = some ci ∧ mpz_invert 2 (7 * 7) = some b ∧
      val = (1 : Int) ^ 6 % ((7 * 7 : Nat) : Int)
          * (-((1 : Int) ^ 3) * (2 ^ 7 % ((7 * 7 : Nat) : Int) - 1) + (1 : Int) * ((7 : Nat) : Int) * 3)
          * (((7 : Nat) : Int) * (ci : Int) - 1) * ((3 ^ 7 % ((7 * 7 : Nat) : Int) - 1) * (b : Int)) ∧
      type0Value 7 1 1 1 = .ok val ∧
      val ≡ (-1) ^ ((7 - 1) / 6) * (((7 - 1).factorial : Nat) : Int)
        [ZMOD ((7 * 7 : Nat) : Int)]) ∧
    type0Value 7 1 1 1 = .ok (-36000) ∧ (-36000 : Int) % 49 = 15 ∧
    (-(((7 - 1).factorial : Nat) : Int)) % 49 = 15 :=
  have h1 : Nat.Prime 7 := by norm_num
  have h2 : (1 : Int) * 1 + 3 * (3 * 3) = ((4 * 7 : Nat) : Int) := by norm_num
  have h4 : (1 : Int) * 1 + 27 * (1 * 1) = ((4 * 7 : Nat) : Int) := by norm_num
  have h5 : (1 : Int) ≡ ((((7 - 1) / 6).factorial : Nat) : Int) [ZMOD ((7 * 7 : Nat) : Int)] := by
    decide
  ⟨⟨h1, by norm_num, h2, by norm_num, h4, h5⟩,
    C5_type0_identity_sign 7 1 1 3 1 1 h1 (by norm_num) h2 (by norm_num) h4 (by norm_num) h5,
    by rfl, by decide, by decide⟩

end CLWilson
